import Mathlib

/-!
# Search-Engine: inverted index, BM25 weights, ranked retrieval, SimHash deduplication

A shallow embedding of `src/src/InvertIndex.cc` (build, search, store, load),
`src/src/WebPage.cc` (SimHash, Hamming distance), `src/src/PageLibPreprocessor.cc`
(deduplication), `src/src/KeywordRecommender.cc` and `src/src/DictProducer.cc`
(char units, edit distance, recommendation, the dictionary and its file),
`SearchServer::handleSuggest` and `SearchServer::handleSearch`,
`src/include/LRUCache.h` (the LRU shard and the sharded cache),
`src/src/PageLib.cc` (`parseFile`, `storeSeparated`, `loadMeta`),
`src/include/WebPageMeta.h` (the content store and the snippet) and
`cleanUtf8` of `src/src/SearchServer.cc`.

Modelling conventions.

* `double` arithmetic is carried out in an arbitrary linearly ordered field `K`
  (exact arithmetic); `std::log` is the parameter `ln : K → K`.  The theorems
  instantiate to `K = ℝ`, `ln = Real.log`; the definitions run on `K = ℚ`.
* C++ `int` quantities (term frequencies, document lengths, document
  frequencies) are unbounded `Int`; document ids, which index the dense score
  vector, are `Nat`.
* `std::map` / `std::unordered_map` are association lists that hold the entries
  in iteration order.
* `std::sort` with the comparator `a.weight > b.weight` is a stable insertion
  sort; `std::partial_sort` followed by `resize(topK)` is that sort followed by
  `take topK`.
* The index file is the list of its characters.  `ofs << int` and `std::stoi`
  work on unbounded integers; `ofs << double` is the `%g` conversion with the
  default precision 6 applied to the exact value (ties rounded to even), and
  `std::stod` reads decimal spellings.  An exception leaving `load` is `none`.
* A `std::string` handed to the char splitter is the list of its bytes; a
  valid UTF-8 byte string is the list of the bytes of a `String`.
* A file is the list of its bytes; a read of `n` bytes into a buffer of `n`
  bytes stores the bytes the file holds and leaves the rest of the buffer as
  it was.  `size_t` and the atomic counters are unbounded `Nat`.
* A loop whose trip count the code does not bound by a counter runs on fuel
  that is shown to suffice, or by recursion on the data it consumes.
-/

namespace SearchEngine

/-! ## Data model -/

/-- The part of a `WebPage` the index and the deduplicator read: `_docId` and
`_wordsMap` (`std::map<string,int>`).  The two invariants are those
`WebPage::processDoc` establishes: a map has one entry per key, and an entry
is created by `_wordsMap[word]++`, hence is at least 1. -/
structure WebPage where
  docId : Nat
  wordsMap : List (String × Int)
  keys_nodup : (wordsMap.map Prod.fst).Nodup
  freq_pos : ∀ e ∈ wordsMap, 0 < e.2

/-- The `struct InvertIndexItem` of `InvertIndex.h`. -/
structure InvertIndexItem (K : Type) where
  weight : K
  docId : Nat
  termFreq : Int

/-- The data members of `class InvertIndex`. -/
structure InvertIndex (K : Type) where
  invertIndex : List (String × List (InvertIndexItem K))
  docLens : List (Nat × Int)
  totalDocs : Int
  avgDocLen : K

/-- The constructor `InvertIndex::InvertIndex()`. -/
def InvertIndex.new {K : Type} [LinearOrderedField K] : InvertIndex K :=
  { invertIndex := [], docLens := [], totalDocs := 0, avgDocLen := 0 }

/-! ## Map primitives -/

/-- The statement `m[word]++` on a map of counters: `_wordsMap[word]++` of
`WebPage::processDoc` and `docFreq[pair.first]++` of `InvertIndex::build`. -/
def incrWord : List (String × Int) → String → List (String × Int)
  | [], w => [(w, 1)]
  | (k, v) :: rest, w => if k = w then (k, v + 1) :: rest else (k, v) :: incrWord rest w

/-- The term-counting loop of `WebPage::processDoc` over the tokenizer's
output. -/
def countWords (words : List String) : List (String × Int) :=
  words.foldl incrWord []

/-- Reading `m[key]` from a map of counters: the stored value, `0` when the key
is absent. -/
def lookupInt {κ : Type} [DecidableEq κ] : List (κ × Int) → κ → Int
  | [], _ => 0
  | (k, v) :: rest, key => if k = key then v else lookupInt rest key

/-- The statement `_docLens[docId] = docLen` on the ordered `std::map<int,int>`:
overwrite the entry of an existing key, else insert in key order. -/
def assignLen : List (Nat × Int) → Nat → Int → List (Nat × Int)
  | [], k, v => [(k, v)]
  | (k0, v0) :: rest, k, v =>
    if k = k0 then (k, v) :: rest
    else if k < k0 then (k, v) :: (k0, v0) :: rest
    else (k0, v0) :: assignLen rest k v

/-- The lookup `_invertIndex.find(word)`: the posting list of `word`, if any. -/
def findPostings {K : Type} : List (String × List (InvertIndexItem K)) → String →
    Option (List (InvertIndexItem K))
  | [], _ => none
  | (k, l) :: rest, w => if k = w then some l else findPostings rest w

/-- The statement `_invertIndex[word].push_back(item)`. -/
def pushItem {K : Type} : List (String × List (InvertIndexItem K)) → String →
    InvertIndexItem K → List (String × List (InvertIndexItem K))
  | [], w, it => [(w, [it])]
  | (k, l) :: rest, w, it =>
    if k = w then (k, l ++ [it]) :: rest else (k, l) :: pushItem rest w it

/-! ## BM25 -/

/-- The constant `K1 = 1.2`. -/
def K1 {K : Type} [LinearOrderedField K] : K := 6 / 5

/-- The constant `B = 0.75`. -/
def B {K : Type} [LinearOrderedField K] : K := 3 / 4

/-- The method `InvertIndex::calculateIDF`. -/
def calculateIDF {K : Type} [LinearOrderedField K] (ln : K → K)
    (docFreq totalDocs : Int) : K :=
  if docFreq = 0 then 0
  else
    let idf := ln ((((totalDocs - docFreq : Int) : K) + 1 / 2) / ((docFreq : K) + 1 / 2) + 1)
    if idf > 0 then idf else 0

/-- The method `InvertIndex::calculateBM25`; `totalDocs` and `avgDocLen` are the
members `_totalDocs` and `_avgDocLen` it reads. -/
def calculateBM25 {K : Type} [LinearOrderedField K] (ln : K → K)
    (totalDocs : Int) (avgDocLen : K) (termFreq docLen docFreq : Int) : K :=
  let idf := calculateIDF ln docFreq totalDocs
  let tfNorm := ((termFreq : K) * (K1 + 1)) /
    ((termFreq : K) + K1 * (1 - B + B * ((docLen : K) / avgDocLen)))
  idf * tfNorm

/-! ## Build -/

/-- The locals of the first loop of `InvertIndex::build` together with the
member `_docLens` it fills. -/
structure DfState where
  docFreq : List (String × Int)
  docLens : List (Nat × Int)
  totalLen : Int

/-- The inner loop of the first pass: `docLen += pair.second;
docFreq[pair.first]++`. -/
def countTerms (wordsMap : List (String × Int)) (docFreq : List (String × Int)) :
    Int × List (String × Int) :=
  wordsMap.foldl (fun acc pair => (acc.1 + pair.2, incrWord acc.2 pair.1)) (0, docFreq)

/-- One iteration of the first pass of `InvertIndex::build`. -/
def dfStep (st : DfState) (page : WebPage) : DfState :=
  let r := countTerms page.wordsMap st.docFreq
  { docFreq := r.2
    docLens := assignLen st.docLens page.docId r.1
    totalLen := st.totalLen + r.1 }

/-- One iteration of the second pass of `InvertIndex::build`: one posting per
entry of the page's term map. -/
def postStep {K : Type} [LinearOrderedField K] (ln : K → K) (totalDocs : Int)
    (avgDocLen : K) (docFreq : List (String × Int)) (docLens : List (Nat × Int))
    (inv : List (String × List (InvertIndexItem K))) (page : WebPage) :
    List (String × List (InvertIndexItem K)) :=
  let docLen := lookupInt docLens page.docId
  page.wordsMap.foldl
    (fun acc pair =>
      pushItem acc pair.1
        { docId := page.docId
          weight := calculateBM25 ln totalDocs avgDocLen pair.2 docLen (lookupInt docFreq pair.1)
          termFreq := pair.2 })
    inv

/-- The `std::sort` call of `build`, comparator `a.weight > b.weight`. -/
def sortPostings {K : Type} [LinearOrderedField K] (l : List (InvertIndexItem K)) :
    List (InvertIndexItem K) :=
  l.insertionSort (fun a b => a.weight ≥ b.weight)

/-- The method `InvertIndex::build`, as a transformer of the index state. -/
def build {K : Type} [LinearOrderedField K] (ln : K → K) (idx : InvertIndex K)
    (pages : List WebPage) : InvertIndex K :=
  let totalDocs : Int := (pages.length : Int)
  if totalDocs = 0 then { idx with totalDocs := totalDocs }
  else
    let st := pages.foldl dfStep { docFreq := [], docLens := idx.docLens, totalLen := 0 }
    let avgDocLen : K := (st.totalLen : K) / (totalDocs : K)
    let inv := pages.foldl (postStep ln totalDocs avgDocLen st.docFreq st.docLens) idx.invertIndex
    { invertIndex := inv.map (fun e => (e.1, sortPostings e.2))
      docLens := st.docLens
      totalDocs := totalDocs
      avgDocLen := avgDocLen }

/-! ## Search -/

/-- The locals `scores` and `dirtyDocIds` of `InvertIndex::search`. -/
structure ScoreState (K : Type) where
  scores : List K
  dirty : List Nat

/-- The body of the inner loop of `search`.  Reading `scores[item.docId]`
outside the vector is undefined behaviour in the source; the model fails with
`none`. -/
def addItem {K : Type} [LinearOrderedField K] (st : Option (ScoreState K))
    (item : InvertIndexItem K) : Option (ScoreState K) :=
  match st with
  | none => none
  | some s =>
    match s.scores[item.docId]? with
    | none => none
    | some old =>
      some { scores := s.scores.set item.docId (old + item.weight)
             dirty := if old = 0 then s.dirty ++ [item.docId] else s.dirty }

/-- The body of the outer loop of `search`: one query word. -/
def addWord {K : Type} [LinearOrderedField K] (inv : List (String × List (InvertIndexItem K)))
    (st : Option (ScoreState K)) (word : String) : Option (ScoreState K) :=
  match findPostings inv word with
  | none => st
  | some l => l.foldl addItem st

/-- The expression `_docLens.empty() ? 0 : _docLens.rbegin()->first`. -/
def maxDocId (docLens : List (Nat × Int)) : Nat :=
  match docLens.getLast? with
  | none => 0
  | some e => e.1

/-- The `std::sort` / `std::partial_sort` comparator of `search`:
`a.second > b.second`. -/
def sortResults {K : Type} [LinearOrderedField K] (l : List (Nat × K)) : List (Nat × K) :=
  l.insertionSort (fun a b => a.2 ≥ b.2)

/-- The conversion `(size_t)topK` on a 64-bit target. -/
def toSizeT (n : Int) : Nat := (n % 2 ^ 64).toNat

/-- The tail of `search`: collect the dirty documents and rank them. -/
def rank {K : Type} [LinearOrderedField K] (s : ScoreState K) (topK : Int) : List (Nat × K) :=
  let results := s.dirty.map (fun d => (d, s.scores.getD d 0))
  if results.length > toSizeT topK then (sortResults results).take topK.toNat
  else sortResults results

/-- The method `InvertIndex::search`. -/
def search {K : Type} [LinearOrderedField K] (idx : InvertIndex K)
    (queryWords : List String) (topK : Int) : Option (List (Nat × K)) :=
  if queryWords = [] then some []
  else
    let init : Option (ScoreState K) :=
      some { scores := List.replicate (maxDocId idx.docLens + 1) 0, dirty := [] }
    (queryWords.foldl (addWord idx.invertIndex) init).map (fun s => rank s topK)

/-! ## SimHash and deduplication -/

/-- The bytes of a `std::string`. -/
def bytes (s : String) : List Nat :=
  (s.data.flatMap String.utf8EncodeChar).map (fun b => b.toNat)

/-- One round of the loop of `jenkinsHash`, on `uint64_t`. -/
def jenkinsStep (hash : Nat) (b : Nat) : Nat :=
  let h1 := (hash + b) % 2 ^ 64
  let h2 := (h1 + h1 <<< 10) % 2 ^ 64
  h2 ^^^ (h2 >>> 6)

/-- The static function `jenkinsHash` of `WebPage.cc`. -/
def jenkinsHash (key : String) : Nat :=
  let h0 := (bytes key).foldl jenkinsStep 0
  let h1 := (h0 + h0 <<< 3) % 2 ^ 64
  let h2 := h1 ^^^ (h1 >>> 11)
  (h2 + h2 <<< 15) % 2 ^ 64

/-- The inner loop of `getSimhash` for one `(word, freq)`: add `freq` to the
accumulator of every bit set in the word's hash, subtract it elsewhere. -/
def addWeights (weights : List Int) (pair : String × Int) : List Int :=
  let wordHash := jenkinsHash pair.1
  (List.range 64).map
    (fun i => if (wordHash >>> i) &&& 1 = 1 then weights.getD i 0 + pair.2
              else weights.getD i 0 - pair.2)

/-- The final loop of `getSimhash`: bit `i` is set when `weights[i] > 0`. -/
def packBits (weights : List Int) : Nat :=
  (List.range 64).foldl
    (fun simhash i => if weights.getD i 0 > 0 then simhash ||| (1 <<< i) else simhash) 0

/-- The method `WebPage::getSimhash`. -/
def getSimhash (page : WebPage) : Nat :=
  packBits (page.wordsMap.foldl addWeights (List.replicate 64 0))

/-- The loop `while (diff) { distance += diff & 1; diff >>= 1; }`. -/
def countBits (diff : Nat) (distance : Int) : Int :=
  if h : diff = 0 then distance
  else countBits (diff >>> 1) (distance + ((diff &&& 1 : Nat) : Int))
termination_by diff
decreasing_by
  rw [Nat.shiftRight_eq_div_pow]
  exact Nat.div_lt_self (Nat.pos_of_ne_zero h) (by norm_num)

/-- The method `PageLibPreprocessor::isSimilar`. -/
def isSimilar (hash1 hash2 : Nat) (threshold : Int) : Bool :=
  let diff := hash1 ^^^ hash2
  decide (countBits diff 0 < threshold)

/-- The locals and members the loop of `deduplicate` updates: `_processedPages`
and `hashes`. -/
structure DedupState where
  processedPages : List WebPage
  hashes : List Nat

/-- One iteration of the loop of `PageLibPreprocessor::deduplicate`; the
default `threshold = 3` of `isSimilar` applies. -/
def dedupStep (st : DedupState) (page : WebPage) : DedupState :=
  let hash := getSimhash page
  let isDuplicate := st.hashes.any (fun existingHash => isSimilar hash existingHash 3)
  if isDuplicate then st
  else { processedPages := st.processedPages ++ [page], hashes := st.hashes ++ [hash] }

/-- The method `PageLibPreprocessor::deduplicate` followed by
`getProcessedPages`. -/
def deduplicate (pages : List WebPage) : List WebPage :=
  (pages.foldl dedupStep { processedPages := [], hashes := [] }).processedPages

/-! ## Text conversions of the index file -/

/-- The decimal digits of `n`, least significant first; `fuel` bounds their
number. -/
def digitsLE : Nat → Nat → List Nat
  | 0, _ => []
  | fuel + 1, n => if n = 0 then [] else (n % 10) :: digitsLE fuel (n / 10)

/-- The character of a decimal digit. -/
def digitChar (d : Nat) : Char := Char.ofNat (48 + d)

/-- The characters `ofs << n` writes for a non-negative integer. -/
def showNat (n : Nat) : List Char :=
  if n = 0 then ['0'] else ((digitsLE n n).reverse).map digitChar

/-- The characters `ofs << n` writes for an `int`. -/
def showInt (n : Int) : List Char :=
  if n < 0 then '-' :: showNat n.natAbs else showNat n.natAbs

/-- The value of a string of decimal digits. -/
def digitsValue (ds : List Char) : Nat :=
  ds.foldl (fun acc c => acc * 10 + (c.toNat - 48)) 0

/-- The predicate `isdigit`. -/
def isDigit (c : Char) : Bool := decide (48 ≤ c.toNat ∧ c.toNat ≤ 57)

/-- The predicate `isspace` of the C locale. -/
def isSpace (c : Char) : Bool :=
  decide (c = ' ' ∨ c = '\n' ∨ c = '\t' ∨ c = '\r' ∨ c.toNat = 11 ∨ c.toNat = 12)

/-- An optional sign: `(negative, rest)`. -/
def readSign : List Char → Bool × List Char
  | [] => (false, [])
  | c :: rest =>
    if c = '-' then (true, rest) else if c = '+' then (false, rest) else (false, c :: rest)

/-- The text after a decimal point at the head of `s`, if there is one. -/
def afterPoint : List Char → Option (List Char)
  | [] => none
  | c :: rest => if c = '.' then some rest else none

/-- The integer at the head of `s` after optional white space and sign, with
the unread rest: what `strtol` and `istream >>` read; `none` when there is no
digit. -/
def readInt (s : List Char) : Option (Int × List Char) :=
  let s1 := s.dropWhile isSpace
  let sg := readSign s1
  let ds := sg.2.takeWhile isDigit
  if ds = [] then none
  else some ((if sg.1 then -(digitsValue ds : Int) else (digitsValue ds : Int)),
    sg.2.dropWhile isDigit)

/-- The function `std::stoi`: `none` stands for the `std::invalid_argument` it
throws when no conversion can be done. -/
def stoi (s : List Char) : Option Int := (readInt s).map Prod.fst

/-- The exponent part `e[sign]digits` at the head of `s`, `0` when there is
none, with the unread rest. -/
def readExponent (s : List Char) : Int × List Char :=
  match s with
  | c :: rest =>
    if c = 'e' ∨ c = 'E' then
      let sg := readSign rest
      let ds := sg.2.takeWhile isDigit
      if ds = [] then (0, s)
      else ((if sg.1 then -(digitsValue ds : Int) else (digitsValue ds : Int)),
        sg.2.dropWhile isDigit)
    else (0, s)
  | [] => (0, s)

/-- A decimal spelling as `strtod` reads it: sign, integer digits, fraction
digits with their number, exponent. -/
structure Decimal where
  negative : Bool
  intPart : Nat
  fracPart : Nat
  fracLen : Nat
  exponent : Int

/-- The number a decimal spelling denotes. -/
def Decimal.value {K : Type} [LinearOrderedField K] (d : Decimal) : K :=
  let v : K := ((d.intPart : K) + (d.fracPart : K) / (10 : K) ^ d.fracLen) * (10 : K) ^ d.exponent
  if d.negative then -v else v

/-- The decimal spelling at the head of `s` after optional white space, with
the unread rest; `none` when there is no digit. -/
def readDecimal (s : List Char) : Option (Decimal × List Char) :=
  let s1 := s.dropWhile isSpace
  let sg := readSign s1
  let ip := sg.2.takeWhile isDigit
  let s3 := sg.2.dropWhile isDigit
  let fp := match afterPoint s3 with
    | some rest => rest.takeWhile isDigit
    | none => []
  let s4 := match afterPoint s3 with
    | some rest => rest.dropWhile isDigit
    | none => s3
  if ip = [] ∧ fp = [] then none
  else
    let ex := readExponent s4
    some ({ negative := sg.1, intPart := digitsValue ip, fracPart := digitsValue fp,
            fracLen := fp.length, exponent := ex.1 }, ex.2)

/-- The decimal floating-point number at the head of `s` after optional white
space, with the unread rest: what `strtod` and `istream >>` read of a decimal
spelling; `none` when there is no digit. -/
def readDouble {K : Type} [LinearOrderedField K] (s : List Char) : Option (K × List Char) :=
  (readDecimal s).map (fun r => (r.1.value, r.2))

/-- The function `std::stod` on decimal spellings: `none` stands for the
`std::invalid_argument` it throws when no conversion can be done. -/
def stod {K : Type} [LinearOrderedField K] (s : List Char) : Option K :=
  (readDouble s).map Prod.fst

/-- The characters a printed number is made of. -/
def NumChar (c : Char) : Prop :=
  isDigit c = true ∨ c = '-' ∨ c = '+' ∨ c = '.' ∨ c = 'e'

/-- The number of decimal digits of `n ≥ 1`. -/
def numDigits (n : Nat) : Nat := (digitsLE n n).length

/-- The decimal exponent of `x > 0`: the `e` with `10^e ≤ x < 10^(e+1)`. -/
def decimalExponent {K : Type} [LinearOrderedField K] [FloorRing K] (x : K) : Int :=
  if 1 ≤ x then (numDigits ⌊x⌋.toNat : Int) - 1
  else
    let k : Int := (numDigits ⌊1 / x⌋.toNat : Int) - 1
    if x * (10 : K) ^ k = 1 then -k else -(k + 1)

/-- The integer nearest to `y ≥ 0`, and of the two nearest integers the even
one when `y` lies halfway between them: the rounding of the conversion of a
`double` to decimal digits (round to nearest, ties to even). -/
def roundHalfEven {K : Type} [LinearOrderedField K] [FloorRing K] (y : K) : Nat :=
  let fl := ⌊y⌋
  let r := y - (fl : K)
  if r < 1 / 2 then fl.toNat
  else if 1 / 2 < r then (fl + 1).toNat
  else if fl % 2 = 0 then fl.toNat
  else (fl + 1).toNat

/-- The six significant digits `%g` prints for `x > 0`, as an integer `m` with
`10^5 ≤ m < 10^6`, and the decimal exponent `e` of the printed value
`m * 10^(e-5)`: `x` is rounded to six significant digits, ties to even, and a
carry out of the sixth digit moves the exponent. -/
def sixDigits {K : Type} [LinearOrderedField K] [FloorRing K] (x : K) : Nat × Int :=
  let e0 := decimalExponent x
  let m0 := roundHalfEven (x * (10 : K) ^ (5 - e0))
  if m0 = 1000000 then (100000, e0 + 1) else (m0, e0)

/-- Remove the trailing zeros of a digit string. -/
def stripZeros (ds : List Char) : List Char :=
  (ds.reverse.dropWhile (fun c => c = '0')).reverse

/-- The fractional part: nothing, or a point and the digits. -/
def pointFrac (frac : List Char) : List Char :=
  if stripZeros frac = [] then [] else '.' :: stripZeros frac

/-- The six digits of `m`, most significant first. -/
def mantissaDigits (m : Nat) : List Char :=
  [5, 4, 3, 2, 1, 0].map (fun i => digitChar (m / 10 ^ i % 10))

/-- The exponent of the scientific style: a sign and at least two digits. -/
def showExponent (e : Int) : List Char :=
  (if e < 0 then '-' else '+') ::
    (if e.natAbs < 10 then '0' :: showNat e.natAbs else showNat e.natAbs)

/-- The `%g` spelling of six digits `m` with decimal exponent `e`: scientific
style when `e < -4` or `e ≥ 6`, fixed style otherwise, trailing zeros of the
fraction removed. -/
def renderDigits (me : Nat × Int) : List Char :=
  let ds := mantissaDigits me.1
  if me.2 < -4 ∨ 6 ≤ me.2 then
    ds.take 1 ++ pointFrac (ds.drop 1) ++ 'e' :: showExponent me.2
  else if 0 ≤ me.2 then
    ds.take (me.2.toNat + 1) ++ pointFrac (ds.drop (me.2.toNat + 1))
  else
    '0' :: pointFrac (List.replicate ((-me.2).toNat - 1) '0' ++ ds)

/-- The characters `ofs << x` writes for a positive `double` under the default
stream flags (the `%g` conversion with precision 6). -/
def showPositive {K : Type} [LinearOrderedField K] [FloorRing K] (x : K) : List Char :=
  renderDigits (sixDigits x)

/-- The characters `ofs << x` writes for a `double` under the default stream
flags. -/
def showDouble {K : Type} [LinearOrderedField K] [FloorRing K] (x : K) : List Char :=
  if x = 0 then ['0']
  else if x < 0 then '-' :: showPositive (-x)
  else showPositive x


/-! ## Persistence -/

/-- One posting as `store` writes it: ` docId:weight:termFreq`. -/
def showItem {K : Type} [LinearOrderedField K] [FloorRing K] (it : InvertIndexItem K) :
    List Char :=
  ' ' :: (showInt it.docId ++ ':' :: (showDouble it.weight ++ ':' :: showInt it.termFreq))

/-- One entry of `_docLens` as `store` writes it: ` docId:len`. -/
def showDocLen (e : Nat × Int) : List Char :=
  ' ' :: (showInt e.1 ++ ':' :: showInt e.2)

/-- The lines `store` writes: the `#META` line, the `#DOCLENS` line, one line
per term. -/
def storeLines {K : Type} [LinearOrderedField K] [FloorRing K] (idx : InvertIndex K) :
    List (List Char) :=
  ("#META ".data ++ (showInt idx.totalDocs ++ ' ' :: showDouble idx.avgDocLen)) ::
    ("#DOCLENS".data ++ idx.docLens.flatMap showDocLen) ::
    idx.invertIndex.map (fun e => e.1.data ++ e.2.flatMap showItem)

/-- The method `InvertIndex::store`: the characters written to the file, every
line closed by a newline. -/
def store {K : Type} [LinearOrderedField K] [FloorRing K] (idx : InvertIndex K) : List Char :=
  (storeLines idx).flatMap (fun l => l ++ ['\n'])

/-- The pieces of `s` between the occurrences of `c`. -/
def splitOnChar (c : Char) : List Char → List (List Char)
  | [] => [[]]
  | x :: xs =>
    if x = c then [] :: splitOnChar c xs
    else
      match splitOnChar c xs with
      | [] => [[x]]
      | seg :: segs => (x :: seg) :: segs

/-- The lines the `std::getline` loop of `load` reads: the pieces between the
newlines; nothing is read after a final newline. -/
def getLines (file : List Char) : List (List Char) :=
  let segs := splitOnChar '\n' file
  if segs.getLast? = some [] then segs.dropLast else segs

/-- The words `ss >> item` reads in turn: the maximal runs of characters that
are not white space; `cur` is the run being read, reversed. -/
def tokensAux (cur : List Char) : List Char → List (List Char)
  | [] => if cur = [] then [] else [cur.reverse]
  | c :: cs =>
    if isSpace c then (if cur = [] then tokensAux [] cs else cur.reverse :: tokensAux [] cs)
    else tokensAux (c :: cur) cs

/-- The words of a `stringstream`, in reading order. -/
def tokens (s : List Char) : List (List Char) := tokensAux [] s

/-- The split at `s.find(c)`: the text before the first `c` and, when there is
one, the text after it. -/
def splitFirst (c : Char) : List Char → List Char × Option (List Char)
  | [] => ([], none)
  | x :: xs =>
    if x = c then ([], some xs)
    else ((x :: (splitFirst c xs).1), (splitFirst c xs).2)

/-- The call `s.substr(pos)`: `none` stands for the `std::out_of_range` it
throws when `pos > s.size()`. -/
def substrFrom (s : List Char) (pos : Nat) : Option (List Char) :=
  if pos > s.length then none else some (s.drop pos)

/-- The `#META` branch of `load`: `ss >> _totalDocs >> _avgDocLen` on
`line.substr(6)`.  An extraction at the end of the stream leaves its target
untouched, a failed conversion stores zero, and either stops the chain. -/
def loadMeta {K : Type} [LinearOrderedField K] (idx : InvertIndex K) (line : List Char) :
    Option (InvertIndex K) :=
  match substrFrom line 6 with
  | none => none
  | some rest =>
    if rest.dropWhile isSpace = [] then some idx
    else
      match readInt rest with
      | none => some { idx with totalDocs := 0 }
      | some (n, rest2) =>
        if rest2.dropWhile isSpace = [] then some { idx with totalDocs := n }
        else
          match readDouble rest2 with
          | none => some { idx with totalDocs := n, avgDocLen := 0 }
          | some (x, _) => some { idx with totalDocs := n, avgDocLen := x }

/-- The body of the `while (ss >> item)` loop of the `#DOCLENS` branch.  A
negative docId, which only a file `store` did not write can hold, is kept
as 0. -/
def loadDocLen (docLens : Option (List (Nat × Int))) (item : List Char) :
    Option (List (Nat × Int)) :=
  match docLens with
  | none => none
  | some dl =>
    match splitFirst ':' item with
    | (_, none) => some dl
    | (a, some b) =>
      match stoi a with
      | none => none
      | some docId =>
        match stoi b with
        | none => none
        | some docLen => some (assignLen dl docId.toNat docLen)

/-- The `#DOCLENS` branch of `load`. -/
def loadDocLens {K : Type} (idx : InvertIndex K) (line : List Char) : Option (InvertIndex K) :=
  match substrFrom line 9 with
  | none => none
  | some rest =>
    ((tokens rest).foldl loadDocLen (some idx.docLens)).map
      (fun dl => { idx with docLens := dl })

/-- The body of the item loop of the term branch: a piece with two colons is
converted and appended to the postings of `word`; any other piece is
skipped.  A negative docId, which only a file `store` did not write can hold,
is kept as 0. -/
def loadItem {K : Type} [LinearOrderedField K] (word : String)
    (inv : Option (List (String × List (InvertIndexItem K)))) (itemStr : List Char) :
    Option (List (String × List (InvertIndexItem K))) :=
  match inv with
  | none => none
  | some m =>
    match splitFirst ':' itemStr with
    | (_, none) => some m
    | (a, some r) =>
      match splitFirst ':' r with
      | (_, none) => some m
      | (b, some c) =>
        match stoi a with
        | none => none
        | some docId =>
          match stod b with
          | none => none
          | some weight =>
            match stoi c with
            | none => none
            | some termFreq =>
              some (pushItem m word
                { weight := weight, docId := docId.toNat, termFreq := termFreq })

/-- The term branch of `load`: `word` is the text before the first space, and
the loop visits the pieces between the spaces after it; a line without a space
is skipped. -/
def loadTerm {K : Type} [LinearOrderedField K] (idx : InvertIndex K) (line : List Char) :
    Option (InvertIndex K) :=
  match splitOnChar ' ' line with
  | [] => some idx
  | [_] => some idx
  | word :: items =>
    (items.foldl (loadItem (String.mk word)) (some idx.invertIndex)).map
      (fun m => { idx with invertIndex := m })

/-- The body of the `std::getline` loop of `load`. -/
def loadLine {K : Type} [LinearOrderedField K] (st : Option (InvertIndex K))
    (line : List Char) : Option (InvertIndex K) :=
  match st with
  | none => none
  | some idx =>
    if line = [] then some idx
    else if line.length ≥ 5 ∧ line.take 5 = "#META".data then loadMeta idx line
    else if line.take 8 = "#DOCLENS".data then loadDocLens idx line
    else loadTerm idx line

/-- The method `InvertIndex::load` on the characters of the file; `none` stands
for an exception leaving the method. -/
def load {K : Type} [LinearOrderedField K] (idx : InvertIndex K) (file : List Char) :
    Option (InvertIndex K) :=
  (getLines file).foldl loadLine (some { idx with invertIndex := [], docLens := [] })

/-- The weight `load` reads back for a weight `store` wrote. -/
def reloadWeight {K : Type} [LinearOrderedField K] [FloorRing K] (w : K) : K :=
  (stod (showDouble w)).getD 0

/-- A term the line format can carry: free of spaces and newlines and not
opening like one of the two header lines. -/
def WellFormedTerm (t : String) : Prop :=
  ' ' ∉ t.data ∧ '\n' ∉ t.data ∧ t.data.take 5 ≠ "#META".data ∧
    t.data.take 8 ≠ "#DOCLENS".data

/-! ## Specification-level notions -/

/-- The Hamming distance of two 64-bit words: the number of bit positions in
which they differ. -/
def hamming (h1 h2 : Nat) : Nat :=
  (List.range 64).countP (fun i => h1.testBit i != h2.testBit i)

/-- The posting list of `word`, empty when `word` is not a term. -/
def postings {K : Type} (idx : InvertIndex K) (word : String) : List (InvertIndexItem K) :=
  (findPostings idx.invertIndex word).getD []

/-- The total weight the entries of `l` carry for document `d`. -/
def contrib {K : Type} [LinearOrderedField K] (l : List (InvertIndexItem K)) (d : Nat) : K :=
  ((l.filter (fun it => decide (it.docId = d))).map (fun it => it.weight)).sum

/-- The weight stored for document `d` in the posting list of `word`
(`0` when there is no posting). -/
def weightOf {K : Type} [LinearOrderedField K] (idx : InvertIndex K) (word : String)
    (d : Nat) : K :=
  contrib (postings idx word) d

/-- Every posting a query visits, in the order `search` visits them. -/
def allItems {K : Type} (idx : InvertIndex K) (queryWords : List String) :
    List (InvertIndexItem K) :=
  queryWords.flatMap (postings idx)

/-- The state `search` starts its accumulation loop in. -/
def initState {K : Type} [LinearOrderedField K] (idx : InvertIndex K) : ScoreState K :=
  { scores := List.replicate (maxDocId idx.docLens + 1) 0, dirty := [] }

/-- The invariant of the accumulation loop of `search` when every weight is
positive: scores are non-negative, and the dirty list holds, once each, the
documents of non-zero score. -/
def ScoreState.Good {K : Type} [LinearOrderedField K] (s : ScoreState K) : Prop :=
  (∀ d, 0 ≤ s.scores.getD d 0) ∧ (∀ d, d ∈ s.dirty ↔ 0 < s.scores.getD d 0) ∧ s.dirty.Nodup

/-- The disjunctive score of §4.7: the sum over the query words of the weight
of the word in the document. -/
def score {K : Type} [LinearOrderedField K] (idx : InvertIndex K) (queryWords : List String)
    (d : Nat) : K :=
  (queryWords.map (fun w => weightOf idx w d)).sum

/-- A page matches a query when its term map contains at least one query
word. -/
def WebPage.matchesQuery (page : WebPage) (queryWords : List String) : Bool :=
  queryWords.any (fun w => decide (w ∈ page.wordsMap.map Prod.fst))

/-- The `docLen` of a page: the sum of the frequencies of its term map. -/
def WebPage.docLen (page : WebPage) : Int :=
  (page.wordsMap.map Prod.snd).sum

/-- The `tf` of `word` in a page. -/
def WebPage.tf (page : WebPage) (word : String) : Int :=
  lookupInt page.wordsMap word

/-- The document frequency of `word`: the number of pages whose term map
contains it. -/
def docFreqOf (pages : List WebPage) (word : String) : Nat :=
  pages.countP (fun p => decide (word ∈ p.wordsMap.map Prod.fst))

/-- The `idf` of §4.6 for a corpus of `N` documents and a term of document
frequency `df`. -/
def idfSpec {K : Type} [LinearOrderedField K] (ln : K → K) (N df : Nat) : K :=
  max 0 (ln (((N : K) - (df : K) + 1 / 2) / ((df : K) + 1 / 2) + 1))

/-- The `norm` of §4.6. -/
def normSpec {K : Type} [LinearOrderedField K] (tf docLen : Int) (avgDocLen : K) : K :=
  (tf : K) * (K1 + 1) / ((tf : K) + K1 * (1 - B + B * (docLen : K) / avgDocLen))

/-- The arithmetic mean of the document lengths. -/
def avgDocLenSpec {K : Type} [LinearOrderedField K] (pages : List WebPage) : K :=
  (((pages.map WebPage.docLen).sum : Int) : K) / (pages.length : K)

/-- The BM25 weight of §4.6 of `word` in `page`, within the corpus `pages`. -/
def weightSpec {K : Type} [LinearOrderedField K] (ln : K → K) (pages : List WebPage)
    (page : WebPage) (word : String) : K :=
  idfSpec ln pages.length (docFreqOf pages word) *
    normSpec (page.tf word) page.docLen (avgDocLenSpec pages)

/-- The posting entry §4.6 prescribes for `word` in `page`. -/
def specItem {K : Type} [LinearOrderedField K] (ln : K → K) (pages : List WebPage)
    (word : String) (page : WebPage) : InvertIndexItem K :=
  { weight := weightSpec ln pages page word, docId := page.docId, termFreq := page.tf word }

/-- The postings of `word` in corpus order, before the final sort. -/
def rawPostings {K : Type} [LinearOrderedField K] (ln : K → K) (pages : List WebPage)
    (word : String) : List (InvertIndexItem K) :=
  (pages.filter (fun p => decide (word ∈ p.wordsMap.map Prod.fst))).map (specItem ln pages word)

/-! ## The seed corpus of §8 -/

/-- The document `d1 = "苹果 手机"`. -/
def d1 : WebPage :=
  { docId := 1, wordsMap := [("手机", 1), ("苹果", 1)], keys_nodup := by decide,
    freq_pos := by decide }

/-- The document `d2 = "苹果 电脑"`. -/
def d2 : WebPage :=
  { docId := 2, wordsMap := [("电脑", 1), ("苹果", 1)], keys_nodup := by decide,
    freq_pos := by decide }

/-- The document `d3 = "香蕉 水果"`. -/
def d3 : WebPage :=
  { docId := 3, wordsMap := [("水果", 1), ("香蕉", 1)], keys_nodup := by decide,
    freq_pos := by decide }

/-- The three-document corpus of the end-to-end scenarios. -/
def seedCorpus : List WebPage := [d1, d2, d3]

/-- A document for which the tokenizer returns no term, docId 5. -/
def blankPage : WebPage :=
  { docId := 5, wordsMap := [], keys_nodup := by decide, freq_pos := by decide }

/-- The seed corpus followed by the blank page. -/
def seedWithBlank : List WebPage := [d1, d2, d3, blankPage]

/-- A second document with the text of `d1`, docId 4. -/
def d1Again : WebPage :=
  { docId := 4, wordsMap := [("手机", 1), ("苹果", 1)], keys_nodup := by decide,
    freq_pos := by decide }

/-- A page with the terms of `d2` and the given docId. -/
def likeD2 (docId : Nat) : WebPage :=
  { docId := docId, wordsMap := [("电脑", 1), ("苹果", 1)], keys_nodup := by decide,
    freq_pos := by decide }

/-- A page with the terms of `d1` and docId 22. -/
def lastD1 : WebPage :=
  { docId := 22, wordsMap := [("手机", 1), ("苹果", 1)], keys_nodup := by decide,
    freq_pos := by decide }

/-- Twenty-one pages with the terms of `d2`, docIds 1 to 21, followed by one
page with the terms of `d1`. -/
def crowdedCorpus : List WebPage :=
  (List.range 21).map (fun i => likeD2 (i + 1)) ++ [lastD1]

/-! ## SimHash bits and the Hamming distance -/

/-- The static `WebPage::hammingDistance` of `WebPage.cc`: `x = h1 ^ h2`, then
the loop `while (x) { count += x & 1; x >>= 1; }`, which is `countBits`. -/
def hammingDistance (h1 h2 : Nat) : Int :=
  let x := h1 ^^^ h2
  countBits x 0

/-- The accumulator of bit `i` as §4.8 words it: every entry of the term map
adds its frequency when bit `i` of the hash of its word is set and subtracts
it otherwise. -/
def bitBalance (wordsMap : List (String × Int)) (i : Nat) : Int :=
  (wordsMap.map (fun e => if (jenkinsHash e.1).testBit i then e.2 else -e.2)).sum

/-- One byte of the hash in arithmetic modulo `2^64`, as the glossary words
it: `h += b; h += h << 10; h ^= h >> 6`, a left shift being a multiplication
and a right shift a division by a power of two. -/
def oneAtATimeRound (h b : Nat) : Nat :=
  let h1 := (h + b) % 2 ^ 64
  let h2 := (h1 + h1 * 2 ^ 10) % 2 ^ 64
  Nat.xor h2 (h2 / 2 ^ 6)

/-- The hash of a byte string in arithmetic modulo `2^64`, as the glossary
words it: the rounds from `h = 0`, then `h += h << 3; h ^= h >> 11;
h += h << 15`. -/
def oneAtATime (bs : List Nat) : Nat :=
  let h0 := bs.foldl oneAtATimeRound 0
  let h1 := (h0 + h0 * 2 ^ 3) % 2 ^ 64
  let h2 := Nat.xor h1 (h1 / 2 ^ 11)
  (h2 + h2 * 2 ^ 15) % 2 ^ 64

/-! ## Char units

`src/src/KeywordRecommender.cc` and `src/src/DictProducer.cc`.  A
`std::string` is the list of its bytes (numbers below 256); a
`vector<string>` of char units is a list of byte lists. -/

/-- The length the lead byte `c` declares: `size_t charLen = 1;` followed by
the `if` chain on `c & 0x80`, `c & 0xE0`, `c & 0xF0`, `c & 0xF8`. -/
def charLen (c : Nat) : Nat :=
  if c &&& 0x80 = 0 then 1
  else if c &&& 0xE0 = 0xC0 then 2
  else if c &&& 0xF0 = 0xE0 then 3
  else if c &&& 0xF8 = 0xF0 then 4
  else 1

/-- The loop `while (i < s.length())` of `KeywordRecommender::splitToChars`
from index `i` with the units `chars` pushed so far; `s.substr(i, charLen)` is
`(s.drop i).take charLen`.  Every round advances `i` by at least 1, so
`s.length - i` rounds of `fuel` let the loop reach its exit. -/
def splitLoop (s : List Nat) : Nat → Nat → List (List Nat) → List (List Nat)
  | 0, _, chars => chars
  | fuel + 1, i, chars =>
    if i < s.length then
      let c := s.getD i 0
      let len := charLen c
      let chars1 := if i + len ≤ s.length then chars ++ [(s.drop i).take len] else chars
      splitLoop s fuel (i + len) chars1
    else chars

/-- The static `KeywordRecommender::splitToChars`. -/
def splitToChars (s : List Nat) : List (List Nat) :=
  splitLoop s s.length 0 []

/-- The loop of `DictProducer::extractChars`, the same statements as the loop
of `splitToChars`. -/
def extractLoop (word : List Nat) : Nat → Nat → List (List Nat) → List (List Nat)
  | 0, _, chars => chars
  | fuel + 1, i, chars =>
    if i < word.length then
      let c := word.getD i 0
      let len := charLen c
      let chars1 :=
        if i + len ≤ word.length then chars ++ [(word.drop i).take len] else chars
      extractLoop word fuel (i + len) chars1
    else chars

/-- The method `DictProducer::extractChars`. -/
def extractChars (word : List Nat) : List (List Nat) :=
  extractLoop word word.length 0 []

/-- The bytes of the UTF-8 encoding of one code point. -/
def charBytes (c : Char) : List Nat :=
  (String.utf8EncodeChar c).map (fun b => b.toNat)

/-- A lead byte none of the four tests of the splitter accepts. -/
def InvalidLead (c : Nat) : Prop :=
  c &&& 0x80 ≠ 0 ∧ c &&& 0xE0 ≠ 0xC0 ∧ c &&& 0xF0 ≠ 0xE0 ∧ c &&& 0xF8 ≠ 0xF0

/-- A unit the splitter takes whole: a lead byte followed by as many bytes as
the lead byte declares. -/
def CompleteUnit (u : List Nat) : Prop :=
  ∃ c tl, u = c :: tl ∧ charLen c = u.length

/-- A tail that ends before the length its lead byte declares. -/
def TruncatedTail (t : List Nat) : Prop :=
  ∃ c tl, t = c :: tl ∧ t.length < charLen c

/-! ## Edit distance

`KeywordRecommender::editDistance`.  The table `vector<vector<int>> dp` is the
function from its row and column to the entry; the code reads and writes only
entries inside the `(m+1) × (n+1)` table. -/

/-- The assignment `dp[i][j] = v`. -/
def setCell (dp : Nat → Nat → Int) (i j : Nat) (v : Int) : Nat → Nat → Int :=
  fun a b => if a = i ∧ b = j then v else dp a b

/-- The loop `for (int i = 0; i <= m; ++i) dp[i][0] = i;`. -/
def initColumn (m : Nat) (dp : Nat → Nat → Int) : Nat → Nat → Int :=
  (List.range (m + 1)).foldl (fun dp i => setCell dp i 0 (i : Int)) dp

/-- The loop `for (int j = 0; j <= n; ++j) dp[0][j] = j;`. -/
def initRow (n : Nat) (dp : Nat → Nat → Int) : Nat → Nat → Int :=
  (List.range (n + 1)).foldl (fun dp j => setCell dp 0 j (j : Int)) dp

/-- The body of the inner loop: the assignment to `dp[i][j]`. -/
def fillCell (chars1 chars2 : List (List Nat)) (dp : Nat → Nat → Int) (i j : Nat) :
    Nat → Nat → Int :=
  if chars1.getD (i - 1) [] = chars2.getD (j - 1) [] then
    setCell dp i j (dp (i - 1) (j - 1))
  else
    setCell dp i j (1 + min (dp (i - 1) j) (min (dp i (j - 1)) (dp (i - 1) (j - 1))))

/-- The inner loop `for (int j = 1; j <= n; ++j)` of row `i`. -/
def fillRow (chars1 chars2 : List (List Nat)) (n : Nat) (dp : Nat → Nat → Int) (i : Nat) :
    Nat → Nat → Int :=
  (List.range' 1 n).foldl (fun dp j => fillCell chars1 chars2 dp i j) dp

/-- The outer loop `for (int i = 1; i <= m; ++i)`. -/
def fillTable (chars1 chars2 : List (List Nat)) (m n : Nat) (dp : Nat → Nat → Int) :
    Nat → Nat → Int :=
  (List.range' 1 m).foldl (fun dp i => fillRow chars1 chars2 n dp i) dp

/-- The body of `editDistance` after the two calls of `splitToChars`. -/
def editDistanceChars (chars1 chars2 : List (List Nat)) : Int :=
  let m := chars1.length
  let n := chars2.length
  let dp0 : Nat → Nat → Int := fun _ _ => 0
  let dp := fillTable chars1 chars2 m n (initRow n (initColumn m dp0))
  dp m n

/-- The static `KeywordRecommender::editDistance`. -/
def editDistance (s1 s2 : List Nat) : Int :=
  editDistanceChars (splitToChars s1) (splitToChars s2)

/-- One edit of a sequence: a unit is inserted, deleted, or replaced by a
different unit, at any position. -/
inductive EditStep {α : Type} : List α → List α → Prop
  | insert (l r : List α) (c : α) : EditStep (l ++ r) (l ++ c :: r)
  | delete (l r : List α) (c : α) : EditStep (l ++ c :: r) (l ++ r)
  | substitute (l r : List α) (a b : α) (h : a ≠ b) : EditStep (l ++ a :: r) (l ++ b :: r)

/-- The sequence `xs` is turned into `ys` by `n` edits, one after the other. -/
inductive EditsIn {α : Type} : Nat → List α → List α → Prop
  | done (xs : List α) : EditsIn 0 xs xs
  | step (n : Nat) (xs ys zs : List α) (h : EditStep xs ys) (t : EditsIn n ys zs) :
      EditsIn (n + 1) xs zs

/-- The recurrence of the table on two sequences read from their heads: an
empty side costs the length of the other; equal heads cost nothing; different
heads cost one more than the cheapest of the three neighbours, in the order the
code lists them. -/
def lev {α : Type} [DecidableEq α] : List α → List α → Nat
  | [], ys => ys.length
  | x :: xs, [] => (x :: xs).length
  | x :: xs, y :: ys =>
    if x = y then lev xs ys
    else 1 + min (lev xs (y :: ys)) (min (lev (x :: xs) ys) (lev xs ys))

/-- The distance of the first `i` units of `chars1` and the first `j` units of
`chars2`, read from their last units backwards: the meaning of `dp[i][j]`. -/
def prefixLev (chars1 chars2 : List (List Nat)) (i j : Nat) : Nat :=
  lev (chars1.take i).reverse (chars2.take j).reverse

/-- The entries written so far hold the distances of the prefixes: the rows
above `i`, row `i` up to column `k`, and column 0. -/
def TableGood (c1 c2 : List (List Nat)) (dp : Nat → Nat → Int) (i k : Nat) : Prop :=
  ∀ a b, a ≤ c1.length → b ≤ c2.length → (a < i ∨ (a = i ∧ b ≤ k) ∨ b = 0) →
    dp a b = (prefixLev c1 c2 a b : Int)

/-! ## Keyword recommendation

`src/include/KeywordRecommender.h`, `src/src/KeywordRecommender.cc` and
`SearchServer::handleSuggest`.  A `std::priority_queue<CandidateWord>` is the
list of its elements in the order `top`/`pop` deliver them: `push` puts the
new element behind the elements it is `<` than and in front of the first
element it is not `<` than. -/

/-- The `struct CandidateWord` of `KeywordRecommender.h`. -/
structure CandidateWord where
  word : List Nat
  distance : Int
  frequency : Int

/-- The comparison `CandidateWord::operator<`. -/
def CandidateWord.less (self other : CandidateWord) : Bool :=
  if self.distance ≠ other.distance then decide (self.distance > other.distance)
  else decide (self.frequency < other.frequency)

/-- The call `pq.push(candidate)`. -/
def pqPush (pq : List CandidateWord) (candidate : CandidateWord) : List CandidateWord :=
  List.orderedInsert (fun a b => a.less b = false) candidate pq

/-- The data member of `class KeywordRecommender`: the pointer `_dictProducer`,
null or a `DictProducer`, of which `recommend` reads `getDict()`, a
`std::map<string,int>`. -/
structure KeywordRecommender where
  dictProducer : Option (List (List Nat × Int))

/-- The body of the loop `for (const auto& pair : dict)` of `recommend`. -/
def recommendStep (query : List Nat) (queryChars : List (List Nat)) (maxDistance : Int)
    (pq : List CandidateWord) (pair : List Nat × Int) : List CandidateWord :=
  let word := pair.1
  let freq := pair.2
  let wordChars := splitToChars word
  let distDiff : Int := (queryChars.length : Int) - (wordChars.length : Int)
  if (distDiff.natAbs : Int) > maxDistance then pq
  else
    let dist := editDistance query word
    if dist ≤ maxDistance then
      pqPush pq { word := word, distance := dist, frequency := freq }
    else pq

/-- The loop `while (!pq.empty() && (int)results.size() < topK)` of
`recommend`: every round pops one element. -/
def drain (topK : Int) : List CandidateWord → List (List Nat) → List (List Nat)
  | [], results => results
  | top :: rest, results =>
    if (results.length : Int) < topK then drain topK rest (results ++ [top.word])
    else results

/-- The method `KeywordRecommender::recommend`. -/
def recommend (self : KeywordRecommender) (query : List Nat) (topK maxDistance : Int) :
    List (List Nat) :=
  match self.dictProducer with
  | none => []
  | some dict =>
    let queryChars := splitToChars query
    let pq := dict.foldl (recommendStep query queryChars maxDistance) []
    drain topK pq []

/-- The suggestions `SearchServer::handleSuggest` puts into its response:
none without a recommender, `recommend(query, 5, 2)` otherwise. -/
def handleSuggest (recommender : Option KeywordRecommender) (query : List Nat) :
    List (List Nat) :=
  match recommender with
  | none => []
  | some r => recommend r query 5 2

/-- The frequency the dictionary holds for `word` (0 for a word it lacks). -/
def frequencyOf (dict : List (List Nat × Int)) (word : List Nat) : Int :=
  match dict.find? (fun e => decide (e.1 = word)) with
  | some e => e.2
  | none => 0

/-- The candidate `recommend` builds from a dictionary entry. -/
def candidateOf (query : List Nat) (e : List Nat × Int) : CandidateWord :=
  { word := e.1, distance := editDistance query e.1, frequency := e.2 }

/-- The dictionary of the scenario of §8: `apple` with frequency 10 and
`apples` with frequency 1. -/
def appleDict : List (List Nat × Int) :=
  [(bytes "apple", 10), (bytes "apples", 1)]

/-! ## The LRU shard

`src/include/LRUCache.h`.  `_cache` (a `std::list<pair<K,V>>`) is the list of
its pairs from front to back; `_index` (an `unordered_map` from a key to the
iterator of its node) is the list of its keys, the node of a key being the
pair of `_cache` that carries the key.  A call of `back()` on the empty list,
or through an iterator of a key that has no node, is `none`. -/

/-- The data members of `LRUShard<K, V>` (the mutex apart). -/
structure LRUShard (K V : Type) where
  capacity : Nat
  cache : List (K × V)
  index : List K

/-- The constructor `LRUShard(size_t capacity)`. -/
def LRUShard.new {K V : Type} (capacity : Nat) : LRUShard K V :=
  { capacity := capacity, cache := [], index := [] }

/-- The method `LRUShard::put`. -/
def LRUShard.put {K V : Type} [DecidableEq K] (s : LRUShard K V) (key : K) (value : V) :
    Option (LRUShard K V) :=
  if key ∈ s.index then
    if key ∈ s.cache.map Prod.fst then
      some { capacity := s.capacity,
             cache := (key, value) :: s.cache.eraseP (fun e => decide (e.1 = key)),
             index := s.index }
    else none
  else if s.cache.length ≥ s.capacity then
    match s.cache.getLast? with
    | none => none
    | some last =>
      some { capacity := s.capacity,
             cache := (key, value) :: s.cache.dropLast,
             index := key :: s.index.erase last.1 }
  else
    some { capacity := s.capacity,
           cache := (key, value) :: s.cache,
           index := key :: s.index }

/-- The method `LRUShard::contains`. -/
def LRUShard.contains {K V : Type} [DecidableEq K] (s : LRUShard K V) (key : K) : Bool :=
  decide (key ∈ s.index)

/-- The method `LRUShard::size`. -/
def LRUShard.size {K V : Type} (s : LRUShard K V) : Nat :=
  s.cache.length

/-- A sequence of `put` calls, one after the other. -/
def LRUShard.putAll {K V : Type} [DecidableEq K] (s : LRUShard K V) :
    List (K × V) → Option (LRUShard K V)
  | [] => some s
  | op :: rest =>
    match s.put op.1 op.2 with
    | none => none
    | some s1 => s1.putAll rest

/-- The distinct keys of a sequence of puts, the most recently put first: a
put makes its key the most recent and leaves the order of the others. -/
def recentKeys {K : Type} [DecidableEq K] (keys : List K) : List K :=
  keys.foldl (fun acc k => k :: acc.filter (fun x => decide (x ≠ k))) []

/-- What holds of a shard after the puts of `keys`: the keys of `_cache`, front
to back, are the `capacity` most recently put distinct keys, and `_index` holds
the same keys. -/
def ShardGood {K V : Type} [DecidableEq K] (C : Nat) (s : LRUShard K V) (keys : List K) :
    Prop :=
  s.capacity = C ∧ s.cache.map Prod.fst = (recentKeys keys).take C ∧
    s.index.Perm (s.cache.map Prod.fst)

/-! ## The sharded cache and the search facade

`LRUShard::get`, `ShardedLRUCache` (its `std::array` of shards is the list of
them, `std::hash` the parameter `hash`, the two `std::atomic<size_t>` counters
are unbounded) and `SearchServer::handleSearch`, in which the tokenizer, the
index and the page library appear as the functions `cut`, `search` and
`generateResponse`. -/

/-- The method `LRUShard::get`: the new state and the value, `none` on a miss.
On a hit the node of the key is spliced to the front. -/
def LRUShard.get {K V : Type} [DecidableEq K] (s : LRUShard K V) (key : K) :
    Option (LRUShard K V × Option V) :=
  if key ∈ s.index then
    match s.cache.find? (fun e => decide (e.1 = key)) with
    | none => none
    | some e =>
      some ({ capacity := s.capacity,
              cache := e :: s.cache.eraseP (fun e => decide (e.1 = key)),
              index := s.index }, some e.2)
  else some (s, none)

/-- The data members of `ShardedLRUCache<K, V, ShardCount>`; `ShardCount` is
the length of `shards`. -/
structure ShardedLRUCache (K V : Type) where
  totalCapacity : Nat
  shards : List (LRUShard K V)
  totalQueries : Nat
  hits : Nat

/-- The constructor `ShardedLRUCache(size_t totalCapacity)`. -/
def ShardedLRUCache.new {K V : Type} (shardCount totalCapacity : Nat) :
    ShardedLRUCache K V :=
  let perShardCapacity := max (totalCapacity / shardCount) 1
  { totalCapacity := totalCapacity
    shards := List.replicate shardCount (LRUShard.new perShardCapacity)
    totalQueries := 0
    hits := 0 }

/-- The index of the shard `getShard` picks: `hash % ShardCount`. -/
def ShardedLRUCache.shardIndex {K V : Type} (hash : K → Nat) (c : ShardedLRUCache K V)
    (key : K) : Nat :=
  hash key % c.shards.length

/-- The method `ShardedLRUCache::get`. -/
def ShardedLRUCache.get {K V : Type} [DecidableEq K] (hash : K → Nat)
    (c : ShardedLRUCache K V) (key : K) : Option (ShardedLRUCache K V × Option V) :=
  match c.shards[c.shardIndex hash key]? with
  | none => none
  | some shard =>
    match shard.get key with
    | none => none
    | some (shard1, value) =>
      some ({ c with shards := c.shards.set (c.shardIndex hash key) shard1 }, value)

/-- The method `ShardedLRUCache::put`. -/
def ShardedLRUCache.put {K V : Type} [DecidableEq K] (hash : K → Nat)
    (c : ShardedLRUCache K V) (key : K) (value : V) : Option (ShardedLRUCache K V) :=
  match c.shards[c.shardIndex hash key]? with
  | none => none
  | some shard =>
    match shard.put key value with
    | none => none
    | some shard1 =>
      some { c with shards := c.shards.set (c.shardIndex hash key) shard1 }

/-- The method `ShardedLRUCache::contains`. -/
def ShardedLRUCache.contains {K V : Type} [DecidableEq K] (hash : K → Nat)
    (c : ShardedLRUCache K V) (key : K) : Bool :=
  match c.shards[c.shardIndex hash key]? with
  | none => false
  | some shard => shard.contains key

/-- The method `ShardedLRUCache::recordQuery`. -/
def ShardedLRUCache.recordQuery {K V : Type} (c : ShardedLRUCache K V) (hit : Bool) :
    ShardedLRUCache K V :=
  let c1 := { c with totalQueries := c.totalQueries + 1 }
  if hit then { c1 with hits := c1.hits + 1 } else c1

/-- The method `ShardedLRUCache::hitRate`. -/
def ShardedLRUCache.hitRate {K V : Type} (F : Type) [LinearOrderedField F]
    (c : ShardedLRUCache K V) : F :=
  let total := c.totalQueries
  if total = 0 then 0 else (c.hits : F) / (total : F)

/-- The method `SearchServer::handleSearch` on the cache of the server: the
cache after the call and the string returned. -/
def handleSearch {Q W R V : Type} [DecidableEq Q] (hash : Q → Nat) (cut : Q → List W)
    (search : List W → R) (generateResponse : Q → R → List W → V)
    (cache : ShardedLRUCache Q V) (query : Q) : Option (ShardedLRUCache Q V × V) :=
  match cache.get hash query with
  | none => none
  | some (cache1, some cachedResult) => some (cache1.recordQuery true, cachedResult)
  | some (cache1, none) =>
    let cache2 := cache1.recordQuery false
    let queryWords := cut query
    let results := search queryWords
    let response := generateResponse query results queryWords
    match cache2.put hash query response with
    | none => none
    | some cache3 => some (cache3, response)

/-- An operation on a shard. -/
inductive ShardOp (K V : Type) where
  | put (key : K) (value : V)
  | get (key : K)

/-- One operation on a shard; the value a `get` delivers is dropped. -/
def LRUShard.apply {K V : Type} [DecidableEq K] (s : LRUShard K V) :
    ShardOp K V → Option (LRUShard K V)
  | ShardOp.put key value => s.put key value
  | ShardOp.get key => (s.get key).map Prod.fst

/-- A sequence of operations on a shard, one after the other. -/
def LRUShard.run {K V : Type} [DecidableEq K] (s : LRUShard K V) :
    List (ShardOp K V) → Option (LRUShard K V)
  | [] => some s
  | op :: rest =>
    match s.apply op with
    | none => none
    | some s1 => s1.run rest

/-- The value of the most recent `put` of `key` in a sequence of operations. -/
def lastPut {K V : Type} [DecidableEq K] (key : K) : List (ShardOp K V) → Option V
  | [] => none
  | ShardOp.put k v :: rest =>
    match lastPut key rest with
    | some w => some w
    | none => if k = key then some v else none
  | ShardOp.get _ :: rest => lastPut key rest

/-- A sequence of `handleSearch` calls from the cache `cache`: the cache after
the last call. -/
def handleSearchAll {Q W R V : Type} [DecidableEq Q] (hash : Q → Nat) (cut : Q → List W)
    (search : List W → R) (generateResponse : Q → R → List W → V)
    (cache : ShardedLRUCache Q V) : List Q → Option (ShardedLRUCache Q V)
  | [] => some cache
  | query :: rest =>
    match handleSearch hash cut search generateResponse cache query with
    | none => none
    | some (cache1, _) => handleSearchAll hash cut search generateResponse cache1 rest

/-- What every operation keeps of a shard: a capacity of at least 1, one node
per key, the keys of `_index` those of `_cache`, and no more nodes than the
capacity. -/
def ShardOk {K V : Type} (s : LRUShard K V) : Prop :=
  1 ≤ s.capacity ∧ s.index.Perm (s.cache.map Prod.fst) ∧ (s.cache.map Prod.fst).Nodup ∧
    s.cache.length ≤ s.capacity

/-- What `handleSearch` keeps of the cache: at least one shard, every shard
in order, and every stored value the response of its key. -/
def CacheOk {Q V : Type} (respond : Q → V) (c : ShardedLRUCache Q V) : Prop :=
  0 < c.shards.length ∧ (∀ sh ∈ c.shards, ShardOk sh) ∧
    ∀ sh ∈ c.shards, ∀ e ∈ sh.cache, e.2 = respond e.1

/-! ## The page library on disk

`PageLib::storeSeparated` and `PageLib::loadMeta` of `src/src/PageLib.cc`.  A
file is the list of its bytes; both output files of `storeSeparated` can be
created; `size_t` offsets are unbounded.  The conversions of the standard
library read the bytes as characters. -/

/-- What `storeSeparated` reads of a page: `getDocId()`, `getTitle()`,
`getUrl()` and `getContent()`. -/
structure PageText where
  docId : Nat
  title : List Nat
  url : List Nat
  content : List Nat

/-- The `struct WebPageMeta` of `WebPageMeta.h`. -/
structure WebPageMeta where
  docId : Int
  title : List Nat
  url : List Nat
  contentOffset : Nat
  contentLength : Nat

/-- The characters of a byte string. -/
def toChars (s : List Nat) : List Char := s.map Char.ofNat

/-- The bytes `ofs << n` writes for a `size_t` or a non-negative `int`. -/
def showNatBytes (n : Nat) : List Nat := (showNat n).map Char.toNat

/-- The bytes `ofs << n` writes for an `int`. -/
def showIntBytes (n : Int) : List Nat := (showInt n).map Char.toNat

/-- The function `std::stoull` on unbounded numbers: a minus sign negates
modulo `2^64`; `none` stands for the `std::invalid_argument` it throws when no
conversion can be done. -/
def stoull (s : List Char) : Option Nat :=
  (readInt s).map
    (fun r => if r.1 < 0 then ((2 : Int) ^ 64 - (-r.1) % (2 : Int) ^ 64).toNat % 2 ^ 64
              else r.1.toNat)

/-- The call `std::replace(s.begin(), s.end(), old, new)`. -/
def replaceByte (old new : Nat) (s : List Nat) : List Nat :=
  s.map (fun b => if b = old then new else b)

/-- The three `std::replace` calls of `storeSeparated` on a title or a URL:
`'\n'`, `'\r'` and `'|'` become spaces. -/
def cleanField (s : List Nat) : List Nat :=
  replaceByte 124 32 (replaceByte 13 32 (replaceByte 10 32 s))

/-- The two output streams of `storeSeparated` and its `currentOffset`. -/
structure SeparatedFiles where
  metaOfs : List Nat
  contentOfs : List Nat
  currentOffset : Nat

/-- The line `#FORMAT docId|title|url|offset|length` without its newline. -/
def formatLine : List Nat := bytes "#FORMAT docId|title|url|offset|length"

/-- The body of the loop `for (const auto& page : _pages)` of
`storeSeparated`. -/
def storeSeparatedStep (st : SeparatedFiles) (page : PageText) : SeparatedFiles :=
  let content := page.content
  let contentLen := content.length
  let title := cleanField page.title
  let url := cleanField page.url
  { contentOfs := st.contentOfs ++ content
    metaOfs := st.metaOfs ++ (showNatBytes page.docId ++ [124] ++ title ++ [124] ++ url ++
      [124] ++ showNatBytes st.currentOffset ++ [124] ++ showNatBytes contentLen ++ [10])
    currentOffset := st.currentOffset + contentLen }

/-- The method `PageLib::storeSeparated` on the pages of the library. -/
def PageLib.storeSeparated (pages : List PageText) : SeparatedFiles :=
  pages.foldl storeSeparatedStep
    { metaOfs := formatLine ++ [10], contentOfs := [], currentOffset := 0 }

/-- The pieces of `s` between the occurrences of the byte `c`. -/
def splitOnByte (c : Nat) : List Nat → List (List Nat)
  | [] => [[]]
  | x :: xs =>
    if x = c then [] :: splitOnByte c xs
    else
      match splitOnByte c xs with
      | [] => [[x]]
      | seg :: segs => (x :: seg) :: segs

/-- The lines a `std::getline` loop reads of a file of bytes: the pieces
between the newlines; nothing is read after a final newline. -/
def byteLines (file : List Nat) : List (List Nat) :=
  let segs := splitOnByte 10 file
  if segs.getLast? = some [] then segs.dropLast else segs

/-- The call `s.find(c, pos)`; `none` is `npos`. -/
def findByte (c : Nat) (s : List Nat) (pos : Nat) : Option Nat :=
  let i := (s.drop pos).indexOf c
  if i < (s.drop pos).length then some (pos + i) else none

/-- The position `p + 1` for a result `p` of `find`: `npos + 1` wraps to 0. -/
def nextPos : Option Nat → Nat
  | none => 0
  | some p => p + 1

/-- The call `s.substr(pos, n)` for `pos <= s.size()`. -/
def substr (s : List Nat) (pos n : Nat) : List Nat := (s.drop pos).take n

/-- The assignment `result[meta.docId] = meta` on an `unordered_map`. -/
def assignMeta (result : List (Int × WebPageMeta)) (m : WebPageMeta) :
    List (Int × WebPageMeta) :=
  if result.any (fun e => decide (e.1 = m.docId)) then
    result.map (fun e => if e.1 = m.docId then (e.1, m) else e)
  else result ++ [(m.docId, m)]

/-- The body of the `std::getline` loop of `PageLib::loadMeta`; `none` stands
for an exception of `std::stoi` or `std::stoull`, which nothing catches. -/
def loadMetaLine (st : Option (List (Int × WebPageMeta))) (line : List Nat) :
    Option (List (Int × WebPageMeta)) :=
  match st with
  | none => none
  | some result =>
    if line = [] ∨ line.head? = some 35 then some result
    else
      let p1 := findByte 124 line 0
      let p2 := findByte 124 line (nextPos p1)
      let p3 := findByte 124 line (nextPos p2)
      let p4 := findByte 124 line (nextPos p3)
      match p1, p2, p3, p4 with
      | some q1, some q2, some q3, some q4 =>
        match stoi (toChars (substr line 0 q1)) with
        | none => none
        | some docId =>
          match stoull (toChars (substr line (q3 + 1) (q4 - q3 - 1))) with
          | none => none
          | some contentOffset =>
            match stoull (toChars (line.drop (q4 + 1))) with
            | none => none
            | some contentLength =>
              some (assignMeta result
                { docId := docId
                  title := substr line (q1 + 1) (q2 - q1 - 1)
                  url := substr line (q2 + 1) (q3 - q2 - 1)
                  contentOffset := contentOffset
                  contentLength := contentLength })
      | _, _, _, _ => some result

/-- The static `PageLib::loadMeta` on the bytes of a metadata file that can be
opened. -/
def PageLib.loadMeta (file : List Nat) : Option (List (Int × WebPageMeta)) :=
  (byteLines file).foldl loadMetaLine (some [])

/-- The metadata line `storeSeparated` writes for `page` at `offset`, without
its newline. -/
def metaLine (page : PageText) (offset : Nat) : List Nat :=
  showNatBytes page.docId ++ [124] ++ cleanField page.title ++ [124] ++ cleanField page.url ++
    [124] ++ showNatBytes offset ++ [124] ++ showNatBytes page.content.length

/-- The metadata lines of a list of pages whose first content starts at
`offset`. -/
def metaLines : List PageText → Nat → List (List Nat)
  | [], _ => []
  | page :: rest, offset => metaLine page offset :: metaLines rest (offset + page.content.length)

/-- The offset of the content of page `i`: the sum of the byte lengths of the
contents of the pages before it. -/
def offsetBefore (pages : List PageText) (i : Nat) : Nat :=
  ((pages.take i).map (fun p => p.content.length)).sum

/-- The entry `loadMeta` reads back for `page` stored at `offset`. -/
def storedMeta (page : PageText) (offset : Nat) : WebPageMeta :=
  { docId := (page.docId : Int)
    title := cleanField page.title
    url := cleanField page.url
    contentOffset := offset
    contentLength := page.content.length }

/-- The entries `loadMeta` reads back for a list of pages whose first content
starts at `offset`. -/
def storedMetas : List PageText → Nat → List (Int × WebPageMeta)
  | [], _ => []
  | page :: rest, offset =>
    ((page.docId : Int), storedMeta page offset) ::
      storedMetas rest (offset + page.content.length)

/-- A page whose title holds a separator. -/
def pipePage : PageText :=
  { docId := 7, title := bytes "a|b", url := bytes "u", content := bytes "xyz" }

/-! ## The dictionary and its character index

`src/src/DictProducer.cc`.  `_dict` (a `std::map<string,int>`) and
`_charIndex` (a `std::map<string, set<string>>`) are association lists; the
order in which a map or a set is walked shows in no result below except in the
order of words of equal frequency, which `std::sort` leaves open.  The term of
a page is the byte string of its word. -/

/-- The data members `_dict` and `_charIndex` of `class DictProducer`. -/
structure DictProducer where
  dict : List (List Nat × Int)
  charIndex : List (List Nat × List (List Nat))

/-- A producer whose maps are empty, as the constructor leaves them. -/
def DictProducer.new : DictProducer := { dict := [], charIndex := [] }

/-- The statement `_dict[key] += value`: `operator[]` creates a missing entry
with the value 0. -/
def addFreq (dict : List (List Nat × Int)) (key : List Nat) (value : Int) :
    List (List Nat × Int) :=
  if dict.any (fun e => decide (e.1 = key)) then
    dict.map (fun e => if e.1 = key then (e.1, e.2 + value) else e)
  else dict ++ [(key, 0 + value)]

/-- The statement `_dict[word] = freq`. -/
def assignFreq (dict : List (List Nat × Int)) (key : List Nat) (value : Int) :
    List (List Nat × Int) :=
  if dict.any (fun e => decide (e.1 = key)) then
    dict.map (fun e => if e.1 = key then (e.1, value) else e)
  else dict ++ [(key, value)]

/-- The statement `_charIndex[ch].insert(word)`. -/
def insertWord (index : List (List Nat × List (List Nat))) (ch word : List Nat) :
    List (List Nat × List (List Nat)) :=
  if index.any (fun e => decide (e.1 = ch)) then
    index.map (fun e => if e.1 = ch then (e.1, if word ∈ e.2 then e.2 else e.2 ++ [word]) else e)
  else index ++ [(ch, [word])]

/-- The body of the loop of `buildIndex` for one dictionary entry. -/
def indexWord (index : List (List Nat × List (List Nat))) (pair : List Nat × Int) :
    List (List Nat × List (List Nat)) :=
  let word := pair.1
  let chars := extractChars word
  chars.foldl (fun idx ch => insertWord idx ch word) index

/-- The method `DictProducer::buildIndex`. -/
def DictProducer.buildIndex (self : DictProducer) : DictProducer :=
  { self with charIndex := self.dict.foldl indexWord self.charIndex }

/-- The body of the outer loop of `DictProducer::build` for one page. -/
def addPage (dict : List (List Nat × Int)) (page : WebPage) : List (List Nat × Int) :=
  page.wordsMap.foldl (fun d pair => addFreq d (bytes pair.1) pair.2) dict

/-- The method `DictProducer::build`. -/
def DictProducer.build (self : DictProducer) (pages : List WebPage) : DictProducer :=
  DictProducer.buildIndex { self with dict := pages.foldl addPage self.dict }

/-- The call `text.find(word)` from the position `i` of the bytes `text`
still to be searched; `none` is `npos`. -/
def findSubFrom (word : List Nat) : List Nat → Nat → Option Nat
  | [], i => if word = [] then some i else none
  | c :: cs, i => if word.isPrefixOf (c :: cs) then some i else findSubFrom word cs (i + 1)

/-- The call `text.find(word)`. -/
def findSub (text word : List Nat) : Option Nat := findSubFrom word text 0

/-- The method `DictProducer::getCandidates`. -/
def DictProducer.getCandidates (self : DictProducer) (pfx : List Nat) : List (List Nat) :=
  let chars := extractChars pfx
  match chars with
  | [] => []
  | first :: others =>
    match self.charIndex.find? (fun e => decide (e.1 = first)) with
    | none => []
    | some entry =>
      let candidates :=
        entry.2.filter (fun word => others.all (fun ch => (findSub word ch).isSome))
      candidates.insertionSort
        (fun a b => frequencyOf self.dict a ≥ frequencyOf self.dict b)

/-- The method `DictProducer::storeDict`: the bytes written to a file that can
be created. -/
def DictProducer.storeDict (self : DictProducer) : List Nat :=
  let sortedDict := self.dict.insertionSort (fun a b => a.2 ≥ b.2)
  sortedDict.flatMap (fun pair => pair.1 ++ [32] ++ showIntBytes pair.2 ++ [10])

/-- The predicate `isspace` of the C locale on a byte. -/
def isSpaceByte (b : Nat) : Bool := decide (b = 32 ∨ (9 ≤ b ∧ b ≤ 13))

/-- The body of the `getline` loop of `loadDict`: `iss >> word >> freq`, and
the assignment when both extractions succeed. -/
def loadDictLine (dict : List (List Nat × Int)) (line : List Nat) : List (List Nat × Int) :=
  let s1 := line.dropWhile isSpaceByte
  let word := s1.takeWhile (fun b => !isSpaceByte b)
  if word = [] then dict
  else
    match readInt (toChars (s1.dropWhile (fun b => !isSpaceByte b))) with
    | none => dict
    | some (freq, _) => assignFreq dict word freq

/-- The method `DictProducer::loadDict` on the bytes of a file that can be
opened. -/
def DictProducer.loadDict (self : DictProducer) (file : List Nat) : DictProducer :=
  { self with dict := (byteLines file).foldl loadDictLine [] }

/-- The frequency of the byte string `w` in the term map of a page. -/
def pageFreq (page : WebPage) (w : List Nat) : Int :=
  ((page.wordsMap.filter (fun e => decide (bytes e.1 = w))).map Prod.snd).sum

/-- A word the dictionary file can carry: not empty and free of white space. -/
def StorableWord (w : List Nat) : Prop :=
  w ≠ [] ∧ ∀ b ∈ w, isSpaceByte b = false

/-- A dictionary whose one word holds a space. -/
def spaceDict : DictProducer := { dict := [(bytes "a b", 1)], charIndex := [] }

/-- A dictionary of three words. -/
def smallDict : DictProducer :=
  { dict := [(bytes "ab", 1), (bytes "c", -5), (bytes "d", 7)], charIndex := [] }

/-- The set `_charIndex` holds for the char unit `ch`, empty when there is
none. -/
def wordsAt (index : List (List Nat × List (List Nat))) (ch : List Nat) : List (List Nat) :=
  match index.find? (fun e => decide (e.1 = ch)) with
  | some e => e.2
  | none => []

/-! ## The content store and the snippet

`ContentStore` of `src/include/WebPageMeta.h` and `WebPage::getSummary` of
`src/src/WebPage.cc`.  The content file is the list of its bytes, `none` when
it cannot be opened. -/

/-- The data member `_filePath` of `class ContentStore`, as the file it names:
its bytes, or `none` when the file cannot be opened. -/
structure ContentStore where
  file : Option (List Nat)

/-- The string the statements `ifs.seekg(offset); string buf(n, '\0');
ifs.read(&buf[0], n);` leave in `buf`: `read` stores the bytes the file holds
from `offset`, at most `n`, and the rest of `buf` keeps the `'\0'` it was
filled with. -/
def readBuffer (file : List Nat) (offset n : Nat) : List Nat :=
  let got := (file.drop offset).take n
  got ++ List.replicate (n - got.length) 0

/-- The method `ContentStore::readContent`. -/
def ContentStore.readContent (self : ContentStore) (offset length : Nat) : List Nat :=
  match self.file with
  | none => []
  | some f => readBuffer f offset length

/-- The loop `for (const auto& word : queryWords)` of
`ContentStore::getSummary`: the value of `start` after it. -/
def ContentStore.summaryStart (text : List Nat) : List (List Nat) → Nat
  | [] => 0
  | word :: rest =>
    match findSub text word with
    | some pos => if pos > 30 then pos - 30 else ContentStore.summaryStart text rest
    | none => ContentStore.summaryStart text rest

/-- The loop `while (endPos < text.length() && charCount < maxChars)` of
`ContentStore::getSummary` with `left = maxChars - charCount` rounds to go:
the value of `endPos` after it. -/
def ContentStore.summaryEnd (text : List Nat) : Nat → Nat → Nat
  | 0, endPos => endPos
  | left + 1, endPos =>
    if endPos < text.length then
      let c := text.getD endPos 0
      let len :=
        if c &&& 0x80 = 0 then 1
        else if c &&& 0xE0 = 0xC0 then 2
        else if c &&& 0xF0 = 0xE0 then 3
        else if c &&& 0xF8 = 0xF0 then 4
        else 1
      if endPos + len > text.length then endPos
      else ContentStore.summaryEnd text left (endPos + len)
    else endPos

/-- The method `ContentStore::getSummary`. -/
def ContentStore.getSummary (self : ContentStore) (offset length : Nat)
    (queryWords : List (List Nat)) (maxChars : Nat) : List Nat :=
  let readLength := min length 5000
  match self.file with
  | none => []
  | some f =>
    let text := readBuffer f offset readLength
    if text = [] then []
    else
      let start := ContentStore.summaryStart text queryWords
      let endPos := ContentStore.summaryEnd text maxChars start
      let summary := substr text start (endPos - start)
      let summary1 := if start > 0 then bytes "..." ++ summary else summary
      if endPos < text.length then summary1 ++ bytes "..." else summary1

/-- The loop `for (const auto& word : queryWords)` of `WebPage::getSummary`:
the value of `start` after it. -/
def WebPage.summaryStart (text : List Nat) : List (List Nat) → Nat
  | [] => 0
  | word :: rest =>
    match findSub text word with
    | some pos => if pos > 30 then pos - 30 else WebPage.summaryStart text rest
    | none => WebPage.summaryStart text rest

/-- The loop `while (endPos < text.length() && charCount < maxChars)` of
`WebPage::getSummary` with `left = maxChars - charCount` rounds to go: the
value of `endPos` after it. -/
def WebPage.summaryEnd (text : List Nat) : Nat → Nat → Nat
  | 0, endPos => endPos
  | left + 1, endPos =>
    if endPos < text.length then
      let c := text.getD endPos 0
      let len :=
        if c &&& 0x80 = 0 then 1
        else if c &&& 0xE0 = 0xC0 then 2
        else if c &&& 0xF0 = 0xE0 then 3
        else if c &&& 0xF8 = 0xF0 then 4
        else 1
      if endPos + len > text.length then endPos
      else WebPage.summaryEnd text left (endPos + len)
    else endPos

/-- The method `WebPage::getSummary` on the `_content` of the page. -/
def WebPage.getSummary (content : List Nat) (queryWords : List (List Nat)) : List Nat :=
  if content = [] then []
  else
    let maxChars := 150
    let text := content
    let start := WebPage.summaryStart text queryWords
    let endPos := WebPage.summaryEnd text maxChars start
    let summary := substr text start (endPos - start)
    let summary1 := if start > 0 then bytes "..." ++ summary else summary
    if endPos < text.length then summary1 ++ bytes "..." else summary1

/-- The bytes of the file in `[offset, offset + n)`, fewer when the file ends
before. -/
def fileSlice (file : List Nat) (offset n : Nat) : List Nat :=
  (file.drop offset).take n

/-! ## The recommendation loop without the length pre-filter -/

/-- The body of the loop of `recommend` with the statement
`if (std::abs(distDiff) > maxDistance) continue;` left out: the loop the
pre-filter is compared with. -/
def recommendStepUnfiltered (query : List Nat) (maxDistance : Int)
    (pq : List CandidateWord) (pair : List Nat × Int) : List CandidateWord :=
  let word := pair.1
  let freq := pair.2
  let dist := editDistance query word
  if dist ≤ maxDistance then
    pqPush pq { word := word, distance := dist, frequency := freq }
  else pq

/-- The method `recommend` with the length pre-filter left out of its loop. -/
def recommendUnfiltered (self : KeywordRecommender) (query : List Nat)
    (topK maxDistance : Int) : List (List Nat) :=
  match self.dictProducer with
  | none => []
  | some dict =>
    let pq := dict.foldl (recommendStepUnfiltered query maxDistance) []
    drain topK pq []

/-! ## The snippet, as the specification words it -/

/-- The marker `"..."` of the snippet. -/
def dots : List Nat := bytes "..."

/-- The start of the snippet: `pos - 30` for the first query word, in query
order, whose first occurrence in `content` is at a byte position `pos > 30`,
and 0 when there is none. -/
def snippetStart (content : List Nat) (queryWords : List (List Nat)) : Nat :=
  match queryWords.find? (fun w =>
      match findSub content w with
      | some pos => decide (30 < pos)
      | none => false) with
  | some w => (findSub content w).getD 0 - 30
  | none => 0

/-- The body of the snippet: the first 150 units, fewer when the input ends
before, of the bytes of `content` from `start` on. -/
def snippetBody (content : List Nat) (start : Nat) : List Nat :=
  ((splitToChars (content.drop start)).take 150).flatten

/-- A content of 42 bytes with `b` at byte position 30 and `c` at byte
position 41. -/
def edgeContent : List Nat :=
  List.replicate 30 97 ++ [98] ++ List.replicate 10 97 ++ [99]

/-- A content of 42 bytes with `b` at the byte positions 0 and 41. -/
def twiceContent : List Nat :=
  [98] ++ List.replicate 40 97 ++ [98]

/-! ## The UTF-8 sanitizer

`cleanUtf8` of `src/src/SearchServer.cc`. -/

/-- The `if` chain of `cleanUtf8` on the byte `c` in lead position: the length
`len` it sets, `none` in the branch `else { i++; continue; }`. -/
def leadLen (c : Nat) : Option Nat :=
  if c &&& 0x80 = 0 then some 1
  else if c &&& 0xE0 = 0xC0 then some 2
  else if c &&& 0xF0 = 0xE0 then some 3
  else if c &&& 0xF8 = 0xF0 then some 4
  else none

/-- The value of `valid` after `if (i + len > str.size()) valid = false;` and
the loop `for (size_t j = 1; valid && j < len; j++)`, whose body clears
`valid` when `(str[i + j] & 0xC0) != 0x80`. -/
def continuationValid (str : List Nat) (i len : Nat) : Bool :=
  (List.range' 1 (len - 1)).foldl
    (fun valid j =>
      if valid then (if str.getD (i + j) 0 &&& 0xC0 ≠ 0x80 then false else valid)
      else valid)
    (if i + len > str.length then false else true)

/-- The loop `for (size_t i = 0; i < str.size(); )` of `cleanUtf8` from index
`i` with the bytes `result` appended so far.  Every round advances `i` by at
least 1, so `str.length - i` rounds of `fuel` let the loop reach its exit. -/
def cleanLoop (str : List Nat) : Nat → Nat → List Nat → List Nat
  | 0, _, result => result
  | fuel + 1, i, result =>
    if i < str.length then
      let c := str.getD i 0
      match leadLen c with
      | none => cleanLoop str fuel (i + 1) result
      | some len =>
        if continuationValid str i len then
          cleanLoop str fuel (i + len) (result ++ (str.drop i).take len)
        else cleanLoop str fuel (i + 1) result
    else result

/-- The function `cleanUtf8`. -/
def cleanUtf8 (str : List Nat) : List Nat :=
  cleanLoop str str.length 0 []

/-- A unit `cleanUtf8` copies: a lead byte of one of the four forms
`0xxxxxxx`, `110xxxxx`, `1110xxxx`, `11110xxx`, followed by as many bytes as it
declares, each of the form `10xxxxxx`. -/
def PatternUnit (u : List Nat) : Prop :=
  ∃ c tl, u = c :: tl ∧ leadLen c = some u.length ∧ ∀ b ∈ tl, b &&& 0xC0 = 0x80

/-! ## The streaming parser of the page library

`PageLib::parseFile` of `src/src/PageLib.cc`.  A document handed to the
`WebPage` constructor is the list of its bytes; `_pages` is the list of the
documents pushed so far. -/

/-- The constant `MAX_DOCS`. -/
def MAX_DOCS : Nat := 300000

/-- The constant `CHUNK_SIZE`. -/
def CHUNK_SIZE : Nat := 1024 * 1024

/-- The constant `docStart`. -/
def docStart : List Nat := bytes "<doc>"

/-- The constant `docEnd`. -/
def docEnd : List Nat := bytes "</doc>"

/-- The call `buffer.find(word, pos)`; `none` is `npos`. -/
def findAt (buffer word : List Nat) (pos : Nat) : Option Nat :=
  findSubFrom word (buffer.drop pos) pos

/-- The state the loop `while (true)` of `parseFile` leaves: `buffer`,
`searchStart`, `_pages`, and whether the `return` of the document limit was
taken. -/
structure ScanResult where
  buffer : List Nat
  searchStart : Nat
  pages : List (List Nat)
  stopped : Bool

/-- The loop `while (true)` of `parseFile` from `searchStart`.  Every round
that does not leave the loop moves `searchStart` forward, so
`buffer.length + 1` rounds of `fuel` let the loop reach one of its exits. -/
def scanBuffer (buffer : List Nat) : Nat → Nat → List (List Nat) → ScanResult
  | 0, searchStart, pages =>
    { buffer := buffer, searchStart := searchStart, pages := pages, stopped := false }
  | fuel + 1, searchStart, pages =>
    match findAt buffer docStart searchStart with
    | none => { buffer := [], searchStart := searchStart, pages := pages, stopped := false }
    | some startPos =>
      match findAt buffer docEnd startPos with
      | none =>
        { buffer := if startPos > 0 then buffer.drop startPos else buffer
          searchStart := searchStart, pages := pages, stopped := false }
      | some endPos =>
        let doc := substr buffer startPos (endPos - startPos + docEnd.length)
        let pages1 := pages ++ [doc]
        if pages1.length ≥ MAX_DOCS then
          { buffer := buffer, searchStart := searchStart, pages := pages1, stopped := true }
        else scanBuffer buffer fuel (endPos + docEnd.length) pages1

/-- What `parseFile` carries from one read to the next: `buffer`, `_pages`,
and whether it has returned at the document limit. -/
structure ParseState where
  buffer : List Nat
  pages : List (List Nat)
  stopped : Bool

/-- The body of the loop `while (ifs.read(chunk, CHUNK_SIZE) || ...)` for the
bytes `chunk` of one read: append, scan, and the statement
`if (searchStart > 0 && searchStart < buffer.length()) ... else if ...` after
the scan. -/
def parseRound (st : ParseState) (chunk : List Nat) : ParseState :=
  if st.stopped then st
  else
    let buffer := st.buffer ++ chunk
    let r := scanBuffer buffer (buffer.length + 1) 0 st.pages
    if r.stopped then { buffer := r.buffer, pages := r.pages, stopped := true }
    else
      { buffer :=
          if r.searchStart > 0 ∧ r.searchStart < r.buffer.length then
            r.buffer.drop r.searchStart
          else if r.searchStart ≥ r.buffer.length then []
          else r.buffer
        pages := r.pages
        stopped := false }

/-- The read loop of `parseFile` on the chunks the reads deliver, and the
fallback after it: when no document was pushed, the whole content, if it is
not empty, is pushed as one document.  The result is `_pages`. -/
def parseChunks (pages0 : List (List Nat)) (chunks : List (List Nat)) : List (List Nat) :=
  let st := chunks.foldl parseRound { buffer := [], pages := pages0, stopped := false }
  if st.stopped then st.pages
  else if st.pages.length = pages0.length then
    (if chunks.flatten ≠ [] then st.pages ++ [chunks.flatten] else st.pages)
  else st.pages

/-- The chunks the reads `ifs.read(chunk, chunkSize)` deliver of a file: pieces
of `chunkSize` bytes, the last one shorter when the file ends first
(`chunkSize` is at least 1). -/
def readChunks (chunkSize : Nat) : Nat → List Nat → List (List Nat)
  | 0, _ => []
  | fuel + 1, rest =>
    if rest = [] then []
    else rest.take chunkSize :: readChunks chunkSize fuel (rest.drop chunkSize)

/-- The method `PageLib::parseFile` on the file at `filePath`, `none` when it
cannot be opened, with `_pages = pages0` at the call. -/
def PageLib.parseFile (pages0 : List (List Nat)) (file : Option (List Nat)) :
    List (List Nat) :=
  match file with
  | none => pages0
  | some content => parseChunks pages0 (readChunks CHUNK_SIZE content.length content)

/-- The record with the body `body`: `<doc>`, the body, `</doc>`. -/
def docRecord (body : List Nat) : List Nat :=
  docStart ++ (body ++ docEnd)

/-! ## Map primitives: basic facts -/

theorem findPostings_pushItem {K : Type} (inv : List (String × List (InvertIndexItem K)))
    (w : String) (it : InvertIndexItem K) (w0 : String) :
    findPostings (pushItem inv w it) w0 =
      if w = w0 then some ((findPostings inv w0).getD [] ++ [it]) else findPostings inv w0 := by
  induction inv with
  | nil =>
    by_cases h : w = w0 <;> simp [pushItem, findPostings, h]
  | cons e rest ih =>
    obtain ⟨k, l⟩ := e
    by_cases hk : k = w
    · subst hk
      by_cases h : k = w0 <;> simp [pushItem, findPostings, h]
    · by_cases h : w = w0
      · subst h
        simp [pushItem, findPostings, hk, ih]
      · by_cases hk0 : k = w0
        · subst hk0
          simp [pushItem, findPostings, hk, h]
        · simp [pushItem, findPostings, hk, hk0, ih, h]

theorem keys_pushItem {K : Type} (inv : List (String × List (InvertIndexItem K)))
    (w : String) (it : InvertIndexItem K) :
    (pushItem inv w it).map Prod.fst =
      if w ∈ inv.map Prod.fst then inv.map Prod.fst else inv.map Prod.fst ++ [w] := by
  induction inv with
  | nil => simp [pushItem]
  | cons e rest ih =>
    obtain ⟨k, l⟩ := e
    by_cases hk : k = w
    · subst hk
      simp [pushItem]
    · have hk2 : ¬ w = k := fun h => hk h.symm
      by_cases hm : w ∈ rest.map Prod.fst
      · simp only [pushItem, hk, if_false, List.map_cons, ih, hm, if_true, List.mem_cons, or_true]
      · simp only [pushItem, hk, if_false, List.map_cons, ih, hm, List.mem_cons, hk2, or_self,
          List.cons_append]

theorem nodup_keys_pushItem {K : Type} (inv : List (String × List (InvertIndexItem K)))
    (w : String) (it : InvertIndexItem K) (h : (inv.map Prod.fst).Nodup) :
    ((pushItem inv w it).map Prod.fst).Nodup := by
  rw [keys_pushItem]
  by_cases hm : w ∈ inv.map Prod.fst
  · simp only [hm, if_true]; exact h
  · simp only [hm, if_false]
    exact List.Nodup.append h (List.nodup_singleton w) (by simpa using hm)

theorem findPostings_of_mem {K : Type} (inv : List (String × List (InvertIndexItem K)))
    (h : (inv.map Prod.fst).Nodup) (e : String × List (InvertIndexItem K)) (he : e ∈ inv) :
    findPostings inv e.1 = some e.2 := by
  induction inv with
  | nil => cases he
  | cons e0 rest ih =>
    obtain ⟨k, l⟩ := e0
    simp only [List.map_cons, List.nodup_cons] at h
    rcases List.mem_cons.1 he with rfl | hmem
    · simp [findPostings]
    · have hne : ¬ k = e.1 := by
        intro hk
        exact h.1 (hk ▸ List.mem_map_of_mem Prod.fst hmem)
      simp only [findPostings, hne, if_false]
      exact ih h.2 hmem

theorem findPostings_mem {K : Type} (inv : List (String × List (InvertIndexItem K)))
    (w : String) (l : List (InvertIndexItem K)) (h : findPostings inv w = some l) :
    (w, l) ∈ inv := by
  induction inv with
  | nil => simp [findPostings] at h
  | cons e0 rest ih =>
    obtain ⟨k, l0⟩ := e0
    by_cases hk : k = w
    · simp only [findPostings, hk, if_true, Option.some.injEq] at h
      subst h; subst hk
      exact List.mem_cons_self _ _
    · simp only [findPostings, hk, if_false] at h
      exact List.mem_cons_of_mem _ (ih h)

theorem findPostings_map_sort {K : Type} [LinearOrderedField K]
    (inv : List (String × List (InvertIndexItem K))) (w : String) :
    findPostings (inv.map (fun e => (e.1, sortPostings e.2))) w =
      (findPostings inv w).map sortPostings := by
  induction inv with
  | nil => simp [findPostings]
  | cons e0 rest ih =>
    obtain ⟨k, l0⟩ := e0
    by_cases hk : k = w <;> simp [findPostings, hk, ih]

theorem lookupInt_incrWord (m : List (String × Int)) (w w0 : String) :
    lookupInt (incrWord m w) w0 = lookupInt m w0 + (if w = w0 then 1 else 0) := by
  induction m with
  | nil => by_cases h : w = w0 <;> simp [incrWord, lookupInt, h]
  | cons e rest ih =>
    obtain ⟨k, v⟩ := e
    by_cases hk : k = w
    · subst hk
      by_cases h : k = w0 <;> simp [incrWord, lookupInt, h]
    · by_cases hk0 : k = w0
      · subst hk0
        simp [incrWord, lookupInt, hk, Ne.symm hk]
      · simp [incrWord, lookupInt, hk, hk0, ih]

theorem countTerms_fold_fst (wm : List (String × Int)) (acc : Int × List (String × Int)) :
    (wm.foldl (fun acc pair => (acc.1 + pair.2, incrWord acc.2 pair.1)) acc).1 =
      acc.1 + (wm.map Prod.snd).sum := by
  induction wm generalizing acc with
  | nil => simp
  | cons e rest ih => simp [ih, add_assoc]

theorem countTerms_fold_snd (wm : List (String × Int)) (acc : Int × List (String × Int))
    (w : String) :
    lookupInt (wm.foldl (fun acc pair => (acc.1 + pair.2, incrWord acc.2 pair.1)) acc).2 w =
      lookupInt acc.2 w + ((wm.map Prod.fst).count w : Int) := by
  induction wm generalizing acc with
  | nil => simp
  | cons e rest ih =>
    simp only [List.foldl_cons, ih, lookupInt_incrWord, List.map_cons, List.count_cons]
    by_cases h : e.1 = w <;> simp [h] <;> omega

theorem count_keys_of_nodup (p : WebPage) (w : String) :
    ((p.wordsMap.map Prod.fst).count w : Int) =
      if w ∈ p.wordsMap.map Prod.fst then 1 else 0 := by
  by_cases h : w ∈ p.wordsMap.map Prod.fst
  · rw [if_pos h, List.count_eq_one_of_mem p.keys_nodup h]; rfl
  · rw [if_neg h, List.count_eq_zero_of_not_mem h]; rfl

theorem lookupInt_assignLen (m : List (Nat × Int)) (k : Nat) (v : Int) (k0 : Nat) :
    lookupInt (assignLen m k v) k0 = if k = k0 then v else lookupInt m k0 := by
  induction m with
  | nil => by_cases h : k = k0 <;> simp [assignLen, lookupInt, h]
  | cons e rest ih =>
    obtain ⟨k1, v1⟩ := e
    by_cases hk : k = k1
    · subst hk
      by_cases h : k = k0 <;> simp [assignLen, lookupInt, h]
    · by_cases hlt : k < k1
      · by_cases h : k = k0
        · subst h
          simp [assignLen, lookupInt, hk, hlt]
        · simp [assignLen, lookupInt, hk, hlt, h]
      · by_cases h : k = k0
        · subst h
          simp [assignLen, lookupInt, hk, hlt, ih, Ne.symm hk]
        · by_cases h1 : k1 = k0
          · subst h1
            simp [assignLen, lookupInt, hk, hlt, h]
          · simp [assignLen, lookupInt, hk, hlt, ih, h, h1]

theorem mem_keys_assignLen (m : List (Nat × Int)) (k : Nat) (v : Int) (x : Nat) :
    x ∈ (assignLen m k v).map Prod.fst ↔ x = k ∨ x ∈ m.map Prod.fst := by
  induction m with
  | nil => simp [assignLen]
  | cons e rest ih =>
    obtain ⟨k1, v1⟩ := e
    by_cases hk : k = k1
    · subst hk
      simp [assignLen]
    · by_cases hlt : k < k1
      · simp [assignLen, hk, hlt]
      · simp only [assignLen, hk, hlt, if_false, List.map_cons, List.mem_cons, ih]
        tauto

theorem sorted_keys_assignLen (m : List (Nat × Int)) (k : Nat) (v : Int)
    (h : (m.map Prod.fst).Sorted (· < ·)) :
    ((assignLen m k v).map Prod.fst).Sorted (· < ·) := by
  induction m with
  | nil => simp [assignLen]
  | cons e rest ih =>
    obtain ⟨k1, v1⟩ := e
    simp only [List.map_cons, List.sorted_cons] at h
    by_cases hk : k = k1
    · subst hk
      simp only [assignLen, if_true, List.map_cons, List.sorted_cons]
      exact h
    · by_cases hlt : k < k1
      · simp only [assignLen, hk, hlt, if_false, if_true, List.map_cons, List.sorted_cons,
          List.mem_cons]
        refine ⟨?_, h⟩
        rintro b (rfl | hb)
        · exact hlt
        · exact lt_trans hlt (h.1 b hb)
      · simp only [assignLen, hk, hlt, if_false, List.map_cons, List.sorted_cons]
        refine ⟨?_, ih h.2⟩
        intro b hb
        rcases (mem_keys_assignLen rest k v b).1 hb with rfl | hb
        · omega
        · exact h.1 b hb

theorem perm_assignLen (m : List (Nat × Int)) (k : Nat) (v : Int)
    (h : k ∉ m.map Prod.fst) : (assignLen m k v).Perm ((k, v) :: m) := by
  induction m with
  | nil => simp [assignLen]
  | cons e rest ih =>
    obtain ⟨k1, v1⟩ := e
    simp only [List.map_cons, List.mem_cons, not_or] at h
    by_cases hlt : k < k1
    · simp [assignLen, h.1, hlt]
    · simp only [assignLen, h.1, hlt, if_false]
      exact ((ih h.2).cons (k1, v1)).trans (List.Perm.swap _ _ _)

theorem le_maxDocId (m : List (Nat × Int)) (h : (m.map Prod.fst).Sorted (· < ·))
    (k : Nat) (hk : k ∈ m.map Prod.fst) : k ≤ maxDocId m := by
  induction m generalizing k with
  | nil => simp at hk
  | cons e rest ih =>
    simp only [List.map_cons, List.sorted_cons] at h
    cases rest with
    | nil =>
      simp only [List.map_cons, List.map_nil, List.mem_singleton] at hk
      simp [maxDocId, hk]
    | cons e1 rest1 =>
      have hlast : maxDocId (e :: e1 :: rest1) = maxDocId (e1 :: rest1) := by
        simp [maxDocId, List.getLast?_cons_cons]
      rw [hlast]
      rcases List.mem_cons.1 hk with rfl | hk1
      · have h1 := h.1 e1.1 (by simp)
        have h2 := ih h.2 e1.1 (by simp)
        omega
      · exact ih h.2 k hk1

/-! ## The first pass of `build` -/

theorem countTerms_fst (p : WebPage) (df : List (String × Int)) :
    (countTerms p.wordsMap df).1 = p.docLen := by
  simp [countTerms, countTerms_fold_fst, WebPage.docLen]

theorem countTerms_snd (p : WebPage) (df : List (String × Int)) (w : String) :
    lookupInt (countTerms p.wordsMap df).2 w =
      lookupInt df w + (if w ∈ p.wordsMap.map Prod.fst then 1 else 0) := by
  rw [countTerms, countTerms_fold_snd, count_keys_of_nodup]

theorem dfStep_fold_docFreq (pages : List WebPage) (st : DfState) (w : String) :
    lookupInt (pages.foldl dfStep st).docFreq w =
      lookupInt st.docFreq w + (docFreqOf pages w : Int) := by
  induction pages generalizing st with
  | nil => simp [docFreqOf]
  | cons p rest ih =>
    rw [List.foldl_cons, ih]
    simp only [dfStep, countTerms_snd, docFreqOf, List.countP_cons]
    by_cases h : w ∈ p.wordsMap.map Prod.fst
    · simp only [h, if_true, decide_True]; push_cast; ring
    · simp only [h, if_false, decide_False]; push_cast; simp

theorem dfStep_fold_totalLen (pages : List WebPage) (st : DfState) :
    (pages.foldl dfStep st).totalLen = st.totalLen + (pages.map WebPage.docLen).sum := by
  induction pages generalizing st with
  | nil => simp
  | cons p rest ih =>
    rw [List.foldl_cons, ih]
    simp [dfStep, countTerms_fst, add_assoc]

theorem dfStep_fold_docLens_other (pages : List WebPage) (st : DfState) (d : Nat)
    (h : d ∉ pages.map (fun p => p.docId)) :
    lookupInt (pages.foldl dfStep st).docLens d = lookupInt st.docLens d := by
  induction pages generalizing st with
  | nil => simp
  | cons p rest ih =>
    simp only [List.map_cons, List.mem_cons, not_or] at h
    rw [List.foldl_cons, ih _ h.2]
    simp only [dfStep, lookupInt_assignLen]
    rw [if_neg (fun hh => h.1 hh.symm)]

theorem dfStep_fold_docLens (pages : List WebPage) (st : DfState)
    (hnd : (pages.map (fun p => p.docId)).Nodup) (p : WebPage) (hp : p ∈ pages) :
    lookupInt (pages.foldl dfStep st).docLens p.docId = p.docLen := by
  induction pages generalizing st with
  | nil => cases hp
  | cons q rest ih =>
    simp only [List.map_cons, List.nodup_cons] at hnd
    rw [List.foldl_cons]
    rcases List.mem_cons.1 hp with rfl | hmem
    · rw [dfStep_fold_docLens_other _ _ _ hnd.1]
      simp [dfStep, lookupInt_assignLen, countTerms_fst]
    · exact ih _ hnd.2 hmem

theorem dfStep_fold_sorted (pages : List WebPage) (st : DfState)
    (h : (st.docLens.map Prod.fst).Sorted (· < ·)) :
    ((pages.foldl dfStep st).docLens.map Prod.fst).Sorted (· < ·) := by
  induction pages generalizing st with
  | nil => simpa using h
  | cons q rest ih =>
    rw [List.foldl_cons]
    exact ih _ (sorted_keys_assignLen _ _ _ h)

theorem dfStep_fold_keys (pages : List WebPage) (st : DfState) (x : Nat) :
    x ∈ (pages.foldl dfStep st).docLens.map Prod.fst ↔
      x ∈ pages.map (fun p => p.docId) ∨ x ∈ st.docLens.map Prod.fst := by
  induction pages generalizing st with
  | nil => simp
  | cons q rest ih =>
    rw [List.foldl_cons, ih]
    simp only [dfStep, mem_keys_assignLen, List.map_cons, List.mem_cons]
    tauto

theorem dfStep_fold_perm (pages : List WebPage) (st : DfState)
    (hnd : (pages.map (fun p => p.docId)).Nodup)
    (hdis : ∀ p ∈ pages, p.docId ∉ st.docLens.map Prod.fst) :
    (pages.foldl dfStep st).docLens.Perm
      ((pages.map (fun p => (p.docId, p.docLen))).reverse ++ st.docLens) := by
  induction pages generalizing st with
  | nil => simp
  | cons q rest ih =>
    simp only [List.map_cons, List.nodup_cons] at hnd
    rw [List.foldl_cons]
    have hq : q.docId ∉ st.docLens.map Prod.fst := hdis q (List.mem_cons_self _ _)
    have hstep : (dfStep st q).docLens.Perm ((q.docId, q.docLen) :: st.docLens) := by
      simp only [dfStep, countTerms_fst]
      exact perm_assignLen _ _ _ hq
    have hdis2 : ∀ p ∈ rest, p.docId ∉ (dfStep st q).docLens.map Prod.fst := by
      intro p hp hmem
      simp only [dfStep, mem_keys_assignLen] at hmem
      rcases hmem with heq | hmem
      · exact hnd.1 (heq ▸ List.mem_map_of_mem (fun p => p.docId) hp)
      · exact hdis p (List.mem_cons_of_mem _ hp) hmem
    refine (ih _ hnd.2 hdis2).trans ?_
    simp only [List.map_cons, List.reverse_cons, List.append_assoc, List.singleton_append]
    exact List.Perm.append_left _ hstep

/-! ## The second pass of `build` -/

theorem findPostings_foldl_push {K : Type} (mk : String × Int → InvertIndexItem K)
    (es : List (String × Int)) (inv : List (String × List (InvertIndexItem K))) (w : String) :
    (findPostings (es.foldl (fun acc pair => pushItem acc pair.1 (mk pair)) inv) w).getD [] =
      (findPostings inv w).getD [] ++ (es.filter (fun e => decide (e.1 = w))).map mk := by
  induction es generalizing inv with
  | nil => simp
  | cons e rest ih =>
    rw [List.foldl_cons, ih, findPostings_pushItem]
    by_cases h : e.1 = w
    · simp [h, List.filter_cons]
    · simp [h, List.filter_cons]

theorem nodup_keys_foldl_push {K : Type} (mk : String × Int → InvertIndexItem K)
    (es : List (String × Int)) (inv : List (String × List (InvertIndexItem K)))
    (h : (inv.map Prod.fst).Nodup) :
    ((es.foldl (fun acc pair => pushItem acc pair.1 (mk pair)) inv).map Prod.fst).Nodup := by
  induction es generalizing inv with
  | nil => simpa using h
  | cons e rest ih =>
    rw [List.foldl_cons]
    exact ih _ (nodup_keys_pushItem _ _ _ h)

theorem filter_key_of_nodup (m : List (String × Int)) (hnd : (m.map Prod.fst).Nodup)
    (w : String) :
    m.filter (fun e => decide (e.1 = w)) =
      if w ∈ m.map Prod.fst then [(w, lookupInt m w)] else [] := by
  induction m with
  | nil => simp
  | cons e rest ih =>
    obtain ⟨k, v⟩ := e
    simp only [List.map_cons, List.nodup_cons] at hnd
    by_cases hk : k = w
    · subst hk
      have hnot : ¬ k ∈ rest.map Prod.fst := hnd.1
      have hrest : rest.filter (fun e => decide (e.1 = k)) = [] := by
        rw [ih hnd.2, if_neg hnot]
      simp [List.filter_cons, lookupInt, hrest]
    · have hk2 : ¬ w = k := fun h => hk h.symm
      simp only [List.filter_cons, hk, decide_False, Bool.false_eq_true, if_false, ih hnd.2,
        List.map_cons, List.mem_cons, hk2, false_or, lookupInt]

theorem findPostings_postStep {K : Type} [LinearOrderedField K] (ln : K → K) (N : Int)
    (avg : K) (df : List (String × Int)) (dl : List (Nat × Int))
    (inv : List (String × List (InvertIndexItem K))) (p : WebPage) (w : String) :
    (findPostings (postStep ln N avg df dl inv p) w).getD [] =
      (findPostings inv w).getD [] ++
        (if w ∈ p.wordsMap.map Prod.fst then
          [{ weight := calculateBM25 ln N avg (p.tf w) (lookupInt dl p.docId) (lookupInt df w)
             docId := p.docId
             termFreq := p.tf w }]
        else []) := by
  unfold postStep
  rw [findPostings_foldl_push, filter_key_of_nodup _ p.keys_nodup]
  by_cases h : w ∈ p.wordsMap.map Prod.fst
  · simp only [h, if_true, List.map_cons, List.map_nil, WebPage.tf]
  · simp only [h, if_false, List.map_nil]

theorem nodup_keys_postStep {K : Type} [LinearOrderedField K] (ln : K → K) (N : Int)
    (avg : K) (df : List (String × Int)) (dl : List (Nat × Int))
    (inv : List (String × List (InvertIndexItem K))) (p : WebPage)
    (h : (inv.map Prod.fst).Nodup) :
    ((postStep ln N avg df dl inv p).map Prod.fst).Nodup := by
  unfold postStep
  exact nodup_keys_foldl_push _ _ _ h

theorem findPostings_foldl_postStep {K : Type} [LinearOrderedField K] (ln : K → K) (N : Int)
    (avg : K) (df : List (String × Int)) (dl : List (Nat × Int)) (pages : List WebPage)
    (inv : List (String × List (InvertIndexItem K))) (w : String) :
    (findPostings (pages.foldl (postStep ln N avg df dl) inv) w).getD [] =
      (findPostings inv w).getD [] ++
        (pages.filter (fun p => decide (w ∈ p.wordsMap.map Prod.fst))).map
          (fun p =>
            { weight := calculateBM25 ln N avg (p.tf w) (lookupInt dl p.docId) (lookupInt df w)
              docId := p.docId
              termFreq := p.tf w }) := by
  induction pages generalizing inv with
  | nil => simp
  | cons p rest ih =>
    rw [List.foldl_cons, ih, findPostings_postStep]
    by_cases h : w ∈ p.wordsMap.map Prod.fst
    · simp [h, List.filter_cons]
    · simp [h, List.filter_cons]

theorem nodup_keys_foldl_postStep {K : Type} [LinearOrderedField K] (ln : K → K) (N : Int)
    (avg : K) (df : List (String × Int)) (dl : List (Nat × Int)) (pages : List WebPage)
    (inv : List (String × List (InvertIndexItem K))) (h : (inv.map Prod.fst).Nodup) :
    ((pages.foldl (postStep ln N avg df dl) inv).map Prod.fst).Nodup := by
  induction pages generalizing inv with
  | nil => simpa using h
  | cons p rest ih =>
    rw [List.foldl_cons]
    exact ih _ (nodup_keys_postStep ln N avg df dl inv p h)

/-! ## The code's weight is the weight of §4.6 -/

theorem calculateIDF_eq_idfSpec {K : Type} [LinearOrderedField K] (ln : K → K) (N df : Nat)
    (hdf : df ≠ 0) : calculateIDF ln (df : Int) (N : Int) = idfSpec ln N df := by
  unfold calculateIDF idfSpec
  have h0 : ¬ ((df : Int) = 0) := by exact_mod_cast hdf
  rw [if_neg h0]
  simp only [Int.cast_sub, Int.cast_natCast]
  by_cases hpos : ln (((N : K) - (df : K) + 1 / 2) / ((df : K) + 1 / 2) + 1) > 0
  · rw [if_pos hpos, max_eq_right (le_of_lt hpos)]
  · rw [if_neg hpos, max_eq_left (not_lt.1 hpos)]

theorem calculateBM25_eq {K : Type} [LinearOrderedField K] (ln : K → K) (N df : Nat)
    (hdf : df ≠ 0) (avg : K) (tf docLen : Int) :
    calculateBM25 ln (N : Int) avg tf docLen (df : Int) =
      idfSpec ln N df * normSpec tf docLen avg := by
  unfold calculateBM25
  simp only [calculateIDF_eq_idfSpec ln N df hdf, normSpec, mul_div_assoc]

theorem docFreqOf_pos (pages : List WebPage) (p : WebPage) (hp : p ∈ pages) (w : String)
    (hw : w ∈ p.wordsMap.map Prod.fst) : 0 < docFreqOf pages w := by
  unfold docFreqOf
  exact List.countP_pos_iff.2 ⟨p, hp, by simpa using hw⟩

theorem docFreqOf_le (pages : List WebPage) (w : String) : docFreqOf pages w ≤ pages.length :=
  List.countP_le_length _

/-! ## The index `build` produces -/

theorem sortPostings_nil {K : Type} [LinearOrderedField K] :
    sortPostings ([] : List (InvertIndexItem K)) = [] := rfl

theorem getD_map_sortPostings {K : Type} [LinearOrderedField K]
    (o : Option (List (InvertIndexItem K))) :
    (o.map sortPostings).getD [] = sortPostings (o.getD []) := by
  cases o <;> simp [sortPostings_nil]

theorem build_nil {K : Type} [LinearOrderedField K] (ln : K → K) (idx : InvertIndex K) :
    build ln idx [] = { idx with totalDocs := 0 } := by
  simp [build]

theorem build_cons {K : Type} [LinearOrderedField K] (ln : K → K) (idx : InvertIndex K)
    (p : WebPage) (rest : List WebPage) :
    build ln idx (p :: rest) =
      (let pages := p :: rest
       let totalDocs : Int := (pages.length : Int)
       let st := pages.foldl dfStep { docFreq := [], docLens := idx.docLens, totalLen := 0 }
       let avgDocLen : K := (st.totalLen : K) / (totalDocs : K)
       let inv :=
         pages.foldl (postStep ln totalDocs avgDocLen st.docFreq st.docLens) idx.invertIndex
       { invertIndex := inv.map (fun e => (e.1, sortPostings e.2))
         docLens := st.docLens
         totalDocs := totalDocs
         avgDocLen := avgDocLen }) := by
  have h : ¬ (((p :: rest).length : Nat) : Int) = 0 := by
    simp only [List.length_cons]; omega
  simp only [build, h, if_false]

theorem build_totalDocs {K : Type} [LinearOrderedField K] (ln : K → K) (idx : InvertIndex K)
    (pages : List WebPage) : (build ln idx pages).totalDocs = (pages.length : Int) := by
  cases pages with
  | nil => simp [build_nil]
  | cons p rest => rw [build_cons]

theorem build_avgDocLen {K : Type} [LinearOrderedField K] (ln : K → K) (idx : InvertIndex K)
    (pages : List WebPage) (h : pages ≠ []) :
    (build ln idx pages).avgDocLen = avgDocLenSpec pages := by
  cases pages with
  | nil => exact absurd rfl h
  | cons p rest =>
    rw [build_cons]
    simp only [dfStep_fold_totalLen, avgDocLenSpec, zero_add, Int.cast_natCast]

theorem build_docLens {K : Type} [LinearOrderedField K] (ln : K → K) (idx : InvertIndex K)
    (pages : List WebPage) (h : pages ≠ []) :
    (build ln idx pages).docLens =
      (pages.foldl dfStep { docFreq := [], docLens := idx.docLens, totalLen := 0 }).docLens := by
  cases pages with
  | nil => exact absurd rfl h
  | cons p rest => rw [build_cons]

theorem build_item_eq {K : Type} [LinearOrderedField K] (ln : K → K) (pages : List WebPage)
    (dl0 : List (Nat × Int)) (hnd : (pages.map (fun p => p.docId)).Nodup) (w : String)
    (p : WebPage) (hp : p ∈ pages) (hw : w ∈ p.wordsMap.map Prod.fst) :
    let st := pages.foldl dfStep { docFreq := [], docLens := dl0, totalLen := 0 }
    ({ weight := calculateBM25 ln (pages.length : Int)
          ((st.totalLen : K) / ((pages.length : Int) : K)) (p.tf w)
          (lookupInt st.docLens p.docId) (lookupInt st.docFreq w)
       docId := p.docId
       termFreq := p.tf w } : InvertIndexItem K) = specItem ln pages w p := by
  intro st
  have h1 : lookupInt st.docLens p.docId = p.docLen := dfStep_fold_docLens _ _ hnd p hp
  have h2 : lookupInt st.docFreq w = (docFreqOf pages w : Int) := by
    simp only [st, dfStep_fold_docFreq, lookupInt, zero_add]
  have h3 : st.totalLen = (pages.map WebPage.docLen).sum := by
    simp only [st, dfStep_fold_totalLen, zero_add]
  have hdf : docFreqOf pages w ≠ 0 := Nat.pos_iff_ne_zero.1 (docFreqOf_pos pages p hp w hw)
  rw [h1, h2, h3, calculateBM25_eq ln _ _ hdf]
  simp only [specItem, weightSpec, avgDocLenSpec, Int.cast_natCast]

theorem build_postings {K : Type} [LinearOrderedField K] (ln : K → K) (pages : List WebPage)
    (hnd : (pages.map (fun p => p.docId)).Nodup) (w : String) :
    postings (build ln InvertIndex.new pages) w = sortPostings (rawPostings ln pages w) := by
  cases pages with
  | nil => simp [build_nil, postings, InvertIndex.new, findPostings, rawPostings, sortPostings_nil]
  | cons p rest =>
    rw [build_cons]
    simp only [postings, findPostings_map_sort, getD_map_sortPostings,
      findPostings_foldl_postStep, InvertIndex.new, findPostings, Option.getD_none,
      List.nil_append, rawPostings]
    congr 1
    apply List.map_congr_left
    intro q hq
    rw [List.mem_filter] at hq
    exact build_item_eq ln (p :: rest) [] hnd w q hq.1 (by simpa using hq.2)

theorem build_keys_nodup {K : Type} [LinearOrderedField K] (ln : K → K)
    (pages : List WebPage) :
    ((build ln (InvertIndex.new : InvertIndex K) pages).invertIndex.map Prod.fst).Nodup := by
  cases pages with
  | nil => simp [build_nil, InvertIndex.new]
  | cons p rest =>
    rw [build_cons]
    simp only [List.map_map]
    have h := nodup_keys_foldl_postStep ln ((p :: rest).length : Int)
      ((((p :: rest).foldl dfStep
        { docFreq := [], docLens := (InvertIndex.new : InvertIndex K).docLens,
          totalLen := 0 }).totalLen : K) / (((p :: rest).length : Int) : K))
      ((p :: rest).foldl dfStep
        { docFreq := [], docLens := (InvertIndex.new : InvertIndex K).docLens,
          totalLen := 0 }).docFreq
      ((p :: rest).foldl dfStep
        { docFreq := [], docLens := (InvertIndex.new : InvertIndex K).docLens,
          totalLen := 0 }).docLens
      (p :: rest) (InvertIndex.new : InvertIndex K).invertIndex (by simp [InvertIndex.new])
    exact h

theorem build_mem_postings {K : Type} [LinearOrderedField K] (ln : K → K)
    (pages : List WebPage) (e : String × List (InvertIndexItem K))
    (he : e ∈ (build ln InvertIndex.new pages).invertIndex) :
    e.2 = postings (build ln InvertIndex.new pages) e.1 := by
  have h := findPostings_of_mem _ (build_keys_nodup ln pages) e he
  simp [postings, h]

theorem sortPostings_sorted {K : Type} [LinearOrderedField K] (l : List (InvertIndexItem K)) :
    (sortPostings l).Sorted (fun a b => a.weight ≥ b.weight) := by
  haveI : IsTotal (InvertIndexItem K) (fun a b => a.weight ≥ b.weight) :=
    ⟨fun a b => le_total b.weight a.weight⟩
  haveI : IsTrans (InvertIndexItem K) (fun a b => a.weight ≥ b.weight) :=
    ⟨fun _ _ _ hab hbc => le_trans hbc hab⟩
  exact List.sorted_insertionSort _ l

theorem sortPostings_perm {K : Type} [LinearOrderedField K] (l : List (InvertIndexItem K)) :
    (sortPostings l).Perm l :=
  List.perm_insertionSort _ l

theorem mem_build_postings {K : Type} [LinearOrderedField K] (ln : K → K)
    (pages : List WebPage) (hnd : (pages.map (fun p => p.docId)).Nodup) (w : String)
    (e : InvertIndexItem K) :
    e ∈ postings (build ln InvertIndex.new pages) w ↔
      ∃ p ∈ pages, w ∈ p.wordsMap.map Prod.fst ∧ e = specItem ln pages w p := by
  rw [build_postings ln pages hnd, (sortPostings_perm _).mem_iff, rawPostings]
  simp only [List.mem_map, List.mem_filter, decide_eq_true_eq]
  constructor
  · rintro ⟨p, ⟨hp, hw⟩, rfl⟩
    exact ⟨p, hp, hw, rfl⟩
  · rintro ⟨p, hp, hw, rfl⟩
    exact ⟨p, ⟨hp, hw⟩, rfl⟩

theorem nodup_docIds_build_postings {K : Type} [LinearOrderedField K] (ln : K → K)
    (pages : List WebPage) (hnd : (pages.map (fun p => p.docId)).Nodup) (w : String) :
    ((postings (build ln InvertIndex.new pages) w).map (fun it => it.docId)).Nodup := by
  rw [build_postings ln pages hnd]
  refine (((sortPostings_perm (rawPostings ln pages w)).map _).nodup_iff).2 ?_
  have hsub : ((rawPostings ln pages w).map (fun it => it.docId)).Sublist
      (pages.map (fun p => p.docId)) := by
    simp only [rawPostings, List.map_map]
    exact (List.filter_sublist pages).map _
  exact hnd.sublist hsub

/-- C1. For pages with pairwise distinct docIds, every posting list of the
index that `build` produces from a fresh index is sorted by weight in
non-increasing order and holds no two entries with the same docId. -/
theorem build_postings_sorted_nodup {K : Type} [LinearOrderedField K] (ln : K → K)
    (pages : List WebPage) (hnd : (pages.map (fun p => p.docId)).Nodup) :
    ∀ e ∈ (build ln InvertIndex.new pages).invertIndex,
      e.2.Sorted (fun a b => a.weight ≥ b.weight) ∧ (e.2.map (fun it => it.docId)).Nodup := by
  intro e he
  rw [build_mem_postings ln pages e he]
  refine ⟨?_, nodup_docIds_build_postings ln pages hnd e.1⟩
  rw [build_postings ln pages hnd]
  exact sortPostings_sorted _

theorem build_postings_sorted_nodup_witness :
    (seedCorpus.map (fun p => p.docId)).Nodup ∧
      ∀ e ∈ (build Real.log InvertIndex.new seedCorpus).invertIndex,
        e.2.Sorted (fun a b => a.weight ≥ b.weight) ∧
          (e.2.map (fun it => it.docId)).Nodup :=
  ⟨by decide, build_postings_sorted_nodup Real.log seedCorpus (by decide)⟩

theorem weightSpec_unfold {K : Type} [LinearOrderedField K] (ln : K → K)
    (pages : List WebPage) (hne : pages ≠ []) (p : WebPage) (t : String) :
    weightSpec ln pages p t =
      max 0 (ln (((pages.length : K) - (docFreqOf pages t : K) + 1 / 2) /
          ((docFreqOf pages t : K) + 1 / 2) + 1)) *
        (((p.tf t : Int) : K) * (6 / 5 + 1) /
          (((p.tf t : Int) : K) + 6 / 5 * (1 - 3 / 4 + 3 / 4 * ((p.docLen : Int) : K) /
            (build ln InvertIndex.new pages).avgDocLen))) := by
  rw [build_avgDocLen ln _ pages hne]
  rfl

/-- C5. For pages with distinct docIds, the entries `build` creates for term `t`
are exactly one per page `p` containing `t`; such an entry carries
`termFreq = tf(t,p)` and `weight = idf * norm` with
`idf = max(0, ln((N - df + 0.5)/(df + 0.5) + 1))`,
`norm = tf*(K1+1) / (tf + K1*(1 - B + B*docLen(p)/avgDocLen))`, `K1 = 1.2`,
`B = 0.75`, `N` the number of pages and `df` the number of pages containing
`t`, in exact arithmetic. -/
theorem build_entry_bm25 {K : Type} [LinearOrderedField K] (ln : K → K)
    (pages : List WebPage) (hnd : (pages.map (fun p => p.docId)).Nodup) (t : String) :
    (∀ e ∈ postings (build ln InvertIndex.new pages) t,
      ∃ p ∈ pages, t ∈ p.wordsMap.map Prod.fst ∧ e.docId = p.docId ∧
        e.termFreq = p.tf t ∧
        e.weight =
          max 0 (ln (((pages.length : K) - (docFreqOf pages t : K) + 1 / 2) /
              ((docFreqOf pages t : K) + 1 / 2) + 1)) *
            (((p.tf t : Int) : K) * (6 / 5 + 1) /
              (((p.tf t : Int) : K) + 6 / 5 * (1 - 3 / 4 + 3 / 4 * ((p.docLen : Int) : K) /
                (build ln InvertIndex.new pages).avgDocLen)))) ∧
    (∀ p ∈ pages, t ∈ p.wordsMap.map Prod.fst →
      ∃ e ∈ postings (build ln InvertIndex.new pages) t, e.docId = p.docId) := by
  constructor
  · intro e he
    obtain ⟨p, hp, hw, rfl⟩ := (mem_build_postings ln pages hnd t e).1 he
    refine ⟨p, hp, hw, rfl, rfl, ?_⟩
    exact weightSpec_unfold ln pages (List.ne_nil_of_mem hp) p t
  · intro p hp hw
    exact ⟨specItem ln pages t p, (mem_build_postings ln pages hnd t _).2 ⟨p, hp, hw, rfl⟩, rfl⟩

theorem build_entry_bm25_witness :
    (seedCorpus.map (fun p => p.docId)).Nodup ∧
    (∀ e ∈ postings (build Real.log InvertIndex.new seedCorpus) "苹果",
      ∃ p ∈ seedCorpus, "苹果" ∈ p.wordsMap.map Prod.fst ∧ e.docId = p.docId ∧
        e.termFreq = p.tf "苹果" ∧
        e.weight =
          max 0 (Real.log (((seedCorpus.length : ℝ) - (docFreqOf seedCorpus "苹果" : ℝ) + 1 / 2) /
              ((docFreqOf seedCorpus "苹果" : ℝ) + 1 / 2) + 1)) *
            (((p.tf "苹果" : Int) : ℝ) * (6 / 5 + 1) /
              (((p.tf "苹果" : Int) : ℝ) + 6 / 5 * (1 - 3 / 4 + 3 / 4 * ((p.docLen : Int) : ℝ) /
                (build Real.log InvertIndex.new seedCorpus).avgDocLen)))) ∧
    (∀ p ∈ seedCorpus, "苹果" ∈ p.wordsMap.map Prod.fst →
      ∃ e ∈ postings (build Real.log InvertIndex.new seedCorpus) "苹果", e.docId = p.docId) :=
  ⟨by decide, build_entry_bm25 Real.log seedCorpus (by decide) "苹果"⟩

theorem eq_of_docId_eq (pages : List WebPage) (hnd : (pages.map (fun p => p.docId)).Nodup)
    (p q : WebPage) (hp : p ∈ pages) (hq : q ∈ pages) (h : p.docId = q.docId) : p = q :=
  List.inj_on_of_nodup_map hnd hp hq h

theorem build_docLens_perm {K : Type} [LinearOrderedField K] (ln : K → K)
    (pages : List WebPage) (hnd : (pages.map (fun p => p.docId)).Nodup) :
    (build ln (InvertIndex.new : InvertIndex K) pages).docLens.Perm
      (pages.map (fun p => (p.docId, p.docLen))) := by
  cases pages with
  | nil => simp [build_nil, InvertIndex.new]
  | cons p rest =>
    rw [build_docLens ln _ _ (List.cons_ne_nil p rest)]
    have h := dfStep_fold_perm (p :: rest)
      { docFreq := [], docLens := (InvertIndex.new : InvertIndex K).docLens, totalLen := 0 } hnd
      (by intro q _; simp [InvertIndex.new])
    refine h.trans ?_
    simp only [InvertIndex.new, List.append_nil]
    exact List.reverse_perm _

theorem build_lookup_docLens {K : Type} [LinearOrderedField K] (ln : K → K)
    (pages : List WebPage) (hnd : (pages.map (fun p => p.docId)).Nodup)
    (p : WebPage) (hp : p ∈ pages) :
    lookupInt (build ln (InvertIndex.new : InvertIndex K) pages).docLens p.docId = p.docLen := by
  rw [build_docLens ln _ _ (List.ne_nil_of_mem hp)]
  exact dfStep_fold_docLens _ _ hnd p hp

/-- C6. For `N ≥ 1` pages with distinct docIds, after `build` on a fresh index
`docLens` is the map from each page's docId to the sum of the frequencies of its
term map, `totalDocs = N`, and `avgDocLen` is the sum of the `docLens` values
divided by `N`; a page with an empty term map has `docLen = 0`, is counted in
`totalDocs` and occurs in no posting list. -/
theorem build_docLens_stats {K : Type} [LinearOrderedField K] (ln : K → K)
    (pages : List WebPage) (hN : 1 ≤ pages.length)
    (hnd : (pages.map (fun p => p.docId)).Nodup) :
    (build ln (InvertIndex.new : InvertIndex K) pages).docLens.Perm
        (pages.map (fun p => (p.docId, (p.wordsMap.map Prod.snd).sum))) ∧
    (∀ p ∈ pages,
      lookupInt (build ln (InvertIndex.new : InvertIndex K) pages).docLens p.docId =
        (p.wordsMap.map Prod.snd).sum) ∧
    (build ln (InvertIndex.new : InvertIndex K) pages).totalDocs = (pages.length : Int) ∧
    (build ln (InvertIndex.new : InvertIndex K) pages).avgDocLen =
      ((((build ln (InvertIndex.new : InvertIndex K) pages).docLens.map Prod.snd).sum : Int) : K) /
        (pages.length : K) ∧
    (∀ p ∈ pages, p.wordsMap = [] →
      lookupInt (build ln (InvertIndex.new : InvertIndex K) pages).docLens p.docId = 0 ∧
      ∀ t, ∀ e ∈ postings (build ln (InvertIndex.new : InvertIndex K) pages) t,
        e.docId ≠ p.docId) := by
  have hne : pages ≠ [] := by
    intro h; rw [h] at hN; simp at hN
  have hperm := build_docLens_perm (K := K) ln pages hnd
  refine ⟨hperm, fun p hp => build_lookup_docLens ln pages hnd p hp,
    build_totalDocs ln _ pages, ?_, ?_⟩
  · rw [build_avgDocLen ln _ pages hne, avgDocLenSpec, (hperm.map Prod.snd).sum_eq]
    simp only [List.map_map]
    rfl
  · intro p hp hempty
    refine ⟨?_, ?_⟩
    · rw [build_lookup_docLens ln pages hnd p hp, WebPage.docLen, hempty]
      rfl
    · intro t e he hid
      obtain ⟨q, hq, hw, rfl⟩ := (mem_build_postings ln pages hnd t e).1 he
      have hqp : q = p := eq_of_docId_eq pages hnd q p hq hp hid
      rw [hqp, hempty] at hw
      simp at hw

theorem build_docLens_stats_witness :
    1 ≤ seedWithBlank.length ∧ (seedWithBlank.map (fun p => p.docId)).Nodup ∧
    ((build Real.log (InvertIndex.new : InvertIndex ℝ) seedWithBlank).docLens.Perm
        (seedWithBlank.map (fun p => (p.docId, (p.wordsMap.map Prod.snd).sum))) ∧
    (∀ p ∈ seedWithBlank,
      lookupInt (build Real.log (InvertIndex.new : InvertIndex ℝ) seedWithBlank).docLens
        p.docId = (p.wordsMap.map Prod.snd).sum) ∧
    (build Real.log (InvertIndex.new : InvertIndex ℝ) seedWithBlank).totalDocs =
      (seedWithBlank.length : Int) ∧
    (build Real.log (InvertIndex.new : InvertIndex ℝ) seedWithBlank).avgDocLen =
      ((((build Real.log (InvertIndex.new : InvertIndex ℝ) seedWithBlank).docLens.map
        Prod.snd).sum : Int) : ℝ) / (seedWithBlank.length : ℝ) ∧
    (∀ p ∈ seedWithBlank, p.wordsMap = [] →
      lookupInt (build Real.log (InvertIndex.new : InvertIndex ℝ) seedWithBlank).docLens
        p.docId = 0 ∧
      ∀ t, ∀ e ∈ postings (build Real.log (InvertIndex.new : InvertIndex ℝ) seedWithBlank) t,
        e.docId ≠ p.docId)) :=
  ⟨by decide, by decide, build_docLens_stats Real.log seedWithBlank (by decide) (by decide)⟩

/-! ## The accumulation loop of `search` -/

theorem addWord_eq {K : Type} [LinearOrderedField K]
    (inv : List (String × List (InvertIndexItem K))) (st : Option (ScoreState K)) (w : String) :
    addWord inv st w = ((findPostings inv w).getD []).foldl addItem st := by
  unfold addWord
  cases findPostings inv w <;> simp

theorem foldl_addWord {K : Type} [LinearOrderedField K]
    (inv : List (String × List (InvertIndexItem K))) (q : List String)
    (st : Option (ScoreState K)) :
    q.foldl (addWord inv) st =
      (q.flatMap (fun w => (findPostings inv w).getD [])).foldl addItem st := by
  induction q generalizing st with
  | nil => simp
  | cons w rest ih =>
    rw [List.foldl_cons, ih, addWord_eq, List.flatMap_cons, List.foldl_append]

theorem contrib_nil {K : Type} [LinearOrderedField K] (d : Nat) :
    contrib ([] : List (InvertIndexItem K)) d = 0 := by
  simp [contrib]

theorem contrib_cons {K : Type} [LinearOrderedField K] (it : InvertIndexItem K)
    (l : List (InvertIndexItem K)) (d : Nat) :
    contrib (it :: l) d = (if it.docId = d then it.weight else 0) + contrib l d := by
  by_cases h : it.docId = d <;> simp [contrib, List.filter_cons, h]

theorem contrib_append {K : Type} [LinearOrderedField K] (l1 l2 : List (InvertIndexItem K))
    (d : Nat) : contrib (l1 ++ l2) d = contrib l1 d + contrib l2 d := by
  simp [contrib, List.filter_append]

theorem contrib_flatMap {K : Type} [LinearOrderedField K] (q : List String)
    (f : String → List (InvertIndexItem K)) (d : Nat) :
    contrib (q.flatMap f) d = (q.map (fun w => contrib (f w) d)).sum := by
  induction q with
  | nil => simp [contrib_nil]
  | cons w rest ih => simp [List.flatMap_cons, contrib_append, ih]

theorem getD_set {K : Type} [LinearOrderedField K] (l : List K) (i : Nat) (v : K) (d : Nat)
    (hi : i < l.length) :
    (l.set i v).getD d 0 = if i = d then v else l.getD d 0 := by
  simp only [List.getD_eq_getElem?_getD, List.getElem?_set]
  by_cases h : i = d
  · subst h; simp [hi]
  · simp [h]

theorem addItem_some {K : Type} [LinearOrderedField K] (s : ScoreState K)
    (item : InvertIndexItem K) (h : item.docId < s.scores.length) :
    addItem (some s) item =
      some { scores := s.scores.set item.docId (s.scores.getD item.docId 0 + item.weight)
             dirty := if s.scores.getD item.docId 0 = 0 then s.dirty ++ [item.docId]
                      else s.dirty } := by
  simp [addItem, List.getD_eq_getElem?_getD, List.getElem?_eq_getElem h]

theorem foldl_addItem {K : Type} [LinearOrderedField K] (l : List (InvertIndexItem K))
    (s : ScoreState K) (hb : ∀ it ∈ l, it.docId < s.scores.length) :
    ∃ s1, l.foldl addItem (some s) = some s1 ∧ s1.scores.length = s.scores.length ∧
      (∀ d, s1.scores.getD d 0 = s.scores.getD d 0 + contrib l d) ∧
      (∀ d ∈ s1.dirty, d ∈ s.dirty ∨ d ∈ l.map (fun it => it.docId)) := by
  induction l generalizing s with
  | nil => exact ⟨s, rfl, rfl, by simp [contrib_nil], fun d hd => Or.inl hd⟩
  | cons it rest ih =>
    have hit : it.docId < s.scores.length := hb it (List.mem_cons_self _ _)
    rw [List.foldl_cons, addItem_some s it hit]
    obtain ⟨s1, h1, h2, h3, h4⟩ := ih
      { scores := s.scores.set it.docId (s.scores.getD it.docId 0 + it.weight)
        dirty := if s.scores.getD it.docId 0 = 0 then s.dirty ++ [it.docId] else s.dirty }
      (by intro x hx; simpa using hb x (List.mem_cons_of_mem _ hx))
    refine ⟨s1, h1, by simpa using h2, ?_, ?_⟩
    · intro d
      rw [h3 d, getD_set _ _ _ _ hit, contrib_cons]
      by_cases h : it.docId = d
      · subst h; simp [add_assoc]
      · simp [h]
    · intro d hd
      rcases h4 d hd with h | h
      · by_cases h0 : s.scores.getD it.docId 0 = 0
        · simp only [h0, if_true, List.mem_append, List.mem_singleton] at h
          rcases h with h | h
          · exact Or.inl h
          · exact Or.inr (by simp [h])
        · simp only [h0, if_false] at h
          exact Or.inl h
      · exact Or.inr (by simp only [List.map_cons, List.mem_cons]; exact Or.inr h)

theorem foldl_addItem_good {K : Type} [LinearOrderedField K] (l : List (InvertIndexItem K))
    (s : ScoreState K) (hb : ∀ it ∈ l, it.docId < s.scores.length)
    (hpos : ∀ it ∈ l, 0 < it.weight) (hg : s.Good) :
    ∃ s1, l.foldl addItem (some s) = some s1 ∧ s1.Good := by
  induction l generalizing s with
  | nil => exact ⟨s, rfl, hg⟩
  | cons it rest ih =>
    have hit : it.docId < s.scores.length := hb it (List.mem_cons_self _ _)
    have hw : 0 < it.weight := hpos it (List.mem_cons_self _ _)
    rw [List.foldl_cons, addItem_some s it hit]
    apply ih
    · intro x hx; simpa using hb x (List.mem_cons_of_mem _ hx)
    · intro x hx; exact hpos x (List.mem_cons_of_mem _ hx)
    · obtain ⟨hg1, hg2, hg3⟩ := hg
      refine ⟨?_, ?_, ?_⟩
      · intro d
        show 0 ≤ (s.scores.set it.docId (s.scores.getD it.docId 0 + it.weight)).getD d 0
        rw [getD_set _ _ _ _ hit]
        by_cases h : it.docId = d
        · rw [if_pos h]; have := hg1 it.docId; linarith
        · rw [if_neg h]; exact hg1 d
      · intro d
        show d ∈ (if s.scores.getD it.docId 0 = 0 then s.dirty ++ [it.docId] else s.dirty) ↔
          0 < (s.scores.set it.docId (s.scores.getD it.docId 0 + it.weight)).getD d 0
        rw [getD_set _ _ _ _ hit]
        by_cases h : it.docId = d
        · subst h
          rw [if_pos rfl]
          have h0 := hg1 it.docId
          have hp : 0 < s.scores.getD it.docId 0 + it.weight := by linarith
          by_cases hz : s.scores.getD it.docId 0 = 0
          · rw [if_pos hz]
            exact ⟨fun _ => hp, fun _ => List.mem_append_right _ (List.mem_singleton_self _)⟩
          · have hlt : 0 < s.scores.getD it.docId 0 := lt_of_le_of_ne h0 (Ne.symm hz)
            simp only [hz, if_false, hp, iff_true]
            exact (hg2 it.docId).2 hlt
        · rw [if_neg h]
          by_cases hz : s.scores.getD it.docId 0 = 0
          · simp only [hz, if_true, List.mem_append, List.mem_singleton]
            rw [hg2 d]
            constructor
            · rintro (h1 | h1)
              · exact h1
              · exact absurd h1.symm h
            · exact fun h1 => Or.inl h1
          · simp only [hz, if_false]
            exact hg2 d
      · show (if s.scores.getD it.docId 0 = 0 then s.dirty ++ [it.docId] else s.dirty).Nodup
        by_cases hz : s.scores.getD it.docId 0 = 0
        · simp only [hz, if_true]
          refine List.Nodup.append hg3 (List.nodup_singleton _) ?_
          have hnot : it.docId ∉ s.dirty := by
            rw [hg2 it.docId, hz]; exact lt_irrefl 0
          simpa using hnot
        · simp only [hz, if_false]
          exact hg3

/-! ## Positivity of the weights and bounds of the docIds of a built index -/

theorem lookupInt_pos (m : List (String × Int)) (hpos : ∀ e ∈ m, 0 < e.2) (w : String)
    (hw : w ∈ m.map Prod.fst) : 0 < lookupInt m w := by
  induction m with
  | nil => simp at hw
  | cons e rest ih =>
    obtain ⟨k, v⟩ := e
    by_cases hk : k = w
    · simp only [lookupInt, hk, if_true]
      exact hpos (k, v) (List.mem_cons_self _ _)
    · simp only [lookupInt, hk, if_false]
      apply ih (fun e he => hpos e (List.mem_cons_of_mem _ he))
      simp only [List.map_cons, List.mem_cons] at hw
      rcases hw with h | h
      · exact absurd h.symm hk
      · exact h

theorem tf_pos (p : WebPage) (w : String) (hw : w ∈ p.wordsMap.map Prod.fst) : 0 < p.tf w :=
  lookupInt_pos p.wordsMap p.freq_pos w hw

theorem docLen_nonneg (p : WebPage) : 0 ≤ p.docLen := by
  unfold WebPage.docLen
  apply List.sum_nonneg
  intro x hx
  obtain ⟨e, he, rfl⟩ := List.mem_map.1 hx
  exact le_of_lt (p.freq_pos e he)

theorem avgDocLenSpec_nonneg {K : Type} [LinearOrderedField K] (pages : List WebPage) :
    (0 : K) ≤ avgDocLenSpec pages := by
  unfold avgDocLenSpec
  apply div_nonneg
  · have h : (0 : Int) ≤ (pages.map WebPage.docLen).sum := by
      apply List.sum_nonneg
      intro x hx
      obtain ⟨p, _, rfl⟩ := List.mem_map.1 hx
      exact docLen_nonneg p
    exact_mod_cast h
  · exact Nat.cast_nonneg _

theorem idfSpec_pos {K : Type} [LinearOrderedField K] (ln : K → K)
    (hln : ∀ x : K, 1 < x → 0 < ln x) (N df : Nat) (hle : df ≤ N) :
    0 < idfSpec ln N df := by
  unfold idfSpec
  apply lt_max_of_lt_right
  apply hln
  have h1 : (df : K) ≤ (N : K) := by exact_mod_cast hle
  have h2 : (0 : K) ≤ (df : K) := Nat.cast_nonneg _
  have h3 : (0 : K) < ((N : K) - (df : K) + 1 / 2) / ((df : K) + 1 / 2) := by
    apply div_pos <;> linarith
  linarith

theorem normSpec_pos {K : Type} [LinearOrderedField K] (tf docLen : Int) (avg : K)
    (htf : 0 < tf) (hlen : 0 ≤ docLen) (havg : 0 ≤ avg) : 0 < normSpec tf docLen avg := by
  unfold normSpec K1 B
  have h1 : (0 : K) < (tf : K) := by exact_mod_cast htf
  have h2 : (0 : K) ≤ (docLen : K) := by exact_mod_cast hlen
  have h3 : (0 : K) ≤ 3 / 4 * (docLen : K) / avg :=
    div_nonneg (mul_nonneg (by norm_num) h2) havg
  apply div_pos
  · apply mul_pos h1; norm_num
  · have h4 : (0 : K) < 6 / 5 * (1 - 3 / 4 + 3 / 4 * (docLen : K) / avg) := by
      apply mul_pos (by norm_num)
      have : (0 : K) < 1 - 3 / 4 := by norm_num
      linarith
    linarith

theorem weightSpec_pos {K : Type} [LinearOrderedField K] (ln : K → K)
    (hln : ∀ x : K, 1 < x → 0 < ln x) (pages : List WebPage) (p : WebPage) (w : String)
    (hw : w ∈ p.wordsMap.map Prod.fst) : 0 < weightSpec ln pages p w := by
  unfold weightSpec
  exact mul_pos (idfSpec_pos ln hln _ _ (docFreqOf_le pages w))
    (normSpec_pos _ _ _ (tf_pos p w hw) (docLen_nonneg p) (avgDocLenSpec_nonneg pages))

theorem build_postings_pos {K : Type} [LinearOrderedField K] (ln : K → K)
    (hln : ∀ x : K, 1 < x → 0 < ln x) (pages : List WebPage)
    (hnd : (pages.map (fun p => p.docId)).Nodup) (w : String) :
    ∀ e ∈ postings (build ln InvertIndex.new pages) w, 0 < e.weight := by
  intro e he
  obtain ⟨p, _, hw, rfl⟩ := (mem_build_postings ln pages hnd w e).1 he
  exact weightSpec_pos ln hln pages p w hw

theorem build_docLens_sorted {K : Type} [LinearOrderedField K] (ln : K → K)
    (pages : List WebPage) :
    ((build ln (InvertIndex.new : InvertIndex K) pages).docLens.map Prod.fst).Sorted (· < ·) := by
  cases pages with
  | nil => simp [build_nil, InvertIndex.new]
  | cons p rest =>
    rw [build_docLens ln _ _ (List.cons_ne_nil p rest)]
    exact dfStep_fold_sorted _ _ (by simp [InvertIndex.new])

theorem build_docLens_keys {K : Type} [LinearOrderedField K] (ln : K → K)
    (pages : List WebPage) (x : Nat) :
    x ∈ (build ln (InvertIndex.new : InvertIndex K) pages).docLens.map Prod.fst ↔
      x ∈ pages.map (fun p => p.docId) := by
  cases pages with
  | nil => simp [build_nil, InvertIndex.new]
  | cons p rest =>
    rw [build_docLens ln _ _ (List.cons_ne_nil p rest), dfStep_fold_keys]
    simp [InvertIndex.new]

theorem build_postings_bound {K : Type} [LinearOrderedField K] (ln : K → K)
    (pages : List WebPage) (hnd : (pages.map (fun p => p.docId)).Nodup) (w : String) :
    ∀ e ∈ postings (build ln InvertIndex.new pages) w,
      e.docId < maxDocId (build ln (InvertIndex.new : InvertIndex K) pages).docLens + 1 := by
  intro e he
  obtain ⟨p, hp, _, rfl⟩ := (mem_build_postings ln pages hnd w e).1 he
  have hk : p.docId ∈ (build ln (InvertIndex.new : InvertIndex K) pages).docLens.map Prod.fst :=
    (build_docLens_keys ln pages p.docId).2 (List.mem_map_of_mem (fun p => p.docId) hp)
  have := le_maxDocId _ (build_docLens_sorted ln pages) _ hk
  show p.docId < _
  omega

/-! ## Ranking -/

theorem sortResults_sorted {K : Type} [LinearOrderedField K] (l : List (Nat × K)) :
    (sortResults l).Sorted (fun a b => a.2 ≥ b.2) := by
  haveI : IsTotal (Nat × K) (fun a b => a.2 ≥ b.2) := ⟨fun a b => le_total b.2 a.2⟩
  haveI : IsTrans (Nat × K) (fun a b => a.2 ≥ b.2) := ⟨fun _ _ _ hab hbc => le_trans hbc hab⟩
  exact List.sorted_insertionSort _ l

theorem sortResults_perm {K : Type} [LinearOrderedField K] (l : List (Nat × K)) :
    (sortResults l).Perm l :=
  List.perm_insertionSort _ l

theorem toSizeT_of_nonneg (topK : Int) (h0 : 0 ≤ topK) (h1 : topK < 2 ^ 31) :
    toSizeT topK = topK.toNat := by
  unfold toSizeT
  rw [Int.emod_eq_of_lt h0 (by omega)]

theorem rank_sublist {K : Type} [LinearOrderedField K] (s : ScoreState K) (topK : Int) :
    (rank s topK).Sublist (sortResults (s.dirty.map (fun d => (d, s.scores.getD d 0)))) := by
  unfold rank
  simp only []
  split
  · exact List.take_sublist _ _
  · exact List.Sublist.refl _

theorem mem_rank {K : Type} [LinearOrderedField K] (s : ScoreState K) (topK : Int)
    (e : Nat × K) (he : e ∈ rank s topK) : ∃ d ∈ s.dirty, e = (d, s.scores.getD d 0) := by
  have h1 := (rank_sublist s topK).subset he
  rw [(sortResults_perm _).mem_iff, List.mem_map] at h1
  obtain ⟨d, hd, rfl⟩ := h1
  exact ⟨d, hd, rfl⟩

theorem rank_sorted {K : Type} [LinearOrderedField K] (s : ScoreState K) (topK : Int) :
    (rank s topK).Sorted (fun a b => a.2 ≥ b.2) :=
  (sortResults_sorted _).sublist (rank_sublist s topK)

theorem rank_nodup {K : Type} [LinearOrderedField K] (s : ScoreState K) (topK : Int)
    (hnd : s.dirty.Nodup) : ((rank s topK).map Prod.fst).Nodup := by
  have h1 := (rank_sublist s topK).map Prod.fst
  refine List.Nodup.sublist h1 ?_
  refine (((sortResults_perm _).map Prod.fst).nodup_iff).2 ?_
  simpa [List.map_map, Function.comp_def] using hnd

theorem rank_length {K : Type} [LinearOrderedField K] (s : ScoreState K) (topK : Int)
    (h0 : 0 ≤ topK) (h1 : topK < 2 ^ 31) :
    (rank s topK).length = min topK.toNat s.dirty.length := by
  unfold rank
  simp only [toSizeT_of_nonneg topK h0 h1, List.length_map]
  split
  · rw [List.length_take, (sortResults_perm _).length_eq, List.length_map]
  · rw [(sortResults_perm _).length_eq, List.length_map]
    omega

theorem rank_le {K : Type} [LinearOrderedField K] (s : ScoreState K) (topK : Int)
    (d : Nat) (hd : d ∈ s.dirty) (hnot : d ∉ (rank s topK).map Prod.fst) :
    ∀ e ∈ rank s topK, s.scores.getD d 0 ≤ e.2 := by
  have hmem : (d, s.scores.getD d 0) ∈
      sortResults (s.dirty.map (fun d => (d, s.scores.getD d 0))) := by
    rw [(sortResults_perm _).mem_iff]
    exact List.mem_map.2 ⟨d, hd, rfl⟩
  have hsorted := sortResults_sorted (s.dirty.map (fun d => (d, s.scores.getD d 0)))
  revert hnot
  unfold rank
  simp only []
  split
  · intro hnot e he
    rw [← List.take_append_drop topK.toNat
      (sortResults (s.dirty.map (fun d => (d, s.scores.getD d 0))))] at hmem hsorted
    rcases List.mem_append.1 hmem with h | h
    · exact absurd (List.mem_map_of_mem Prod.fst h) hnot
    · exact (List.pairwise_append.1 hsorted).2.2 e he _ h
  · intro hnot
    exact absurd (List.mem_map_of_mem Prod.fst hmem) hnot

theorem rank_initState {K : Type} [LinearOrderedField K] (idx : InvertIndex K) (topK : Int) :
    rank (initState idx) topK = [] := by
  simp [rank, initState, sortResults]

/-! ## `search` on an index whose postings stay inside the score vector -/

theorem search_eq {K : Type} [LinearOrderedField K] (idx : InvertIndex K)
    (q : List String) (topK : Int) :
    search idx q topK =
      if q = [] then some []
      else ((allItems idx q).foldl addItem (some (initState idx))).map (fun s => rank s topK) := by
  unfold search
  by_cases h : q = []
  · simp [h]
  · simp only [h, if_false, foldl_addWord]
    rfl

theorem getD_initState {K : Type} [LinearOrderedField K] (idx : InvertIndex K) (d : Nat) :
    (initState idx).scores.getD d 0 = 0 := by
  simp only [initState, List.getD_eq_getElem?_getD, List.getElem?_replicate]
  split <;> rfl

theorem initState_good {K : Type} [LinearOrderedField K] (idx : InvertIndex K) :
    (initState idx).Good := by
  refine ⟨fun d => by rw [getD_initState], fun d => ?_, by simp [initState]⟩
  rw [getD_initState]
  simp [initState]

theorem score_eq_contrib {K : Type} [LinearOrderedField K] (idx : InvertIndex K)
    (q : List String) (d : Nat) : score idx q d = contrib (allItems idx q) d := by
  unfold score allItems weightOf
  rw [contrib_flatMap]

theorem search_of_bounds {K : Type} [LinearOrderedField K] (idx : InvertIndex K)
    (q : List String) (topK : Int)
    (hb : ∀ w ∈ q, ∀ e ∈ postings idx w, e.docId < maxDocId idx.docLens + 1) :
    ∃ s, search idx q topK = some (rank s topK) ∧
      (∀ d, s.scores.getD d 0 = score idx q d) ∧
      (∀ d ∈ s.dirty, d ∈ (allItems idx q).map (fun it => it.docId)) ∧
      ((∀ w ∈ q, ∀ e ∈ postings idx w, 0 < e.weight) → s.Good) := by
  have hb2 : ∀ it ∈ allItems idx q, it.docId < (initState idx).scores.length := by
    intro it hit
    obtain ⟨w, hwq, hw⟩ := List.mem_flatMap.1 hit
    simpa [initState] using hb w hwq it hw
  by_cases hq : q = []
  · subst hq
    refine ⟨initState idx, ?_, ?_, ?_, fun _ => initState_good idx⟩
    · rw [rank_initState]; rfl
    · intro d; rw [getD_initState]; simp [score]
    · intro d hd; simp [initState] at hd
  · obtain ⟨s, h1, _, h3, h4⟩ := foldl_addItem (allItems idx q) (initState idx) hb2
    refine ⟨s, ?_, ?_, ?_, ?_⟩
    · rw [search_eq, if_neg hq, h1]; rfl
    · intro d; rw [h3 d, getD_initState, zero_add, score_eq_contrib]
    · intro d hd
      rcases h4 d hd with h | h
      · simp [initState] at h
      · exact h
    · intro hpos
      have hpos2 : ∀ it ∈ allItems idx q, 0 < it.weight := by
        intro it hit
        obtain ⟨w, hwq, hw⟩ := List.mem_flatMap.1 hit
        exact hpos w hwq it hw
      obtain ⟨s2, h5, h6⟩ := foldl_addItem_good (allItems idx q) (initState idx) hb2 hpos2
        (initState_good idx)
      rw [h1] at h5
      cases h5
      exact h6

/-! ## `search` on a built index -/

theorem contrib_nonneg {K : Type} [LinearOrderedField K] (l : List (InvertIndexItem K))
    (hpos : ∀ it ∈ l, 0 < it.weight) (d : Nat) : 0 ≤ contrib l d := by
  induction l with
  | nil => rw [contrib_nil]
  | cons it rest ih =>
    rw [contrib_cons]
    have h1 := ih (fun x hx => hpos x (List.mem_cons_of_mem _ hx))
    have h2 := hpos it (List.mem_cons_self _ _)
    by_cases h : it.docId = d
    · rw [if_pos h]; linarith
    · rw [if_neg h]; linarith

theorem contrib_pos {K : Type} [LinearOrderedField K] (l : List (InvertIndexItem K))
    (hpos : ∀ it ∈ l, 0 < it.weight) (d : Nat) (hd : d ∈ l.map (fun it => it.docId)) :
    0 < contrib l d := by
  induction l with
  | nil => simp at hd
  | cons it rest ih =>
    rw [contrib_cons]
    have h1 := contrib_nonneg rest (fun x hx => hpos x (List.mem_cons_of_mem _ hx)) d
    have h2 := hpos it (List.mem_cons_self _ _)
    by_cases h : it.docId = d
    · rw [if_pos h]; linarith
    · rw [if_neg h]
      simp only [List.map_cons, List.mem_cons] at hd
      rcases hd with hd | hd
      · exact absurd hd.symm h
      · have := ih (fun x hx => hpos x (List.mem_cons_of_mem _ hx)) hd
        linarith

theorem contrib_eq_zero {K : Type} [LinearOrderedField K] (l : List (InvertIndexItem K))
    (d : Nat) (hd : ∀ it ∈ l, it.docId ≠ d) : contrib l d = 0 := by
  induction l with
  | nil => rw [contrib_nil]
  | cons it rest ih =>
    rw [contrib_cons, if_neg (hd it (List.mem_cons_self _ _)),
      ih (fun x hx => hd x (List.mem_cons_of_mem _ hx)), add_zero]

theorem contrib_of_mem {K : Type} [LinearOrderedField K] (l : List (InvertIndexItem K))
    (hnd : (l.map (fun it => it.docId)).Nodup) (it : InvertIndexItem K) (hit : it ∈ l) :
    contrib l it.docId = it.weight := by
  induction l with
  | nil => cases hit
  | cons x rest ih =>
    simp only [List.map_cons, List.nodup_cons] at hnd
    rw [contrib_cons]
    rcases List.mem_cons.1 hit with rfl | hmem
    · rw [if_pos rfl, contrib_eq_zero, add_zero]
      intro y hy hyd
      exact hnd.1 (hyd ▸ List.mem_map_of_mem (fun it => it.docId) hy)
    · have hne : x.docId ≠ it.docId := by
        intro h
        exact hnd.1 (h ▸ List.mem_map_of_mem (fun it => it.docId) hmem)
      rw [if_neg hne, zero_add, ih hnd.2 hmem]

theorem mem_allItems_build {K : Type} [LinearOrderedField K] (ln : K → K)
    (pages : List WebPage) (hnd : (pages.map (fun p => p.docId)).Nodup) (q : List String)
    (d : Nat) :
    d ∈ (allItems (build ln InvertIndex.new pages) q).map (fun it => it.docId) ↔
      d ∈ (pages.filter (fun p => p.matchesQuery q)).map (fun p => p.docId) := by
  simp only [allItems, List.mem_map, List.mem_flatMap, List.mem_filter, WebPage.matchesQuery,
    List.any_eq_true, decide_eq_true_eq]
  constructor
  · rintro ⟨it, ⟨w, hw, hit⟩, rfl⟩
    obtain ⟨p, hp, hpw, rfl⟩ := (mem_build_postings ln pages hnd w it).1 hit
    exact ⟨p, ⟨hp, w, hw, List.mem_map.1 hpw⟩, rfl⟩
  · rintro ⟨p, ⟨hp, w, hw, hpw⟩, rfl⟩
    exact ⟨specItem ln pages w p, ⟨w, hw, (mem_build_postings ln pages hnd w _).2
      ⟨p, hp, List.mem_map.2 hpw, rfl⟩⟩, rfl⟩

theorem search_build {K : Type} [LinearOrderedField K] (ln : K → K)
    (pages : List WebPage) (hnd : (pages.map (fun p => p.docId)).Nodup) (q : List String)
    (topK : Int) :
    ∃ s, search (build ln InvertIndex.new pages) q topK = some (rank s topK) ∧
      (∀ d, s.scores.getD d 0 = score (build ln InvertIndex.new pages) q d) ∧
      (∀ d ∈ s.dirty, d ∈ (pages.filter (fun p => p.matchesQuery q)).map (fun p => p.docId)) ∧
      ((∀ x : K, 1 < x → 0 < ln x) →
        s.dirty.Perm ((pages.filter (fun p => p.matchesQuery q)).map (fun p => p.docId))) := by
  obtain ⟨s, h1, h2, h3, h4⟩ := search_of_bounds (build ln InvertIndex.new pages) q topK
    (fun w _ => build_postings_bound ln pages hnd w)
  refine ⟨s, h1, h2, fun d hd => (mem_allItems_build ln pages hnd q d).1 (h3 d hd), ?_⟩
  intro hln
  have hpos : ∀ w, ∀ e ∈ postings (build ln InvertIndex.new pages) w, 0 < e.weight :=
    fun w => build_postings_pos ln hln pages hnd w
  obtain ⟨_, hg2, hg3⟩ := h4 (fun w _ => hpos w)
  have hnd2 : ((pages.filter (fun p => p.matchesQuery q)).map (fun p => p.docId)).Nodup :=
    hnd.sublist ((List.filter_sublist pages).map _)
  refine (List.perm_ext_iff_of_nodup hg3 hnd2).2 (fun d => ⟨fun hd =>
    (mem_allItems_build ln pages hnd q d).1 (h3 d hd), fun hd => ?_⟩)
  rw [hg2 d, h2 d, score_eq_contrib]
  apply contrib_pos
  · intro it hit
    obtain ⟨w, _, hw⟩ := List.mem_flatMap.1 hit
    exact hpos w it hw
  · exact (mem_allItems_build ln pages hnd q d).2 hd

/-- C2. On the index `build` produces from pages with distinct docIds, `search`
returns a list, and every returned pair `(docId, score)` has `score` equal to
the sum over the entries of `queryWords` of the weight stored for `docId` in
that word's posting list, `0` when the word has no posting for `docId`, in
exact arithmetic. -/
theorem search_score_sum {K : Type} [LinearOrderedField K] (ln : K → K)
    (pages : List WebPage) (hnd : (pages.map (fun p => p.docId)).Nodup) (q : List String)
    (topK : Int) :
    (∃ r, search (build ln InvertIndex.new pages) q topK = some r ∧
      ∀ e ∈ r, e.2 = (q.map (fun w => weightOf (build ln InvertIndex.new pages) w e.1)).sum) ∧
    (∀ w, ∀ it ∈ postings (build ln InvertIndex.new pages) w,
      weightOf (build ln InvertIndex.new pages) w it.docId = it.weight) ∧
    (∀ w d, (∀ it ∈ postings (build ln InvertIndex.new pages) w, it.docId ≠ d) →
      weightOf (build ln InvertIndex.new pages) w d = 0) := by
  refine ⟨?_, ?_, ?_⟩
  · obtain ⟨s, h1, h2, _, _⟩ := search_build ln pages hnd q topK
    refine ⟨rank s topK, h1, ?_⟩
    intro e he
    obtain ⟨d, _, rfl⟩ := mem_rank s topK e he
    exact h2 d
  · intro w it hit
    exact contrib_of_mem _ (nodup_docIds_build_postings ln pages hnd w) it hit
  · intro w d hd
    exact contrib_eq_zero _ d hd

theorem search_score_sum_witness :
    (seedCorpus.map (fun p => p.docId)).Nodup ∧
    ((∃ r, search (build Real.log InvertIndex.new seedCorpus) ["苹果", "电脑"] 20 = some r ∧
      ∀ e ∈ r, e.2 = (["苹果", "电脑"].map
        (fun w => weightOf (build Real.log InvertIndex.new seedCorpus) w e.1)).sum) ∧
    (∀ w, ∀ it ∈ postings (build Real.log InvertIndex.new seedCorpus) w,
      weightOf (build Real.log InvertIndex.new seedCorpus) w it.docId = it.weight) ∧
    (∀ w d, (∀ it ∈ postings (build Real.log InvertIndex.new seedCorpus) w, it.docId ≠ d) →
      weightOf (build Real.log InvertIndex.new seedCorpus) w d = 0)) :=
  ⟨by decide, search_score_sum Real.log seedCorpus (by decide) ["苹果", "电脑"] 20⟩

/-- C3. On the index `build` produces from pages with distinct docIds, for
every query and every `topK ≥ 0` (an `int`), `search` returns exactly
`min(topK, m)` results, `m` the number of documents containing at least one
query word; the results are in non-increasing score order, every returned
document contains a query word, and a matching document that is not returned
has a score no larger than that of any returned document.  The logarithm is
positive above 1, as `Real.log` is. -/
theorem search_topK {K : Type} [LinearOrderedField K] (ln : K → K)
    (hln : ∀ x : K, 1 < x → 0 < ln x)
    (pages : List WebPage) (hnd : (pages.map (fun p => p.docId)).Nodup) (q : List String)
    (topK : Int) (h0 : 0 ≤ topK) (h1 : topK < 2 ^ 31) :
    ∃ r, search (build ln InvertIndex.new pages) q topK = some r ∧
      r.length = min topK.toNat (pages.filter (fun p => p.matchesQuery q)).length ∧
      r.Sorted (fun a b => a.2 ≥ b.2) ∧
      (∀ e ∈ r, ∃ p ∈ pages, p.docId = e.1 ∧ p.matchesQuery q = true) ∧
      (∀ p ∈ pages, p.matchesQuery q = true → p.docId ∉ r.map Prod.fst →
        ∀ e ∈ r, (q.map (fun w => weightOf (build ln InvertIndex.new pages) w p.docId)).sum
          ≤ e.2) := by
  obtain ⟨s, hs1, hs2, hs3, hs4⟩ := search_build ln pages hnd q topK
  have hperm := hs4 hln
  refine ⟨rank s topK, hs1, ?_, rank_sorted s topK, ?_, ?_⟩
  · rw [rank_length s topK h0 h1, hperm.length_eq, List.length_map]
  · intro e he
    obtain ⟨d, hd, rfl⟩ := mem_rank s topK e he
    obtain ⟨p, hp, rfl⟩ := List.mem_map.1 (hs3 d hd)
    rw [List.mem_filter] at hp
    exact ⟨p, hp.1, rfl, hp.2⟩
  · intro p hp hm hnot e he
    have hd : p.docId ∈ s.dirty :=
      hperm.mem_iff.2 (List.mem_map.2 ⟨p, List.mem_filter.2 ⟨hp, hm⟩, rfl⟩)
    have := rank_le s topK p.docId hd hnot e he
    rw [hs2] at this
    exact this

theorem search_topK_witness :
    (∀ x : ℝ, 1 < x → 0 < Real.log x) ∧ (seedCorpus.map (fun p => p.docId)).Nodup ∧
    (0 : Int) ≤ 20 ∧ (20 : Int) < 2 ^ 31 ∧
    ∃ r, search (build Real.log InvertIndex.new seedCorpus) ["苹果", "电脑"] 20 = some r ∧
      r.length = min (20 : Int).toNat
        (seedCorpus.filter (fun p => p.matchesQuery ["苹果", "电脑"])).length ∧
      r.Sorted (fun a b => a.2 ≥ b.2) ∧
      (∀ e ∈ r, ∃ p ∈ seedCorpus, p.docId = e.1 ∧ p.matchesQuery ["苹果", "电脑"] = true) ∧
      (∀ p ∈ seedCorpus, p.matchesQuery ["苹果", "电脑"] = true → p.docId ∉ r.map Prod.fst →
        ∀ e ∈ r, (["苹果", "电脑"].map
          (fun w => weightOf (build Real.log InvertIndex.new seedCorpus) w p.docId)).sum
            ≤ e.2) :=
  ⟨fun _ hx => Real.log_pos hx, by decide, by decide, by decide,
    search_topK Real.log (fun _ hx => Real.log_pos hx) seedCorpus (by decide)
      ["苹果", "电脑"] 20 (by decide) (by decide)⟩

/-! ## Unknown query words -/

theorem addWord_unknown {K : Type} [LinearOrderedField K]
    (inv : List (String × List (InvertIndexItem K))) (st : Option (ScoreState K)) (u : String)
    (hu : findPostings inv u = none) : addWord inv st u = st := by
  simp [addWord, hu]

theorem foldl_addWord_insert {K : Type} [LinearOrderedField K]
    (inv : List (String × List (InvertIndexItem K))) (st : Option (ScoreState K))
    (q1 q2 : List String) (u : String) (hu : findPostings inv u = none) :
    (q1 ++ u :: q2).foldl (addWord inv) st = (q1 ++ q2).foldl (addWord inv) st := by
  rw [List.foldl_append, List.foldl_cons, addWord_unknown inv _ u hu, List.foldl_append]

theorem foldl_addWord_unknown {K : Type} [LinearOrderedField K]
    (inv : List (String × List (InvertIndexItem K))) (st : Option (ScoreState K))
    (q : List String) (hq : ∀ w ∈ q, findPostings inv w = none) :
    q.foldl (addWord inv) st = st := by
  induction q generalizing st with
  | nil => rfl
  | cons w rest ih =>
    rw [List.foldl_cons, addWord_unknown inv st w (hq w (List.mem_cons_self _ _))]
    exact ih st (fun x hx => hq x (List.mem_cons_of_mem _ hx))

theorem search_unknown_only {K : Type} [LinearOrderedField K] (idx : InvertIndex K)
    (topK : Int) (q : List String) (hq : ∀ w ∈ q, findPostings idx.invertIndex w = none) :
    search idx q topK = some [] := by
  unfold search
  by_cases h : q = []
  · simp [h]
  · simp only [h, if_false, foldl_addWord_unknown idx.invertIndex _ q hq, Option.map_some']
    exact congrArg some (rank_initState idx topK)

/-- C4. For every index, `search([], topK)` is the empty list; inserting, at
any position of a query, a word that is not a term of the index leaves the
result of `search` unchanged (same docIds, scores and order); and a query made
only of such words yields the empty list, not an error. -/
theorem search_unknown_word {K : Type} [LinearOrderedField K] (idx : InvertIndex K)
    (topK : Int) :
    search idx [] topK = some [] ∧
    (∀ (q1 q2 : List String) (u : String), findPostings idx.invertIndex u = none →
      search idx (q1 ++ u :: q2) topK = search idx (q1 ++ q2) topK) ∧
    (∀ q : List String, (∀ w ∈ q, findPostings idx.invertIndex w = none) →
      search idx q topK = some []) := by
  refine ⟨by simp [search], ?_, fun q hq => search_unknown_only idx topK q hq⟩
  intro q1 q2 u hu
  by_cases h : q1 ++ q2 = []
  · have h1 : q1 = [] := (List.append_eq_nil.1 h).1
    have h2 : q2 = [] := (List.append_eq_nil.1 h).2
    subst h1; subst h2
    rw [search_unknown_only idx topK ([] ++ [u]) (by simpa using hu)]
    simp [search]
  · have h3 : q1 ++ u :: q2 ≠ [] := by simp
    unfold search
    simp only [h, h3, if_false, foldl_addWord_insert idx.invertIndex _ q1 q2 u hu]

theorem search_unknown_word_witness :
    findPostings (build Real.log InvertIndex.new seedCorpus).invertIndex "梨" = none ∧
    search (build Real.log InvertIndex.new seedCorpus) (["苹果"] ++ "梨" :: ["电脑"]) 20 =
      search (build Real.log InvertIndex.new seedCorpus) (["苹果"] ++ ["电脑"]) 20 :=
  ⟨rfl, (search_unknown_word (build Real.log InvertIndex.new seedCorpus) 20).2.1
    ["苹果"] ["电脑"] "梨" rfl⟩

/-! ## Ranking of two documents that differ by one query term -/

theorem mem_keys_of_lookupInt_ne_zero (m : List (String × Int)) (w : String)
    (h : lookupInt m w ≠ 0) : w ∈ m.map Prod.fst := by
  induction m with
  | nil => simp [lookupInt] at h
  | cons e rest ih =>
    obtain ⟨k, v⟩ := e
    by_cases hk : k = w
    · simp [hk]
    · simp only [lookupInt, hk, if_false] at h
      simp only [List.map_cons, List.mem_cons]
      exact Or.inr (ih h)

theorem weightOf_build_mem {K : Type} [LinearOrderedField K] (ln : K → K)
    (pages : List WebPage) (hnd : (pages.map (fun p => p.docId)).Nodup) (p : WebPage)
    (hp : p ∈ pages) (w : String) (hw : w ∈ p.wordsMap.map Prod.fst) :
    weightOf (build ln InvertIndex.new pages) w p.docId = weightSpec ln pages p w := by
  have hmem : specItem ln pages w p ∈ postings (build ln InvertIndex.new pages) w :=
    (mem_build_postings ln pages hnd w _).2 ⟨p, hp, hw, rfl⟩
  exact contrib_of_mem _ (nodup_docIds_build_postings ln pages hnd w) _ hmem

theorem weightOf_build_not_mem {K : Type} [LinearOrderedField K] (ln : K → K)
    (pages : List WebPage) (hnd : (pages.map (fun p => p.docId)).Nodup) (p : WebPage)
    (hp : p ∈ pages) (w : String) (hw : w ∉ p.wordsMap.map Prod.fst) :
    weightOf (build ln InvertIndex.new pages) w p.docId = 0 := by
  apply contrib_eq_zero
  intro it hit hid
  obtain ⟨q, hq, hqw, rfl⟩ := (mem_build_postings ln pages hnd w it).1 hit
  have hqp : q = p := eq_of_docId_eq pages hnd q p hq hp hid
  exact hw (hqp ▸ hqw)

theorem score_lt_of_extra_term {K : Type} [LinearOrderedField K] (ln : K → K)
    (hln : ∀ x : K, 1 < x → 0 < ln x) (pages : List WebPage)
    (hnd : (pages.map (fun p => p.docId)).Nodup) (A B : WebPage) (hA : A ∈ pages)
    (hB : B ∈ pages) (t u : String) (hlen : A.docLen = B.docLen) (htf : A.tf t = B.tf t)
    (huA : u ∈ A.wordsMap.map Prod.fst) (huB : u ∉ B.wordsMap.map Prod.fst) :
    score (build ln InvertIndex.new pages) [t, u] B.docId <
      score (build ln InvertIndex.new pages) [t, u] A.docId := by
  have h1 : weightOf (build ln InvertIndex.new pages) t A.docId =
      weightOf (build ln InvertIndex.new pages) t B.docId := by
    by_cases htA : t ∈ A.wordsMap.map Prod.fst
    · have htB : t ∈ B.wordsMap.map Prod.fst := by
        apply mem_keys_of_lookupInt_ne_zero
        have := tf_pos A t htA
        unfold WebPage.tf at htf this
        omega
      rw [weightOf_build_mem ln pages hnd A hA t htA, weightOf_build_mem ln pages hnd B hB t htB]
      simp only [weightSpec, htf, hlen]
    · have htB : t ∉ B.wordsMap.map Prod.fst := by
        intro h
        have h2 := tf_pos B t h
        have h3 : A.tf t ≠ 0 := by omega
        exact htA (mem_keys_of_lookupInt_ne_zero _ _ h3)
      rw [weightOf_build_not_mem ln pages hnd A hA t htA,
        weightOf_build_not_mem ln pages hnd B hB t htB]
  have h2 : 0 < weightOf (build ln InvertIndex.new pages) u A.docId := by
    rw [weightOf_build_mem ln pages hnd A hA u huA]
    exact weightSpec_pos ln hln pages A u huA
  have h3 : weightOf (build ln InvertIndex.new pages) u B.docId = 0 :=
    weightOf_build_not_mem ln pages hnd B hB u huB
  simp only [score, List.map_cons, List.map_nil, List.sum_cons, List.sum_nil, add_zero]
  rw [h1, h3]
  linarith

theorem sorted_before {K : Type} [LinearOrderedField K] (r : List (Nat × K))
    (hs : r.Sorted (fun a b => a.2 ≥ b.2)) (a b : Nat × K) (ha : a ∈ r) (hb : b ∈ r)
    (hlt : b.2 < a.2) : ∃ l1 l2 l3, r = l1 ++ a :: (l2 ++ b :: l3) := by
  obtain ⟨l1, l4, rfl⟩ := List.append_of_mem ha
  have hp := List.pairwise_append.1 hs
  rcases List.mem_append.1 hb with h | h
  · have := hp.2.2 b h a (List.mem_cons_self _ _)
    exact absurd hlt (not_lt.2 this)
  · rcases List.mem_cons.1 h with h | h
    · rw [h] at hlt; exact absurd hlt (lt_irrefl _)
    · obtain ⟨l2, l3, rfl⟩ := List.append_of_mem h
      exact ⟨l1, l2, l3, rfl⟩

theorem mem_rank_of_not_below {K : Type} [LinearOrderedField K] (s : ScoreState K)
    (topK : Int) (a b : Nat) (ha : a ∈ s.dirty) (hb : b ∈ (rank s topK).map Prod.fst)
    (hlt : s.scores.getD b 0 < s.scores.getD a 0) : a ∈ (rank s topK).map Prod.fst := by
  by_contra hnot
  obtain ⟨e, he, rfl⟩ := List.mem_map.1 hb
  have h1 := rank_le s topK a ha hnot e he
  obtain ⟨d, _, rfl⟩ := mem_rank s topK e he
  exact absurd hlt (not_lt.2 h1)

theorem entry_of_mem_rank {K : Type} [LinearOrderedField K] (s : ScoreState K)
    (topK : Int) (a : Nat) (ha : a ∈ (rank s topK).map Prod.fst) :
    (a, s.scores.getD a 0) ∈ rank s topK := by
  obtain ⟨e, he, rfl⟩ := List.mem_map.1 ha
  obtain ⟨d, _, rfl⟩ := mem_rank s topK e he
  exact he

theorem rank_perm_of_le {K : Type} [LinearOrderedField K] (s : ScoreState K) (topK : Int)
    (h0 : 0 ≤ topK) (h1 : topK < 2 ^ 31) (hle : s.dirty.length ≤ topK.toNat) :
    (rank s topK).Perm (s.dirty.map (fun d => (d, s.scores.getD d 0))) := by
  unfold rank
  simp only [toSizeT_of_nonneg topK h0 h1, List.length_map]
  rw [if_neg (by omega)]
  exact sortResults_perm _

theorem mem_rank_of_le {K : Type} [LinearOrderedField K] (s : ScoreState K) (topK : Int)
    (h0 : 0 ≤ topK) (h1 : topK < 2 ^ 31) (hle : s.dirty.length ≤ topK.toNat) (d : Nat)
    (hd : d ∈ s.dirty) : d ∈ (rank s topK).map Prod.fst := by
  have hp := (rank_perm_of_le s topK h0 h1 hle).map Prod.fst
  rw [hp.mem_iff]
  simp only [List.map_map, List.mem_map, Function.comp]
  exact ⟨d, hd, rfl⟩

theorem matchesQuery_pair (p : WebPage) (t u : String) :
    p.matchesQuery [t, u] = true ↔
      t ∈ p.wordsMap.map Prod.fst ∨ u ∈ p.wordsMap.map Prod.fst := by
  simp only [WebPage.matchesQuery, List.any_cons, List.any_nil, Bool.or_false, Bool.or_eq_true,
    decide_eq_true_eq]

/-- C7 (amended). In the index `build` produces from pages with distinct
docIds, let `A` and `B` have the same document length and the same frequency of
`t`, `A` contain `u` and `B` not.  Then for the query `[t, u]` the score of `A`
exceeds that of `B`; whenever `B` is among the results of `search`, `A` is too
and stands strictly before `B`; both are returned when `B` contains `t` and at
most `topK` documents match; and no document containing neither `t` nor `u` is
returned. -/
theorem extra_term_ranks_higher {K : Type} [LinearOrderedField K] (ln : K → K)
    (hln : ∀ x : K, 1 < x → 0 < ln x) (pages : List WebPage)
    (hnd : (pages.map (fun p => p.docId)).Nodup) (A B : WebPage) (hA : A ∈ pages)
    (hB : B ∈ pages) (t u : String) (hlen : A.docLen = B.docLen) (htf : A.tf t = B.tf t)
    (huA : u ∈ A.wordsMap.map Prod.fst) (huB : u ∉ B.wordsMap.map Prod.fst)
    (topK : Int) (h0 : 0 ≤ topK) (h1 : topK < 2 ^ 31) :
    ∃ r, search (build ln InvertIndex.new pages) [t, u] topK = some r ∧
      score (build ln InvertIndex.new pages) [t, u] B.docId <
        score (build ln InvertIndex.new pages) [t, u] A.docId ∧
      (B.docId ∈ r.map Prod.fst → ∃ l1 l2 l3,
        r = l1 ++ (A.docId, score (build ln InvertIndex.new pages) [t, u] A.docId) ::
          (l2 ++ (B.docId, score (build ln InvertIndex.new pages) [t, u] B.docId) :: l3)) ∧
      ((pages.filter (fun p => p.matchesQuery [t, u])).length ≤ topK.toNat →
        t ∈ B.wordsMap.map Prod.fst →
        A.docId ∈ r.map Prod.fst ∧ B.docId ∈ r.map Prod.fst) ∧
      (∀ p ∈ pages, t ∉ p.wordsMap.map Prod.fst → u ∉ p.wordsMap.map Prod.fst →
        p.docId ∉ r.map Prod.fst) := by
  obtain ⟨s, hs1, hs2, hs3, hs4⟩ := search_build ln pages hnd [t, u] topK
  have hperm := hs4 hln
  have hlt := score_lt_of_extra_term ln hln pages hnd A B hA hB t u hlen htf huA huB
  have hmemd : ∀ p ∈ pages, p.matchesQuery [t, u] = true → p.docId ∈ s.dirty := fun p hp hm =>
    hperm.mem_iff.2 (List.mem_map.2 ⟨p, List.mem_filter.2 ⟨hp, hm⟩, rfl⟩)
  have hAd : A.docId ∈ s.dirty := hmemd A hA ((matchesQuery_pair A t u).2 (Or.inr huA))
  refine ⟨rank s topK, hs1, hlt, ?_, ?_, ?_⟩
  · intro hBr
    have hAr : A.docId ∈ (rank s topK).map Prod.fst :=
      mem_rank_of_not_below s topK A.docId B.docId hAd hBr (by rw [hs2, hs2]; exact hlt)
    have hAe := entry_of_mem_rank s topK _ hAr
    have hBe := entry_of_mem_rank s topK _ hBr
    rw [hs2] at hAe hBe
    exact sorted_before _ (rank_sorted s topK) _ _ hAe hBe hlt
  · intro hle htB
    have hlen2 : s.dirty.length ≤ topK.toNat := by
      rw [hperm.length_eq, List.length_map]; exact hle
    exact ⟨mem_rank_of_le s topK h0 h1 hlen2 _ hAd,
      mem_rank_of_le s topK h0 h1 hlen2 _
        (hmemd B hB ((matchesQuery_pair B t u).2 (Or.inl htB)))⟩
  · intro p hp htp hup hmem
    obtain ⟨e, he, hid⟩ := List.mem_map.1 hmem
    obtain ⟨d, hd, rfl⟩ := mem_rank s topK e he
    obtain ⟨q, hq, hqd⟩ := List.mem_map.1 (hs3 d hd)
    rw [List.mem_filter] at hq
    have hqp : q = p := eq_of_docId_eq pages hnd q p hq.1 hp (hqd.trans hid)
    rcases (matchesQuery_pair q t u).1 hq.2 with h | h
    · exact htp (hqp ▸ h)
    · exact hup (hqp ▸ h)

theorem extra_term_ranks_higher_witness :
    (∀ x : ℝ, 1 < x → 0 < Real.log x) ∧ (seedCorpus.map (fun p => p.docId)).Nodup ∧
    d2 ∈ seedCorpus ∧ d1 ∈ seedCorpus ∧ d2.docLen = d1.docLen ∧ d2.tf "苹果" = d1.tf "苹果" ∧
    "电脑" ∈ d2.wordsMap.map Prod.fst ∧ "电脑" ∉ d1.wordsMap.map Prod.fst ∧
    (0 : Int) ≤ 20 ∧ (20 : Int) < 2 ^ 31 ∧
    ∃ r, search (build Real.log InvertIndex.new seedCorpus) ["苹果", "电脑"] 20 = some r ∧
      score (build Real.log InvertIndex.new seedCorpus) ["苹果", "电脑"] d1.docId <
        score (build Real.log InvertIndex.new seedCorpus) ["苹果", "电脑"] d2.docId ∧
      (d1.docId ∈ r.map Prod.fst → ∃ l1 l2 l3,
        r = l1 ++
          (d2.docId, score (build Real.log InvertIndex.new seedCorpus) ["苹果", "电脑"] d2.docId) ::
          (l2 ++
            (d1.docId, score (build Real.log InvertIndex.new seedCorpus) ["苹果", "电脑"] d1.docId)
              :: l3)) ∧
      ((seedCorpus.filter (fun p => p.matchesQuery ["苹果", "电脑"])).length ≤ (20 : Int).toNat →
        "苹果" ∈ d1.wordsMap.map Prod.fst →
        d2.docId ∈ r.map Prod.fst ∧ d1.docId ∈ r.map Prod.fst) ∧
      (∀ p ∈ seedCorpus, "苹果" ∉ p.wordsMap.map Prod.fst → "电脑" ∉ p.wordsMap.map Prod.fst →
        p.docId ∉ r.map Prod.fst) :=
  ⟨fun _ hx => Real.log_pos hx, by decide, List.mem_cons_of_mem _ (List.mem_cons_self _ _),
    List.mem_cons_self _ _, by decide, by decide, by decide, by decide, by decide, by decide,
    extra_term_ranks_higher Real.log (fun _ hx => Real.log_pos hx) seedCorpus (by decide) d2 d1
      (List.mem_cons_of_mem _ (List.mem_cons_self _ _)) (List.mem_cons_self _ _) "苹果" "电脑"
      (by decide) (by decide) (by decide) (by decide) 20 (by decide) (by decide)⟩

theorem mem_crowdedCorpus (p : WebPage) (hp : p ∈ crowdedCorpus) :
    (∃ i, i < 21 ∧ p = likeD2 (i + 1)) ∨ p = lastD1 := by
  unfold crowdedCorpus at hp
  rcases List.mem_append.1 hp with h | h
  · obtain ⟨i, hi, rfl⟩ := List.mem_map.1 h
    exact Or.inl ⟨i, List.mem_range.1 hi, rfl⟩
  · exact Or.inr (List.mem_singleton.1 h)

/-- C7 as stated fails when more than `topK = 20` documents outrank `B`: in a
corpus of twenty-one pages with the terms of `d2` and one page `B` with the
terms of `d1`, the hypotheses hold for `A` the first page and `B`, and `search`
does not return `B`. -/
theorem extra_term_ranks_higher_counterexample :
    (crowdedCorpus.map (fun p => p.docId)).Nodup ∧
    likeD2 1 ∈ crowdedCorpus ∧ lastD1 ∈ crowdedCorpus ∧
    (likeD2 1).docLen = lastD1.docLen ∧ (likeD2 1).tf "苹果" = lastD1.tf "苹果" ∧
    "电脑" ∈ (likeD2 1).wordsMap.map Prod.fst ∧ "电脑" ∉ lastD1.wordsMap.map Prod.fst ∧
    ∃ r, search (build Real.log InvertIndex.new crowdedCorpus) ["苹果", "电脑"] 20 = some r ∧
      lastD1.docId ∉ r.map Prod.fst := by
  have hnd : (crowdedCorpus.map (fun p => p.docId)).Nodup := by decide
  have hln : ∀ x : ℝ, 1 < x → 0 < Real.log x := fun _ hx => Real.log_pos hx
  have hlast : lastD1 ∈ crowdedCorpus := List.mem_append_right _ (List.mem_singleton_self _)
  have hlike : ∀ i, i < 21 → likeD2 (i + 1) ∈ crowdedCorpus := fun i hi =>
    List.mem_append_left _ (List.mem_map.2 ⟨i, List.mem_range.2 hi, rfl⟩)
  refine ⟨hnd, hlike 0 (by decide), hlast, by decide, by decide, by decide, by decide, ?_⟩
  obtain ⟨s, hs1, hs2, hs3, hs4⟩ := search_build Real.log crowdedCorpus hnd ["苹果", "电脑"] 20
  have hperm := hs4 hln
  refine ⟨rank s 20, hs1, ?_⟩
  intro hB
  have hall : ∀ d ∈ crowdedCorpus.map (fun p => p.docId), d ∈ (rank s 20).map Prod.fst := by
    intro d hd
    obtain ⟨p, hp, rfl⟩ := List.mem_map.1 hd
    rcases mem_crowdedCorpus p hp with ⟨i, hi, rfl⟩ | rfl
    · have hlt := score_lt_of_extra_term Real.log hln crowdedCorpus hnd (likeD2 (i + 1)) lastD1
        (hlike i hi) hlast "苹果" "电脑" rfl rfl (by simp [likeD2]) (by decide)
      have hd2 : (likeD2 (i + 1)).docId ∈ s.dirty :=
        hperm.mem_iff.2 (List.mem_map.2 ⟨likeD2 (i + 1),
          List.mem_filter.2 ⟨hlike i hi, rfl⟩, rfl⟩)
      exact mem_rank_of_not_below s 20 _ _ hd2 hB (by rw [hs2, hs2]; exact hlt)
    · exact hB
  have hlen := (List.subperm_of_subset hnd hall).length_le
  have hr := rank_length s 20 (by decide) (by decide)
  simp only [List.length_map] at hlen
  have h22 : crowdedCorpus.length = 22 := by decide
  have h20 : ((20 : Int).toNat) = 20 := by decide
  rw [h22, hr, h20] at hlen
  omega

theorem countBits_eq (n : Nat) : ∀ (diff : Nat) (acc : Int), diff < 2 ^ n →
    countBits diff acc = acc + ((List.range n).countP (fun i => diff.testBit i) : Nat) := by
  induction n with
  | zero =>
    intro diff acc h
    have h0 : diff = 0 := by simpa using h
    subst h0
    rw [countBits]; simp
  | succ n ih =>
    intro diff acc h
    rw [countBits]
    by_cases h0 : diff = 0
    · subst h0; simp
    · rw [dif_neg h0]
      have hlt : diff >>> 1 < 2 ^ n := by
        rw [Nat.shiftRight_eq_div_pow, pow_one]
        rw [pow_succ] at h
        exact Nat.div_lt_of_lt_mul (by omega)
      rw [ih _ _ hlt, List.range_succ_eq_map, List.countP_cons, List.countP_map]
      have hfun : ((fun i => (diff >>> 1).testBit i) : Nat → Bool) =
          ((fun i => diff.testBit i) ∘ Nat.succ) := by
        funext i
        simp [Nat.testBit_shiftRight, Nat.add_comm]
      rw [hfun]
      have hbit : ((diff &&& 1 : Nat) : Int) = if diff.testBit 0 = true then 1 else 0 := by
        rw [Nat.and_one_is_mod, Nat.testBit_zero]
        rcases Nat.mod_two_eq_zero_or_one diff with h2 | h2 <;> simp [h2]
      rw [hbit]
      by_cases hb : diff.testBit 0 = true <;> simp [hb] <;> omega

theorem countBits_xor (h1 h2 : Nat) (hh1 : h1 < 2 ^ 64) (hh2 : h2 < 2 ^ 64) :
    countBits (h1 ^^^ h2) 0 = (hamming h1 h2 : Int) := by
  rw [countBits_eq 64 _ _ (Nat.xor_lt_two_pow hh1 hh2), zero_add, hamming]
  congr 2
  funext i
  rw [Nat.testBit_xor, ← Bool.bne_eq_xor]

theorem packBits_fold_lt (l : List Nat) (weights : List Int) (hl : ∀ i ∈ l, i < 64)
    (init : Nat) (hinit : init < 2 ^ 64) :
    l.foldl (fun simhash i => if weights.getD i 0 > 0 then simhash ||| (1 <<< i) else simhash)
      init < 2 ^ 64 := by
  induction l generalizing init with
  | nil => simpa using hinit
  | cons i rest ih =>
    rw [List.foldl_cons]
    apply ih (fun j hj => hl j (List.mem_cons_of_mem _ hj))
    split
    · apply Nat.or_lt_two_pow hinit
      rw [Nat.one_shiftLeft]
      exact Nat.pow_lt_pow_right (by norm_num) (hl i (List.mem_cons_self _ _))
    · exact hinit

theorem getSimhash_lt (p : WebPage) : getSimhash p < 2 ^ 64 := by
  unfold getSimhash packBits
  exact packBits_fold_lt _ _ (fun i hi => List.mem_range.1 hi) 0 (by norm_num)

/-! ## Deduplication -/

theorem isSimilar_eq (h1 h2 : Nat) (hh1 : h1 < 2 ^ 64) (hh2 : h2 < 2 ^ 64) :
    isSimilar h1 h2 3 = decide (hamming h1 h2 < 3) := by
  unfold isSimilar
  simp only [countBits_xor h1 h2 hh1 hh2]
  by_cases h : hamming h1 h2 < 3
  · have h3 : ((hamming h1 h2 : Nat) : Int) < 3 := by exact_mod_cast h
    simp [h, h3]
  · have h3 : ¬ ((hamming h1 h2 : Nat) : Int) < 3 := by
      intro hc
      exact h (by exact_mod_cast hc)
    simp [h, h3]

theorem isSimilar_self (h : Nat) : isSimilar h h 3 = true := by
  unfold isSimilar
  simp only [Nat.xor_self]
  rw [countBits]
  simp

theorem dedup_fold_hashes (pages : List WebPage) (st : DedupState)
    (h : st.hashes = st.processedPages.map getSimhash) :
    (pages.foldl dedupStep st).hashes =
      (pages.foldl dedupStep st).processedPages.map getSimhash := by
  induction pages generalizing st with
  | nil => exact h
  | cons p rest ih =>
    rw [List.foldl_cons]
    apply ih
    unfold dedupStep
    simp only []
    split
    · exact h
    · simp [h]

theorem dedup_fold_append (pre : List WebPage) (p : WebPage) (st : DedupState) :
    (pre ++ [p]).foldl dedupStep st = dedupStep (pre.foldl dedupStep st) p := by
  rw [List.foldl_append]
  rfl

theorem dedupStep_processed (st : DedupState) (p : WebPage)
    (h : st.hashes = st.processedPages.map getSimhash) :
    (dedupStep st p).processedPages =
      if ∃ q ∈ st.processedPages, hamming (getSimhash p) (getSimhash q) < 3
      then st.processedPages else st.processedPages ++ [p] := by
  unfold dedupStep
  simp only [h]
  have hany : ((st.processedPages.map getSimhash).any
      (fun existingHash => isSimilar (getSimhash p) existingHash 3)) = true ↔
      ∃ q ∈ st.processedPages, hamming (getSimhash p) (getSimhash q) < 3 := by
    rw [List.any_eq_true]
    constructor
    · rintro ⟨x, hx, hs⟩
      obtain ⟨q, hq, rfl⟩ := List.mem_map.1 hx
      rw [isSimilar_eq _ _ (getSimhash_lt p) (getSimhash_lt q)] at hs
      exact ⟨q, hq, by simpa using hs⟩
    · rintro ⟨q, hq, hs⟩
      refine ⟨getSimhash q, List.mem_map_of_mem _ hq, ?_⟩
      rw [isSimilar_eq _ _ (getSimhash_lt p) (getSimhash_lt q)]
      simpa using hs
  by_cases hex : ∃ q ∈ st.processedPages, hamming (getSimhash p) (getSimhash q) < 3
  · rw [if_pos (hany.2 hex), if_pos hex]
  · have hne : ¬ ((st.processedPages.map getSimhash).any
        (fun existingHash => isSimilar (getSimhash p) existingHash 3)) = true :=
      fun hc => hex (hany.1 hc)
    rw [if_neg hne, if_neg hex]

theorem dedupStep_of_any (st : DedupState) (p : WebPage)
    (hd : (st.hashes.any (fun existingHash => isSimilar (getSimhash p) existingHash 3)) = true) :
    dedupStep st p = st := by
  unfold dedupStep
  simp only [hd, if_true]

theorem dedup_fold_prefix (pages : List WebPage) (st : DedupState) :
    ∃ l, (pages.foldl dedupStep st).processedPages = st.processedPages ++ l ∧
      (pages.foldl dedupStep st).hashes = st.hashes ++ l.map getSimhash ∧
      l.Sublist pages := by
  induction pages generalizing st with
  | nil => exact ⟨[], by simp, by simp, List.Sublist.refl _⟩
  | cons p rest ih =>
    rw [List.foldl_cons]
    obtain ⟨l, h1, h2, h3⟩ := ih (dedupStep st p)
    by_cases hd : (st.hashes.any (fun existingHash => isSimilar (getSimhash p) existingHash 3))
        = true
    · have hstep : dedupStep st p = st := by
        unfold dedupStep
        simp only [hd, if_true]
      rw [hstep] at h1 h2 ⊢
      exact ⟨l, h1, h2, h3.cons p⟩
    · have hstep : dedupStep st p =
          { processedPages := st.processedPages ++ [p],
            hashes := st.hashes ++ [getSimhash p] } := by
        unfold dedupStep
        simp only [hd, if_false]
        rfl
      refine ⟨p :: l, ?_, ?_, h3.cons₂ p⟩
      · rw [h1, hstep]; simp
      · rw [h2, hstep]; simp

/-- C9. For every ordered list of pages, `deduplicate` drops a page if and only
if the Hamming distance between its SimHash and the SimHash of some previously
kept page is strictly less than 3 (distance 2 is dropped, distance 3 is kept);
the first page of a non-empty input is always kept. -/
theorem deduplicate_drops_iff_near (pre : List WebPage) (p : WebPage) :
    deduplicate (pre ++ [p]) =
      (if ∃ q ∈ deduplicate pre, hamming (getSimhash p) (getSimhash q) < 3
       then deduplicate pre else deduplicate pre ++ [p]) ∧
    ∀ rest : List WebPage, (deduplicate (p :: rest)).head? = some p := by
  constructor
  · unfold deduplicate
    rw [dedup_fold_append]
    exact dedupStep_processed _ p (dedup_fold_hashes pre _ rfl)
  · intro rest
    unfold deduplicate
    rw [List.foldl_cons]
    obtain ⟨l, h1, _, _⟩ := dedup_fold_prefix rest
      (dedupStep { processedPages := [], hashes := [] } p)
    rw [h1]
    rfl

theorem dedupStep_covered (st : DedupState) (p : WebPage) :
    ∃ h ∈ (dedupStep st p).hashes, isSimilar (getSimhash p) h 3 = true := by
  by_cases hd : (st.hashes.any (fun existingHash => isSimilar (getSimhash p) existingHash 3))
      = true
  · have hstep : dedupStep st p = st := by
      unfold dedupStep
      simp only [hd, if_true]
    rw [hstep]
    obtain ⟨h, hh, hs⟩ := List.any_eq_true.1 hd
    exact ⟨h, hh, hs⟩
  · have hstep : dedupStep st p =
        { processedPages := st.processedPages ++ [p],
          hashes := st.hashes ++ [getSimhash p] } := by
      unfold dedupStep
      simp only [hd, if_false]
      rfl
    rw [hstep]
    exact ⟨getSimhash p, by simp, isSimilar_self _⟩

theorem dedup_fold_covered (l1 l2 : List WebPage) (p : WebPage) (st : DedupState) :
    ∃ h ∈ ((l1 ++ p :: l2).foldl dedupStep st).hashes, isSimilar (getSimhash p) h 3 = true := by
  rw [List.foldl_append, List.foldl_cons]
  obtain ⟨h, hh, hs⟩ := dedupStep_covered (l1.foldl dedupStep st) p
  obtain ⟨l, _, h2, _⟩ := dedup_fold_prefix l2 (dedupStep (l1.foldl dedupStep st) p)
  refine ⟨h, ?_, hs⟩
  rw [h2]
  exact List.mem_append_left _ hh

theorem deduplicate_subset (pages : List WebPage) : (deduplicate pages).Sublist pages := by
  unfold deduplicate
  obtain ⟨l, h1, _, h3⟩ := dedup_fold_prefix pages { processedPages := [], hashes := [] }
  rw [h1]
  simpa using h3

/-- C10. If page `pj` has the same term-frequency map as an earlier page `pi`,
then `getSimhash` gives both the same fingerprint and the iteration of
`deduplicate` for `pj` keeps nothing, whether or not `pi` itself was kept: the
survivors are those of the input without `pj`, and, page docIds being distinct,
`pj` is not among them. -/
theorem duplicate_is_dropped (l1 l2 l3 : List WebPage) (pi pj : WebPage)
    (hmap : pj.wordsMap = pi.wordsMap) :
    getSimhash pj = getSimhash pi ∧
    dedupStep ((l1 ++ pi :: l2).foldl dedupStep { processedPages := [], hashes := [] }) pj =
      (l1 ++ pi :: l2).foldl dedupStep { processedPages := [], hashes := [] } ∧
    deduplicate (l1 ++ pi :: l2 ++ pj :: l3) = deduplicate (l1 ++ pi :: l2 ++ l3) ∧
    (((l1 ++ pi :: l2 ++ pj :: l3).map (fun p => p.docId)).Nodup →
      pj.docId ∉ (deduplicate (l1 ++ pi :: l2 ++ pj :: l3)).map (fun p => p.docId)) := by
  have hhash : getSimhash pj = getSimhash pi := by
    unfold getSimhash
    rw [hmap]
  have hstep : dedupStep
      ((l1 ++ pi :: l2).foldl dedupStep { processedPages := [], hashes := [] }) pj =
      (l1 ++ pi :: l2).foldl dedupStep { processedPages := [], hashes := [] } := by
    obtain ⟨h, hh, hs⟩ := dedup_fold_covered l1 l2 pi { processedPages := [], hashes := [] }
    have hany : (((l1 ++ pi :: l2).foldl dedupStep
        { processedPages := [], hashes := [] }).hashes.any
        (fun existingHash => isSimilar (getSimhash pj) existingHash 3)) = true := by
      rw [hhash]
      exact List.any_eq_true.2 ⟨h, hh, hs⟩
    exact dedupStep_of_any _ _ hany
  have hdrop : deduplicate (l1 ++ pi :: l2 ++ pj :: l3) = deduplicate (l1 ++ pi :: l2 ++ l3) := by
    unfold deduplicate
    rw [List.foldl_append, List.foldl_cons, hstep, ← List.foldl_append]
  refine ⟨hhash, hstep, hdrop, ?_⟩
  intro hnd hmem
  rw [hdrop] at hmem
  have hmem2 := ((deduplicate_subset (l1 ++ pi :: l2 ++ l3)).map (fun p => p.docId)).subset hmem
  rw [List.map_append] at hnd hmem2
  rw [List.map_cons] at hnd
  have hdis := (List.nodup_append.1 hnd).2.2
  have hcons := (List.nodup_cons.1 (List.nodup_append.1 hnd).2.1).1
  rcases List.mem_append.1 hmem2 with h | h
  · exact hdis h (List.mem_cons_self _ _)
  · exact hcons h

theorem duplicate_is_dropped_witness :
    d1Again.wordsMap = d1.wordsMap ∧
    (getSimhash d1Again = getSimhash d1 ∧
    dedupStep ((([] : List WebPage) ++ d1 :: [d2]).foldl dedupStep { processedPages := [], hashes := [] })
        d1Again =
      (([] : List WebPage) ++ d1 :: [d2]).foldl dedupStep { processedPages := [], hashes := [] } ∧
    deduplicate (([] : List WebPage) ++ d1 :: [d2] ++ d1Again :: [d3]) = deduplicate (([] : List WebPage) ++ d1 :: [d2] ++ [d3]) ∧
    (((([] : List WebPage) ++ d1 :: [d2] ++ d1Again :: [d3]).map (fun p => p.docId)).Nodup →
      d1Again.docId ∉
        (deduplicate (([] : List WebPage) ++ d1 :: [d2] ++ d1Again :: [d3])).map (fun p => p.docId))) :=
  ⟨rfl, duplicate_is_dropped [] [d2] [d3] d1 d1Again rfl⟩

/-! ## Lines, pieces and words -/

theorem splitOnChar_ne_nil (c : Char) (s : List Char) : splitOnChar c s ≠ [] := by
  induction s with
  | nil => simp [splitOnChar]
  | cons x xs ih =>
    unfold splitOnChar
    split
    · simp
    · split <;> simp

theorem splitOnChar_of_not_mem (c : Char) (a : List Char) (h : c ∉ a) :
    splitOnChar c a = [a] := by
  induction a with
  | nil => rfl
  | cons x xs ih =>
    simp only [List.mem_cons, not_or] at h
    have hx : ¬ x = c := fun hh => h.1 hh.symm
    simp [splitOnChar, hx, ih h.2]

theorem splitOnChar_append (c : Char) (a b : List Char) (h : c ∉ a) :
    splitOnChar c (a ++ c :: b) = a :: splitOnChar c b := by
  induction a with
  | nil => simp [splitOnChar]
  | cons x xs ih =>
    simp only [List.mem_cons, not_or] at h
    have hx : ¬ x = c := fun hh => h.1 hh.symm
    simp [splitOnChar, hx, ih h.2]

theorem splitOnChar_lines (lines : List (List Char)) (h : ∀ l ∈ lines, '\n' ∉ l) :
    splitOnChar '\n' (lines.flatMap (fun l => l ++ ['\n'])) = lines ++ [[]] := by
  induction lines with
  | nil => rfl
  | cons l rest ih =>
    rw [List.flatMap_cons, List.append_assoc, List.singleton_append,
      splitOnChar_append _ _ _ (h l (List.mem_cons_self _ _)),
      ih (fun x hx => h x (List.mem_cons_of_mem _ hx))]
    rfl

theorem getLines_lines (lines : List (List Char)) (h : ∀ l ∈ lines, '\n' ∉ l) :
    getLines (lines.flatMap (fun l => l ++ ['\n'])) = lines := by
  unfold getLines
  have hlast : (lines ++ [[]] : List (List Char)).getLast? = some [] := by simp
  rw [splitOnChar_lines lines h]
  simp only [hlast, if_true, List.dropLast_concat]

theorem splitFirst_of_not_mem (c : Char) (a : List Char) (h : c ∉ a) :
    splitFirst c a = (a, none) := by
  induction a with
  | nil => rfl
  | cons x xs ih =>
    simp only [List.mem_cons, not_or] at h
    have hx : ¬ x = c := fun hh => h.1 hh.symm
    simp [splitFirst, hx, ih h.2]

theorem digitChar_toNat (d : Nat) (h : d < 10) : (digitChar d).toNat = 48 + d := by
  interval_cases d <;> rfl

theorem isDigit_digitChar (d : Nat) (h : d < 10) : isDigit (digitChar d) = true := by
  interval_cases d <;> rfl

theorem isDigit_not_special (c : Char) (h : isDigit c = true) :
    c ≠ ' ' ∧ c ≠ ':' ∧ c ≠ '\n' ∧ c ≠ '-' ∧ c ≠ '+' ∧ c ≠ '.' ∧ isSpace c = false := by
  unfold isDigit at h
  simp only [decide_eq_true_eq] at h
  refine ⟨?_, ?_, ?_, ?_, ?_, ?_, ?_⟩
  · rintro rfl; revert h; decide
  · rintro rfl; revert h; decide
  · rintro rfl; revert h; decide
  · rintro rfl; revert h; decide
  · rintro rfl; revert h; decide
  · rintro rfl; revert h; decide
  · unfold isSpace
    simp only [decide_eq_false_iff_not, not_or]
    refine ⟨?_, ?_, ?_, ?_, ?_, ?_⟩
    · rintro rfl; revert h; decide
    · rintro rfl; revert h; decide
    · rintro rfl; revert h; decide
    · rintro rfl; revert h; decide
    · omega
    · omega

theorem digitsLE_lt (fuel n : Nat) : ∀ d ∈ digitsLE fuel n, d < 10 := by
  induction fuel generalizing n with
  | zero => simp [digitsLE]
  | succ fuel ih =>
    intro d hd
    unfold digitsLE at hd
    split at hd
    · simp at hd
    · rcases List.mem_cons.1 hd with rfl | h
      · exact Nat.mod_lt _ (by norm_num)
      · exact ih _ d h

theorem digitsValue_append (a : List Char) (c : Char) :
    digitsValue (a ++ [c]) = digitsValue a * 10 + (c.toNat - 48) := by
  simp [digitsValue, List.foldl_append]

theorem digitsValue_digitsLE (fuel n : Nat) (h : n ≤ fuel) :
    digitsValue (((digitsLE fuel n).reverse).map digitChar) = n := by
  induction fuel generalizing n with
  | zero =>
    have : n = 0 := by omega
    subst this
    rfl
  | succ fuel ih =>
    unfold digitsLE
    by_cases h0 : n = 0
    · subst h0; rfl
    · rw [if_neg h0, List.reverse_cons, List.map_append, List.map_cons, List.map_nil,
        digitsValue_append, ih (n / 10) (by omega),
        digitChar_toNat _ (Nat.mod_lt _ (by norm_num))]
      omega

theorem digitsLE_ne_nil (fuel n : Nat) (h0 : n ≠ 0) (h : n ≤ fuel) : digitsLE fuel n ≠ [] := by
  cases fuel with
  | zero => omega
  | succ fuel => simp [digitsLE, h0]

theorem showNat_digits (n : Nat) : ∀ c ∈ showNat n, isDigit c = true := by
  intro c hc
  unfold showNat at hc
  split at hc
  · simp only [List.mem_singleton] at hc
    subst hc
    rfl
  · obtain ⟨d, hd, rfl⟩ := List.mem_map.1 hc
    exact isDigit_digitChar d (digitsLE_lt _ _ d (List.mem_reverse.1 hd))

theorem showNat_ne_nil (n : Nat) : showNat n ≠ [] := by
  unfold showNat
  split
  · simp
  · rename_i h0
    simpa using digitsLE_ne_nil n n h0 (le_refl n)

theorem digitsValue_showNat (n : Nat) : digitsValue (showNat n) = n := by
  unfold showNat
  split
  · rename_i h0
    subst h0
    rfl
  · exact digitsValue_digitsLE n n (le_refl n)

theorem takeWhile_digits (ds rest : List Char) (hds : ∀ c ∈ ds, isDigit c = true)
    (hrest : ∀ c, rest.head? = some c → isDigit c = false) :
    (ds ++ rest).takeWhile isDigit = ds ∧ (ds ++ rest).dropWhile isDigit = rest := by
  induction ds with
  | nil =>
    cases rest with
    | nil => simp
    | cons x xs =>
      have hx := hrest x rfl
      simp [List.takeWhile, List.dropWhile, hx]
  | cons d ds ih =>
    have hd := hds d (List.mem_cons_self _ _)
    have := ih (fun c hc => hds c (List.mem_cons_of_mem _ hc))
    simp [List.takeWhile, List.dropWhile, hd, this.1, this.2]

theorem readSign_digit (c : Char) (rest : List Char) (hc : isDigit c = true) :
    readSign (c :: rest) = (false, c :: rest) := by
  have h := isDigit_not_special c hc
  simp [readSign, h.2.2.2.1, h.2.2.2.2.1]

theorem dropWhile_isSpace_cons (c : Char) (rest : List Char) (hc : isSpace c = false) :
    (c :: rest).dropWhile isSpace = c :: rest := by
  simp [List.dropWhile, hc]

theorem readInt_showNat (n : Nat) (rest : List Char)
    (hrest : ∀ c, rest.head? = some c → isDigit c = false) :
    readInt (showNat n ++ rest) = some ((n : Int), rest) := by
  obtain ⟨c, tl, hct⟩ := List.exists_cons_of_ne_nil (showNat_ne_nil n)
  have hc : isDigit c = true := showNat_digits n c (by rw [hct]; exact List.mem_cons_self _ _)
  have hsp := (isDigit_not_special c hc).2.2.2.2.2.2
  have htw := takeWhile_digits (showNat n) rest (showNat_digits n) hrest
  unfold readInt
  simp only [hct, List.cons_append, dropWhile_isSpace_cons c _ hsp, readSign_digit c _ hc]
  rw [← List.cons_append, ← hct, htw.1, htw.2, if_neg (showNat_ne_nil n)]
  simp [digitsValue_showNat]

theorem readInt_showInt (n : Int) (rest : List Char)
    (hrest : ∀ c, rest.head? = some c → isDigit c = false) :
    readInt (showInt n ++ rest) = some (n, rest) := by
  unfold showInt
  by_cases hn : n < 0
  · rw [if_pos hn]
    have htw := takeWhile_digits (showNat n.natAbs) rest (showNat_digits _) hrest
    unfold readInt
    have hsp : isSpace '-' = false := by decide
    simp only [List.cons_append, dropWhile_isSpace_cons '-' _ hsp, readSign, if_true, htw.1,
      htw.2, if_neg (showNat_ne_nil n.natAbs), digitsValue_showNat]
    congr 2
    omega
  · rw [if_neg hn, readInt_showNat _ _ hrest]
    congr 2
    omega

theorem stoi_showInt (n : Int) : stoi (showInt n) = some n := by
  have h := readInt_showInt n [] (by simp)
  rw [List.append_nil] at h
  simp [stoi, h]

theorem showInt_chars (n : Int) : ∀ c ∈ showInt n, isDigit c = true ∨ c = '-' := by
  intro c hc
  unfold showInt at hc
  split at hc
  · rcases List.mem_cons.1 hc with rfl | h
    · exact Or.inr rfl
    · exact Or.inl (showNat_digits _ c h)
  · exact Or.inl (showNat_digits _ c hc)

theorem showInt_ne_nil (n : Int) : showInt n ≠ [] := by
  unfold showInt
  split
  · simp
  · exact showNat_ne_nil _

/-! ## Printed doubles -/

theorem numChar_not_special (c : Char) (h : NumChar c) :
    c ≠ ' ' ∧ c ≠ ':' ∧ c ≠ '\n' ∧ isSpace c = false := by
  rcases h with h | rfl | rfl | rfl | rfl
  · have := isDigit_not_special c h
    exact ⟨this.1, this.2.1, this.2.2.1, this.2.2.2.2.2.2⟩
  all_goals decide

theorem mantissaDigits_digits (m : Nat) : ∀ c ∈ mantissaDigits m, isDigit c = true := by
  intro c hc
  unfold mantissaDigits at hc
  obtain ⟨i, _, rfl⟩ := List.mem_map.1 hc
  exact isDigit_digitChar _ (Nat.mod_lt _ (by norm_num))

theorem mantissaDigits_eq (m : Nat) :
    ∃ c rest, mantissaDigits m = c :: rest ∧ isDigit c = true := by
  refine ⟨digitChar (m / 10 ^ 5 % 10), _, rfl, isDigit_digitChar _ (Nat.mod_lt _ (by norm_num))⟩

theorem mem_stripZeros (ds : List Char) (c : Char) (h : c ∈ stripZeros ds) : c ∈ ds := by
  unfold stripZeros at h
  rw [List.mem_reverse] at h
  exact List.mem_reverse.1 ((List.dropWhile_sublist _).subset h)

theorem pointFrac_chars (frac : List Char) (hf : ∀ c ∈ frac, NumChar c) :
    ∀ c ∈ pointFrac frac, NumChar c := by
  intro c hc
  unfold pointFrac at hc
  split at hc
  · simp at hc
  · rcases List.mem_cons.1 hc with rfl | h
    · exact Or.inr (Or.inr (Or.inr (Or.inl rfl)))
    · exact hf c (mem_stripZeros _ _ h)

theorem showExponent_chars (e : Int) : ∀ c ∈ showExponent e, NumChar c := by
  intro c hc
  unfold showExponent at hc
  rcases List.mem_cons.1 hc with rfl | h
  · split
    · exact Or.inr (Or.inl rfl)
    · exact Or.inr (Or.inr (Or.inl rfl))
  · split at h
    · rcases List.mem_cons.1 h with rfl | h2
      · exact Or.inl rfl
      · exact Or.inl (showNat_digits _ c h2)
    · exact Or.inl (showNat_digits _ c h)

theorem showPositive_chars {K : Type} [LinearOrderedField K] [FloorRing K] (x : K) :
    ∀ c ∈ showPositive x, NumChar c := by
  have hds : ∀ c ∈ mantissaDigits (sixDigits x).1, NumChar c :=
    fun c hc => Or.inl (mantissaDigits_digits _ c hc)
  intro c hc
  unfold showPositive renderDigits at hc
  simp only [] at hc
  split at hc
  · rcases List.mem_append.1 hc with h | h
    · rcases List.mem_append.1 h with h | h
      · exact hds c (List.mem_of_mem_take h)
      · exact pointFrac_chars _ (fun d hd => hds d (List.mem_of_mem_drop hd)) c h
    · rcases List.mem_cons.1 h with rfl | h
      · exact Or.inr (Or.inr (Or.inr (Or.inr rfl)))
      · exact showExponent_chars _ c h
  · split at hc
    · rcases List.mem_append.1 hc with h | h
      · exact hds c (List.mem_of_mem_take h)
      · exact pointFrac_chars _ (fun d hd => hds d (List.mem_of_mem_drop hd)) c h
    · rcases List.mem_cons.1 hc with rfl | h
      · exact Or.inl rfl
      · refine pointFrac_chars _ ?_ c h
        intro d hd
        rcases List.mem_append.1 hd with h1 | h1
        · rw [List.eq_of_mem_replicate h1]
          exact Or.inl rfl
        · exact hds d h1

theorem showPositive_head {K : Type} [LinearOrderedField K] [FloorRing K] (x : K) :
    ∃ c rest, showPositive x = c :: rest ∧ isDigit c = true := by
  obtain ⟨c, tl, hct, hc⟩ := mantissaDigits_eq (sixDigits x).1
  unfold showPositive renderDigits
  simp only [hct]
  split
  · exact ⟨c, _, rfl, hc⟩
  · split
    · exact ⟨c, _, rfl, hc⟩
    · exact ⟨'0', _, rfl, rfl⟩

theorem showDouble_chars {K : Type} [LinearOrderedField K] [FloorRing K] (x : K) :
    ∀ c ∈ showDouble x, NumChar c := by
  intro c hc
  unfold showDouble at hc
  split at hc
  · simp only [List.mem_singleton] at hc
    subst hc
    exact Or.inl rfl
  · split at hc
    · rcases List.mem_cons.1 hc with rfl | h
      · exact Or.inr (Or.inl rfl)
      · exact showPositive_chars _ c h
    · exact showPositive_chars _ c hc

theorem readDouble_digit_isSome {K : Type} [LinearOrderedField K] (c : Char)
    (rest : List Char) (hc : isDigit c = true) :
    (readDouble (K := K) (c :: rest)).isSome = true := by
  have hsp := (isDigit_not_special c hc).2.2.2.2.2.2
  unfold readDouble readDecimal
  simp only [dropWhile_isSpace_cons c _ hsp, readSign_digit c _ hc]
  have hip : (c :: rest).takeWhile isDigit ≠ [] := by simp [List.takeWhile, hc]
  simp [hip]

theorem readDouble_minus_isSome {K : Type} [LinearOrderedField K] (c : Char)
    (rest : List Char) (hc : isDigit c = true) :
    (readDouble (K := K) ('-' :: c :: rest)).isSome = true := by
  have hsp : isSpace '-' = false := by decide
  unfold readDouble readDecimal
  simp only [dropWhile_isSpace_cons '-' _ hsp, readSign, if_true]
  have hip : (c :: rest).takeWhile isDigit ≠ [] := by simp [List.takeWhile, hc]
  simp [hip]

theorem readDouble_showDouble_isSome {K : Type} [LinearOrderedField K] [FloorRing K] (x : K) :
    (readDouble (K := K) (showDouble x)).isSome = true := by
  unfold showDouble
  split
  · exact readDouble_digit_isSome '0' [] rfl
  · split
    · obtain ⟨c, rest, h, hc⟩ := showPositive_head (-x)
      rw [h]
      exact readDouble_minus_isSome c rest hc
    · obtain ⟨c, rest, h, hc⟩ := showPositive_head x
      rw [h]
      exact readDouble_digit_isSome c rest hc

theorem showDouble_ne_nil {K : Type} [LinearOrderedField K] [FloorRing K] (x : K) :
    showDouble x ≠ [] := by
  intro h
  have := readDouble_showDouble_isSome x
  rw [h] at this
  simp [readDouble, readDecimal, readSign, afterPoint] at this

/-! ## Reading back what `store` wrote -/

theorem showInt_no_special (n : Int) :
    ' ' ∉ showInt n ∧ ':' ∉ showInt n ∧ '\n' ∉ showInt n ∧ ∀ c ∈ showInt n, isSpace c = false := by
  have h : ∀ c ∈ showInt n, NumChar c := by
    intro c hc
    rcases showInt_chars n c hc with h | h
    · exact Or.inl h
    · exact Or.inr (Or.inl h)
  exact ⟨fun hc => (numChar_not_special _ (h _ hc)).1 rfl,
    fun hc => (numChar_not_special _ (h _ hc)).2.1 rfl,
    fun hc => (numChar_not_special _ (h _ hc)).2.2.1 rfl,
    fun c hc => (numChar_not_special _ (h c hc)).2.2.2⟩

theorem showDouble_no_special {K : Type} [LinearOrderedField K] [FloorRing K] (x : K) :
    ' ' ∉ showDouble x ∧ ':' ∉ showDouble x ∧ '\n' ∉ showDouble x ∧
      ∀ c ∈ showDouble x, isSpace c = false :=
  ⟨fun hc => (numChar_not_special _ (showDouble_chars x _ hc)).1 rfl,
    fun hc => (numChar_not_special _ (showDouble_chars x _ hc)).2.1 rfl,
    fun hc => (numChar_not_special _ (showDouble_chars x _ hc)).2.2.1 rfl,
    fun c hc => (numChar_not_special _ (showDouble_chars x c hc)).2.2.2⟩

theorem showItem_eq {K : Type} [LinearOrderedField K] [FloorRing K] (it : InvertIndexItem K) :
    showItem it = ' ' :: (showItem it).tail := rfl

theorem readDouble_space {K : Type} [LinearOrderedField K] (s : List Char) :
    readDouble (K := K) (' ' :: s) = readDouble s := by
  have hsp : isSpace ' ' = true := by decide
  unfold readDouble readDecimal
  simp only [List.dropWhile_cons, hsp, if_true]

theorem showInt_head (n : Int) : ∃ c rest, showInt n = c :: rest ∧ isSpace c = false := by
  obtain ⟨c, rest, h⟩ := List.exists_cons_of_ne_nil (showInt_ne_nil n)
  exact ⟨c, rest, h, (showInt_no_special n).2.2.2 c (by rw [h]; exact List.mem_cons_self _ _)⟩

theorem showDouble_head {K : Type} [LinearOrderedField K] [FloorRing K] (x : K) :
    ∃ c rest, showDouble x = c :: rest ∧ isSpace c = false := by
  obtain ⟨c, rest, h⟩ := List.exists_cons_of_ne_nil (showDouble_ne_nil x)
  exact ⟨c, rest, h,
    (showDouble_no_special x).2.2.2 c (by rw [h]; exact List.mem_cons_self _ _)⟩

theorem readDouble_showDouble {K : Type} [LinearOrderedField K] [FloorRing K] (x : K) :
    ∃ r, readDouble (K := K) (showDouble x) = some (reloadWeight x, r) := by
  have h := readDouble_showDouble_isSome x
  cases hr : readDouble (K := K) (showDouble x) with
  | none => rw [hr] at h; cases h
  | some v =>
    refine ⟨v.2, ?_⟩
    simp [reloadWeight, stod, hr]

theorem loadLine_meta {K : Type} [LinearOrderedField K] [FloorRing K] (idx : InvertIndex K)
    (n : Int) (x : K) :
    loadLine (some idx) ("#META ".data ++ (showInt n ++ ' ' :: showDouble x)) =
      some { idx with totalDocs := n, avgDocLen := reloadWeight x } := by
  obtain ⟨c, rest, hc, hcs⟩ := showInt_head n
  obtain ⟨d, rest2, hd, hds⟩ := showDouble_head x
  obtain ⟨r, hr⟩ := readDouble_showDouble x
  have hint := readInt_showInt n (' ' :: showDouble x) (by
    intro c hc
    simp only [List.head?_cons, Option.some.injEq] at hc
    subst hc
    decide)
  have hsp : isSpace ' ' = true := by decide
  unfold loadLine
  simp only []
  have hnil : ¬ ("#META ".data ++ (showInt n ++ ' ' :: showDouble x) = []) := by
    intro h
    have := congrArg List.length h
    simp at this
  have hm : ("#META ".data ++ (showInt n ++ ' ' :: showDouble x)).length ≥ 5 ∧
      ("#META ".data ++ (showInt n ++ ' ' :: showDouble x)).take 5 = "#META".data := by
    refine ⟨?_, ?_⟩
    · rw [List.length_append]
      have : ("#META ".data).length = 6 := by decide
      omega
    · rw [List.take_append_of_le_length (by decide)]
      decide
  rw [if_neg hnil, if_pos hm]
  have hsub : substrFrom ("#META ".data ++ (showInt n ++ ' ' :: showDouble x)) 6 =
      some (showInt n ++ ' ' :: showDouble x) := by
    unfold substrFrom
    have h6 : ("#META ".data).length = 6 := by decide
    rw [if_neg (by rw [List.length_append, h6]; omega), List.drop_append_eq_append_drop, h6]
    have h2 : ("#META ".data).drop 6 = [] := by decide
    rw [h2]
    rfl
  unfold loadMeta
  rw [hsub]
  simp only []
  have h1 : ¬ ((showInt n ++ ' ' :: showDouble x).dropWhile isSpace = []) := by
    rw [hc]
    simp [List.dropWhile, hcs]
  rw [if_neg h1, hint]
  simp only []
  have h2 : ¬ ((' ' :: showDouble x).dropWhile isSpace = []) := by
    rw [hd]
    simp [List.dropWhile, hsp, hds]
  rw [if_neg h2, readDouble_space, hr]

/-! ### The term lines -/

theorem storeLines_no_newline {K : Type} [LinearOrderedField K] [FloorRing K]
    (I : InvertIndex K) (hwf : ∀ e ∈ I.invertIndex, WellFormedTerm e.1) :
    ∀ l ∈ storeLines I, '\n' ∉ l := by
  have hdl : ∀ e : Nat × Int, '\n' ∉ showDocLen e := by
    intro e
    have h1 := showInt_no_special (e.1 : Int)
    have h2 := showInt_no_special e.2
    unfold showDocLen
    simp only [List.mem_cons, List.mem_append, not_or]
    exact ⟨by decide, h1.2.2.1, by decide, h2.2.2.1⟩
  have hit : ∀ it : InvertIndexItem K, '\n' ∉ showItem it := by
    intro it
    have h1 := showInt_no_special (it.docId : Int)
    have h2 := showDouble_no_special it.weight
    have h3 := showInt_no_special it.termFreq
    unfold showItem
    simp only [List.mem_cons, List.mem_append, not_or]
    exact ⟨by decide, h1.2.2.1, by decide, h2.2.2.1, by decide, h3.2.2.1⟩
  intro l hl
  unfold storeLines at hl
  rcases List.mem_cons.1 hl with rfl | hl
  · have h1 := showInt_no_special I.totalDocs
    have h2 := showDouble_no_special I.avgDocLen
    simp only [List.mem_append, List.mem_cons, not_or]
    exact ⟨by decide, h1.2.2.1, by decide, h2.2.2.1⟩
  · rcases List.mem_cons.1 hl with rfl | hl
    · simp only [List.mem_append, List.mem_flatMap, not_or, not_exists, not_and]
      exact ⟨by decide, fun e _ => hdl e⟩
    · obtain ⟨e, he, rfl⟩ := List.mem_map.1 hl
      simp only [List.mem_append, List.mem_flatMap, not_or, not_exists, not_and]
      exact ⟨(hwf e he).2.1, fun it _ => hit it⟩

theorem decimalExponent_of_ge {K : Type} [LinearOrderedField K] [FloorRing K] (x : K)
    (h1 : 1 ≤ x) (n : Nat) (hfl : ⌊x⌋ = (n : Int)) :
    decimalExponent x = (numDigits n : Int) - 1 := by
  unfold decimalExponent
  rw [if_pos h1, hfl, Int.toNat_ofNat]

theorem sixDigits_tie : sixDigits ((65 : ℚ) / 64) = (101562, 0) := by
  have he : decimalExponent ((65 : ℚ) / 64) = 0 := by
    have hfl : ⌊(65 : ℚ) / 64⌋ = ((1 : ℕ) : ℤ) := by
      rw [Int.floor_eq_iff]
      constructor <;> norm_num
    rw [decimalExponent_of_ge _ (by norm_num) 1 hfl]
    decide
  have hr : roundHalfEven ((65 : ℚ) / 64 * (10 : ℚ) ^ ((5 : ℤ) - 0)) = 101562 := by
    have hv : (65 : ℚ) / 64 * (10 : ℚ) ^ ((5 : ℤ) - 0) = 101562 + 1 / 2 := by norm_num
    have hfl : ⌊(101562 : ℚ) + 1 / 2⌋ = 101562 := by
      rw [Int.floor_eq_iff]
      constructor <;> norm_num
    rw [hv]
    unfold roundHalfEven
    simp only [hfl]
    norm_num
    rfl
  unfold sixDigits
  simp only [he, hr]
  decide

theorem showDouble_tie : showDouble ((65 : ℚ) / 64) = "1.01562".data := by
  unfold showDouble
  rw [if_neg (by norm_num), if_neg (by norm_num)]
  unfold showPositive
  rw [sixDigits_tie]
  decide

theorem sixDigits_tie_odd : sixDigits ((67 : ℚ) / 64) = (104688, 0) := by
  have he : decimalExponent ((67 : ℚ) / 64) = 0 := by
    have hfl : ⌊(67 : ℚ) / 64⌋ = ((1 : ℕ) : ℤ) := by
      rw [Int.floor_eq_iff]
      constructor <;> norm_num
    rw [decimalExponent_of_ge _ (by norm_num) 1 hfl]
    decide
  have hr : roundHalfEven ((67 : ℚ) / 64 * (10 : ℚ) ^ ((5 : ℤ) - 0)) = 104688 := by
    have hv : (67 : ℚ) / 64 * (10 : ℚ) ^ ((5 : ℤ) - 0) = 104687 + 1 / 2 := by norm_num
    have hfl : ⌊(104687 : ℚ) + 1 / 2⌋ = 104687 := by
      rw [Int.floor_eq_iff]
      constructor <;> norm_num
    rw [hv]
    unfold roundHalfEven
    simp only [hfl]
    norm_num
    rfl
  unfold sixDigits
  simp only [he, hr]
  decide

theorem showDouble_tie_odd : showDouble ((67 : ℚ) / 64) = "1.04688".data := by
  unfold showDouble
  rw [if_neg (by norm_num), if_neg (by norm_num)]
  unfold showPositive
  rw [sixDigits_tie_odd]
  decide

/-! ## Scores on the index read back from its file -/

/-- The file `store` writes for the index built from no page has a `#DOCLENS`
line of eight characters, on which `line.substr(9)` throws: `load` does not
return. -/
theorem load_store_nil {K : Type} [LinearOrderedField K] [FloorRing K] (ln : K → K)
    (idx0 : InvertIndex K) :
    load idx0 (store (build ln InvertIndex.new [])) = none := by
  have hlines : storeLines (build ln (InvertIndex.new : InvertIndex K) []) =
      [("#META ".data ++ (showInt 0 ++ ' ' :: showDouble (0 : K))), "#DOCLENS".data] := by
    simp [storeLines, build_nil, InvertIndex.new]
  have hnl : ∀ l ∈ storeLines (build ln (InvertIndex.new : InvertIndex K) []), '\n' ∉ l :=
    storeLines_no_newline _ (by simp [build_nil, InvertIndex.new])
  unfold load store
  rw [getLines_lines _ hnl, hlines, List.foldl_cons, loadLine_meta, List.foldl_cons,
    List.foldl_nil]
  rfl

/-! ## The term map `processDoc` builds -/

theorem keys_incrWord (m : List (String × Int)) (w : String) :
    (incrWord m w).map Prod.fst =
      if w ∈ m.map Prod.fst then m.map Prod.fst else m.map Prod.fst ++ [w] := by
  induction m with
  | nil => simp [incrWord]
  | cons e rest ih =>
    obtain ⟨k, v⟩ := e
    by_cases hk : k = w
    · subst hk
      simp [incrWord]
    · have hk2 : ¬ w = k := fun h => hk h.symm
      by_cases hm : w ∈ rest.map Prod.fst
      · simp only [incrWord, hk, if_false, List.map_cons, ih, hm, if_true, List.mem_cons, or_true]
      · simp only [incrWord, hk, if_false, List.map_cons, ih, hm, List.mem_cons, hk2, or_self,
          List.cons_append]

theorem incrWord_pos (m : List (String × Int)) (w : String) (h : ∀ e ∈ m, 0 < e.2) :
    ∀ e ∈ incrWord m w, 0 < e.2 := by
  induction m with
  | nil =>
    intro e he
    simp only [incrWord, List.mem_singleton] at he
    subst he
    exact Int.one_pos
  | cons e0 rest ih =>
    obtain ⟨k, v⟩ := e0
    have hv : 0 < v := h (k, v) (List.mem_cons_self _ _)
    have hrest : ∀ e ∈ rest, 0 < e.2 := fun e he => h e (List.mem_cons_of_mem _ he)
    intro e he
    by_cases hk : k = w
    · simp only [incrWord, hk, if_true, List.mem_cons] at he
      rcases he with rfl | he
      · show 0 < v + 1
        omega
      · exact hrest e he
    · simp only [incrWord, hk, if_false, List.mem_cons] at he
      rcases he with rfl | he
      · exact hv
      · exact ih hrest e he

/-- The term map `processDoc` builds from the tokenizer's output has one entry
per word and only positive counts: the two invariants of `WebPage`. -/
theorem countWords_invariants (words : List String) :
    ((countWords words).map Prod.fst).Nodup ∧ ∀ e ∈ countWords words, 0 < e.2 := by
  unfold countWords
  have hgen : ∀ (m : List (String × Int)), (m.map Prod.fst).Nodup → (∀ e ∈ m, 0 < e.2) →
      ((words.foldl incrWord m).map Prod.fst).Nodup ∧ ∀ e ∈ words.foldl incrWord m, 0 < e.2 := by
    induction words with
    | nil => intro m h1 h2; exact ⟨h1, h2⟩
    | cons w rest ih =>
      intro m h1 h2
      rw [List.foldl_cons]
      apply ih
      · rw [keys_incrWord]
        by_cases hm : w ∈ m.map Prod.fst
        · simp only [hm, if_true]; exact h1
        · simp only [hm, if_false]
          exact List.Nodup.append h1 (List.nodup_singleton w) (by simpa using hm)
      · exact incrWord_pos m w h2
  exact hgen [] (by simp) (by simp)

/-! ## The bits of a fingerprint -/

theorem jenkinsStep_eq (h b : Nat) : jenkinsStep h b = oneAtATimeRound h b := by
  unfold jenkinsStep oneAtATimeRound
  simp only [Nat.shiftLeft_eq, Nat.shiftRight_eq_div_pow]
  rfl

theorem jenkinsHash_eq (key : String) : jenkinsHash key = oneAtATime (bytes key) := by
  unfold jenkinsHash oneAtATime
  have h : jenkinsStep = oneAtATimeRound := by
    funext h b
    exact jenkinsStep_eq h b
  simp only [Nat.shiftLeft_eq, Nat.shiftRight_eq_div_pow, h]
  rfl

theorem shift_and_one (n i : Nat) : ((n >>> i) &&& 1 = 1) ↔ n.testBit i = true := by
  rw [Nat.testBit, Nat.and_comm]
  simp only [Nat.one_and_eq_mod_two, bne_iff_ne, ne_eq]
  omega

theorem addWeights_length (weights : List Int) (pair : String × Int) :
    (addWeights weights pair).length = 64 := by
  simp [addWeights]

theorem addWeights_getD (weights : List Int) (pair : String × Int) (i : Nat) (hi : i < 64) :
    (addWeights weights pair).getD i 0 =
      weights.getD i 0 + (if (jenkinsHash pair.1).testBit i then pair.2 else -pair.2) := by
  unfold addWeights
  simp only [List.getD_eq_getElem?_getD, List.getElem?_map, List.getElem?_range hi,
    Option.map_some', Option.getD_some, shift_and_one]
  split <;> ring

theorem fold_addWeights_getD (wm : List (String × Int)) (weights : List Int) (i : Nat)
    (hi : i < 64) :
    (wm.foldl addWeights weights).getD i 0 = weights.getD i 0 + bitBalance wm i := by
  induction wm generalizing weights with
  | nil => simp [bitBalance]
  | cons e rest ih =>
    rw [List.foldl_cons, ih, addWeights_getD _ _ _ hi]
    simp only [bitBalance, List.map_cons, List.sum_cons]
    ring

theorem orBits_fold_testBit (P : Nat → Prop) [DecidablePred P] (l : List Nat) (init : Nat)
    (j : Nat) :
    (l.foldl (fun simhash i => if P i then simhash ||| (1 <<< i) else simhash)
      init).testBit j = (init.testBit j || decide (j ∈ l ∧ P j)) := by
  induction l generalizing init with
  | nil => simp
  | cons a rest ih =>
    rw [List.foldl_cons, ih]
    by_cases ha : P a
    · rw [if_pos ha]
      simp only [Nat.testBit_or, Nat.one_shiftLeft, Nat.testBit_two_pow, List.mem_cons]
      by_cases hj : a = j
      · subst hj
        simp [ha]
      · have hj2 : ¬ j = a := fun h => hj h.symm
        simp [hj, hj2]
    · rw [if_neg ha]
      by_cases hj : j = a
      · subst hj
        simp [ha]
      · simp [hj]

theorem packBits_testBit (weights : List Int) (j : Nat) (hj : j < 64) :
    (packBits weights).testBit j = decide (weights.getD j 0 > 0) := by
  unfold packBits
  rw [orBits_fold_testBit (fun i => weights.getD i 0 > 0)]
  simp [hj]

theorem replicate_zero_getD (n i : Nat) : (List.replicate n (0 : Int)).getD i 0 = 0 := by
  by_cases h : i < n
  · simp [List.getD_eq_getElem?_getD, List.getElem?_replicate, h]
  · simp [List.getD_eq_getElem?_getD, List.getElem?_replicate, h]

theorem getSimhash_testBit (page : WebPage) (i : Nat) (hi : i < 64) :
    (getSimhash page).testBit i = true ↔ 0 < bitBalance page.wordsMap i := by
  unfold getSimhash
  rw [packBits_testBit _ _ hi, fold_addWeights_getD _ _ _ hi, replicate_zero_getD]
  simp

/-- C11. For every page (a term map with positive frequencies) and every bit
position `i < 64`, bit `i` of `getSimhash` is 1 exactly when the sum over the
entries of the map of `+freq` (bit `i` of the hash of the word set) or `-freq`
(bit clear) is strictly positive; and `jenkinsHash` is the one-at-a-time hash
of the bytes of the word in arithmetic modulo `2^64`. -/
theorem getSimhash_bit (page : WebPage) (i : Nat) (hi : i < 64) :
    ((getSimhash page).testBit i = true ↔ 0 < bitBalance page.wordsMap i) ∧
    (∀ e ∈ page.wordsMap, 0 < e.2) ∧
    ∀ key : String, jenkinsHash key = oneAtATime (bytes key) :=
  ⟨getSimhash_testBit page i hi, page.freq_pos, jenkinsHash_eq⟩

theorem getSimhash_bit_witness :
    (63 : Nat) < 64 ∧
    (((getSimhash d1).testBit 63 = true ↔ 0 < bitBalance d1.wordsMap 63) ∧
    (∀ e ∈ d1.wordsMap, 0 < e.2) ∧
    ∀ key : String, jenkinsHash key = oneAtATime (bytes key)) :=
  ⟨by decide, getSimhash_bit d1 63 (by decide)⟩

/-! ## The Hamming distance of two fingerprints -/

theorem hamming_comm (h1 h2 : Nat) : hamming h1 h2 = hamming h2 h1 := by
  unfold hamming
  congr 1
  funext i
  cases h1.testBit i <;> cases h2.testBit i <;> rfl

theorem hamming_le (h1 h2 : Nat) : hamming h1 h2 ≤ 64 := by
  unfold hamming
  exact le_trans (List.countP_le_length _) (le_of_eq (List.length_range 64))

/-- C12. For 64-bit values `h1`, `h2` the loop of `WebPage::hammingDistance`
(a total function: the loop ends) returns the number of bit positions below 64
in which `h1` and `h2` differ; the distance is symmetric and lies between 0
and 64; `PageLibPreprocessor::isSimilar` compares the same count with its
threshold. -/
theorem hammingDistance_popcount (h1 h2 : Nat) (hh1 : h1 < 2 ^ 64) (hh2 : h2 < 2 ^ 64) :
    hammingDistance h1 h2 = ((hamming h1 h2 : Nat) : Int) ∧
    hammingDistance h1 h2 = hammingDistance h2 h1 ∧
    0 ≤ hammingDistance h1 h2 ∧ hammingDistance h1 h2 ≤ 64 ∧
    ∀ threshold : Int,
      isSimilar h1 h2 threshold = decide (hammingDistance h1 h2 < threshold) := by
  have e1 : hammingDistance h1 h2 = ((hamming h1 h2 : Nat) : Int) :=
    countBits_xor h1 h2 hh1 hh2
  have e2 : hammingDistance h2 h1 = ((hamming h2 h1 : Nat) : Int) :=
    countBits_xor h2 h1 hh2 hh1
  refine ⟨e1, ?_, ?_, ?_, fun _ => rfl⟩
  · rw [e1, e2, hamming_comm]
  · rw [e1]
    exact Int.natCast_nonneg _
  · rw [e1]
    exact_mod_cast hamming_le h1 h2

theorem hammingDistance_popcount_witness :
    (5 : Nat) < 2 ^ 64 ∧ (6 : Nat) < 2 ^ 64 ∧
    (hammingDistance 5 6 = ((hamming 5 6 : Nat) : Int) ∧
    hammingDistance 5 6 = hammingDistance 6 5 ∧
    0 ≤ hammingDistance 5 6 ∧ hammingDistance 5 6 ≤ 64 ∧
    ∀ threshold : Int,
      isSimilar 5 6 threshold = decide (hammingDistance 5 6 < threshold)) :=
  ⟨by norm_num, by norm_num, hammingDistance_popcount 5 6 (by norm_num) (by norm_num)⟩

/-! ## The char splitter -/

theorem charLen_pos (c : Nat) : 0 < charLen c := by
  unfold charLen
  split_ifs <;> norm_num

theorem charLen_le (c : Nat) : charLen c ≤ 4 := by
  unfold charLen
  split_ifs <;> norm_num

theorem splitLoop_acc (s : List Nat) (fuel i : Nat) (chars : List (List Nat)) :
    splitLoop s fuel i chars = chars ++ splitLoop s fuel i [] := by
  induction fuel generalizing i chars with
  | zero => simp [splitLoop]
  | succ f ih =>
    unfold splitLoop
    by_cases hi : i < s.length
    · simp only [if_pos hi]
      by_cases hp : i + charLen (s.getD i 0) ≤ s.length
      · simp only [if_pos hp]
        rw [ih, ih _ ([] ++ _)]
        simp
      · simp only [if_neg hp]
        exact ih _ _
    · simp [if_neg hi]

theorem splitLoop_shift (pre suf : List Nat) (fuel k : Nat) (chars : List (List Nat)) :
    splitLoop (pre ++ suf) fuel (pre.length + k) chars = chars ++ splitLoop suf fuel k [] := by
  induction fuel generalizing k chars with
  | zero => simp [splitLoop]
  | succ f ih =>
    unfold splitLoop
    have hget : (pre ++ suf).getD (pre.length + k) 0 = suf.getD k 0 := by
      simp [List.getD_eq_getElem?_getD, List.getElem?_append_right]
    have hdrop : (pre ++ suf).drop (pre.length + k) = suf.drop k := by
      rw [← List.drop_drop, List.drop_left]
    by_cases hi : k < suf.length
    · have hi2 : pre.length + k < (pre ++ suf).length := by
        rw [List.length_append]; omega
      rw [if_pos hi, if_pos hi2]
      simp only [hget, hdrop]
      by_cases hp : k + charLen (suf.getD k 0) ≤ suf.length
      · have hp2 : pre.length + k + charLen (suf.getD k 0) ≤ (pre ++ suf).length := by
          rw [List.length_append]; omega
        rw [if_pos hp, if_pos hp2, Nat.add_assoc, ih, splitLoop_acc suf f _ ([] ++ _)]
        simp
      · have hp2 : ¬ pre.length + k + charLen (suf.getD k 0) ≤ (pre ++ suf).length := by
          rw [List.length_append]; omega
        rw [if_neg hp, if_neg hp2, Nat.add_assoc, ih]
    · have hi2 : ¬ pre.length + k < (pre ++ suf).length := by
        rw [List.length_append]; omega
      rw [if_neg hi, if_neg hi2]
      simp

theorem splitLoop_fuel (s : List Nat) (f1 f2 i : Nat) (chars : List (List Nat))
    (h1 : s.length ≤ i + f1) (h2 : s.length ≤ i + f2) :
    splitLoop s f1 i chars = splitLoop s f2 i chars := by
  induction f1 generalizing f2 i chars with
  | zero =>
    have hi : ¬ i < s.length := by omega
    cases f2 with
    | zero => rfl
    | succ f => simp [splitLoop, hi]
  | succ f ih =>
    cases f2 with
    | zero =>
      have hi : ¬ i < s.length := by omega
      simp [splitLoop, hi]
    | succ g =>
      unfold splitLoop
      by_cases hi : i < s.length
      · rw [if_pos hi, if_pos hi]
        have := charLen_pos (s.getD i 0)
        exact ih _ _ _ (by omega) (by omega)
      · rw [if_neg hi, if_neg hi]

theorem splitLoop_succ (s : List Nat) (fuel i : Nat) (chars : List (List Nat)) :
    splitLoop s (fuel + 1) i chars =
      if i < s.length then
        splitLoop s fuel (i + charLen (s.getD i 0))
          (if i + charLen (s.getD i 0) ≤ s.length then
            chars ++ [(s.drop i).take (charLen (s.getD i 0))] else chars)
      else chars := rfl

theorem splitToChars_nil : splitToChars [] = [] := rfl

theorem splitToChars_unit (c : Nat) (tl rest : List Nat)
    (h : charLen c = (c :: tl).length) :
    splitToChars ((c :: tl) ++ rest) = (c :: tl) :: splitToChars rest := by
  show splitLoop ((c :: tl) ++ rest) ((c :: tl) ++ rest).length 0 [] =
    (c :: tl) :: splitLoop rest rest.length 0 []
  have hlen : ((c :: tl) ++ rest).length = (tl.length + rest.length) + 1 := by
    simp only [List.length_append, List.length_cons]
    omega
  rw [hlen, splitLoop_succ]
  have hi : 0 < ((c :: tl) ++ rest).length := by simp
  have hc : ((c :: tl) ++ rest).getD 0 0 = c := rfl
  rw [if_pos hi, hc]
  have hp : 0 + charLen c ≤ ((c :: tl) ++ rest).length := by
    rw [h]
    simp
  rw [if_pos hp, h, Nat.zero_add]
  have ht : (List.drop 0 ((c :: tl) ++ rest)).take (c :: tl).length = c :: tl := by
    rw [List.drop_zero, List.take_left]
  rw [ht]
  have h1 := splitLoop_shift (c :: tl) rest (tl.length + rest.length) 0 ([] ++ [c :: tl])
  rw [Nat.add_zero] at h1
  rw [h1]
  have hf := splitLoop_fuel rest (tl.length + rest.length) rest.length 0 []
    (by omega) (by omega)
  rw [hf]
  rfl

theorem splitToChars_truncated (c : Nat) (tl : List Nat)
    (h : (c :: tl).length < charLen c) :
    splitToChars (c :: tl) = [] := by
  show splitLoop (c :: tl) (tl.length + 1) 0 [] = []
  rw [splitLoop_succ]
  have hi : 0 < (c :: tl).length := by simp
  have hc : (c :: tl).getD 0 0 = c := rfl
  rw [if_pos hi, hc]
  have hp : ¬ 0 + charLen c ≤ (c :: tl).length := by omega
  rw [if_neg hp]
  cases hn : tl.length with
  | zero => rfl
  | succ n =>
    rw [splitLoop_succ]
    have hlt : ¬ 0 + charLen c < (c :: tl).length := by omega
    rw [if_neg hlt]

theorem extractLoop_eq (s : List Nat) (fuel i : Nat) (chars : List (List Nat)) :
    extractLoop s fuel i chars = splitLoop s fuel i chars := by
  induction fuel generalizing i chars with
  | zero => rfl
  | succ f ih =>
    unfold extractLoop splitLoop
    split
    · exact ih _ _
    · rfl

theorem extractChars_eq (s : List Nat) : extractChars s = splitToChars s :=
  extractLoop_eq s _ _ _


theorem lead1 : ∀ n : Nat, n < 128 → charLen n = 1 := by
  decide

set_option maxRecDepth 100000 in
theorem lead2 : ∀ n : Fin 256,
    charLen ((UInt8.mk (BitVec.ofFin n) &&& 0x1f ||| 0xc0).toNat) = 2 := by
  decide

set_option maxRecDepth 100000 in
theorem lead3 : ∀ n : Fin 256,
    charLen ((UInt8.mk (BitVec.ofFin n) &&& 0x0f ||| 0xe0).toNat) = 3 := by
  decide

set_option maxRecDepth 100000 in
theorem lead4 : ∀ n : Fin 256,
    charLen ((UInt8.mk (BitVec.ofFin n) &&& 0x07 ||| 0xf0).toNat) = 4 := by
  decide


theorem uint8_cases (P : UInt8 → Prop) (h : ∀ n : Fin 256, P (UInt8.mk (BitVec.ofFin n)))
    (x : UInt8) : P x := by
  obtain ⟨⟨n⟩⟩ := x
  exact h n

theorem lead2_byte (x : UInt8) : charLen ((x &&& 0x1f ||| 0xc0).toNat) = 2 :=
  uint8_cases (fun x => charLen ((x &&& 0x1f ||| 0xc0).toNat) = 2) lead2 x

theorem lead3_byte (x : UInt8) : charLen ((x &&& 0x0f ||| 0xe0).toNat) = 3 :=
  uint8_cases (fun x => charLen ((x &&& 0x0f ||| 0xe0).toNat) = 3) lead3 x

theorem lead4_byte (x : UInt8) : charLen ((x &&& 0x07 ||| 0xf0).toNat) = 4 :=
  uint8_cases (fun x => charLen ((x &&& 0x07 ||| 0xf0).toNat) = 4) lead4 x

theorem charBytes_complete (c : Char) :
    ∃ b tl, charBytes c = b :: tl ∧ charLen b = (charBytes c).length := by
  unfold charBytes String.utf8EncodeChar
  simp only []
  split_ifs with h1 h2 h3
  · refine ⟨_, _, rfl, ?_⟩
    apply lead1
    have h : c.val.toNat ≤ 127 := h1
    show c.val.toNat % 256 < 128
    omega
  · exact ⟨_, _, rfl, lead2_byte _⟩
  · exact ⟨_, _, rfl, lead3_byte _⟩
  · exact ⟨_, _, rfl, lead4_byte _⟩

theorem splitToChars_utf8 (cs : List Char) :
    splitToChars (cs.flatMap charBytes) = cs.map charBytes := by
  induction cs with
  | nil => rfl
  | cons c rest ih =>
    obtain ⟨b, tl, hb, hl⟩ := charBytes_complete c
    rw [List.flatMap_cons, List.map_cons, hb, splitToChars_unit b tl _ (by rw [hl, hb]), ih]

theorem bytes_eq_flatMap (s : String) : bytes s = s.data.flatMap charBytes := by
  unfold bytes charBytes
  induction s.data with
  | nil => rfl
  | cons c rest ih => simp [List.flatMap_cons, ih]

theorem splitToChars_units (us : List (List Nat)) (rest : List Nat)
    (h : ∀ u ∈ us, CompleteUnit u) :
    splitToChars (us.flatten ++ rest) = us ++ splitToChars rest := by
  induction us with
  | nil => rfl
  | cons u more ih =>
    obtain ⟨c, tl, hu, hl⟩ := h u (List.mem_cons_self _ _)
    subst hu
    rw [List.flatten_cons, List.append_assoc, splitToChars_unit c tl _ hl,
      ih (fun v hv => h v (List.mem_cons_of_mem _ hv))]
    rfl

theorem charLen_invalid (b : Nat) (h : InvalidLead b) : charLen b = 1 := by
  obtain ⟨h1, h2, h3, h4⟩ := h
  unfold charLen
  rw [if_neg h1, if_neg h2, if_neg h3, if_neg h4]

/-- C16. For every valid UTF-8 byte string, that is the bytes of a string `s`
of code points, `splitToChars` and `extractChars` return one unit per code
point of `s`, in order, each unit being the encoding of that code point; the
byte-wise concatenation of the units is the byte string. -/
theorem splitToChars_valid_utf8 (s : String) :
    splitToChars (bytes s) = s.data.map charBytes ∧
    extractChars (bytes s) = s.data.map charBytes ∧
    (splitToChars (bytes s)).flatten = bytes s ∧
    (extractChars (bytes s)).flatten = bytes s := by
  have h1 : splitToChars (bytes s) = s.data.map charBytes := by
    rw [bytes_eq_flatMap, splitToChars_utf8]
  have h2 : (s.data.map charBytes).flatten = bytes s := by
    rw [bytes_eq_flatMap, List.flatMap_def]
  refine ⟨h1, ?_, ?_, ?_⟩
  · rw [extractChars_eq, h1]
  · rw [h1, h2]
  · rw [extractChars_eq, h1, h2]

/-- C17, as the code has it.  After any run of complete units, a lead byte `b`
that matches none of the four prefixes is not skipped: it is returned as a
unit of its own of one byte, and the splitting goes on behind it; a tail `t`
that ends before the length its lead byte declares is dropped, so the units
before it are all that is returned.  `splitToChars` and `extractChars` agree,
and their loop ends: rounds beyond the length of the string change nothing. -/
theorem invalid_lead_is_unit (us : List (List Nat)) (b : Nat) (rest t : List Nat)
    (hus : ∀ u ∈ us, CompleteUnit u) (hb : InvalidLead b) (ht : TruncatedTail t) :
    splitToChars (us.flatten ++ b :: rest) = us ++ [b] :: splitToChars rest ∧
    extractChars (us.flatten ++ b :: rest) = us ++ [b] :: extractChars rest ∧
    splitToChars (us.flatten ++ t) = us ∧
    extractChars (us.flatten ++ t) = us ∧
    ∀ (s : List Nat) (fuel : Nat), s.length ≤ fuel →
      splitLoop s fuel 0 [] = splitToChars s ∧ extractLoop s fuel 0 [] = extractChars s := by
  have h1 : splitToChars (us.flatten ++ b :: rest) = us ++ [b] :: splitToChars rest := by
    rw [splitToChars_units us _ hus]
    have h := splitToChars_unit b [] rest (charLen_invalid b hb)
    rw [show b :: rest = [b] ++ rest from rfl, h]
  have h2 : splitToChars (us.flatten ++ t) = us := by
    obtain ⟨c, tl, hc, hl⟩ := ht
    subst hc
    rw [splitToChars_units us _ hus, splitToChars_truncated c tl hl, List.append_nil]
  refine ⟨h1, ?_, h2, ?_, ?_⟩
  · rw [extractChars_eq, extractChars_eq, h1]
  · rw [extractChars_eq, h2]
  · intro s fuel hf
    have e : splitLoop s fuel 0 [] = splitToChars s :=
      splitLoop_fuel s fuel s.length 0 [] (by omega) (by omega)
    exact ⟨e, by rw [extractLoop_eq, extractChars_eq, e]⟩

theorem invalid_lead_is_unit_witness :
    (∀ u ∈ [[0x41], [0xE4, 0xB8, 0xAD]], CompleteUnit u) ∧ InvalidLead 0x80 ∧
    TruncatedTail [0xE4, 0xB8] ∧
    (splitToChars ([[0x41], [0xE4, 0xB8, 0xAD]].flatten ++ 0x80 :: [0x42]) =
      [[0x41], [0xE4, 0xB8, 0xAD]] ++ [0x80] :: splitToChars [0x42] ∧
    extractChars ([[0x41], [0xE4, 0xB8, 0xAD]].flatten ++ 0x80 :: [0x42]) =
      [[0x41], [0xE4, 0xB8, 0xAD]] ++ [0x80] :: extractChars [0x42] ∧
    splitToChars ([[0x41], [0xE4, 0xB8, 0xAD]].flatten ++ [0xE4, 0xB8]) =
      [[0x41], [0xE4, 0xB8, 0xAD]] ∧
    extractChars ([[0x41], [0xE4, 0xB8, 0xAD]].flatten ++ [0xE4, 0xB8]) =
      [[0x41], [0xE4, 0xB8, 0xAD]] ∧
    ∀ (s : List Nat) (fuel : Nat), s.length ≤ fuel →
      splitLoop s fuel 0 [] = splitToChars s ∧ extractLoop s fuel 0 [] = extractChars s) :=
  have hus : ∀ u ∈ [[0x41], [0xE4, 0xB8, 0xAD]], CompleteUnit u := by
    intro u hu
    simp only [List.mem_cons, List.mem_singleton, List.not_mem_nil, or_false] at hu
    rcases hu with rfl | rfl
    · exact ⟨0x41, [], rfl, by decide⟩
    · exact ⟨0xE4, [0xB8, 0xAD], rfl, by decide⟩
  have hb : InvalidLead 0x80 := ⟨by decide, by decide, by decide, by decide⟩
  have ht : TruncatedTail [0xE4, 0xB8] := ⟨0xE4, [0xB8], rfl, by decide⟩
  ⟨hus, hb, ht, invalid_lead_is_unit _ 0x80 [0x42] _ hus hb ht⟩

/-- C17 as stated fails: the byte `0x80` matches none of the four prefixes, it
stands in lead position behind the unit `A`, and both splitters return it as
the second of three units instead of skipping it. -/
theorem invalid_lead_is_unit_counterexample :
    InvalidLead 0x80 ∧
    splitToChars [0x41, 0x80, 0x42] = [[0x41], [0x80], [0x42]] ∧
    extractChars [0x41, 0x80, 0x42] = [[0x41], [0x80], [0x42]] ∧
    ¬ (∀ u ∈ splitToChars [0x41, 0x80, 0x42], 0x80 ∉ u) := by
  have h : splitToChars [0x41, 0x80, 0x42] = [[0x41], [0x80], [0x42]] := by decide
  refine ⟨⟨by decide, by decide, by decide, by decide⟩, h, by decide, ?_⟩
  rw [h]
  intro hc
  exact hc [0x80] (by simp) (by simp)

/-! ## The edit distance is the Levenshtein distance -/

theorem lev_nil_left {α : Type} [DecidableEq α] (ys : List α) : lev [] ys = ys.length := by
  simp [lev]

theorem lev_nil_right {α : Type} [DecidableEq α] (xs : List α) : lev xs [] = xs.length := by
  cases xs <;> simp [lev]

theorem lev_cons_cons {α : Type} [DecidableEq α] (x y : α) (xs ys : List α) :
    lev (x :: xs) (y :: ys) =
      if x = y then lev xs ys
      else 1 + min (lev xs (y :: ys)) (min (lev (x :: xs) ys) (lev xs ys)) := by
  simp [lev]

theorem lev_self {α : Type} [DecidableEq α] (xs : List α) : lev xs xs = 0 := by
  induction xs with
  | nil => exact lev_nil_left []
  | cons x xs ih => rw [lev_cons_cons, if_pos rfl, ih]

theorem lev_comm {α : Type} [DecidableEq α] : ∀ (xs ys : List α), lev xs ys = lev ys xs
  | [], ys => by rw [lev_nil_left, lev_nil_right]
  | x :: xs, [] => by rw [lev_nil_left, lev_nil_right]
  | x :: xs, y :: ys => by
    rw [lev_cons_cons, lev_cons_cons, lev_comm xs ys, lev_comm xs (y :: ys),
      lev_comm (x :: xs) ys]
    by_cases h : x = y
    · rw [if_pos h, if_pos h.symm]
    · rw [if_neg h, if_neg (fun e => h e.symm)]
      congr 1
      rw [← min_assoc, ← min_assoc, min_comm (lev (y :: ys) xs)]
termination_by xs ys => xs.length + ys.length

theorem lev_le_max {α : Type} [DecidableEq α] : ∀ (xs ys : List α), lev xs ys ≤ max xs.length ys.length
  | [], ys => by rw [lev_nil_left]; exact le_max_right _ _
  | x :: xs, [] => by rw [lev_nil_right]; exact le_max_left _ _
  | x :: xs, y :: ys => by
    have ih := lev_le_max xs ys
    rw [lev_cons_cons]
    simp only [List.length_cons]
    split
    · omega
    · have h1 : min (lev xs (y :: ys)) (min (lev (x :: xs) ys) (lev xs ys)) ≤ lev xs ys :=
        le_trans (min_le_right _ _) (min_le_right _ _)
      omega

theorem lev_length_le {α : Type} [DecidableEq α] : ∀ (xs ys : List α), xs.length ≤ ys.length + lev xs ys
  | [], ys => by simp
  | x :: xs, [] => by rw [lev_nil_right]; omega
  | x :: xs, y :: ys => by
    have h1 := lev_length_le xs ys
    have h2 := lev_length_le xs (y :: ys)
    have h3 := lev_length_le (x :: xs) ys
    rw [lev_cons_cons]
    simp only [List.length_cons] at *
    split
    · omega
    · rcases min_choice (lev xs (y :: ys)) (min (lev (x :: xs) ys) (lev xs ys)) with h | h
      · rw [h]; omega
      · rw [h]
        rcases min_choice (lev (x :: xs) ys) (lev xs ys) with h' | h'
        · rw [h']; omega
        · rw [h']; omega
termination_by xs ys => xs.length + ys.length

theorem lev_head_aux {α : Type} [DecidableEq α] (N : Nat) : ∀ (xs ys : List α), xs.length + ys.length ≤ N →
    (∀ y, lev xs ys ≤ 1 + lev xs (y :: ys)) ∧ (∀ x, lev (x :: xs) ys ≤ 1 + lev xs ys) := by
  induction N with
  | zero =>
    intro xs ys h
    have hx : xs = [] := List.length_eq_zero.1 (by omega)
    have hy : ys = [] := List.length_eq_zero.1 (by omega)
    subst hx
    subst hy
    constructor
    · intro y
      rw [lev_nil_left, lev_nil_left]
      simp
    · intro x
      rw [lev_nil_left, lev_nil_right]
      simp
  | succ N ih =>
    intro xs ys h
    have h3 : ∀ x, lev (x :: xs) ys ≤ 1 + lev xs ys := by
      intro x
      cases ys with
      | nil =>
        rw [lev_nil_right, lev_nil_right]
        simp
        omega
      | cons y ys =>
        have hs := (ih xs ys (by simp only [List.length_cons] at h; omega)).1 y
        rw [lev_cons_cons]
        split
        · exact hs
        · have := min_le_left (lev xs (y :: ys)) (min (lev (x :: xs) ys) (lev xs ys))
          omega
    refine ⟨?_, h3⟩
    intro y
    cases xs with
    | nil =>
      rw [lev_nil_left, lev_nil_left]
      simp only [List.length_cons]
      omega
    | cons x xs =>
      have hlen : xs.length + ys.length ≤ N := by
        simp only [List.length_cons] at h
        omega
      have a1 := (ih xs ys hlen).1 y
      have a3 := (ih xs ys hlen).2 x
      rw [lev_cons_cons x y]
      split
      · omega
      · rcases min_choice (lev xs (y :: ys)) (min (lev (x :: xs) ys) (lev xs ys)) with e | e
        · rw [e]
          omega
        · rw [e]
          rcases min_choice (lev (x :: xs) ys) (lev xs ys) with e2 | e2
          · rw [e2]
            omega
          · rw [e2]
            omega

theorem lev_le_cons_right {α : Type} [DecidableEq α] (xs ys : List α) (y : α) : lev xs ys ≤ 1 + lev xs (y :: ys) :=
  (lev_head_aux _ xs ys le_rfl).1 y

theorem lev_cons_left_le {α : Type} [DecidableEq α] (xs ys : List α) (x : α) : lev (x :: xs) ys ≤ 1 + lev xs ys :=
  (lev_head_aux _ xs ys le_rfl).2 x

theorem lev_le_cons_left {α : Type} [DecidableEq α] (xs ys : List α) (x : α) : lev xs ys ≤ 1 + lev (x :: xs) ys := by
  rw [lev_comm xs ys, lev_comm (x :: xs) ys]
  exact lev_le_cons_right ys xs x

theorem lev_cons_right_le {α : Type} [DecidableEq α] (xs ys : List α) (y : α) : lev xs (y :: ys) ≤ 1 + lev xs ys := by
  rw [lev_comm xs (y :: ys), lev_comm xs ys]
  exact lev_cons_left_le ys xs y

/-- The recurrence in its textbook form: the minimum of the three ways to
treat the two heads. -/
theorem lev_cons_cons_min {α : Type} [DecidableEq α] (x y : α) (xs ys : List α) :
    lev (x :: xs) (y :: ys) =
      min (1 + lev xs (y :: ys))
        (min (1 + lev (x :: xs) ys) ((if x = y then 0 else 1) + lev xs ys)) := by
  rw [lev_cons_cons]
  have h1 := lev_le_cons_right xs ys y
  have h2 := lev_le_cons_left xs ys x
  by_cases h : x = y
  · rw [if_pos h, if_pos h, Nat.zero_add]
    rw [min_eq_right h2, min_eq_right h1]
  · rw [if_neg h, if_neg h]
    omega

theorem lev_substitute_head {α : Type} [DecidableEq α] (a b : α) (r : List α) :
    ∀ xs : List α, lev xs (b :: r) ≤ lev xs (a :: r) + 1 := by
  intro xs
  induction xs with
  | nil =>
    rw [lev_nil_left, lev_nil_left]
    simp
  | cons x xs ih =>
    rw [lev_cons_cons_min x b, lev_cons_cons_min x a]
    have h0 : (if x = b then 0 else 1) ≤ (if x = a then 0 else 1) + 1 := by
      split <;> split <;> omega
    have e : min (1 + lev xs (a :: r))
        (min (1 + lev (x :: xs) r) ((if x = a then 0 else 1) + lev xs r)) + 1 =
        min (1 + lev xs (a :: r) + 1)
          (min (1 + lev (x :: xs) r + 1) ((if x = a then 0 else 1) + lev xs r + 1)) := by
      omega
    rw [e]
    apply min_le_min
    · omega
    · apply min_le_min
      · omega
      · omega

/-- A change of cost at most 1 at the head of the second sequence costs at
most 1 at any depth. -/
theorem lev_append_le {α : Type} [DecidableEq α] (ys zs : List α) (hb : ∀ xs : List α, lev xs zs ≤ lev xs ys + 1) :
    ∀ (l xs : List α), lev xs (l ++ zs) ≤ lev xs (l ++ ys) + 1 := by
  intro l
  induction l with
  | nil => exact hb
  | cons y l ihl =>
    intro xs
    induction xs with
    | nil =>
      have h0 := hb []
      rw [lev_nil_left, lev_nil_left] at h0
      rw [lev_nil_left, lev_nil_left]
      simp only [List.cons_append, List.length_cons, List.length_append]
      omega
    | cons x xs ihx =>
      rw [List.cons_append, List.cons_append, lev_cons_cons_min x y, lev_cons_cons_min x y]
      have i1 := ihl (x :: xs)
      have i2 := ihl xs
      rw [List.cons_append, List.cons_append] at ihx
      have e : min (1 + lev xs (y :: (l ++ ys)))
          (min (1 + lev (x :: xs) (l ++ ys)) ((if x = y then 0 else 1) + lev xs (l ++ ys))) + 1 =
          min (1 + lev xs (y :: (l ++ ys)) + 1)
            (min (1 + lev (x :: xs) (l ++ ys) + 1)
              ((if x = y then 0 else 1) + lev xs (l ++ ys) + 1)) := by
        omega
      rw [e]
      apply min_le_min
      · omega
      · apply min_le_min
        · omega
        · omega

theorem lev_step_right {α : Type} [DecidableEq α] (xs ys zs : List α) (h : EditStep ys zs) :
    lev xs zs ≤ lev xs ys + 1 := by
  cases h with
  | insert l r c =>
    exact lev_append_le r (c :: r) (fun xs => by have := lev_cons_right_le xs r c; omega) l xs
  | delete l r c =>
    exact lev_append_le (c :: r) r (fun xs => by have := lev_le_cons_right xs r c; omega) l xs
  | substitute l r a b hab =>
    exact lev_append_le (a :: r) (b :: r) (lev_substitute_head a b r) l xs

theorem editStep_symm {α : Type} [DecidableEq α] {xs ys : List α} (h : EditStep xs ys) : EditStep ys xs := by
  cases h with
  | insert l r c => exact EditStep.delete l r c
  | delete l r c => exact EditStep.insert l r c
  | substitute l r a b hab => exact EditStep.substitute l r b a (fun e => hab e.symm)

theorem lev_step_left {α : Type} [DecidableEq α] (xs ys zs : List α) (h : EditStep xs ys) :
    lev xs zs ≤ lev ys zs + 1 := by
  rw [lev_comm xs zs, lev_comm ys zs]
  exact lev_step_right zs ys xs (editStep_symm h)

/-- No run of edits is shorter than `lev`. -/
theorem lev_le_of_edits {α : Type} [DecidableEq α] (n : Nat) (xs ys : List α) (h : EditsIn n xs ys) : lev xs ys ≤ n := by
  induction h with
  | done xs => rw [lev_self]
  | step n xs ys zs hs _ ih =>
    have := lev_step_left xs ys zs hs
    omega

theorem editStep_cons {α : Type} [DecidableEq α] (a : α) {xs ys : List α} (h : EditStep xs ys) :
    EditStep (a :: xs) (a :: ys) := by
  cases h with
  | insert l r c => exact EditStep.insert (a :: l) r c
  | delete l r c => exact EditStep.delete (a :: l) r c
  | substitute l r x y hab => exact EditStep.substitute (a :: l) r x y hab

theorem editsIn_cons {α : Type} [DecidableEq α] (a : α) {n : Nat} {xs ys : List α} (h : EditsIn n xs ys) :
    EditsIn n (a :: xs) (a :: ys) := by
  induction h with
  | done xs => exact EditsIn.done _
  | step n xs ys zs hs _ ih => exact EditsIn.step n _ _ _ (editStep_cons a hs) ih

theorem editsIn_insert_all {α : Type} [DecidableEq α] (ys : List α) : EditsIn ys.length [] ys := by
  induction ys with
  | nil => exact EditsIn.done _
  | cons y ys ih => exact EditsIn.step _ [] [y] _ (EditStep.insert [] [] y) (editsIn_cons y ih)

theorem editsIn_delete_all {α : Type} [DecidableEq α] (xs : List α) : EditsIn xs.length xs [] := by
  induction xs with
  | nil => exact EditsIn.done _
  | cons x xs ih => exact EditsIn.step _ (x :: xs) xs _ (EditStep.delete [] xs x) ih

/-- A run of `lev xs ys` edits from `xs` to `ys` exists. -/
theorem editsIn_lev {α : Type} [DecidableEq α] : ∀ (xs ys : List α), EditsIn (lev xs ys) xs ys
  | [], ys => by
    rw [lev_nil_left]
    exact editsIn_insert_all ys
  | x :: xs, [] => by
    rw [lev_nil_right]
    exact editsIn_delete_all (x :: xs)
  | x :: xs, y :: ys => by
    have i1 := editsIn_lev xs (y :: ys)
    have i2 := editsIn_lev (x :: xs) ys
    have i3 := editsIn_lev xs ys
    rw [lev_cons_cons]
    by_cases h : x = y
    · rw [if_pos h, h]
      exact editsIn_cons y i3
    · rw [if_neg h, Nat.add_comm]
      rcases min_choice (lev xs (y :: ys)) (min (lev (x :: xs) ys) (lev xs ys)) with e | e
      · rw [e]
        exact EditsIn.step _ _ _ _ (EditStep.delete [] xs x) i1
      · rw [e]
        rcases min_choice (lev (x :: xs) ys) (lev xs ys) with e2 | e2
        · rw [e2]
          exact EditsIn.step _ _ _ _ (EditStep.insert [] (x :: xs) y) (editsIn_cons y i2)
        · rw [e2]
          exact EditsIn.step _ _ _ _ (EditStep.substitute [] xs x y h) (editsIn_cons y i3)
termination_by xs ys => xs.length + ys.length

theorem editStep_reverse {α : Type} [DecidableEq α] {xs ys : List α} (h : EditStep xs ys) :
    EditStep xs.reverse ys.reverse := by
  cases h with
  | insert l r c =>
    rw [List.reverse_append, List.reverse_append, List.reverse_cons, List.append_assoc]
    exact EditStep.insert r.reverse l.reverse c
  | delete l r c =>
    rw [List.reverse_append, List.reverse_append, List.reverse_cons, List.append_assoc]
    exact EditStep.delete r.reverse l.reverse c
  | substitute l r a b hab =>
    rw [List.reverse_append, List.reverse_append, List.reverse_cons, List.reverse_cons,
      List.append_assoc, List.append_assoc]
    exact EditStep.substitute r.reverse l.reverse a b hab

theorem editsIn_reverse {α : Type} [DecidableEq α] {n : Nat} {xs ys : List α} (h : EditsIn n xs ys) :
    EditsIn n xs.reverse ys.reverse := by
  induction h with
  | done xs => exact EditsIn.done _
  | step n xs ys zs hs _ ih => exact EditsIn.step n _ _ _ (editStep_reverse hs) ih

theorem lev_reverse {α : Type} [DecidableEq α] (xs ys : List α) : lev xs.reverse ys.reverse = lev xs ys := by
  apply le_antisymm
  · exact lev_le_of_edits _ _ _ (editsIn_reverse (editsIn_lev xs ys))
  · have h := editsIn_reverse (editsIn_lev xs.reverse ys.reverse)
    rw [List.reverse_reverse, List.reverse_reverse] at h
    exact lev_le_of_edits _ _ _ h


theorem take_reverse_succ {α : Type} (l : List α) (i : Nat) (d : α) (h : i < l.length) :
    (l.take (i + 1)).reverse = l.getD i d :: (l.take i).reverse := by
  rw [List.take_succ, List.reverse_append]
  simp [List.getD_eq_getElem?_getD, List.getElem?_eq_getElem h]

theorem prefixLev_zero_left (c1 c2 : List (List Nat)) (j : Nat) (hj : j ≤ c2.length) :
    prefixLev c1 c2 0 j = j := by
  unfold prefixLev
  rw [List.take_zero, List.reverse_nil, lev_nil_left, List.length_reverse, List.length_take]
  omega

theorem prefixLev_zero_right (c1 c2 : List (List Nat)) (i : Nat) (hi : i ≤ c1.length) :
    prefixLev c1 c2 i 0 = i := by
  unfold prefixLev
  rw [List.take_zero, List.reverse_nil, lev_nil_right, List.length_reverse, List.length_take]
  omega

theorem prefixLev_succ (c1 c2 : List (List Nat)) (i j : Nat) (hi : i < c1.length)
    (hj : j < c2.length) :
    prefixLev c1 c2 (i + 1) (j + 1) =
      if c1.getD i [] = c2.getD j [] then prefixLev c1 c2 i j
      else 1 + min (prefixLev c1 c2 i (j + 1))
        (min (prefixLev c1 c2 (i + 1) j) (prefixLev c1 c2 i j)) := by
  unfold prefixLev
  rw [take_reverse_succ c1 i [] hi, take_reverse_succ c2 j [] hj, lev_cons_cons]

theorem setCell_apply (dp : Nat → Nat → Int) (i j : Nat) (v : Int) (a b : Nat) :
    setCell dp i j v a b = if a = i ∧ b = j then v else dp a b := rfl

theorem initColumn_fold (l : List Nat) (dp : Nat → Nat → Int) (a b : Nat) :
    l.foldl (fun dp i => setCell dp i 0 (i : Int)) dp a b =
      if b = 0 ∧ a ∈ l then (a : Int) else dp a b := by
  induction l generalizing dp with
  | nil => simp
  | cons x l ih =>
    rw [List.foldl_cons, ih, setCell_apply]
    by_cases hb : b = 0
    · by_cases hl : a ∈ l
      · simp [hb, hl]
      · by_cases hx : a = x
        · simp [hb, hx]
        · simp [hb, hl, hx]
    · simp [hb]

theorem initRow_fold (l : List Nat) (dp : Nat → Nat → Int) (a b : Nat) :
    l.foldl (fun dp j => setCell dp 0 j (j : Int)) dp a b =
      if a = 0 ∧ b ∈ l then (b : Int) else dp a b := by
  induction l generalizing dp with
  | nil => simp
  | cons x l ih =>
    rw [List.foldl_cons, ih, setCell_apply]
    by_cases ha : a = 0
    · by_cases hl : b ∈ l
      · simp [ha, hl]
      · by_cases hx : b = x
        · simp [ha, hx]
        · simp [ha, hl, hx]
    · simp [ha]

theorem tableGood_init (c1 c2 : List (List Nat)) :
    TableGood c1 c2 (initRow c2.length (initColumn c1.length (fun _ _ => 0))) 1 0 := by
  intro a b ha hb h
  unfold initRow initColumn
  rw [initRow_fold, initColumn_fold]
  by_cases ha0 : a = 0
  · subst ha0
    rw [if_pos ⟨rfl, List.mem_range.2 (by omega)⟩, prefixLev_zero_left c1 c2 b hb]
  · have hb0 : b = 0 := by omega
    subst hb0
    rw [if_neg (fun hc => ha0 hc.1), if_pos ⟨rfl, List.mem_range.2 (by omega)⟩,
      prefixLev_zero_right c1 c2 a ha]

theorem tableGood_fillCell (c1 c2 : List (List Nat)) (dp : Nat → Nat → Int) (i k : Nat)
    (h : TableGood c1 c2 dp (i + 1) k) (hi : i < c1.length) (hk : k < c2.length) :
    TableGood c1 c2 (fillCell c1 c2 dp (i + 1) (k + 1)) (i + 1) (k + 1) := by
  intro a b ha hb hab
  have g1 := h i (k + 1) (by omega) (by omega) (Or.inl (by omega))
  have g2 := h (i + 1) k (by omega) (by omega) (Or.inr (Or.inl ⟨rfl, le_rfl⟩))
  have g3 := h i k (by omega) (by omega) (Or.inl (by omega))
  unfold fillCell
  simp only [Nat.add_sub_cancel]
  by_cases hc : a = i + 1 ∧ b = k + 1
  · obtain ⟨rfl, rfl⟩ := hc
    rw [prefixLev_succ c1 c2 i k hi hk]
    by_cases he : c1.getD i [] = c2.getD k []
    · rw [if_pos he, if_pos he, setCell_apply, if_pos ⟨rfl, rfl⟩, g3]
    · rw [if_neg he, if_neg he, setCell_apply, if_pos ⟨rfl, rfl⟩, g1, g2, g3]
      push_cast
      rfl
  · have hold : dp a b = (prefixLev c1 c2 a b : Int) := by
      apply h a b ha hb
      rcases hab with h1 | ⟨h1, h2⟩ | h1
      · exact Or.inl h1
      · refine Or.inr (Or.inl ⟨h1, ?_⟩)
        by_contra hn
        exact hc ⟨h1, by omega⟩
      · exact Or.inr (Or.inr h1)
    split
    · rw [setCell_apply, if_neg hc, hold]
    · rw [setCell_apply, if_neg hc, hold]

theorem tableGood_fillRow_aux (c1 c2 : List (List Nat)) (dp : Nat → Nat → Int) (i : Nat)
    (h : TableGood c1 c2 dp (i + 1) 0) (hi : i < c1.length) :
    ∀ k, k ≤ c2.length →
      TableGood c1 c2
        ((List.range' 1 k).foldl (fun dp j => fillCell c1 c2 dp (i + 1) j) dp) (i + 1) k := by
  intro k
  induction k with
  | zero =>
    intro _
    exact h
  | succ k ih =>
    intro hk
    rw [List.range'_concat, List.foldl_append]
    simp only [List.foldl_cons, List.foldl_nil]
    rw [Nat.one_mul, Nat.add_comm 1 k]
    exact tableGood_fillCell c1 c2 _ i k (ih (by omega)) hi (by omega)

theorem tableGood_fillRow (c1 c2 : List (List Nat)) (dp : Nat → Nat → Int) (i : Nat)
    (h : TableGood c1 c2 dp (i + 1) 0) (hi : i < c1.length) :
    TableGood c1 c2 (fillRow c1 c2 c2.length dp (i + 1)) (i + 2) 0 := by
  have g := tableGood_fillRow_aux c1 c2 dp i h hi c2.length le_rfl
  intro a b ha hb hab
  apply g a b ha hb
  rcases hab with h1 | ⟨h1, h2⟩ | h1
  · by_cases e : a = i + 1
    · exact Or.inr (Or.inl ⟨e, hb⟩)
    · exact Or.inl (by omega)
  · exact Or.inr (Or.inr (by omega))
  · exact Or.inr (Or.inr h1)

theorem tableGood_fillTable_aux (c1 c2 : List (List Nat)) (dp : Nat → Nat → Int)
    (h : TableGood c1 c2 dp 1 0) :
    ∀ k, k ≤ c1.length →
      TableGood c1 c2
        ((List.range' 1 k).foldl (fun dp i => fillRow c1 c2 c2.length dp i) dp) (k + 1) 0 := by
  intro k
  induction k with
  | zero =>
    intro _
    exact h
  | succ k ih =>
    intro hk
    rw [List.range'_concat, List.foldl_append]
    simp only [List.foldl_cons, List.foldl_nil]
    rw [Nat.one_mul, Nat.add_comm 1 k]
    exact tableGood_fillRow c1 c2 _ k (ih (by omega)) (by omega)

theorem editDistanceChars_eq (c1 c2 : List (List Nat)) :
    editDistanceChars c1 c2 = (lev c1 c2 : Int) := by
  have g := tableGood_fillTable_aux c1 c2 _ (tableGood_init c1 c2) c1.length le_rfl
  have e := g c1.length c2.length le_rfl le_rfl (Or.inl (by omega))
  unfold editDistanceChars fillTable
  simp only []
  rw [e]
  unfold prefixLev
  rw [List.take_length, List.take_length, lev_reverse]

theorem editDistance_eq (s t : List Nat) :
    editDistance s t = (lev (splitToChars s) (splitToChars t) : Int) :=
  editDistanceChars_eq _ _

/-- C13. For all byte strings `s` and `t`, `editDistance(s, t)` is the
Levenshtein distance of `splitToChars(s)` and `splitToChars(t)`: it is not
negative, the first sequence of units is turned into the second by that many
single-unit insertions, deletions and substitutions, and by no fewer. -/
theorem editDistance_levenshtein (s t : List Nat) :
    0 ≤ editDistance s t ∧
    EditsIn (editDistance s t).toNat (splitToChars s) (splitToChars t) ∧
    ∀ n : Nat, EditsIn n (splitToChars s) (splitToChars t) → editDistance s t ≤ (n : Int) := by
  rw [editDistance_eq]
  refine ⟨Int.natCast_nonneg _, ?_, ?_⟩
  · rw [Int.toNat_ofNat]
    exact editsIn_lev _ _
  · intro n h
    exact_mod_cast lev_le_of_edits n _ _ h

set_option maxRecDepth 100000 in
theorem editDistance_levenshtein_witness :
    editDistance (bytes "kitten") (bytes "sitting") = 3 ∧
    splitToChars (bytes "中文a") = [[0xE4, 0xB8, 0xAD], [0xE6, 0x96, 0x87], [0x61]] ∧
    editDistance (bytes "中文a") (bytes "中a") = 1 ∧
    (0 ≤ editDistance (bytes "kitten") (bytes "sitting") ∧
    EditsIn (editDistance (bytes "kitten") (bytes "sitting")).toNat
      (splitToChars (bytes "kitten")) (splitToChars (bytes "sitting")) ∧
    ∀ n : Nat, EditsIn n (splitToChars (bytes "kitten")) (splitToChars (bytes "sitting")) →
      editDistance (bytes "kitten") (bytes "sitting") ≤ (n : Int)) :=
  ⟨by decide, by decide, by decide,
    editDistance_levenshtein (bytes "kitten") (bytes "sitting")⟩

/-- C14. For all byte strings `s` and `t`, `editDistance(s, t)` equals
`editDistance(t, s)`, and `editDistance(s, s)` is 0. -/
theorem editDistance_symm_self (s t : List Nat) :
    editDistance s t = editDistance t s ∧ editDistance s s = 0 := by
  rw [editDistance_eq, editDistance_eq, editDistance_eq, lev_comm, lev_self]
  exact ⟨rfl, rfl⟩

/-- C15. For all byte strings `s` and `t`, `editDistance(s, t)` is at most the
larger of the numbers of char units of `s` and of `t`. -/
theorem editDistance_le_max (s t : List Nat) :
    editDistance s t ≤
      max ((splitToChars s).length : Int) ((splitToChars t).length : Int) := by
  rw [editDistance_eq]
  exact_mod_cast lev_le_max (splitToChars s) (splitToChars t)

/-! ## Keyword recommendation: the words `recommend` returns -/

theorem less_false_iff (a b : CandidateWord) :
    a.less b = false ↔
      (a.distance < b.distance ∨ (a.distance = b.distance ∧ b.frequency ≤ a.frequency)) := by
  unfold CandidateWord.less
  by_cases h : a.distance = b.distance
  · rw [if_neg (by simpa using h)]
    simp only [decide_eq_false_iff_not]
    omega
  · rw [if_pos h]
    simp only [decide_eq_false_iff_not]
    omega

theorem less_total (a b : CandidateWord) : a.less b = false ∨ b.less a = false := by
  rw [less_false_iff, less_false_iff]
  omega

theorem less_trans (a b c : CandidateWord) (h1 : a.less b = false) (h2 : b.less c = false) :
    a.less c = false := by
  rw [less_false_iff] at *
  omega

theorem pqPush_sorted (pq : List CandidateWord) (c : CandidateWord)
    (h : pq.Sorted (fun a b => a.less b = false)) :
    (pqPush pq c).Sorted (fun a b => a.less b = false) := by
  haveI : IsTotal CandidateWord (fun a b => a.less b = false) := ⟨less_total⟩
  haveI : IsTrans CandidateWord (fun a b => a.less b = false) := ⟨less_trans⟩
  exact h.orderedInsert c pq

theorem pqPush_perm (pq : List CandidateWord) (c : CandidateWord) :
    (pqPush pq c).Perm (c :: pq) :=
  List.perm_orderedInsert _ c pq

theorem natAbs_sub_le_lev {α : Type} [DecidableEq α] (xs ys : List α) :
    (((xs.length : Int) - (ys.length : Int)).natAbs : Int) ≤ (lev xs ys : Int) := by
  have h1 := lev_length_le xs ys
  have h2 := lev_length_le ys xs
  rw [lev_comm ys xs] at h2
  omega

theorem recommendStep_eq (query : List Nat) (maxDistance : Int) (pq : List CandidateWord)
    (e : List Nat × Int) :
    recommendStep query (splitToChars query) maxDistance pq e =
      if editDistance query e.1 ≤ maxDistance then pqPush pq (candidateOf query e) else pq := by
  unfold recommendStep
  simp only []
  have hl := natAbs_sub_le_lev (splitToChars query) (splitToChars e.1)
  rw [← editDistance_eq] at hl
  by_cases hq : editDistance query e.1 ≤ maxDistance
  · rw [if_pos hq, if_neg (by omega), if_pos hq]
    rfl
  · rw [if_neg hq]
    split <;> rfl

theorem recommend_fold (query : List Nat) (maxDistance : Int) (dict : List (List Nat × Int))
    (pq : List CandidateWord) (h : pq.Sorted (fun a b => a.less b = false)) :
    (dict.foldl (recommendStep query (splitToChars query) maxDistance) pq).Sorted
      (fun a b => a.less b = false) ∧
    (dict.foldl (recommendStep query (splitToChars query) maxDistance) pq).Perm
      (((dict.filter (fun e => decide (editDistance query e.1 ≤ maxDistance))).map
        (candidateOf query)).reverse ++ pq) := by
  induction dict generalizing pq with
  | nil => exact ⟨h, by simp⟩
  | cons e rest ih =>
    rw [List.foldl_cons, recommendStep_eq]
    by_cases hq : editDistance query e.1 ≤ maxDistance
    · rw [if_pos hq]
      obtain ⟨i1, i2⟩ := ih (pqPush pq (candidateOf query e)) (pqPush_sorted pq _ h)
      refine ⟨i1, i2.trans ?_⟩
      rw [List.filter_cons_of_pos (by simpa using hq), List.map_cons, List.reverse_cons,
        List.append_assoc]
      exact List.Perm.append_left _ (pqPush_perm pq _)
    · rw [if_neg hq]
      obtain ⟨i1, i2⟩ := ih pq h
      refine ⟨i1, ?_⟩
      rw [List.filter_cons_of_neg (by simpa using hq)]
      exact i2

theorem drain_eq (topK : Int) (pq : List CandidateWord) (results : List (List Nat)) :
    drain topK pq results =
      results ++ (pq.take (topK.toNat - results.length)).map (fun c => c.word) := by
  induction pq generalizing results with
  | nil => simp [drain]
  | cons top rest ih =>
    unfold drain
    by_cases hlt : (results.length : Int) < topK
    · rw [if_pos hlt, ih]
      have hn : topK.toNat - results.length = (topK.toNat - (results ++ [top.word]).length) + 1 := by
        rw [List.length_append, List.length_singleton]
        omega
      rw [hn, List.take_succ_cons, List.map_cons, List.append_assoc]
      rfl
    · rw [if_neg hlt]
      have hn : topK.toNat - results.length = 0 := by omega
      rw [hn, List.take_zero, List.map_nil, List.append_nil]

theorem recommend_eq (dict : List (List Nat × Int)) (query : List Nat)
    (topK maxDistance : Int) :
    recommend { dictProducer := some dict } query topK maxDistance =
      ((dict.foldl (recommendStep query (splitToChars query) maxDistance) []).take
        topK.toNat).map (fun c => c.word) := by
  unfold recommend
  simp only []
  rw [drain_eq]
  simp

theorem frequencyOf_mem (dict : List (List Nat × Int)) (hd : (dict.map Prod.fst).Nodup)
    (e : List Nat × Int) (he : e ∈ dict) : frequencyOf dict e.1 = e.2 := by
  induction dict with
  | nil => cases he
  | cons x rest ih =>
    unfold frequencyOf
    rw [List.map_cons, List.nodup_cons] at hd
    rcases List.mem_cons.1 he with rfl | hr
    · simp
    · have hne : ¬ x.1 = e.1 := by
        intro hx
        exact hd.1 (hx ▸ List.mem_map_of_mem Prod.fst hr)
      rw [List.find?_cons_of_neg _ (by simpa using hne)]
      exact ih hd.2 hr

theorem mem_recommend_pq (dict : List (List Nat × Int)) (query : List Nat)
    (maxDistance : Int) (c : CandidateWord) :
    c ∈ dict.foldl (recommendStep query (splitToChars query) maxDistance) [] ↔
      ∃ e ∈ dict, editDistance query e.1 ≤ maxDistance ∧ c = candidateOf query e := by
  have hp := (recommend_fold query maxDistance dict [] List.sorted_nil).2
  rw [hp.mem_iff, List.append_nil, List.mem_reverse, List.mem_map]
  constructor
  · rintro ⟨e, he, rfl⟩
    rw [List.mem_filter] at he
    exact ⟨e, he.1, by simpa using he.2, rfl⟩
  · rintro ⟨e, he, hq, rfl⟩
    exact ⟨e, List.mem_filter.2 ⟨he, by simpa using hq⟩, rfl⟩

theorem recommend_pq_words_nodup (dict : List (List Nat × Int))
    (hd : (dict.map Prod.fst).Nodup) (query : List Nat) (maxDistance : Int) :
    ((dict.foldl (recommendStep query (splitToChars query) maxDistance) []).map
      (fun c => c.word)).Nodup := by
  have hp := (recommend_fold query maxDistance dict [] List.sorted_nil).2
  rw [(hp.map _).nodup_iff, List.append_nil, List.map_reverse, List.nodup_reverse,
    List.map_map]
  have hsub : ((dict.filter (fun e => decide (editDistance query e.1 ≤ maxDistance))).map
      Prod.fst).Sublist (dict.map Prod.fst) :=
    (List.filter_sublist _).map _
  exact hsub.nodup hd

/-- C18. For every dictionary (a map: one entry per word), query, `topK >= 0`
and `maxDistance`, `recommend` returns `min(topK, c)` words, `c` the number of
dictionary words within `maxDistance` of the query; the words are distinct
dictionary words within that distance; they stand in order of non-decreasing
distance and, at equal distance, non-increasing frequency; and no qualifying
word left out has a smaller distance, or the same distance and a higher
frequency, than a returned word. -/
theorem recommend_topK (dict : List (List Nat × Int)) (hd : (dict.map Prod.fst).Nodup)
    (query : List Nat) (topK maxDistance : Int) (hk : 0 ≤ topK) :
    ((recommend { dictProducer := some dict } query topK maxDistance).length : Int) =
      min topK
        ((dict.filter (fun e => decide (editDistance query e.1 ≤ maxDistance))).length : Int) ∧
    (recommend { dictProducer := some dict } query topK maxDistance).Nodup ∧
    (∀ w ∈ recommend { dictProducer := some dict } query topK maxDistance,
      w ∈ dict.map Prod.fst ∧ editDistance query w ≤ maxDistance) ∧
    (recommend { dictProducer := some dict } query topK maxDistance).Pairwise
      (fun a b => editDistance query a < editDistance query b ∨
        (editDistance query a = editDistance query b ∧
          frequencyOf dict b ≤ frequencyOf dict a)) ∧
    (∀ w ∈ dict.map Prod.fst, editDistance query w ≤ maxDistance →
      w ∉ recommend { dictProducer := some dict } query topK maxDistance →
      ∀ r ∈ recommend { dictProducer := some dict } query topK maxDistance,
        ¬ (editDistance query w < editDistance query r ∨
          (editDistance query w = editDistance query r ∧
            frequencyOf dict r < frequencyOf dict w))) := by
  rw [recommend_eq]
  obtain ⟨hs, hp⟩ := recommend_fold query maxDistance dict [] List.sorted_nil
  have hmem := mem_recommend_pq dict query maxDistance
  have hnd := recommend_pq_words_nodup dict hd query maxDistance
  generalize dict.foldl (recommendStep query (splitToChars query) maxDistance) [] = pq at *
  have hfield : ∀ c ∈ pq, c.word ∈ dict.map Prod.fst ∧
      c.distance = editDistance query c.word ∧ c.frequency = frequencyOf dict c.word ∧
      editDistance query c.word ≤ maxDistance := by
    intro c hc
    obtain ⟨e, he, hq, rfl⟩ := (hmem c).1 hc
    exact ⟨List.mem_map_of_mem Prod.fst he, rfl, (frequencyOf_mem dict hd e he).symm, hq⟩
  have htake : ∀ c ∈ pq.take topK.toNat, c ∈ pq := fun c hc => List.mem_of_mem_take hc
  refine ⟨?_, ?_, ?_, ?_, ?_⟩
  · rw [List.length_map, List.length_take, hp.length_eq, List.append_nil, List.length_reverse,
      List.length_map, Nat.cast_min, Int.toNat_of_nonneg hk]
  · exact ((List.take_sublist _ _).map _).nodup hnd
  · intro w hw
    obtain ⟨c, hc, rfl⟩ := List.mem_map.1 hw
    obtain ⟨h1, _, _, h4⟩ := hfield c (htake c hc)
    exact ⟨h1, h4⟩
  · rw [List.pairwise_map]
    have hs2 : (pq.take topK.toNat).Pairwise (fun a b => a.less b = false) :=
      List.Pairwise.sublist (List.take_sublist _ _) hs
    refine List.Pairwise.imp_of_mem ?_ hs2
    intro a b ha hb hab
    obtain ⟨_, a2, a3, _⟩ := hfield a (htake a ha)
    obtain ⟨_, b2, b3, _⟩ := hfield b (htake b hb)
    rw [less_false_iff] at hab
    rw [← a2, ← a3, ← b2, ← b3]
    exact hab
  · intro w hw hq hnot r hr
    obtain ⟨e, he, rfl⟩ := List.mem_map.1 hw
    obtain ⟨a, ha, rfl⟩ := List.mem_map.1 hr
    have hc : candidateOf query e ∈ pq := (hmem _).2 ⟨e, he, hq, rfl⟩
    have hsplit : pq.take topK.toNat ++ pq.drop topK.toNat = pq := List.take_append_drop _ _
    have hdrop : candidateOf query e ∈ pq.drop topK.toNat := by
      rw [← hsplit] at hc
      rcases List.mem_append.1 hc with h | h
      · exact absurd (List.mem_map.2 ⟨_, h, rfl⟩) hnot
      · exact h
    have hs3 : (pq.take topK.toNat ++ pq.drop topK.toNat).Pairwise
        (fun a b => a.less b = false) := by
      rw [hsplit]
      exact hs
    have hab := (List.pairwise_append.1 hs3).2.2 a ha _ hdrop
    rw [less_false_iff] at hab
    obtain ⟨_, a2, a3, _⟩ := hfield a (htake a ha)
    have e3 : frequencyOf dict e.1 = e.2 := frequencyOf_mem dict hd e he
    have c2 : (candidateOf query e).distance = editDistance query e.1 := rfl
    have c3 : (candidateOf query e).frequency = e.2 := rfl
    rw [c2, c3] at hab
    rw [← a2, ← a3, e3]
    omega

theorem recommend_length (dict : List (List Nat × Int)) (query : List Nat)
    (topK maxDistance : Int) (hk : 0 ≤ topK) :
    ((recommend { dictProducer := some dict } query topK maxDistance).length : Int) =
      min topK
        ((dict.filter (fun e => decide (editDistance query e.1 ≤ maxDistance))).length : Int) := by
  rw [recommend_eq]
  have hp := (recommend_fold query maxDistance dict [] List.sorted_nil).2
  rw [List.length_map, List.length_take, hp.length_eq, List.append_nil, List.length_reverse,
    List.length_map, Nat.cast_min, Int.toNat_of_nonneg hk]

theorem mem_recommend (dict : List (List Nat × Int)) (query : List Nat)
    (topK maxDistance : Int) (w : List Nat)
    (hw : w ∈ recommend { dictProducer := some dict } query topK maxDistance) :
    w ∈ dict.map Prod.fst ∧ editDistance query w ≤ maxDistance := by
  rw [recommend_eq] at hw
  obtain ⟨c, hc, rfl⟩ := List.mem_map.1 hw
  obtain ⟨e, he, hq, rfl⟩ := (mem_recommend_pq dict query maxDistance c).1
    (List.mem_of_mem_take hc)
  exact ⟨List.mem_map_of_mem Prod.fst he, hq⟩

theorem editDistance_nil_left (w : List Nat) :
    editDistance [] w = ((splitToChars w).length : Int) := by
  rw [editDistance_eq, splitToChars_nil, lev_nil_left]

set_option maxRecDepth 100000 in
theorem recommend_topK_witness :
    recommend { dictProducer := some appleDict } (bytes "appl") 2 2 =
      [bytes "apple", bytes "apples"] ∧
    (appleDict.map Prod.fst).Nodup ∧ (0 : Int) ≤ 2 ∧
    (((recommend { dictProducer := some appleDict } (bytes "appl") 2 2).length : Int) =
      min 2
        ((appleDict.filter
          (fun e => decide (editDistance (bytes "appl") e.1 ≤ 2))).length : Int) ∧
    (recommend { dictProducer := some appleDict } (bytes "appl") 2 2).Nodup ∧
    (∀ w ∈ recommend { dictProducer := some appleDict } (bytes "appl") 2 2,
      w ∈ appleDict.map Prod.fst ∧ editDistance (bytes "appl") w ≤ 2) ∧
    (recommend { dictProducer := some appleDict } (bytes "appl") 2 2).Pairwise
      (fun a b => editDistance (bytes "appl") a < editDistance (bytes "appl") b ∨
        (editDistance (bytes "appl") a = editDistance (bytes "appl") b ∧
          frequencyOf appleDict b ≤ frequencyOf appleDict a)) ∧
    (∀ w ∈ appleDict.map Prod.fst, editDistance (bytes "appl") w ≤ 2 →
      w ∉ recommend { dictProducer := some appleDict } (bytes "appl") 2 2 →
      ∀ r ∈ recommend { dictProducer := some appleDict } (bytes "appl") 2 2,
        ¬ (editDistance (bytes "appl") w < editDistance (bytes "appl") r ∨
          (editDistance (bytes "appl") w = editDistance (bytes "appl") r ∧
            frequencyOf appleDict r < frequencyOf appleDict w)))) :=
  ⟨by decide, by decide, by decide,
    recommend_topK appleDict (by decide) (bytes "appl") 2 2 (by decide)⟩

/-- C19, as the code has it.  For the empty query `handleSuggest` returns what
`recommend("", 5, 2)` returns: `min(5, c)` words, `c` the number of dictionary
words of at most two char units, each of them such a word; the list is empty
exactly when every dictionary word has more than two char units.  Without a
recommender or without a dictionary there are no suggestions. -/
theorem handleSuggest_empty_query (dict : List (List Nat × Int)) :
    handleSuggest (some { dictProducer := some dict }) [] =
      recommend { dictProducer := some dict } [] 5 2 ∧
    ((handleSuggest (some { dictProducer := some dict }) []).length : Int) =
      min 5 ((dict.filter (fun e => decide ((splitToChars e.1).length ≤ 2))).length : Int) ∧
    (∀ w ∈ handleSuggest (some { dictProducer := some dict }) [],
      w ∈ dict.map Prod.fst ∧ (splitToChars w).length ≤ 2) ∧
    (handleSuggest (some { dictProducer := some dict }) [] = [] ↔
      ∀ e ∈ dict, 2 < (splitToChars e.1).length) ∧
    handleSuggest none [] = [] ∧
    handleSuggest (some { dictProducer := none }) [] = [] := by
  have hfilter : dict.filter (fun e => decide (editDistance [] e.1 ≤ 2)) =
      dict.filter (fun e => decide ((splitToChars e.1).length ≤ 2)) := by
    apply List.filter_congr
    intro e _
    rw [editDistance_nil_left]
    simp only [decide_eq_decide]
    exact ⟨fun h => by exact_mod_cast h, fun h => by exact_mod_cast h⟩
  have hlen := recommend_length dict [] 5 2 (by decide)
  rw [hfilter] at hlen
  refine ⟨rfl, hlen, ?_, ?_, rfl, rfl⟩
  · intro w hw
    obtain ⟨h1, h2⟩ := mem_recommend dict [] 5 2 w hw
    rw [editDistance_nil_left] at h2
    exact ⟨h1, by exact_mod_cast h2⟩
  · show recommend { dictProducer := some dict } [] 5 2 = [] ↔ _
    rw [← List.length_eq_zero]
    constructor
    · intro h0 e he
      rw [h0] at hlen
      by_contra hn
      have hmem : e ∈ dict.filter (fun e => decide ((splitToChars e.1).length ≤ 2)) :=
        List.mem_filter.2 ⟨he, by simpa using hn⟩
      have hpos := List.length_pos_of_mem hmem
      have : (0 : Int) < ((dict.filter
          (fun e => decide ((splitToChars e.1).length ≤ 2))).length : Int) := by
        exact_mod_cast hpos
      rcases min_choice (5 : Int) ((dict.filter
          (fun e => decide ((splitToChars e.1).length ≤ 2))).length : Int) with h | h
      · rw [h] at hlen
        omega
      · rw [h] at hlen
        omega
    · intro hall
      have hnil : dict.filter (fun e => decide ((splitToChars e.1).length ≤ 2)) = [] := by
        rw [List.filter_eq_nil_iff]
        intro e he
        have := hall e he
        simp only [decide_eq_true_eq]
        omega
      rw [hnil] at hlen
      simp only [List.length_nil, Nat.cast_zero] at hlen
      have h5 : min (5 : Int) 0 = 0 := by decide
      rw [h5] at hlen
      exact_mod_cast hlen

/-- C19 as stated fails: with the dictionary that holds the one word `a`, the
empty query is at distance 1 from `a`, and `handleSuggest("")` suggests `a`. -/
theorem handleSuggest_empty_query_counterexample :
    handleSuggest (some { dictProducer := some [(bytes "a", 1)] }) [] = [bytes "a"] ∧
    recommend { dictProducer := some [(bytes "a", 1)] } [] 5 2 = [bytes "a"] ∧
    editDistance [] (bytes "a") = 1 :=
  ⟨by decide, by decide, by decide⟩

theorem handleSuggest_empty_query_witness :
    handleSuggest (some { dictProducer := some appleDict }) [] = [] ∧
    (handleSuggest (some { dictProducer := some appleDict }) [] = [] ↔
      ∀ e ∈ appleDict, 2 < (splitToChars e.1).length) :=
  ⟨by decide, (handleSuggest_empty_query appleDict).2.2.2.1⟩

/-! ## The LRU shard under puts -/

theorem recentKeys_append {K : Type} [DecidableEq K] (keys : List K) (k : K) :
    recentKeys (keys ++ [k]) = k :: (recentKeys keys).filter (fun x => decide (x ≠ k)) := by
  unfold recentKeys
  rw [List.foldl_append]
  rfl

theorem mem_recentKeys {K : Type} [DecidableEq K] (keys : List K) (x : K) :
    x ∈ recentKeys keys ↔ x ∈ keys := by
  induction keys using List.reverseRecOn with
  | nil => simp [recentKeys]
  | append_singleton l k ih =>
    rw [recentKeys_append, List.mem_cons, List.mem_filter, ih, List.mem_append,
      List.mem_singleton]
    by_cases h : x = k
    · simp [h]
    · simp [h]

theorem recentKeys_nodup {K : Type} [DecidableEq K] (keys : List K) :
    (recentKeys keys).Nodup := by
  induction keys using List.reverseRecOn with
  | nil => simp [recentKeys]
  | append_singleton l k ih =>
    rw [recentKeys_append, List.nodup_cons]
    refine ⟨?_, ih.filter _⟩
    simp [List.mem_filter]

theorem take_erase_of_mem {K : Type} [DecidableEq K] (k : K) :
    ∀ (R : List K) (n : Nat), R.Nodup → k ∈ R.take (n + 1) →
      (R.take (n + 1)).erase k = (R.filter (fun x => decide (x ≠ k))).take n := by
  intro R
  induction R with
  | nil => intro n _ h; simp at h
  | cons a R ih =>
    intro n hnd hk
    rw [List.nodup_cons] at hnd
    rw [List.take_succ_cons] at hk ⊢
    by_cases ha : a = k
    · subst ha
      rw [List.erase_cons_head, List.filter_cons_of_neg (by simp)]
      have hf : R.filter (fun x => decide (x ≠ a)) = R := by
        rw [List.filter_eq_self]
        intro x hx
        simp only [ne_eq, decide_eq_true_eq]
        intro e
        exact hnd.1 (e ▸ hx)
      rw [hf]
    · have hk2 : k ∈ R.take n := by
        rcases List.mem_cons.1 hk with h | h
        · exact absurd h.symm ha
        · exact h
      rw [List.erase_cons_tail (by simpa using ha), List.filter_cons_of_pos (by simpa using ha)]
      cases n with
      | zero => simp at hk2
      | succ m =>
        rw [List.take_succ_cons, ih m hnd.2 hk2]

theorem take_filter_of_not_mem {K : Type} [DecidableEq K] (k : K) :
    ∀ (R : List K) (n : Nat), k ∉ R.take n →
      (R.filter (fun x => decide (x ≠ k))).take n = R.take n := by
  intro R
  induction R with
  | nil => intro n _; simp
  | cons a R ih =>
    intro n hk
    cases n with
    | zero => simp
    | succ m =>
      rw [List.take_succ_cons] at hk
      have ha : a ≠ k := fun e => hk (e ▸ List.mem_cons_self _ _)
      have hk2 : k ∉ R.take m := fun h => hk (List.mem_cons_of_mem _ h)
      rw [List.filter_cons_of_pos (by simpa using ha), List.take_succ_cons, List.take_succ_cons,
        ih m hk2]

theorem putAll_append {K V : Type} [DecidableEq K] (s : LRUShard K V) (ops : List (K × V))
    (op : K × V) (s1 : LRUShard K V) (h : s.putAll ops = some s1) :
    s.putAll (ops ++ [op]) = s1.put op.1 op.2 := by
  induction ops generalizing s with
  | nil =>
    simp only [LRUShard.putAll, Option.some.injEq] at h
    subst h
    simp only [List.nil_append, LRUShard.putAll]
    cases s.put op.1 op.2 <;> rfl
  | cons o rest ih =>
    simp only [List.cons_append, LRUShard.putAll] at h ⊢
    cases hp : s.put o.1 o.2 with
    | none => rw [hp] at h; cases h
    | some s2 =>
      rw [hp] at h
      simp only [] at h ⊢
      exact ih s2 h

theorem map_fst_eraseP {K V : Type} [DecidableEq K] (k : K) (l : List (K × V)) :
    (l.eraseP (fun e => decide (e.1 = k))).map Prod.fst = (l.map Prod.fst).erase k := by
  induction l with
  | nil => rfl
  | cons e rest ih =>
    by_cases h : e.1 = k
    · rw [List.eraseP_cons_of_pos (by simpa using h), List.map_cons, h, List.erase_cons_head]
    · rw [List.eraseP_cons_of_neg (by simpa using h), List.map_cons, List.map_cons,
        List.erase_cons_tail (by simpa using h), ih]

theorem shardGood_put {K V : Type} [DecidableEq K] (n : Nat) (s : LRUShard K V)
    (keys : List K) (k : K) (v : V) (h : ShardGood (n + 1) s keys) :
    ∃ s1, s.put k v = some s1 ∧ ShardGood (n + 1) s1 (keys ++ [k]) := by
  obtain ⟨hcap, hkeys, hidx⟩ := h
  have hnd := recentKeys_nodup keys
  have htarget : (recentKeys (keys ++ [k])).take (n + 1) =
      k :: ((recentKeys keys).filter (fun x => decide (x ≠ k))).take n := by
    rw [recentKeys_append, List.take_succ_cons]
  unfold LRUShard.put
  by_cases hin : k ∈ s.index
  · have hk : k ∈ s.cache.map Prod.fst := hidx.mem_iff.1 hin
    rw [if_pos hin, if_pos hk]
    refine ⟨_, rfl, hcap, ?_, ?_⟩
    · simp only [List.map_cons]
      rw [map_fst_eraseP, hkeys, htarget, take_erase_of_mem k _ n hnd (hkeys ▸ hk)]
    · simp only [List.map_cons]
      rw [map_fst_eraseP]
      exact hidx.trans (List.perm_cons_erase hk)
  · have hk : k ∉ s.cache.map Prod.fst := fun hc => hin (hidx.mem_iff.2 hc)
    have hk1 : k ∉ (recentKeys keys).take (n + 1) := hkeys ▸ hk
    have hlen : s.cache.length = min (n + 1) (recentKeys keys).length := by
      rw [← List.length_map s.cache Prod.fst, hkeys, List.length_take]
    rw [if_neg hin]
    by_cases hfull : s.cache.length ≥ s.capacity
    · rw [if_pos hfull]
      rw [hcap] at hfull
      have hne : s.cache ≠ [] := by
        intro e
        rw [e] at hfull
        simp at hfull
      obtain ⟨last, hlast⟩ : ∃ last, s.cache.getLast? = some last := by
        cases hc : s.cache.getLast? with
        | none => exact absurd (List.getLast?_eq_none_iff.1 hc) hne
        | some l => exact ⟨l, rfl⟩
      rw [hlast]
      have hsplit : s.cache = s.cache.dropLast ++ [last] :=
        (List.dropLast_append_getLast? last hlast).symm
      have hkeys2 : s.cache.map Prod.fst = s.cache.dropLast.map Prod.fst ++ [last.1] := by
        conv_lhs => rw [hsplit]
        rw [List.map_append]
        rfl
      have hdl : s.cache.dropLast.map Prod.fst = (recentKeys keys).take n := by
        have h1 : s.cache.dropLast.map Prod.fst = (s.cache.map Prod.fst).take n := by
          rw [← List.map_take, List.dropLast_eq_take]
          congr 2
          omega
        rw [h1, hkeys, List.take_take]
        congr 1
        omega
      have hk2 : k ∉ (recentKeys keys).take n := by
        intro hc
        apply hk1
        have e : ((recentKeys keys).take (n + 1)).take n = (recentKeys keys).take n := by
          rw [List.take_take]
          congr 1
          omega
        rw [← e] at hc
        exact List.mem_of_mem_take hc
      refine ⟨_, rfl, hcap, ?_, ?_⟩
      · simp only [List.map_cons]
        rw [hdl, htarget, take_filter_of_not_mem k _ n hk2]
      · simp only [List.map_cons]
        apply List.Perm.cons
        have hp : s.index.Perm (last.1 :: s.cache.dropLast.map Prod.fst) := by
          refine hidx.trans ?_
          rw [hkeys2]
          exact List.perm_append_singleton _ _
        have := hp.erase last.1
        rw [List.erase_cons_head] at this
        exact this
    · rw [if_neg hfull]
      rw [hcap] at hfull
      have hRlen : (recentKeys keys).length ≤ n := by
        rw [hlen] at hfull
        omega
      have hkeysR : s.cache.map Prod.fst = recentKeys keys := by
        rw [hkeys, List.take_of_length_le (by omega)]
      have hk2 : k ∉ (recentKeys keys).take n := by
        rw [List.take_of_length_le hRlen, ← hkeysR]
        exact hk
      refine ⟨_, rfl, hcap, ?_, ?_⟩
      · simp only [List.map_cons]
        rw [htarget, take_filter_of_not_mem k _ n hk2, List.take_of_length_le hRlen, hkeysR]
      · simp only [List.map_cons]
        exact List.Perm.cons _ hidx

theorem shardGood_putAll {K V : Type} [DecidableEq K] (n : Nat) (ops : List (K × V)) :
    ∃ s, (LRUShard.new (n + 1) : LRUShard K V).putAll ops = some s ∧
      ShardGood (n + 1) s (ops.map Prod.fst) := by
  induction ops using List.reverseRecOn with
  | nil =>
    refine ⟨LRUShard.new (n + 1), rfl, rfl, ?_, ?_⟩
    · simp [LRUShard.new, recentKeys]
    · simp [LRUShard.new]
  | append_singleton l op ih =>
    obtain ⟨s, hs, hg⟩ := ih
    obtain ⟨s1, h1, hg1⟩ := shardGood_put n s (l.map Prod.fst) op.1 op.2 hg
    refine ⟨s1, ?_, ?_⟩
    · rw [putAll_append _ l op s hs, h1]
    · rw [List.map_append]
      exact hg1

/-- C20. For every capacity `C >= 1` and every sequence of puts applied to an
empty shard (hence after each of its operations), every put returns, `size()`
is at most `C` and equals `min(C, d)`, `d` the number of distinct keys put, and
the keys present, which are the keys of `_cache` from front to back and the
keys `contains` finds, are the `min(C, d)` most recently put distinct keys. -/
theorem put_keeps_most_recent {K V : Type} [DecidableEq K] (C : Nat) (hC : 1 ≤ C)
    (ops : List (K × V)) :
    ∃ s, (LRUShard.new C : LRUShard K V).putAll ops = some s ∧
      s.size ≤ C ∧
      s.size = min C (recentKeys (ops.map Prod.fst)).length ∧
      s.cache.map Prod.fst = (recentKeys (ops.map Prod.fst)).take C ∧
      (∀ k, s.contains k = true ↔ k ∈ (recentKeys (ops.map Prod.fst)).take C) ∧
      (recentKeys (ops.map Prod.fst)).Nodup ∧
      ∀ k, k ∈ recentKeys (ops.map Prod.fst) ↔ k ∈ ops.map Prod.fst := by
  obtain ⟨n, rfl⟩ : ∃ n, C = n + 1 := ⟨C - 1, by omega⟩
  obtain ⟨s, hs, _, hkeys, hidx⟩ := shardGood_putAll n ops
  have hsize : s.size = min (n + 1) (recentKeys (ops.map Prod.fst)).length := by
    unfold LRUShard.size
    rw [← List.length_map s.cache Prod.fst, hkeys, List.length_take]
  refine ⟨s, hs, ?_, hsize, hkeys, ?_, recentKeys_nodup _, mem_recentKeys _⟩
  · rw [hsize]
    exact min_le_left _ _
  · intro k
    unfold LRUShard.contains
    rw [decide_eq_true_eq, hidx.mem_iff, hkeys]

theorem put_keeps_most_recent_witness :
    ((LRUShard.new 2 : LRUShard Nat Nat).putAll [(1, 10), (2, 20), (1, 11), (3, 30)]).map
      (fun s => s.cache) = some [(3, 30), (1, 11)] ∧
    recentKeys [1, 2, 1, 3] = [3, 1, 2] ∧
    1 ≤ 2 ∧
    ∃ s, (LRUShard.new 2 : LRUShard Nat Nat).putAll [(1, 10), (2, 20), (1, 11), (3, 30)] =
        some s ∧
      s.size ≤ 2 ∧
      s.size = min 2 (recentKeys ([(1, 10), (2, 20), (1, 11), (3, 30)].map Prod.fst)).length ∧
      s.cache.map Prod.fst =
        (recentKeys ([(1, 10), (2, 20), (1, 11), (3, 30)].map Prod.fst)).take 2 ∧
      (∀ k, s.contains k = true ↔
        k ∈ (recentKeys ([(1, 10), (2, 20), (1, 11), (3, 30)].map Prod.fst)).take 2) ∧
      (recentKeys ([(1, 10), (2, 20), (1, 11), (3, 30)].map Prod.fst)).Nodup ∧
      ∀ k, k ∈ recentKeys ([(1, 10), (2, 20), (1, 11), (3, 30)].map Prod.fst) ↔
        k ∈ [(1, 10), (2, 20), (1, 11), (3, 30)].map Prod.fst :=
  ⟨by decide, by decide, by decide,
    put_keeps_most_recent 2 (by decide) [(1, 10), (2, 20), (1, 11), (3, 30)]⟩

/-! ## The LRU shard under puts and gets, the sharded cache, the search facade -/

theorem find?_key_of_mem {K V : Type} [DecidableEq K] (l : List (K × V)) (k : K)
    (h : k ∈ l.map Prod.fst) :
    ∃ v, l.find? (fun e => decide (e.1 = k)) = some (k, v) ∧ (k, v) ∈ l := by
  induction l with
  | nil => simp at h
  | cons e rest ih =>
    by_cases he : e.1 = k
    · refine ⟨e.2, ?_, ?_⟩
      · rw [List.find?_cons_of_pos _ (by simpa using he), ← he]
      · rw [← he]
        exact List.mem_cons_self _ _
    · have hr : k ∈ rest.map Prod.fst := by
        rw [List.map_cons, List.mem_cons] at h
        rcases h with h | h
        · exact absurd h.symm he
        · exact h
      obtain ⟨v, h1, h2⟩ := ih hr
      exact ⟨v, by rw [List.find?_cons_of_neg _ (by simpa using he), h1],
        List.mem_cons_of_mem _ h2⟩

theorem perm_cons_eraseP_key {K V : Type} [DecidableEq K] (l : List (K × V)) (k : K) (v : V)
    (hf : l.find? (fun e => decide (e.1 = k)) = some (k, v)) :
    ((k, v) :: l.eraseP (fun e => decide (e.1 = k))).Perm l := by
  induction l with
  | nil => simp at hf
  | cons e rest ih =>
    by_cases he : e.1 = k
    · rw [List.find?_cons_of_pos _ (by simpa using he)] at hf
      rw [List.eraseP_cons_of_pos (by simpa using he)]
      injection hf with hf
      rw [hf]
    · rw [List.find?_cons_of_neg _ (by simpa using he)] at hf
      rw [List.eraseP_cons_of_neg (by simpa using he)]
      exact (List.Perm.swap _ _ _).trans ((ih hf).cons e)

theorem mem_eraseP_key {K V : Type} [DecidableEq K] (l : List (K × V)) (k : K)
    (hnd : (l.map Prod.fst).Nodup) (e : K × V)
    (he : e ∈ l.eraseP (fun e => decide (e.1 = k))) : e ∈ l ∧ e.1 ≠ k := by
  refine ⟨List.mem_of_mem_eraseP he, ?_⟩
  intro hk
  have h1 : e.1 ∈ (l.eraseP (fun e => decide (e.1 = k))).map Prod.fst :=
    List.mem_map_of_mem Prod.fst he
  rw [map_fst_eraseP, hk] at h1
  exact (List.Nodup.mem_erase_iff hnd).1 h1 |>.1 rfl

theorem shardOk_new {K V : Type} (C : Nat) (hC : 1 ≤ C) : ShardOk (LRUShard.new C : LRUShard K V) :=
  ⟨hC, List.Perm.refl _, List.nodup_nil, Nat.zero_le _⟩

/-- What `put` does to a shard in order. -/
theorem shardOk_put {K V : Type} [DecidableEq K] (s : LRUShard K V) (k : K) (v : V)
    (h : ShardOk s) :
    ∃ s1, s.put k v = some s1 ∧ ShardOk s1 ∧ s1.capacity = s.capacity ∧
      s1.cache.map Prod.fst =
        (if k ∈ s.cache.map Prod.fst then k :: (s.cache.map Prod.fst).erase k
         else if s.cache.length ≥ s.capacity then k :: (s.cache.map Prod.fst).dropLast
         else k :: s.cache.map Prod.fst) ∧
      (∀ e ∈ s1.cache, e = (k, v) ∨ (e ∈ s.cache ∧ e.1 ≠ k)) ∧
      (k, v) ∈ s1.cache := by
  obtain ⟨hcap, hidx, hnd, hlen⟩ := h
  unfold LRUShard.put
  by_cases hin : k ∈ s.index
  · have hk : k ∈ s.cache.map Prod.fst := hidx.mem_iff.1 hin
    rw [if_pos hin, if_pos hk]
    have hkeys : ((k, v) :: s.cache.eraseP (fun e => decide (e.1 = k))).map Prod.fst =
        k :: (s.cache.map Prod.fst).erase k := by
      rw [List.map_cons, map_fst_eraseP]
    refine ⟨_, rfl, ⟨hcap, ?_, ?_, ?_⟩, rfl, ?_, ?_, List.mem_cons_self _ _⟩
    · show s.index.Perm (((k, v) :: s.cache.eraseP (fun e => decide (e.1 = k))).map Prod.fst)
      rw [hkeys]
      exact hidx.trans (List.perm_cons_erase hk)
    · show (((k, v) :: s.cache.eraseP (fun e => decide (e.1 = k))).map Prod.fst).Nodup
      rw [hkeys]
      exact (List.perm_cons_erase hk).nodup_iff.1 hnd
    · show ((k, v) :: s.cache.eraseP (fun e => decide (e.1 = k))).length ≤ s.capacity
      have := (List.perm_cons_erase hk).length_eq
      rw [← List.length_map _ Prod.fst, hkeys, ← this, List.length_map]
      exact hlen
    · rw [if_pos hk]
      exact hkeys
    · intro e he
      rcases List.mem_cons.1 he with h1 | h1
      · exact Or.inl h1
      · exact Or.inr (mem_eraseP_key s.cache k hnd e h1)
  · have hk : k ∉ s.cache.map Prod.fst := fun hc => hin (hidx.mem_iff.2 hc)
    have hne : ∀ e ∈ s.cache, e.1 ≠ k := fun e he hc =>
      hk (hc ▸ List.mem_map_of_mem Prod.fst he)
    rw [if_neg hin]
    by_cases hfull : s.cache.length ≥ s.capacity
    · rw [if_pos hfull]
      have hnil : s.cache ≠ [] := by
        intro e
        rw [e] at hfull
        simp only [List.length_nil] at hfull
        omega
      obtain ⟨last, hlast⟩ : ∃ last, s.cache.getLast? = some last := by
        cases hc : s.cache.getLast? with
        | none => exact absurd (List.getLast?_eq_none_iff.1 hc) hnil
        | some l => exact ⟨l, rfl⟩
      rw [hlast]
      have hsplit : s.cache = s.cache.dropLast ++ [last] :=
        (List.dropLast_append_getLast? last hlast).symm
      have hkeys2 : s.cache.map Prod.fst = s.cache.dropLast.map Prod.fst ++ [last.1] := by
        conv_lhs => rw [hsplit]
        rw [List.map_append]
        rfl
      have hdk : s.cache.dropLast.map Prod.fst = (s.cache.map Prod.fst).dropLast := by
        rw [hkeys2, List.dropLast_concat]
      have hsub : (s.cache.dropLast.map Prod.fst).Sublist (s.cache.map Prod.fst) := by
        rw [hdk]
        exact List.dropLast_sublist _
      refine ⟨_, rfl, ⟨hcap, ?_, ?_, ?_⟩, rfl, ?_, ?_, List.mem_cons_self _ _⟩
      · show (k :: s.index.erase last.1).Perm (k :: s.cache.dropLast.map Prod.fst)
        apply List.Perm.cons
        have hp : s.index.Perm (last.1 :: s.cache.dropLast.map Prod.fst) := by
          refine hidx.trans ?_
          rw [hkeys2]
          exact List.perm_append_singleton _ _
        have := hp.erase last.1
        rw [List.erase_cons_head] at this
        exact this
      · show (k :: s.cache.dropLast.map Prod.fst).Nodup
        exact List.nodup_cons.2 ⟨fun hc => hk (hsub.subset hc), hsub.nodup hnd⟩
      · show (s.cache.dropLast).length + 1 ≤ s.capacity
        rw [List.length_dropLast]
        have : 0 < s.cache.length := List.length_pos.2 hnil
        omega
      · rw [if_neg hk, if_pos hfull, ← hdk]
        rfl
      · intro e he
        rcases List.mem_cons.1 he with h1 | h1
        · exact Or.inl h1
        · have hm : e ∈ s.cache := (List.dropLast_sublist _).subset h1
          exact Or.inr ⟨hm, hne e hm⟩
    · rw [if_neg hfull]
      refine ⟨_, rfl, ⟨hcap, ?_, ?_, ?_⟩, rfl, ?_, ?_, List.mem_cons_self _ _⟩
      · exact List.Perm.cons _ hidx
      · exact List.nodup_cons.2 ⟨hk, hnd⟩
      · show s.cache.length + 1 ≤ s.capacity
        omega
      · rw [if_neg hk, if_neg hfull]
        rfl
      · intro e he
        rcases List.mem_cons.1 he with h1 | h1
        · exact Or.inl h1
        · exact Or.inr ⟨h1, hne e h1⟩

theorem shardOk_get_miss {K V : Type} [DecidableEq K] (s : LRUShard K V) (k : K)
    (h : ShardOk s) (hk : k ∉ s.cache.map Prod.fst) : s.get k = some (s, none) := by
  unfold LRUShard.get
  rw [if_neg (fun hc => hk (h.2.1.mem_iff.1 hc))]

/-- What `get` does to a shard in order that holds the key. -/
theorem shardOk_get_hit {K V : Type} [DecidableEq K] (s : LRUShard K V) (k : K)
    (h : ShardOk s) (hk : k ∈ s.cache.map Prod.fst) :
    ∃ v s1, (k, v) ∈ s.cache ∧ s.get k = some (s1, some v) ∧ ShardOk s1 ∧
      s1.capacity = s.capacity ∧ s1.index = s.index ∧
      s1.cache = (k, v) :: s.cache.eraseP (fun e => decide (e.1 = k)) ∧
      s1.cache.Perm s.cache ∧
      s1.cache.map Prod.fst = k :: (s.cache.map Prod.fst).erase k := by
  obtain ⟨hcap, hidx, hnd, hlen⟩ := h
  obtain ⟨v, hf, hm⟩ := find?_key_of_mem s.cache k hk
  have hp := perm_cons_eraseP_key s.cache k v hf
  have hkeys : ((k, v) :: s.cache.eraseP (fun e => decide (e.1 = k))).map Prod.fst =
      k :: (s.cache.map Prod.fst).erase k := by
    rw [List.map_cons, map_fst_eraseP]
  refine ⟨v, { capacity := s.capacity,
               cache := (k, v) :: s.cache.eraseP (fun e => decide (e.1 = k)),
               index := s.index }, hm, ?_, ⟨hcap, ?_, ?_, ?_⟩, rfl, rfl, rfl, hp, hkeys⟩
  · unfold LRUShard.get
    rw [if_pos (hidx.mem_iff.2 hk), hf]
  · exact hidx.trans (hp.map Prod.fst).symm
  · exact (hp.map Prod.fst).nodup_iff.2 hnd
  · show ((k, v) :: s.cache.eraseP (fun e => decide (e.1 = k))).length ≤ s.capacity
    rw [hp.length_eq]
    exact hlen

theorem run_append {K V : Type} [DecidableEq K] (s : LRUShard K V)
    (ops : List (ShardOp K V)) (op : ShardOp K V) (s1 : LRUShard K V)
    (h : s.run ops = some s1) : s.run (ops ++ [op]) = s1.apply op := by
  induction ops generalizing s with
  | nil =>
    simp only [LRUShard.run, Option.some.injEq] at h
    subst h
    simp only [List.nil_append, LRUShard.run]
    cases s.apply op <;> rfl
  | cons o rest ih =>
    simp only [List.cons_append, LRUShard.run] at h ⊢
    cases hp : s.apply o with
    | none => rw [hp] at h; cases h
    | some s2 =>
      rw [hp] at h
      simp only [] at h ⊢
      exact ih s2 h

theorem lastPut_cons_put {K V : Type} [DecidableEq K] (key k : K) (v : V)
    (rest : List (ShardOp K V)) :
    lastPut key (ShardOp.put k v :: rest) =
      match lastPut key rest with
      | some w => some w
      | none => if k = key then some v else none := rfl

theorem lastPut_cons_get {K V : Type} [DecidableEq K] (key k : K)
    (rest : List (ShardOp K V)) :
    lastPut key (ShardOp.get k :: rest) = lastPut key rest := rfl

theorem lastPut_append_put {K V : Type} [DecidableEq K] (key k : K) (v : V)
    (ops : List (ShardOp K V)) :
    lastPut key (ops ++ [ShardOp.put k v]) = if k = key then some v else lastPut key ops := by
  induction ops with
  | nil => rfl
  | cons o rest ih =>
    cases o with
    | put k2 v2 =>
      rw [List.cons_append, lastPut_cons_put, ih, lastPut_cons_put]
      by_cases hk : k = key
      · rw [if_pos hk, if_pos hk]
      · rw [if_neg hk, if_neg hk]
    | get k2 =>
      rw [List.cons_append, lastPut_cons_get, ih, lastPut_cons_get]

theorem lastPut_append_get {K V : Type} [DecidableEq K] (key k : K)
    (ops : List (ShardOp K V)) :
    lastPut key (ops ++ [ShardOp.get k]) = lastPut key ops := by
  induction ops with
  | nil => rfl
  | cons o rest ih =>
    cases o with
    | put k2 v2 => rw [List.cons_append, lastPut_cons_put, ih, lastPut_cons_put]
    | get k2 => rw [List.cons_append, lastPut_cons_get, ih, lastPut_cons_get]

/-- Every sequence of operations on an empty shard of capacity at least 1
runs through and leaves a shard in order whose pairs carry the value last put
for their key. -/
theorem run_ok {K V : Type} [DecidableEq K] (C : Nat) (hC : 1 ≤ C)
    (ops : List (ShardOp K V)) :
    ∃ s, (LRUShard.new C : LRUShard K V).run ops = some s ∧ ShardOk s ∧ s.capacity = C ∧
      ∀ e ∈ s.cache, lastPut e.1 ops = some e.2 := by
  induction ops using List.reverseRecOn with
  | nil => exact ⟨_, rfl, shardOk_new C hC, rfl, fun e he => by cases he⟩
  | append_singleton l op ih =>
    obtain ⟨s, hs, hok, hcap, hval⟩ := ih
    rw [run_append _ l op s hs]
    cases op with
    | put k v =>
      obtain ⟨s1, h1, hok1, hcap1, _, hmem, _⟩ := shardOk_put s k v hok
      refine ⟨s1, h1, hok1, by rw [hcap1, hcap], ?_⟩
      intro e he
      rw [lastPut_append_put]
      rcases hmem e he with h | ⟨h, hne⟩
      · rw [h, if_pos rfl]
      · rw [if_neg (fun hc => hne hc.symm)]
        exact hval e h
    | get k =>
      by_cases hk : k ∈ s.cache.map Prod.fst
      · obtain ⟨v, s1, _, hg, hok1, hcap1, _, _, hp, _⟩ := shardOk_get_hit s k hok hk
        refine ⟨s1, ?_, hok1, by rw [hcap1, hcap], ?_⟩
        · show (s.get k).map Prod.fst = some s1
          rw [hg]
          rfl
        · intro e he
          rw [lastPut_append_get]
          exact hval e (hp.mem_iff.1 he)
      · refine ⟨s, ?_, hok, hcap, ?_⟩
        · show (s.get k).map Prod.fst = some s
          rw [shardOk_get_miss s k hok hk]
          rfl
        · intro e he
          rw [lastPut_append_get]
          exact hval e he

/-- Puts of keys that are not among `keys0` evict the keys of `keys0` from
the back: what is left of them in the shard is a prefix of `keys0`. -/
theorem putAll_fresh_prefix {K V : Type} [DecidableEq K] (keys0 : List K)
    (fresh : List (K × V)) (hfresh : ∀ p ∈ fresh, p.1 ∉ keys0) :
    ∀ (t : LRUShard K V) (F P : List K), ShardOk t → t.cache.map Prod.fst = F ++ P →
      P <+: keys0 → (∀ f ∈ F, f ∉ keys0) →
      ∃ t1 F1 P1, t.putAll fresh = some t1 ∧ t1.cache.map Prod.fst = F1 ++ P1 ∧
        P1 <+: keys0 ∧ (∀ f ∈ F1, f ∉ keys0) := by
  induction fresh with
  | nil =>
    intro t F P _ hk hP hF
    exact ⟨t, F, P, rfl, hk, hP, hF⟩
  | cons p rest ih =>
    intro t F P hok hk hP hF
    have hp : p.1 ∉ keys0 := hfresh p (List.mem_cons_self _ _)
    have hpP : p.1 ∉ P := fun hc => hp (hP.subset hc)
    obtain ⟨s1, h1, hok1, _, hkeys, _, _⟩ := shardOk_put t p.1 p.2 hok
    have hrest : ∀ q ∈ rest, q.1 ∉ keys0 := fun q hq => hfresh q (List.mem_cons_of_mem _ hq)
    have hstep : ∃ F1 P1, s1.cache.map Prod.fst = F1 ++ P1 ∧ P1 <+: keys0 ∧
        (∀ f ∈ F1, f ∉ keys0) := by
      rw [hkeys, hk]
      by_cases hin : p.1 ∈ F ++ P
      · rw [if_pos hin]
        have hinF : p.1 ∈ F := by
          rcases List.mem_append.1 hin with h | h
          · exact h
          · exact absurd h hpP
        refine ⟨p.1 :: F.erase p.1, P, ?_, hP, ?_⟩
        · rw [List.erase_append_left _ hinF]
          rfl
        · intro f hf
          rcases List.mem_cons.1 hf with h | h
          · rw [h]
            exact hp
          · exact hF f (List.mem_of_mem_erase h)
      · rw [if_neg hin]
        have hFp : ∀ f ∈ p.1 :: F, f ∉ keys0 := by
          intro f hf
          rcases List.mem_cons.1 hf with h | h
          · rw [h]
            exact hp
          · exact hF f h
        by_cases hfull : t.cache.length ≥ t.capacity
        · rw [if_pos hfull]
          by_cases hPnil : P = []
          · subst hPnil
            refine ⟨p.1 :: F.dropLast, [], ?_, List.nil_prefix, ?_⟩
            · simp
            · intro f hf
              rcases List.mem_cons.1 hf with h | h
              · rw [h]
                exact hp
              · exact hF f ((List.dropLast_sublist _).subset h)
          · refine ⟨p.1 :: F, P.dropLast, ?_, ?_, hFp⟩
            · rw [List.dropLast_append_of_ne_nil _ hPnil]
              rfl
            · exact (List.dropLast_prefix P).trans hP
        · rw [if_neg hfull]
          exact ⟨p.1 :: F, P, rfl, hP, hFp⟩
    obtain ⟨F1, P1, e1, e2, e3⟩ := hstep
    obtain ⟨t1, F2, P2, g1, g2, g3, g4⟩ := ih hrest s1 F1 P1 hok1 e1 e2 e3
    refine ⟨t1, F2, P2, ?_, g2, g3, g4⟩
    show (match t.put p.1 p.2 with
      | none => none
      | some s1 => s1.putAll rest) = some t1
    rw [h1]
    exact g1

theorem contains_iff {K V : Type} [DecidableEq K] (s : LRUShard K V) (k : K)
    (h : ShardOk s) : s.contains k = true ↔ k ∈ s.cache.map Prod.fst := by
  unfold LRUShard.contains
  rw [decide_eq_true_eq]
  exact h.2.1.mem_iff

/-- C22. For every shard reached from the empty shard of capacity `C >= 1` by
puts and gets, and every key `k`: when `k` is absent, `get(k)` misses and
returns the shard as it was; when `k` is present, `get(k)` returns the value of
the most recent `put(k, v)`, keeps the stored pairs (the new list is a
permutation of the old, `_index` and the capacity are unchanged), and puts the
pair of `k` at the front with the other keys in their old order, so that puts
of new keys, which evict from the back, evict every other current key before
`k`. -/
theorem get_frame {K V : Type} [DecidableEq K] (C : Nat) (hC : 1 ≤ C)
    (ops : List (ShardOp K V)) (k : K) :
    ∃ s, (LRUShard.new C : LRUShard K V).run ops = some s ∧
      (s.contains k = false → s.get k = some (s, none)) ∧
      (s.contains k = true →
        ∃ v s1, lastPut k ops = some v ∧ s.get k = some (s1, some v) ∧
          s1.cache.Perm s.cache ∧ s1.index = s.index ∧ s1.capacity = s.capacity ∧
          s1.cache.head? = some (k, v) ∧
          s1.cache.map Prod.fst = k :: (s.cache.map Prod.fst).erase k ∧
          ∀ fresh : List (K × V), (∀ p ∈ fresh, p.1 ∉ s.cache.map Prod.fst) →
            ∃ t, s1.putAll fresh = some t ∧
              ∀ x ∈ s.cache.map Prod.fst, x ∈ t.cache.map Prod.fst →
                k ∈ t.cache.map Prod.fst) := by
  obtain ⟨s, hs, hok, _, hval⟩ := run_ok C hC ops
  refine ⟨s, hs, ?_, ?_⟩
  · intro hc
    apply shardOk_get_miss s k hok
    intro hk
    rw [(contains_iff s k hok).2 hk] at hc
    cases hc
  · intro hc
    have hk := (contains_iff s k hok).1 hc
    obtain ⟨v, s1, hm, hg, hok1, hcap1, hidx1, hcache1, hp, hkeys1⟩ :=
      shardOk_get_hit s k hok hk
    refine ⟨v, s1, hval (k, v) hm, hg, hp, hidx1, hcap1, by rw [hcache1]; rfl, hkeys1, ?_⟩
    intro fresh hfresh
    have hfresh1 : ∀ p ∈ fresh, p.1 ∉ s1.cache.map Prod.fst := by
      intro p hp1 hc1
      exact hfresh p hp1 ((hp.map Prod.fst).mem_iff.1 hc1)
    obtain ⟨t, F1, P1, ht, hk1, hP1, hF1⟩ :=
      putAll_fresh_prefix (s1.cache.map Prod.fst) fresh hfresh1 s1 [] _ hok1 rfl
        (List.prefix_refl _) (fun f hf => by cases hf)
    refine ⟨t, ht, ?_⟩
    intro x hx hxt
    have hx1 : x ∈ s1.cache.map Prod.fst := (hp.map Prod.fst).mem_iff.2 hx
    rw [hk1] at hxt ⊢
    have hxP : x ∈ P1 := by
      rcases List.mem_append.1 hxt with h | h
      · exact absurd hx1 (hF1 x h)
      · exact h
    apply List.mem_append_right
    rw [hkeys1] at hP1
    obtain ⟨r, hr⟩ := hP1
    cases P1 with
    | nil => cases hxP
    | cons a P2 =>
      rw [List.cons_append] at hr
      injection hr with h1 _
      rw [h1]
      exact List.mem_cons_self _ _

theorem get_frame_witness :
    ((LRUShard.new 2 : LRUShard Nat Nat).run
      [ShardOp.put 1 10, ShardOp.put 2 20, ShardOp.get 1, ShardOp.put 3 30]).map
      (fun s => s.cache) = some [(3, 30), (1, 10)] ∧
    1 ≤ 2 ∧
    ∃ s, (LRUShard.new 2 : LRUShard Nat Nat).run [ShardOp.put 1 10, ShardOp.put 2 20] =
        some s ∧
      (s.contains 1 = false → s.get 1 = some (s, none)) ∧
      (s.contains 1 = true →
        ∃ v s1, lastPut 1 [ShardOp.put 1 10, ShardOp.put 2 20] = some v ∧
          s.get 1 = some (s1, some v) ∧
          s1.cache.Perm s.cache ∧ s1.index = s.index ∧ s1.capacity = s.capacity ∧
          s1.cache.head? = some (1, v) ∧
          s1.cache.map Prod.fst = 1 :: (s.cache.map Prod.fst).erase 1 ∧
          ∀ fresh : List (Nat × Nat), (∀ p ∈ fresh, p.1 ∉ s.cache.map Prod.fst) →
            ∃ t, s1.putAll fresh = some t ∧
              ∀ x ∈ s.cache.map Prod.fst, x ∈ t.cache.map Prod.fst →
                1 ∈ t.cache.map Prod.fst) :=
  ⟨by decide, by decide,
    get_frame 2 (by decide) [ShardOp.put 1 10, ShardOp.put 2 20] 1⟩

theorem sharded_put_of {K V : Type} [DecidableEq K] (hash : K → Nat)
    (c : ShardedLRUCache K V) (k : K) (v : V) (sh sh1 : LRUShard K V)
    (hsh : c.shards[c.shardIndex hash k]? = some sh) (hput : sh.put k v = some sh1) :
    c.put hash k v = some { c with shards := c.shards.set (c.shardIndex hash k) sh1 } := by
  unfold ShardedLRUCache.put
  rw [hsh]
  simp only [hput]

theorem sharded_get_of {K V : Type} [DecidableEq K] (hash : K → Nat)
    (c : ShardedLRUCache K V) (k : K) (sh sh1 : LRUShard K V) (r : Option V)
    (hsh : c.shards[c.shardIndex hash k]? = some sh) (hget : sh.get k = some (sh1, r)) :
    c.get hash k =
      some ({ c with shards := c.shards.set (c.shardIndex hash k) sh1 }, r) := by
  unfold ShardedLRUCache.get
  rw [hsh]
  simp only [hget]

/-- Four puts of three keys of one shard into a fresh cache of 16 shards whose
shards have capacity `cap`: the shard the keys share after the puts. -/
theorem sharded_four_puts {K V : Type} [DecidableEq K] (hash : K → Nat) (T : Nat)
    (a b c : K) (va vb va2 vc : V)
    (h1 : hash b % 16 = hash a % 16) (h2 : hash c % 16 = hash a % 16)
    (s1 s2 s3 s4 : LRUShard K V)
    (e1 : (LRUShard.new (max (T / 16) 1) : LRUShard K V).put a va = some s1)
    (e2 : s1.put b vb = some s2) (e3 : s2.put a va2 = some s3) (e4 : s3.put c vc = some s4) :
    ∃ c1 c2 c3 c4 : ShardedLRUCache K V,
      (ShardedLRUCache.new 16 T : ShardedLRUCache K V).put hash a va = some c1 ∧
      c1.put hash b vb = some c2 ∧ c2.put hash a va2 = some c3 ∧
      c3.put hash c vc = some c4 ∧ c4.shards.length = 16 ∧
      c4.shards[hash a % 16]? = some s4 := by
  have hi : hash a % 16 < 16 := Nat.mod_lt _ (by decide)
  have hlen0 : (ShardedLRUCache.new 16 T : ShardedLRUCache K V).shards.length = 16 :=
    List.length_replicate _ _
  have hidx : ∀ (c : ShardedLRUCache K V) (k : K), c.shards.length = 16 →
      hash k % 16 = hash a % 16 → c.shardIndex hash k = hash a % 16 := by
    intro c k hl hk
    unfold ShardedLRUCache.shardIndex
    rw [hl, hk]
  have hstep : ∀ (c : ShardedLRUCache K V) (k : K) (v : V) (sh sh1 : LRUShard K V),
      c.shards.length = 16 → hash k % 16 = hash a % 16 →
      c.shards[hash a % 16]? = some sh → sh.put k v = some sh1 →
      ∃ c1 : ShardedLRUCache K V, c.put hash k v = some c1 ∧ c1.shards.length = 16 ∧
        c1.shards[hash a % 16]? = some sh1 := by
    intro c k v sh sh1 hl hk hsh hput
    have hix := hidx c k hl hk
    refine ⟨_, sharded_put_of hash c k v sh sh1 (by rw [hix]; exact hsh) hput, ?_, ?_⟩
    · simp [hl]
    · rw [hix]
      show (c.shards.set (hash a % 16) sh1)[hash a % 16]? = some sh1
      rw [List.getElem?_set_self (by rw [hl]; exact hi)]
  have h0 : (ShardedLRUCache.new 16 T : ShardedLRUCache K V).shards[hash a % 16]? =
      some (LRUShard.new (max (T / 16) 1)) := by
    show (List.replicate 16 _)[hash a % 16]? = _
    rw [List.getElem?_replicate, if_pos hi]
  obtain ⟨c1, p1, l1, g1⟩ := hstep _ a va _ s1 hlen0 rfl h0 e1
  obtain ⟨c2, p2, l2, g2⟩ := hstep c1 b vb _ s2 l1 h1 g1 e2
  obtain ⟨c3, p3, l3, g3⟩ := hstep c2 a va2 _ s3 l2 rfl g2 e3
  obtain ⟨c4, p4, l4, g4⟩ := hstep c3 c vc _ s4 l3 h2 g3 e4
  exact ⟨c1, c2, c3, c4, p1, p2, p3, p4, l4, g4⟩

theorem sharded_get_at {K V : Type} [DecidableEq K] (hash : K → Nat)
    (c : ShardedLRUCache K V) (a k : K) (sh sh1 : LRUShard K V) (r : Option V)
    (hl : c.shards.length = 16) (hk : hash k % 16 = hash a % 16)
    (hsh : c.shards[hash a % 16]? = some sh) (hget : sh.get k = some (sh1, r)) :
    ∃ c1 : ShardedLRUCache K V, c.get hash k = some (c1, r) ∧ c1.shards.length = 16 ∧
      c1.shards[hash a % 16]? = some sh1 := by
  have hi : hash a % 16 < 16 := Nat.mod_lt _ (by decide)
  have hix : c.shardIndex hash k = hash a % 16 := by
    unfold ShardedLRUCache.shardIndex
    rw [hl, hk]
  refine ⟨_, sharded_get_of hash c k sh sh1 r (by rw [hix]; exact hsh) hget, ?_, ?_⟩
  · simp [hl]
  · rw [hix]
    show (c.shards.set (hash a % 16) sh1)[hash a % 16]? = some sh1
    rw [List.getElem?_set_self (by rw [hl]; exact hi)]

/-- C21, as the code has it.  In a cache of total capacity 4 and 16 shards
every shard has capacity `max(1, 4/16) = 1`; after `put(a)`, `put(b)`,
`put(a)`, `put(c)` of three different keys of one shard, the shard holds the
last key only: `get(b)` misses, `get(a)` misses and `get(c)` hits.  The outcome
miss, hit, hit is that of shards of capacity 2 (total capacity 32). -/
theorem sharded_scenario {K V : Type} [DecidableEq K] (hash : K → Nat) (a b c : K)
    (va vb va2 vc : V) (hab : a ≠ b) (hac : a ≠ c) (hbc : b ≠ c)
    (h1 : hash b % 16 = hash a % 16) (h2 : hash c % 16 = hash a % 16) :
    max (4 / 16) 1 = 1 ∧
    (∃ c1 c2 c3 c4 : ShardedLRUCache K V,
      (ShardedLRUCache.new 16 4 : ShardedLRUCache K V).put hash a va = some c1 ∧
      c1.put hash b vb = some c2 ∧ c2.put hash a va2 = some c3 ∧
      c3.put hash c vc = some c4 ∧
      c4.get hash b = some (c4, none) ∧ c4.get hash a = some (c4, none) ∧
      (c4.get hash c).map Prod.snd = some (some vc)) ∧
    (∃ c1 c2 c3 c4 c5 : ShardedLRUCache K V,
      (ShardedLRUCache.new 16 32 : ShardedLRUCache K V).put hash a va = some c1 ∧
      c1.put hash b vb = some c2 ∧ c2.put hash a va2 = some c3 ∧
      c3.put hash c vc = some c4 ∧
      c4.get hash b = some (c4, none) ∧ c4.get hash a = some (c5, some va2) ∧
      (c5.get hash c).map Prod.snd = some (some vc)) := by
  have hba : b ≠ a := fun e => hab e.symm
  have hca : c ≠ a := fun e => hac e.symm
  have hcb : c ≠ b := fun e => hbc e.symm
  have hset_self : ∀ (c4 : ShardedLRUCache K V) (s4 : LRUShard K V) (k : K),
      c4.shards.length = 16 → hash k % 16 = hash a % 16 →
      c4.shards[hash a % 16]? = some s4 → s4.get k = some (s4, none) →
      c4.get hash k = some (c4, none) := by
    intro c4 s4 k hl hk hsh hget
    have hix : c4.shardIndex hash k = hash a % 16 := by
      unfold ShardedLRUCache.shardIndex
      rw [hl, hk]
    rw [sharded_get_of hash c4 k s4 s4 none (by rw [hix]; exact hsh) hget, hix]
    have hi : hash a % 16 < c4.shards.length := by
      rw [hl]
      exact Nat.mod_lt _ (by decide)
    have hself : c4.shards.set (hash a % 16) s4 = c4.shards := by
      apply List.ext_getElem?
      intro n
      by_cases hn : hash a % 16 = n
      · rw [← hn, List.getElem?_set_self hi, hsh]
      · rw [List.getElem?_set_ne hn]
    rw [hself]
  refine ⟨by decide, ?_, ?_⟩
  · have e1 : (LRUShard.new (max (4 / 16) 1) : LRUShard K V).put a va =
        some { capacity := 1, cache := [(a, va)], index := [a] } := by
      simp [LRUShard.put, LRUShard.new]
    have e2 : ({ capacity := 1, cache := [(a, va)], index := [a] } : LRUShard K V).put b vb =
        some { capacity := 1, cache := [(b, vb)], index := [b] } := by
      simp [LRUShard.put, hba]
    have e3 : ({ capacity := 1, cache := [(b, vb)], index := [b] } : LRUShard K V).put a va2 =
        some { capacity := 1, cache := [(a, va2)], index := [a] } := by
      simp [LRUShard.put, hab]
    have e4 : ({ capacity := 1, cache := [(a, va2)], index := [a] } : LRUShard K V).put c vc =
        some { capacity := 1, cache := [(c, vc)], index := [c] } := by
      simp [LRUShard.put, hca]
    obtain ⟨c1, c2, c3, c4, p1, p2, p3, p4, l4, g4⟩ :=
      sharded_four_puts hash 4 a b c va vb va2 vc h1 h2 _ _ _ _ e1 e2 e3 e4
    refine ⟨c1, c2, c3, c4, p1, p2, p3, p4, ?_, ?_, ?_⟩
    · exact hset_self c4 _ b l4 h1 g4 (by simp [LRUShard.get, hbc])
    · exact hset_self c4 _ a l4 rfl g4 (by simp [LRUShard.get, hac])
    · obtain ⟨c5, q, _, _⟩ := sharded_get_at hash c4 a c _
        { capacity := 1, cache := [(c, vc)], index := [c] } (some vc) l4 h2 g4
        (by simp [LRUShard.get])
      rw [q]
      rfl
  · have e1 : (LRUShard.new (max (32 / 16) 1) : LRUShard K V).put a va =
        some { capacity := 2, cache := [(a, va)], index := [a] } := by
      simp [LRUShard.put, LRUShard.new]
    have e2 : ({ capacity := 2, cache := [(a, va)], index := [a] } : LRUShard K V).put b vb =
        some { capacity := 2, cache := [(b, vb), (a, va)], index := [b, a] } := by
      simp [LRUShard.put, hba]
    have e3 : ({ capacity := 2, cache := [(b, vb), (a, va)], index := [b, a] } :
        LRUShard K V).put a va2 =
        some { capacity := 2, cache := [(a, va2), (b, vb)], index := [b, a] } := by
      simp [LRUShard.put, hba, List.eraseP_cons]
    have e4 : ({ capacity := 2, cache := [(a, va2), (b, vb)], index := [b, a] } :
        LRUShard K V).put c vc =
        some { capacity := 2, cache := [(c, vc), (a, va2)], index := [c, a] } := by
      simp [LRUShard.put, hca, hcb]
    obtain ⟨c1, c2, c3, c4, p1, p2, p3, p4, l4, g4⟩ :=
      sharded_four_puts hash 32 a b c va vb va2 vc h1 h2 _ _ _ _ e1 e2 e3 e4
    obtain ⟨c5, q5, l5, g5⟩ := sharded_get_at hash c4 a a _
      { capacity := 2, cache := [(a, va2), (c, vc)], index := [c, a] } (some va2) l4 rfl g4
      (by simp [LRUShard.get, hac, hca, List.eraseP_cons, List.find?_cons])
    refine ⟨c1, c2, c3, c4, c5, p1, p2, p3, p4, ?_, q5, ?_⟩
    · exact hset_self c4 _ b l4 h1 g4 (by simp [LRUShard.get, hbc, hba])
    · obtain ⟨c6, q6, _, _⟩ := sharded_get_at hash c5 a c _
        { capacity := 2, cache := [(c, vc), (a, va2)], index := [c, a] } (some vc) l5 h2 g5
        (by simp [LRUShard.get, hac, hca, List.eraseP_cons, List.find?_cons])
      rw [q6]
      rfl

theorem sharded_scenario_witness :
    (0 : Nat) ≠ 16 ∧ (0 : Nat) ≠ 32 ∧ (16 : Nat) ≠ 32 ∧
    (fun k : Nat => k) 16 % 16 = (fun k : Nat => k) 0 % 16 ∧
    (fun k : Nat => k) 32 % 16 = (fun k : Nat => k) 0 % 16 ∧
    (max (4 / 16) 1 = 1 ∧
    (∃ c1 c2 c3 c4 : ShardedLRUCache Nat Nat,
      (ShardedLRUCache.new 16 4 : ShardedLRUCache Nat Nat).put (fun k => k) 0 1 = some c1 ∧
      c1.put (fun k => k) 16 2 = some c2 ∧ c2.put (fun k => k) 0 3 = some c3 ∧
      c3.put (fun k => k) 32 4 = some c4 ∧
      c4.get (fun k => k) 16 = some (c4, none) ∧ c4.get (fun k => k) 0 = some (c4, none) ∧
      (c4.get (fun k => k) 32).map Prod.snd = some (some 4)) ∧
    (∃ c1 c2 c3 c4 c5 : ShardedLRUCache Nat Nat,
      (ShardedLRUCache.new 16 32 : ShardedLRUCache Nat Nat).put (fun k => k) 0 1 = some c1 ∧
      c1.put (fun k => k) 16 2 = some c2 ∧ c2.put (fun k => k) 0 3 = some c3 ∧
      c3.put (fun k => k) 32 4 = some c4 ∧
      c4.get (fun k => k) 16 = some (c4, none) ∧ c4.get (fun k => k) 0 = some (c5, some 3) ∧
      (c5.get (fun k => k) 32).map Prod.snd = some (some 4))) :=
  ⟨by decide, by decide, by decide, by decide, by decide,
    sharded_scenario (fun k : Nat => k) 0 16 32 1 2 3 4 (by decide) (by decide) (by decide)
      (by decide) (by decide)⟩

/-- C21 as stated fails: with the keys 0, 16 and 32 of shard 0 (the hash is the
key itself), after `put(0)`, `put(16)`, `put(0)`, `put(32)` on a cache of
total capacity 4 the key 0 has been evicted by the put of 32, and `get(0)`
misses. -/
theorem sharded_scenario_counterexample :
    (((((ShardedLRUCache.new 16 4 : ShardedLRUCache Nat Nat).put (fun k => k) 0 1).bind
      (fun c => c.put (fun k => k) 16 2)).bind
      (fun c => c.put (fun k => k) 0 3)).bind
      (fun c => c.put (fun k => k) 32 4)).bind
      (fun c => (c.get (fun k => k) 0).map Prod.snd) = some none := by
  decide

theorem recordQuery_fold {K V : Type} (calls : List Bool) (c : ShardedLRUCache K V) :
    (calls.foldl ShardedLRUCache.recordQuery c).totalQueries = c.totalQueries + calls.length ∧
    (calls.foldl ShardedLRUCache.recordQuery c).hits = c.hits + calls.count true := by
  induction calls generalizing c with
  | nil => exact ⟨rfl, rfl⟩
  | cons hit rest ih =>
    rw [List.foldl_cons]
    obtain ⟨i1, i2⟩ := ih (c.recordQuery hit)
    rw [i1, i2]
    cases hit
    · simp [ShardedLRUCache.recordQuery]
      omega
    · simp [ShardedLRUCache.recordQuery]
      omega

/-- C23. After every finite sequence of `recordQuery(hit)` calls on a fresh
cache, `totalQueries` is the number of calls and `hits` the number of calls
with `hit = true`, so `hits <= totalQueries`; `hitRate()` is 0 when no query
has been recorded and the quotient `hits / totalQueries` otherwise, and lies
in `[0, 1]`. -/
theorem hitRate_bounds {K V : Type} (F : Type) [LinearOrderedField F]
    (shardCount totalCapacity : Nat) (calls : List Bool) :
    (calls.foldl ShardedLRUCache.recordQuery
      (ShardedLRUCache.new shardCount totalCapacity : ShardedLRUCache K V)).totalQueries =
        calls.length ∧
    (calls.foldl ShardedLRUCache.recordQuery
      (ShardedLRUCache.new shardCount totalCapacity : ShardedLRUCache K V)).hits =
        calls.count true ∧
    (calls.foldl ShardedLRUCache.recordQuery
      (ShardedLRUCache.new shardCount totalCapacity : ShardedLRUCache K V)).hits ≤
      (calls.foldl ShardedLRUCache.recordQuery
        (ShardedLRUCache.new shardCount totalCapacity : ShardedLRUCache K V)).totalQueries ∧
    (calls.foldl ShardedLRUCache.recordQuery
      (ShardedLRUCache.new shardCount totalCapacity : ShardedLRUCache K V)).hitRate F =
        (if calls = [] then 0 else ((calls.count true : Nat) : F) / ((calls.length : Nat) : F)) ∧
    0 ≤ (calls.foldl ShardedLRUCache.recordQuery
      (ShardedLRUCache.new shardCount totalCapacity : ShardedLRUCache K V)).hitRate F ∧
    (calls.foldl ShardedLRUCache.recordQuery
      (ShardedLRUCache.new shardCount totalCapacity : ShardedLRUCache K V)).hitRate F ≤ 1 := by
  obtain ⟨h1, h2⟩ := recordQuery_fold calls
    (ShardedLRUCache.new shardCount totalCapacity : ShardedLRUCache K V)
  have h0 : (ShardedLRUCache.new shardCount totalCapacity : ShardedLRUCache K V).totalQueries
      = 0 := rfl
  have h0h : (ShardedLRUCache.new shardCount totalCapacity : ShardedLRUCache K V).hits = 0 :=
    rfl
  rw [h0, Nat.zero_add] at h1
  rw [h0h, Nat.zero_add] at h2
  generalize calls.foldl ShardedLRUCache.recordQuery
    (ShardedLRUCache.new shardCount totalCapacity : ShardedLRUCache K V) = c at h1 h2
  have hle : calls.count true ≤ calls.length := List.count_le_length _ _
  have hrate : c.hitRate F =
      (if calls = [] then 0 else ((calls.count true : Nat) : F) / ((calls.length : Nat) : F)) := by
    unfold ShardedLRUCache.hitRate
    simp only [h1, h2]
    by_cases hn : calls = []
    · rw [if_pos hn, if_pos (by rw [hn]; rfl)]
    · rw [if_neg hn, if_neg (fun hc => hn (List.length_eq_zero.1 hc))]
  refine ⟨h1, h2, by rw [h1, h2]; exact hle, hrate, ?_, ?_⟩
  · rw [hrate]
    split
    · exact le_refl _
    · exact div_nonneg (Nat.cast_nonneg _) (Nat.cast_nonneg _)
  · rw [hrate]
    split
    · exact zero_le_one
    · rename_i hn
      have hpos : (0 : F) < ((calls.length : Nat) : F) := by
        exact_mod_cast List.length_pos.2 hn
      rw [div_le_one hpos]
      exact_mod_cast hle

theorem cacheOk_new {Q V : Type} (respond : Q → V) (shardCount capacity : Nat)
    (hn : 0 < shardCount) :
    CacheOk respond (ShardedLRUCache.new shardCount capacity : ShardedLRUCache Q V) := by
  refine ⟨?_, ?_, ?_⟩
  · show 0 < (List.replicate shardCount _).length
    rw [List.length_replicate]
    exact hn
  · intro sh hsh
    rw [List.eq_of_mem_replicate hsh]
    exact shardOk_new _ (le_max_right _ _)
  · intro sh hsh e he
    rw [List.eq_of_mem_replicate hsh] at he
    cases he

theorem cacheOk_set {Q V : Type} (respond : Q → V) (c : ShardedLRUCache Q V) (i : Nat)
    (sh1 : LRUShard Q V) (tq h : Nat) (hc : CacheOk respond c) (hok : ShardOk sh1)
    (hval : ∀ e ∈ sh1.cache, e.2 = respond e.1) :
    CacheOk respond
      { totalCapacity := c.totalCapacity, shards := c.shards.set i sh1,
        totalQueries := tq, hits := h } := by
  obtain ⟨h1, h2, h3⟩ := hc
  refine ⟨?_, ?_, ?_⟩
  · show 0 < (c.shards.set i sh1).length
    rw [List.length_set]
    exact h1
  · intro sh hsh
    rcases List.mem_or_eq_of_mem_set hsh with h | h
    · exact h2 sh h
    · rw [h]
      exact hok
  · intro sh hsh e he
    rcases List.mem_or_eq_of_mem_set hsh with h | h
    · exact h3 sh h e he
    · rw [h] at he
      exact hval e he

/-- One call of `handleSearch` on a cache in order. -/
theorem handleSearch_step {Q W R V : Type} [DecidableEq Q] (hash : Q → Nat)
    (cut : Q → List W) (search : List W → R) (generateResponse : Q → R → List W → V)
    (c : ShardedLRUCache Q V) (q : Q)
    (hc : CacheOk (fun q => generateResponse q (search (cut q)) (cut q)) c) :
    ∃ c1, handleSearch hash cut search generateResponse c q =
        some (c1, generateResponse q (search (cut q)) (cut q)) ∧
      CacheOk (fun q => generateResponse q (search (cut q)) (cut q)) c1 ∧
      c1.totalQueries = c.totalQueries + 1 ∧
      (c.contains hash q = true → c1.hits = c.hits + 1) ∧
      (c.contains hash q = false → c1.hits = c.hits) ∧
      c1.contains hash q = true := by
  have hc0 := hc
  obtain ⟨hlen, hoks, hvals⟩ := hc
  have hi : c.shardIndex hash q < c.shards.length := Nat.mod_lt _ hlen
  have hsh : c.shards[c.shardIndex hash q]? = some (c.shards[c.shardIndex hash q]) :=
    List.getElem?_eq_getElem hi
  have hmem : c.shards[c.shardIndex hash q] ∈ c.shards := List.getElem_mem hi
  have hok := hoks _ hmem
  have hval := hvals _ hmem
  generalize c.shards[c.shardIndex hash q] = sh at hsh hmem hok hval
  have hcont : c.contains hash q = sh.contains q := by
    unfold ShardedLRUCache.contains
    rw [hsh]
  have hget_at : ∀ (sh1 : LRUShard Q V) (tq h : Nat),
      ({ totalCapacity := c.totalCapacity,
         shards := c.shards.set (c.shardIndex hash q) sh1,
         totalQueries := tq, hits := h } : ShardedLRUCache Q V).contains hash q =
        sh1.contains q := by
    intro sh1 tq h
    unfold ShardedLRUCache.contains ShardedLRUCache.shardIndex
    simp only [List.length_set]
    have hi2 : hash q % c.shards.length < c.shards.length := hi
    rw [List.getElem?_set_self hi2]
  by_cases hk : q ∈ sh.cache.map Prod.fst
  · obtain ⟨v, sh1, hm, hg, hok1, _, _, _, hp, _⟩ := shardOk_get_hit sh q hok hk
    have hv : v = generateResponse q (search (cut q)) (cut q) := hval (q, v) hm
    have hgc := sharded_get_of hash c q sh sh1 (some v) hsh hg
    refine ⟨{ totalCapacity := c.totalCapacity,
              shards := c.shards.set (c.shardIndex hash q) sh1,
              totalQueries := c.totalQueries + 1, hits := c.hits + 1 }, ?_, ?_, rfl, ?_, ?_, ?_⟩
    · unfold handleSearch
      rw [hgc, ← hv]
      rfl
    · exact cacheOk_set _ c _ sh1 _ _ hc0 hok1
        (fun e he => hval e (hp.mem_iff.1 he))
    · intro _
      rfl
    · intro hf
      rw [hcont, (contains_iff sh q hok).2 hk] at hf
      cases hf
    · rw [hget_at]
      exact (contains_iff sh1 q hok1).2 ((hp.map Prod.fst).mem_iff.2 hk)
  · have hg := shardOk_get_miss sh q hok hk
    have hgc := sharded_get_of hash c q sh sh none hsh hg
    obtain ⟨sh1, hput, hok1, _, _, hmem1, hin1⟩ :=
      shardOk_put sh q (generateResponse q (search (cut q)) (cut q)) hok
    have hself : c.shards.set (c.shardIndex hash q) sh = c.shards := by
      apply List.ext_getElem?
      intro n
      by_cases hn : c.shardIndex hash q = n
      · rw [← hn, List.getElem?_set_self hi, hsh]
      · rw [List.getElem?_set_ne hn]
    refine ⟨{ totalCapacity := c.totalCapacity,
              shards := c.shards.set (c.shardIndex hash q) sh1,
              totalQueries := c.totalQueries + 1, hits := c.hits }, ?_, ?_, rfl, ?_, ?_, ?_⟩
    · unfold handleSearch
      rw [hgc, hself]
      have hput2 : (({ c with shards := c.shards } : ShardedLRUCache Q V).recordQuery
          false).put hash q (generateResponse q (search (cut q)) (cut q)) =
          some { totalCapacity := c.totalCapacity,
                 shards := c.shards.set (c.shardIndex hash q) sh1,
                 totalQueries := c.totalQueries + 1, hits := c.hits } :=
        sharded_put_of hash _ q _ sh sh1 hsh hput
      simp only [hput2]
    · refine cacheOk_set _ c _ sh1 _ _ hc0 hok1 ?_
      intro e he
      rcases hmem1 e he with h | ⟨h, _⟩
      · rw [h]
      · exact hval e h
    · intro ht
      rw [hcont, (contains_iff sh q hok)] at ht
      exact absurd ht hk
    · intro _
      rfl
    · rw [hget_at]
      exact (contains_iff sh1 q hok1).2 (List.mem_map_of_mem Prod.fst hin1)

theorem handleSearchAll_ok {Q W R V : Type} [DecidableEq Q] (hash : Q → Nat)
    (cut : Q → List W) (search : List W → R) (generateResponse : Q → R → List W → V)
    (queries : List Q) (c : ShardedLRUCache Q V)
    (hc : CacheOk (fun q => generateResponse q (search (cut q)) (cut q)) c) :
    ∃ c1, handleSearchAll hash cut search generateResponse c queries = some c1 ∧
      CacheOk (fun q => generateResponse q (search (cut q)) (cut q)) c1 := by
  induction queries generalizing c with
  | nil => exact ⟨c, rfl, hc⟩
  | cons q rest ih =>
    obtain ⟨c1, h1, hc1, _⟩ := handleSearch_step hash cut search generateResponse c q hc
    obtain ⟨c2, h2, hc2⟩ := ih c1 hc1
    refine ⟨c2, ?_, hc2⟩
    show (match handleSearch hash cut search generateResponse c q with
      | none => none
      | some (cache1, _) =>
        handleSearchAll hash cut search generateResponse cache1 rest) = some c2
    rw [h1]
    exact h2

/-- C24. For every cache reached from a fresh one (at least one shard) through
`handleSearch` calls with a fixed tokenizer, index and page library, every
cache entry `(q, v)` has `v = generateResponse(q, search(cut(q)), cut(q))`,
and `handleSearch(q)` returns exactly that response, served from the cache or
computed; the call counts one query, counts it as a hit exactly when the entry
of `q` is in the cache, and leaves the entry of `q` in the cache. -/
theorem handleSearch_cached {Q W R V : Type} [DecidableEq Q] (hash : Q → Nat)
    (cut : Q → List W) (search : List W → R) (generateResponse : Q → R → List W → V)
    (shardCount capacity : Nat) (hn : 0 < shardCount) (queries : List Q) (q : Q) :
    ∃ c, handleSearchAll hash cut search generateResponse
        (ShardedLRUCache.new shardCount capacity) queries = some c ∧
      (∀ sh ∈ c.shards, ∀ e ∈ sh.cache,
        e.2 = generateResponse e.1 (search (cut e.1)) (cut e.1)) ∧
      ∃ c1, handleSearch hash cut search generateResponse c q =
          some (c1, generateResponse q (search (cut q)) (cut q)) ∧
        c1.totalQueries = c.totalQueries + 1 ∧
        (c.contains hash q = true → c1.hits = c.hits + 1) ∧
        (c.contains hash q = false → c1.hits = c.hits) ∧
        c1.contains hash q = true ∧
        ∃ c2, handleSearch hash cut search generateResponse c1 q =
            some (c2, generateResponse q (search (cut q)) (cut q)) ∧
          c2.hits = c1.hits + 1 := by
  obtain ⟨c, h, hc⟩ := handleSearchAll_ok hash cut search generateResponse queries _
    (cacheOk_new _ shardCount capacity hn)
  obtain ⟨c1, h1, hc1, t1, a1, b1, d1⟩ :=
    handleSearch_step hash cut search generateResponse c q hc
  obtain ⟨c2, h2, _, _, a2, _, _⟩ :=
    handleSearch_step hash cut search generateResponse c1 q hc1
  exact ⟨c, h, hc.2.2, c1, h1, t1, a1, b1, d1, c2, h2, a2 d1⟩

theorem handleSearch_cached_witness :
    0 < 16 ∧
    ∃ c, handleSearchAll (fun q : Nat => q) (fun q => [q]) (fun ws => ws.length)
        (fun q r ws => q + r + ws.length)
        (ShardedLRUCache.new 16 1000) [3, 19, 3] = some c ∧
      (∀ sh ∈ c.shards, ∀ e ∈ sh.cache,
        e.2 = (fun q r ws => q + r + List.length ws) e.1
          ((fun ws => List.length ws) ((fun q => [q]) e.1)) ((fun q => [q]) e.1)) ∧
      ∃ c1, handleSearch (fun q : Nat => q) (fun q => [q]) (fun ws => ws.length)
          (fun q r ws => q + r + ws.length) c 19 =
          some (c1, (fun q r ws => q + r + List.length ws) 19
            ((fun ws => List.length ws) ((fun q => [q]) 19)) ((fun q => [q]) 19)) ∧
        c1.totalQueries = c.totalQueries + 1 ∧
        (c.contains (fun q : Nat => q) 19 = true → c1.hits = c.hits + 1) ∧
        (c.contains (fun q : Nat => q) 19 = false → c1.hits = c.hits) ∧
        c1.contains (fun q : Nat => q) 19 = true ∧
        ∃ c2, handleSearch (fun q : Nat => q) (fun q => [q]) (fun ws => ws.length)
            (fun q r ws => q + r + ws.length) c1 19 =
            some (c2, (fun q r ws => q + r + List.length ws) 19
              ((fun ws => List.length ws) ((fun q => [q]) 19)) ((fun q => [q]) 19)) ∧
          c2.hits = c1.hits + 1 :=
  ⟨by decide,
    handleSearch_cached (fun q : Nat => q) (fun q => [q]) (fun ws => ws.length)
      (fun q r ws => q + r + ws.length) 16 1000 (by decide) [3, 19, 3] 19⟩

/-! ## The two files of `storeSeparated` and what `loadMeta` reads back -/

theorem splitOnByte_append (c : Nat) (a b : List Nat) (h : c ∉ a) :
    splitOnByte c (a ++ c :: b) = a :: splitOnByte c b := by
  induction a with
  | nil => simp [splitOnByte]
  | cons x xs ih =>
    simp only [List.mem_cons, not_or] at h
    have hx : ¬ x = c := fun hh => h.1 hh.symm
    simp [splitOnByte, hx, ih h.2]

theorem splitOnByte_lines (lines : List (List Nat)) (h : ∀ l ∈ lines, 10 ∉ l) :
    splitOnByte 10 (lines.flatMap (fun l => l ++ [10])) = lines ++ [[]] := by
  induction lines with
  | nil => rfl
  | cons l rest ih =>
    rw [List.flatMap_cons, List.append_assoc, List.singleton_append,
      splitOnByte_append _ _ _ (h l (List.mem_cons_self _ _)),
      ih (fun x hx => h x (List.mem_cons_of_mem _ hx))]
    rfl

theorem byteLines_lines (lines : List (List Nat)) (h : ∀ l ∈ lines, 10 ∉ l) :
    byteLines (lines.flatMap (fun l => l ++ [10])) = lines := by
  unfold byteLines
  have hlast : (lines ++ [[]] : List (List Nat)).getLast? = some [] := by simp
  rw [splitOnByte_lines lines h]
  simp only [hlast, if_true, List.dropLast_concat]

theorem toChars_map_toNat (l : List Char) : toChars (l.map Char.toNat) = l := by
  unfold toChars
  rw [List.map_map]
  conv_rhs => rw [← List.map_id l]
  apply List.map_congr_left
  intro c _
  exact Char.ofNat_toNat c

theorem showNatBytes_digits (n : Nat) : ∀ b ∈ showNatBytes n, 48 ≤ b ∧ b ≤ 57 := by
  intro b hb
  obtain ⟨c, hc, rfl⟩ := List.mem_map.1 hb
  have := showNat_digits n c hc
  unfold isDigit at this
  simpa using this

theorem cleanField_bytes (s : List Nat) : ∀ b ∈ cleanField s, b ≠ 10 ∧ b ≠ 13 ∧ b ≠ 124 := by
  intro b hb
  unfold cleanField replaceByte at hb
  simp only [List.map_map, List.mem_map, Function.comp] at hb
  obtain ⟨a, _, rfl⟩ := hb
  by_cases h1 : a = 10
  · subst h1
    decide
  · by_cases h2 : a = 13
    · subst h2
      decide
    · by_cases h3 : a = 124
      · subst h3
        decide
      · simp [h1, h2, h3]

theorem cleanField_of_clean (s : List Nat) (h : ∀ b ∈ s, b ≠ 10 ∧ b ≠ 13 ∧ b ≠ 124) :
    cleanField s = s := by
  unfold cleanField replaceByte
  rw [List.map_map, List.map_map]
  conv_rhs => rw [← List.map_id s]
  apply List.map_congr_left
  intro b hb
  obtain ⟨h1, h2, h3⟩ := h b hb
  simp [h1, h2, h3]

theorem metaLine_no_newline (page : PageText) (offset : Nat) : 10 ∉ metaLine page offset := by
  unfold metaLine
  intro h
  simp only [List.mem_append, List.mem_singleton] at h
  have hd : ∀ n, 10 ∉ showNatBytes n := fun n hc => by
    have := showNatBytes_digits n 10 hc
    omega
  have hcl : ∀ s, 10 ∉ cleanField s := fun s hc => (cleanField_bytes s 10 hc).1 rfl
  rcases h with ((((((((h | h) | h) | h) | h) | h) | h) | h) | h)
  · exact hd _ h
  · omega
  · exact hcl _ h
  · omega
  · exact hcl _ h
  · omega
  · exact hd _ h
  · omega
  · exact hd _ h

theorem storeSeparated_fold (pages : List PageText) (st : SeparatedFiles) :
    pages.foldl storeSeparatedStep st =
      { metaOfs := st.metaOfs ++
          (metaLines pages st.currentOffset).flatMap (fun l => l ++ [10])
        contentOfs := st.contentOfs ++ (pages.map (fun p => p.content)).flatten
        currentOffset := st.currentOffset + (pages.map (fun p => p.content.length)).sum } := by
  induction pages generalizing st with
  | nil => simp [metaLines]
  | cons p rest ih =>
    rw [List.foldl_cons, ih]
    simp only [storeSeparatedStep, metaLines, metaLine, List.flatMap_cons, List.map_cons,
      List.flatten_cons, List.sum_cons, List.append_assoc, Nat.add_assoc]

theorem metaLines_getElem? (pages : List PageText) (offset i : Nat) :
    (metaLines pages offset)[i]? =
      pages[i]?.map (fun p => metaLine p (offset + offsetBefore pages i)) := by
  induction pages generalizing offset i with
  | nil => simp [metaLines]
  | cons p rest ih =>
    cases i with
    | zero => simp [metaLines, offsetBefore]
    | succ j =>
      simp only [metaLines, List.getElem?_cons_succ, ih]
      cases rest[j]? with
      | none => rfl
      | some q =>
        simp only [Option.map_some', offsetBefore, List.take_succ_cons, List.map_cons,
          List.sum_cons, Nat.add_assoc]

theorem metaLines_length (pages : List PageText) (offset : Nat) :
    (metaLines pages offset).length = pages.length := by
  induction pages generalizing offset with
  | nil => rfl
  | cons p rest ih => simp [metaLines, ih]

theorem flatten_slice (pages : List PageText) (i : Nat) (p : PageText)
    (h : pages[i]? = some p) :
    substr (pages.map (fun p => p.content)).flatten (offsetBefore pages i) p.content.length =
      p.content := by
  induction pages generalizing i with
  | nil => simp at h
  | cons q rest ih =>
    cases i with
    | zero =>
      simp only [List.getElem?_cons_zero, Option.some.injEq] at h
      subst h
      simp [substr, offsetBefore]
    | succ j =>
      simp only [List.getElem?_cons_succ] at h
      have := ih j h
      unfold substr at this ⊢
      simp only [offsetBefore, List.take_succ_cons, List.map_cons, List.sum_cons,
        List.flatten_cons] at this ⊢
      rw [← List.drop_drop, List.drop_left]
      exact this

theorem formatLine_no_newline : 10 ∉ formatLine := by decide

theorem storeSeparated_lines (pages : List PageText) :
    byteLines (PageLib.storeSeparated pages).metaOfs = formatLine :: metaLines pages 0 := by
  unfold PageLib.storeSeparated
  rw [storeSeparated_fold]
  simp only []
  have e : formatLine ++ [10] ++ (metaLines pages 0).flatMap (fun l => l ++ [10]) =
      (formatLine :: metaLines pages 0).flatMap (fun l => l ++ [10]) := by
    rw [List.flatMap_cons]
  rw [e]
  apply byteLines_lines
  intro l hl
  rcases List.mem_cons.1 hl with h | h
  · rw [h]
    exact formatLine_no_newline
  · obtain ⟨i, hi, rfl⟩ := List.getElem_of_mem h
    have h2 := metaLines_getElem? pages 0 i
    rw [List.getElem?_eq_getElem hi] at h2
    cases hp : pages[i]? with
    | none => rw [hp] at h2; cases h2
    | some p =>
      rw [hp] at h2
      simp only [Option.map_some', Option.some.injEq] at h2
      rw [h2]
      exact metaLine_no_newline _ _

/-- C25. For every list of pages, `storeSeparated` writes a content file that
is the concatenation of the contents in list order; after the format line, the
metadata file has one line per page, and the line of page `i` carries the
docId, the cleaned title and URL, as offset the sum of the byte lengths of the
contents before page `i` and as length the byte length of its content; the
bytes `content[offset .. offset+length)` of the content file are the content
of page `i`. -/
theorem storeSeparated_layout (pages : List PageText) :
    (PageLib.storeSeparated pages).contentOfs = (pages.map (fun p => p.content)).flatten ∧
    (byteLines (PageLib.storeSeparated pages).metaOfs).length = pages.length + 1 ∧
    (byteLines (PageLib.storeSeparated pages).metaOfs)[0]? = some formatLine ∧
    ∀ (i : Nat) (p : PageText), pages[i]? = some p →
      (byteLines (PageLib.storeSeparated pages).metaOfs)[i + 1]? =
        some (showNatBytes p.docId ++ [124] ++ cleanField p.title ++ [124] ++
          cleanField p.url ++ [124] ++ showNatBytes (offsetBefore pages i) ++ [124] ++
          showNatBytes p.content.length) ∧
      substr (PageLib.storeSeparated pages).contentOfs (offsetBefore pages i)
        p.content.length = p.content := by
  have hc : (PageLib.storeSeparated pages).contentOfs =
      (pages.map (fun p => p.content)).flatten := by
    unfold PageLib.storeSeparated
    rw [storeSeparated_fold]
    rfl
  rw [storeSeparated_lines, hc]
  refine ⟨rfl, ?_, List.getElem?_cons_zero, ?_⟩
  · rw [List.length_cons, metaLines_length]
  · intro i p hp
    refine ⟨?_, flatten_slice pages i p hp⟩
    rw [List.getElem?_cons_succ, metaLines_getElem?, hp]
    simp only [Option.map_some', Nat.zero_add]
    rfl

theorem findByte_at (c : Nat) (P A R : List Nat) (h : c ∉ A) :
    findByte c (P ++ (A ++ c :: R)) P.length = some (P.length + A.length) := by
  unfold findByte
  simp only [List.drop_left]
  have hi : (A ++ c :: R).indexOf c = A.length := by
    rw [List.indexOf_append_of_not_mem h, List.indexOf_cons_self, Nat.add_zero]
  rw [hi, if_pos (by rw [List.length_append, List.length_cons]; omega)]

theorem substr_at (P A R : List Nat) : substr (P ++ (A ++ R)) P.length A.length = A := by
  unfold substr
  rw [List.drop_left, List.take_left]

/-- The four separators and the five fields of a line whose first four fields
hold no separator. -/
theorem fields_of_line (A B C D E : List Nat) (hA : 124 ∉ A) (hB : 124 ∉ B) (hC : 124 ∉ C)
    (hD : 124 ∉ D) :
    findByte 124 (A ++ 124 :: (B ++ 124 :: (C ++ 124 :: (D ++ 124 :: E)))) 0 =
      some A.length ∧
    findByte 124 (A ++ 124 :: (B ++ 124 :: (C ++ 124 :: (D ++ 124 :: E)))) (A.length + 1) =
      some (A.length + 1 + B.length) ∧
    findByte 124 (A ++ 124 :: (B ++ 124 :: (C ++ 124 :: (D ++ 124 :: E))))
      (A.length + 1 + B.length + 1) = some (A.length + 1 + B.length + 1 + C.length) ∧
    findByte 124 (A ++ 124 :: (B ++ 124 :: (C ++ 124 :: (D ++ 124 :: E))))
      (A.length + 1 + B.length + 1 + C.length + 1) =
      some (A.length + 1 + B.length + 1 + C.length + 1 + D.length) ∧
    substr (A ++ 124 :: (B ++ 124 :: (C ++ 124 :: (D ++ 124 :: E)))) 0 A.length = A ∧
    substr (A ++ 124 :: (B ++ 124 :: (C ++ 124 :: (D ++ 124 :: E)))) (A.length + 1)
      B.length = B ∧
    substr (A ++ 124 :: (B ++ 124 :: (C ++ 124 :: (D ++ 124 :: E))))
      (A.length + 1 + B.length + 1) C.length = C ∧
    substr (A ++ 124 :: (B ++ 124 :: (C ++ 124 :: (D ++ 124 :: E))))
      (A.length + 1 + B.length + 1 + C.length + 1) D.length = D ∧
    (A ++ 124 :: (B ++ 124 :: (C ++ 124 :: (D ++ 124 :: E)))).drop
      (A.length + 1 + B.length + 1 + C.length + 1 + D.length + 1) = E := by
  have e1 : A ++ 124 :: (B ++ 124 :: (C ++ 124 :: (D ++ 124 :: E))) =
      (A ++ [124]) ++ (B ++ 124 :: (C ++ 124 :: (D ++ 124 :: E))) := by simp
  have e2 : A ++ 124 :: (B ++ 124 :: (C ++ 124 :: (D ++ 124 :: E))) =
      (A ++ [124] ++ B ++ [124]) ++ (C ++ 124 :: (D ++ 124 :: E)) := by simp
  have e3 : A ++ 124 :: (B ++ 124 :: (C ++ 124 :: (D ++ 124 :: E))) =
      (A ++ [124] ++ B ++ [124] ++ C ++ [124]) ++ (D ++ 124 :: E) := by simp
  have e4 : A ++ 124 :: (B ++ 124 :: (C ++ 124 :: (D ++ 124 :: E))) =
      (A ++ [124] ++ B ++ [124] ++ C ++ [124] ++ D ++ [124]) ++ E := by simp
  have l1 : (A ++ [124]).length = A.length + 1 := by simp
  have l2 : (A ++ [124] ++ B ++ [124]).length = A.length + 1 + B.length + 1 := by
    simp only [List.length_append, List.length_singleton]
  have l3 : (A ++ [124] ++ B ++ [124] ++ C ++ [124]).length =
      A.length + 1 + B.length + 1 + C.length + 1 := by
    simp only [List.length_append, List.length_singleton]
  have l4 : (A ++ [124] ++ B ++ [124] ++ C ++ [124] ++ D ++ [124]).length =
      A.length + 1 + B.length + 1 + C.length + 1 + D.length + 1 := by
    simp only [List.length_append, List.length_singleton]
  refine ⟨?_, ?_, ?_, ?_, ?_, ?_, ?_, ?_, ?_⟩
  · have := findByte_at 124 [] A (B ++ 124 :: (C ++ 124 :: (D ++ 124 :: E))) hA
    simpa using this
  · have := findByte_at 124 (A ++ [124]) B (C ++ 124 :: (D ++ 124 :: E)) hB
    rw [l1, ← e1] at this
    exact this
  · have := findByte_at 124 (A ++ [124] ++ B ++ [124]) C (D ++ 124 :: E) hC
    rw [l2, ← e2] at this
    exact this
  · have := findByte_at 124 (A ++ [124] ++ B ++ [124] ++ C ++ [124]) D E hD
    rw [l3, ← e3] at this
    exact this
  · have := substr_at [] A (124 :: (B ++ 124 :: (C ++ 124 :: (D ++ 124 :: E))))
    simpa using this
  · have := substr_at (A ++ [124]) B (124 :: (C ++ 124 :: (D ++ 124 :: E)))
    rw [l1, ← e1] at this
    exact this
  · have := substr_at (A ++ [124] ++ B ++ [124]) C (124 :: (D ++ 124 :: E))
    rw [l2, ← e2] at this
    exact this
  · have := substr_at (A ++ [124] ++ B ++ [124] ++ C ++ [124]) D (124 :: E)
    rw [l3, ← e3] at this
    exact this
  · rw [e4, ← l4, List.drop_left]

theorem stoi_showNatBytes (n : Nat) : stoi (toChars (showNatBytes n)) = some (n : Int) := by
  unfold showNatBytes
  rw [toChars_map_toNat]
  have h := stoi_showInt (n : Int)
  unfold showInt at h
  rw [if_neg (by omega), Int.natAbs_ofNat] at h
  exact h

theorem stoull_showNatBytes (n : Nat) : stoull (toChars (showNatBytes n)) = some n := by
  unfold showNatBytes stoull
  rw [toChars_map_toNat]
  have h := readInt_showNat n [] (by simp)
  rw [List.append_nil] at h
  rw [h]
  simp

theorem showNatBytes_ne_nil (n : Nat) : showNatBytes n ≠ [] := by
  unfold showNatBytes
  intro h
  exact showNat_ne_nil n (List.map_eq_nil_iff.1 h)

theorem loadMetaLine_metaLine (result : List (Int × WebPageMeta)) (page : PageText)
    (offset : Nat) :
    loadMetaLine (some result) (metaLine page offset) =
      some (assignMeta result (storedMeta page offset)) := by
  have hd : ∀ n, 124 ∉ showNatBytes n := fun n hc => by
    have := showNatBytes_digits n 124 hc
    omega
  have hcl : ∀ s, 124 ∉ cleanField s := fun s hc => (cleanField_bytes s 124 hc).2.2 rfl
  obtain ⟨f1, f2, f3, f4, s1, s2, s3, s4, s5⟩ :=
    fields_of_line (showNatBytes page.docId) (cleanField page.title) (cleanField page.url)
      (showNatBytes offset) (showNatBytes page.content.length) (hd _) (hcl _) (hcl _) (hd _)
  have hline : metaLine page offset =
      showNatBytes page.docId ++ 124 :: (cleanField page.title ++ 124 ::
        (cleanField page.url ++ 124 :: (showNatBytes offset ++ 124 ::
          showNatBytes page.content.length))) := by
    unfold metaLine
    simp
  obtain ⟨d, tl, hdt⟩ := List.exists_cons_of_ne_nil (showNatBytes_ne_nil page.docId)
  have hd35 : d ≠ 35 := by
    have := showNatBytes_digits page.docId d (by rw [hdt]; exact List.mem_cons_self _ _)
    omega
  have hskip : ¬ (metaLine page offset = [] ∨ (metaLine page offset).head? = some 35) := by
    rw [hline, hdt]
    simp [hd35]
  unfold loadMetaLine
  simp only []
  rw [if_neg hskip, hline, f1]
  simp only [nextPos]
  rw [f2]
  simp only [nextPos]
  rw [f3]
  simp only [nextPos]
  rw [f4]
  simp only []
  rw [s1, stoi_showNatBytes]
  simp only []
  have a1 : (showNatBytes page.docId).length + 1 + (cleanField page.title).length -
      (showNatBytes page.docId).length - 1 = (cleanField page.title).length := by omega
  have a2 : (showNatBytes page.docId).length + 1 + (cleanField page.title).length + 1 +
      (cleanField page.url).length -
      ((showNatBytes page.docId).length + 1 + (cleanField page.title).length) - 1 =
      (cleanField page.url).length := by omega
  have a3 : (showNatBytes page.docId).length + 1 + (cleanField page.title).length + 1 +
      (cleanField page.url).length + 1 + (showNatBytes offset).length -
      ((showNatBytes page.docId).length + 1 + (cleanField page.title).length + 1 +
        (cleanField page.url).length) - 1 = (showNatBytes offset).length := by omega
  rw [a1, a2, a3, s2, s3, s4, s5, stoull_showNatBytes, stoull_showNatBytes]
  rfl

theorem assignMeta_new (result : List (Int × WebPageMeta)) (m : WebPageMeta)
    (h : m.docId ∉ result.map Prod.fst) : assignMeta result m = result ++ [(m.docId, m)] := by
  unfold assignMeta
  have hany : result.any (fun e => decide (e.1 = m.docId)) = false := by
    rw [List.any_eq_false]
    intro e he
    simp only [decide_eq_true_eq]
    intro hc
    exact h (hc ▸ List.mem_map_of_mem Prod.fst he)
  rw [hany]
  rfl

theorem storedMetas_keys (pages : List PageText) (offset : Nat) :
    (storedMetas pages offset).map Prod.fst = pages.map (fun p => (p.docId : Int)) := by
  induction pages generalizing offset with
  | nil => rfl
  | cons p rest ih => simp [storedMetas, ih]

theorem loadMetaLine_fold (pages : List PageText) (offset : Nat)
    (acc : List (Int × WebPageMeta))
    (hnd : (pages.map (fun p => p.docId)).Nodup)
    (hacc : ∀ p ∈ pages, (p.docId : Int) ∉ acc.map Prod.fst) :
    (metaLines pages offset).foldl loadMetaLine (some acc) =
      some (acc ++ storedMetas pages offset) := by
  induction pages generalizing offset acc with
  | nil => simp [metaLines, storedMetas]
  | cons p rest ih =>
    rw [List.map_cons, List.nodup_cons] at hnd
    simp only [metaLines, storedMetas, List.foldl_cons]
    rw [loadMetaLine_metaLine, assignMeta_new _ _ (hacc p (List.mem_cons_self _ _)), ih]
    · simp [storedMeta]
    · exact hnd.2
    · intro q hq
      rw [List.map_append, List.mem_append]
      rintro (h | h)
      · exact hacc q (List.mem_cons_of_mem _ hq) h
      · simp only [storedMeta, List.map_cons, List.map_nil, List.mem_singleton] at h
        have : q.docId = p.docId := by exact_mod_cast h
        exact hnd.1 (this ▸ List.mem_map_of_mem (fun p => p.docId) hq)

theorem storedMetas_getElem? (pages : List PageText) (offset i : Nat) :
    (storedMetas pages offset)[i]? =
      pages[i]?.map (fun p => ((p.docId : Int), storedMeta p (offset + offsetBefore pages i))) := by
  induction pages generalizing offset i with
  | nil => simp [storedMetas]
  | cons p rest ih =>
    cases i with
    | zero => simp [storedMetas, offsetBefore]
    | succ j =>
      simp only [storedMetas, List.getElem?_cons_succ, ih]
      cases rest[j]? with
      | none => rfl
      | some q =>
        simp only [Option.map_some', offsetBefore, List.take_succ_cons, List.map_cons,
          List.sum_cons, Nat.add_assoc]

theorem loadMeta_storeSeparated (pages : List PageText)
    (hnd : (pages.map (fun p => p.docId)).Nodup) :
    PageLib.loadMeta (PageLib.storeSeparated pages).metaOfs = some (storedMetas pages 0) := by
  unfold PageLib.loadMeta
  rw [storeSeparated_lines, List.foldl_cons]
  have h0 : loadMetaLine (some []) formatLine = some [] := by
    unfold loadMetaLine
    simp only []
    rw [if_pos (Or.inr (by decide))]
  rw [h0, loadMetaLine_fold pages 0 [] hnd (fun p _ h => by cases h)]
  rfl

/-- C26, as the code has it.  For every list of pages with distinct docIds,
`loadMeta` applied to the metadata file `storeSeparated` wrote returns a map
with one entry per page, keyed by its docId, whose offset and length select
the content of the page in the content file, and whose title and URL are those
of the page after every `\n`, `\r` and `|` has been replaced by a space; they
are the title and URL of the page when these hold none of the three bytes. -/
theorem loadMeta_roundtrip (pages : List PageText)
    (hnd : (pages.map (fun p => p.docId)).Nodup) :
    ∃ m, PageLib.loadMeta (PageLib.storeSeparated pages).metaOfs = some m ∧
      m.map Prod.fst = pages.map (fun p => (p.docId : Int)) ∧
      ∀ (i : Nat) (p : PageText), pages[i]? = some p →
        ∃ e, m[i]? = some ((p.docId : Int), e) ∧ e.docId = (p.docId : Int) ∧
          e.title = cleanField p.title ∧ e.url = cleanField p.url ∧
          ((∀ b ∈ p.title, b ≠ 10 ∧ b ≠ 13 ∧ b ≠ 124) → e.title = p.title) ∧
          ((∀ b ∈ p.url, b ≠ 10 ∧ b ≠ 13 ∧ b ≠ 124) → e.url = p.url) ∧
          e.contentOffset = offsetBefore pages i ∧ e.contentLength = p.content.length ∧
          substr (PageLib.storeSeparated pages).contentOfs e.contentOffset e.contentLength =
            p.content := by
  refine ⟨storedMetas pages 0, loadMeta_storeSeparated pages hnd, storedMetas_keys pages 0, ?_⟩
  intro i p hp
  refine ⟨storedMeta p (offsetBefore pages i), ?_, rfl, rfl, rfl,
    cleanField_of_clean p.title, cleanField_of_clean p.url, rfl, rfl, ?_⟩
  · rw [storedMetas_getElem?, hp]
    simp
  · have hc : (PageLib.storeSeparated pages).contentOfs =
        (pages.map (fun p => p.content)).flatten := by
      unfold PageLib.storeSeparated
      rw [storeSeparated_fold]
      rfl
    rw [hc]
    exact flatten_slice pages i p hp

theorem loadMeta_roundtrip_witness :
    ([pipePage].map (fun p => p.docId)).Nodup ∧
    ∃ m, PageLib.loadMeta (PageLib.storeSeparated [pipePage]).metaOfs = some m ∧
      m.map Prod.fst = [pipePage].map (fun p => (p.docId : Int)) ∧
      ∀ (i : Nat) (p : PageText), [pipePage][i]? = some p →
        ∃ e, m[i]? = some ((p.docId : Int), e) ∧ e.docId = (p.docId : Int) ∧
          e.title = cleanField p.title ∧ e.url = cleanField p.url ∧
          ((∀ b ∈ p.title, b ≠ 10 ∧ b ≠ 13 ∧ b ≠ 124) → e.title = p.title) ∧
          ((∀ b ∈ p.url, b ≠ 10 ∧ b ≠ 13 ∧ b ≠ 124) → e.url = p.url) ∧
          e.contentOffset = offsetBefore [pipePage] i ∧
          e.contentLength = p.content.length ∧
          substr (PageLib.storeSeparated [pipePage]).contentOfs e.contentOffset
            e.contentLength = p.content :=
  ⟨by decide, loadMeta_roundtrip [pipePage] (by decide)⟩

/-- C26 as stated fails: the page with the title `a|b` comes back from
`loadMeta` with the title `a b`. -/
theorem loadMeta_roundtrip_counterexample :
    (PageLib.storeSeparated [pipePage]).metaOfs =
      bytes "#FORMAT docId|title|url|offset|length\n7|a b|u|0|3\n" ∧
    (PageLib.loadMeta (PageLib.storeSeparated [pipePage]).metaOfs).map
      (fun m => m.map (fun e => (e.1, e.2.title, e.2.url, e.2.contentOffset,
        e.2.contentLength))) = some [(7, bytes "a b", bytes "u", 0, 3)] ∧
    bytes "a b" ≠ pipePage.title := by
  refine ⟨by decide, by decide, by decide⟩

/-! ## The dictionary file, the dictionary `build` makes, and the candidates -/

theorem readInt_space (s : List Char) : readInt (' ' :: s) = readInt s := by
  unfold readInt
  have h : (' ' :: s).dropWhile isSpace = s.dropWhile isSpace := by
    rw [List.dropWhile_cons]
    have : isSpace ' ' = true := by decide
    rw [this]
    rfl
  rw [h]

theorem showIntBytes_not_space (n : Int) : ∀ b ∈ showIntBytes n, isSpaceByte b = false := by
  intro b hb
  obtain ⟨c, hc, rfl⟩ := List.mem_map.1 hb
  rcases showInt_chars n c hc with h | h
  · unfold isDigit at h
    unfold isSpaceByte
    simp only [decide_eq_true_eq] at h
    simp only [decide_eq_false_iff_not]
    omega
  · rw [h]
    decide

theorem isSpaceByte_newline (b : Nat) (h : isSpaceByte b = false) : b ≠ 10 := by
  rintro rfl
  revert h
  decide

theorem dictLine_no_newline (pair : List Nat × Int) (h : StorableWord pair.1) :
    10 ∉ pair.1 ++ [32] ++ showIntBytes pair.2 := by
  intro hc
  simp only [List.mem_append, List.mem_singleton] at hc
  rcases hc with (hc | hc) | hc
  · exact isSpaceByte_newline 10 (h.2 10 hc) rfl
  · omega
  · exact isSpaceByte_newline 10 (showIntBytes_not_space _ 10 hc) rfl

theorem loadDictLine_line (dict : List (List Nat × Int)) (pair : List Nat × Int)
    (h : StorableWord pair.1) :
    loadDictLine dict (pair.1 ++ [32] ++ showIntBytes pair.2) =
      assignFreq dict pair.1 pair.2 := by
  obtain ⟨hne, hsp⟩ := h
  obtain ⟨c, tl, hct⟩ := List.exists_cons_of_ne_nil hne
  have hc : isSpaceByte c = false := hsp c (by rw [hct]; exact List.mem_cons_self _ _)
  have e1 : (pair.1 ++ [32] ++ showIntBytes pair.2).dropWhile isSpaceByte =
      pair.1 ++ ([32] ++ showIntBytes pair.2) := by
    rw [List.append_assoc, hct, List.cons_append, List.dropWhile_cons_of_neg (by simp [hc])]
  have e2 : (pair.1 ++ ([32] ++ showIntBytes pair.2)).takeWhile (fun b => !isSpaceByte b) =
      pair.1 := by
    rw [List.takeWhile_append_of_pos (fun b hb => by simp [hsp b hb])]
    simp [List.takeWhile_cons, isSpaceByte]
  have e3 : (pair.1 ++ ([32] ++ showIntBytes pair.2)).dropWhile (fun b => !isSpaceByte b) =
      32 :: showIntBytes pair.2 := by
    rw [List.dropWhile_append_of_pos (fun b hb => by simp [hsp b hb])]
    simp [List.dropWhile_cons, isSpaceByte]
  have e4 : readInt (toChars (32 :: showIntBytes pair.2)) = some (pair.2, []) := by
    have : toChars (32 :: showIntBytes pair.2) = ' ' :: showInt pair.2 := by
      show Char.ofNat 32 :: toChars (showIntBytes pair.2) = _
      unfold showIntBytes
      rw [toChars_map_toNat]
    rw [this, readInt_space]
    have h := readInt_showInt pair.2 [] (by simp)
    rw [List.append_nil] at h
    exact h
  unfold loadDictLine
  simp only []
  rw [e1, e2, if_neg hne, e3, e4]

theorem assignFreq_new (dict : List (List Nat × Int)) (w : List Nat) (f : Int)
    (h : w ∉ dict.map Prod.fst) : assignFreq dict w f = dict ++ [(w, f)] := by
  unfold assignFreq
  have hany : dict.any (fun e => decide (e.1 = w)) = false := by
    rw [List.any_eq_false]
    intro e he
    simp only [decide_eq_true_eq]
    intro hc
    exact h (hc ▸ List.mem_map_of_mem Prod.fst he)
  rw [hany]
  rfl

theorem loadDictLine_fold (entries acc : List (List Nat × Int))
    (hst : ∀ e ∈ entries, StorableWord e.1) (hnd : (entries.map Prod.fst).Nodup)
    (hacc : ∀ e ∈ entries, e.1 ∉ acc.map Prod.fst) :
    (entries.map (fun pair => pair.1 ++ [32] ++ showIntBytes pair.2)).foldl loadDictLine acc =
      acc ++ entries := by
  induction entries generalizing acc with
  | nil => simp
  | cons e rest ih =>
    rw [List.map_cons, List.nodup_cons] at hnd
    rw [List.map_cons, List.foldl_cons, loadDictLine_line acc e (hst e (List.mem_cons_self _ _)),
      assignFreq_new acc e.1 e.2 (hacc e (List.mem_cons_self _ _)), ih]
    · simp
    · exact fun x hx => hst x (List.mem_cons_of_mem _ hx)
    · exact hnd.2
    · intro x hx
      rw [List.map_append, List.mem_append]
      rintro (h | h)
      · exact hacc x (List.mem_cons_of_mem _ hx) h
      · simp only [List.map_cons, List.map_nil, List.mem_singleton] at h
        exact hnd.1 (h ▸ List.mem_map_of_mem Prod.fst hx)

theorem sortedDict_perm (dict : List (List Nat × Int)) :
    (dict.insertionSort (fun a b => a.2 ≥ b.2)).Perm dict :=
  List.perm_insertionSort _ dict

theorem frequencyOf_perm (d1 d2 : List (List Nat × Int)) (hp : d1.Perm d2)
    (hnd : (d2.map Prod.fst).Nodup) (w : List Nat) : frequencyOf d1 w = frequencyOf d2 w := by
  have hnd1 : (d1.map Prod.fst).Nodup := (hp.map Prod.fst).nodup_iff.2 hnd
  by_cases hw : w ∈ d2.map Prod.fst
  · obtain ⟨e, he, rfl⟩ := List.mem_map.1 hw
    rw [frequencyOf_mem d2 hnd e he, frequencyOf_mem d1 hnd1 e (hp.mem_iff.2 he)]
  · have h2 : d2.find? (fun e => decide (e.1 = w)) = none := by
      rw [List.find?_eq_none]
      intro e he
      simp only [decide_eq_true_eq]
      exact fun hc => hw (hc ▸ List.mem_map_of_mem Prod.fst he)
    have h1 : d1.find? (fun e => decide (e.1 = w)) = none := by
      rw [List.find?_eq_none]
      intro e he
      simp only [decide_eq_true_eq]
      exact fun hc => hw (hc ▸ List.mem_map_of_mem Prod.fst (hp.mem_iff.1 he))
    unfold frequencyOf
    rw [h1, h2]

/-- C27, as the code has it.  For every dictionary `D` (one entry per word)
whose words are not empty and hold no white space, `loadDict` reads back from
the file `storeDict` wrote the entries of `D`, in the order of the file: the
same words with the same frequencies. -/
theorem loadDict_storeDict (self other : DictProducer)
    (hnd : (self.dict.map Prod.fst).Nodup) (hst : ∀ e ∈ self.dict, StorableWord e.1) :
    (other.loadDict self.storeDict).dict =
      self.dict.insertionSort (fun a b => a.2 ≥ b.2) ∧
    (other.loadDict self.storeDict).dict.Perm self.dict ∧
    ((other.loadDict self.storeDict).dict.map Prod.fst).Nodup ∧
    ∀ w, frequencyOf (other.loadDict self.storeDict).dict w = frequencyOf self.dict w := by
  have hp := sortedDict_perm self.dict
  have hst2 : ∀ e ∈ self.dict.insertionSort (fun a b => a.2 ≥ b.2), StorableWord e.1 :=
    fun e he => hst e (hp.mem_iff.1 he)
  have hnd2 : ((self.dict.insertionSort (fun a b => a.2 ≥ b.2)).map Prod.fst).Nodup :=
    (hp.map Prod.fst).nodup_iff.2 hnd
  have hfile : self.storeDict =
      ((self.dict.insertionSort (fun a b => a.2 ≥ b.2)).map
        (fun pair => pair.1 ++ [32] ++ showIntBytes pair.2)).flatMap (fun l => l ++ [10]) := by
    unfold DictProducer.storeDict
    simp only [List.flatMap_def, List.map_map]
    rfl
  have hlines : byteLines self.storeDict =
      (self.dict.insertionSort (fun a b => a.2 ≥ b.2)).map
        (fun pair => pair.1 ++ [32] ++ showIntBytes pair.2) := by
    rw [hfile]
    apply byteLines_lines
    intro l hl
    obtain ⟨e, he, rfl⟩ := List.mem_map.1 hl
    exact dictLine_no_newline e (hst2 e he)
  have hload : (other.loadDict self.storeDict).dict =
      self.dict.insertionSort (fun a b => a.2 ≥ b.2) := by
    show (byteLines self.storeDict).foldl loadDictLine [] = _
    rw [hlines, loadDictLine_fold _ [] hst2 hnd2 (fun e _ h => by cases h)]
    rfl
  rw [hload]
  exact ⟨rfl, hp, hnd2, frequencyOf_perm _ _ hp hnd⟩

theorem smallDict_storable : ∀ e ∈ smallDict.dict, StorableWord e.1 := by
  intro e he
  simp only [smallDict, List.mem_cons, List.mem_singleton, List.not_mem_nil, or_false] at he
  rcases he with rfl | rfl | rfl
  · exact ⟨by decide, by decide⟩
  · exact ⟨by decide, by decide⟩
  · exact ⟨by decide, by decide⟩

theorem loadDict_storeDict_witness :
    smallDict.storeDict = bytes "d 7\nab 1\nc -5\n" ∧
    (smallDict.dict.map Prod.fst).Nodup ∧ (∀ e ∈ smallDict.dict, StorableWord e.1) ∧
    ((DictProducer.new.loadDict smallDict.storeDict).dict =
      smallDict.dict.insertionSort (fun a b => a.2 ≥ b.2) ∧
    (DictProducer.new.loadDict smallDict.storeDict).dict.Perm smallDict.dict ∧
    ((DictProducer.new.loadDict smallDict.storeDict).dict.map Prod.fst).Nodup ∧
    ∀ w, frequencyOf (DictProducer.new.loadDict smallDict.storeDict).dict w =
      frequencyOf smallDict.dict w) :=
  ⟨by decide, by decide, smallDict_storable,
    loadDict_storeDict smallDict DictProducer.new (by decide) smallDict_storable⟩

/-- C27 as stated fails: the dictionary that holds the word `a b` with
frequency 1 is written as the line `a b 1`, of which `loadDict` reads the word
`a` and no number, and the dictionary read back is empty. -/
theorem loadDict_storeDict_counterexample :
    spaceDict.storeDict = bytes "a b 1\n" ∧
    (DictProducer.new.loadDict spaceDict.storeDict).dict = [] ∧
    spaceDict.dict ≠ [] := by
  refine ⟨by decide, by decide, by decide⟩

theorem addFreq_keys (dict : List (List Nat × Int)) (k : List Nat) (v : Int) :
    (addFreq dict k v).map Prod.fst =
      if k ∈ dict.map Prod.fst then dict.map Prod.fst else dict.map Prod.fst ++ [k] := by
  unfold addFreq
  by_cases h : k ∈ dict.map Prod.fst
  · have hany : dict.any (fun e => decide (e.1 = k)) = true := by
      obtain ⟨e, he, hk⟩ := List.mem_map.1 h
      exact List.any_eq_true.2 ⟨e, he, by simpa using hk⟩
    rw [if_pos hany, if_pos h, List.map_map]
    apply List.map_congr_left
    intro e _
    by_cases hk : e.1 = k
    · simp [hk]
    · simp [hk]
  · have hany : ¬ dict.any (fun e => decide (e.1 = k)) = true := by
      intro hc
      obtain ⟨e, he, hk⟩ := List.any_eq_true.1 hc
      exact h (List.mem_map.2 ⟨e, he, by simpa using hk⟩)
    rw [if_neg hany, if_neg h, List.map_append]
    rfl

theorem frequencyOf_append_new (dict : List (List Nat × Int)) (k : List Nat) (v : Int)
    (h : k ∉ dict.map Prod.fst) (w : List Nat) :
    frequencyOf (dict ++ [(k, v)]) w = frequencyOf dict w + (if k = w then v else 0) := by
  unfold frequencyOf
  rw [List.find?_append]
  cases hf : dict.find? (fun e => decide (e.1 = w)) with
  | some e =>
    have hw : e.1 = w := by simpa using List.find?_some hf
    have hne : ¬ k = w := by
      intro hk
      apply h
      rw [hk, ← hw]
      exact List.mem_map_of_mem Prod.fst (List.mem_of_find?_eq_some hf)
    simp [hne]
  | none =>
    by_cases hk : k = w
    · simp [hk]
    · simp [hk]

theorem frequencyOf_map_add (dict : List (List Nat × Int)) (k : List Nat) (v : Int)
    (w : List Nat) :
    frequencyOf (dict.map (fun e => if e.1 = k then (e.1, e.2 + v) else e)) w =
      frequencyOf dict w + (if k = w ∧ w ∈ dict.map Prod.fst then v else 0) := by
  induction dict with
  | nil => simp [frequencyOf]
  | cons e rest ih =>
    unfold frequencyOf at ih ⊢
    rw [List.map_cons]
    by_cases hw : e.1 = w
    · have hmem : w ∈ (e :: rest).map Prod.fst := by
        rw [← hw]
        exact List.mem_map_of_mem Prod.fst (List.mem_cons_self _ _)
      by_cases hk : e.1 = k
      · have hkw : k = w := hk ▸ hw
        rw [if_pos hk, List.find?_cons_of_pos _ (by simpa using hw),
          List.find?_cons_of_pos _ (by simpa using hw), if_pos ⟨hkw, hmem⟩]
      · have hkw : ¬ (k = w ∧ w ∈ (e :: rest).map Prod.fst) :=
          fun e2 => hk (hw.trans e2.1.symm)
        rw [if_neg hk, List.find?_cons_of_pos _ (by simpa using hw),
          List.find?_cons_of_pos _ (by simpa using hw), if_neg hkw, add_zero]
    · have hw2 : ¬ (if e.1 = k then (e.1, e.2 + v) else e).1 = w := by
        split <;> exact hw
      rw [List.find?_cons_of_neg _ (by simpa using hw2),
        List.find?_cons_of_neg _ (by simpa using hw), ih]
      have hiff : (k = w ∧ w ∈ (e :: rest).map Prod.fst) ↔ (k = w ∧ w ∈ rest.map Prod.fst) := by
        rw [List.map_cons, List.mem_cons]
        constructor
        · rintro ⟨h1, h2 | h2⟩
          · exact absurd h2.symm hw
          · exact ⟨h1, h2⟩
        · rintro ⟨h1, h2⟩
          exact ⟨h1, Or.inr h2⟩
      rw [if_congr hiff rfl rfl]

theorem frequencyOf_addFreq (dict : List (List Nat × Int)) (k : List Nat) (v : Int)
    (w : List Nat) :
    frequencyOf (addFreq dict k v) w = frequencyOf dict w + (if k = w then v else 0) := by
  by_cases h : k ∈ dict.map Prod.fst
  · have hany : dict.any (fun e => decide (e.1 = k)) = true := by
      obtain ⟨e, he, hk⟩ := List.mem_map.1 h
      exact List.any_eq_true.2 ⟨e, he, by simpa using hk⟩
    unfold addFreq
    rw [if_pos hany, frequencyOf_map_add]
    by_cases hk : k = w
    · rw [if_pos ⟨hk, hk ▸ h⟩, if_pos hk]
    · rw [if_neg (fun hc => hk hc.1), if_neg hk]
  · have hany : ¬ dict.any (fun e => decide (e.1 = k)) = true := by
      intro hc
      obtain ⟨e, he, hk⟩ := List.any_eq_true.1 hc
      exact h (List.mem_map.2 ⟨e, he, by simpa using hk⟩)
    unfold addFreq
    rw [if_neg hany, zero_add]
    exact frequencyOf_append_new dict k v h w

theorem addFreq_nodup (dict : List (List Nat × Int)) (k : List Nat) (v : Int)
    (hnd : (dict.map Prod.fst).Nodup) : ((addFreq dict k v).map Prod.fst).Nodup := by
  rw [addFreq_keys]
  split
  · exact hnd
  · rename_i h
    rw [List.nodup_append]
    refine ⟨hnd, List.nodup_singleton _, ?_⟩
    intro a ha hb
    rw [List.mem_singleton] at hb
    exact h (hb ▸ ha)

theorem addPage_fold (wm : List (String × Int)) (dict : List (List Nat × Int))
    (hnd : (dict.map Prod.fst).Nodup) :
    ((wm.foldl (fun d pair => addFreq d (bytes pair.1) pair.2) dict).map Prod.fst).Nodup ∧
    (∀ w, frequencyOf (wm.foldl (fun d pair => addFreq d (bytes pair.1) pair.2) dict) w =
      frequencyOf dict w + ((wm.filter (fun e => decide (bytes e.1 = w))).map Prod.snd).sum) ∧
    ∀ w, w ∈ (wm.foldl (fun d pair => addFreq d (bytes pair.1) pair.2) dict).map Prod.fst ↔
      w ∈ dict.map Prod.fst ∨ ∃ e ∈ wm, bytes e.1 = w := by
  induction wm generalizing dict with
  | nil => exact ⟨hnd, fun w => by simp, fun w => by simp⟩
  | cons e rest ih =>
    rw [List.foldl_cons]
    obtain ⟨i1, i2, i3⟩ := ih (addFreq dict (bytes e.1) e.2) (addFreq_nodup _ _ _ hnd)
    refine ⟨i1, ?_, ?_⟩
    · intro w
      rw [i2, frequencyOf_addFreq]
      by_cases hw : bytes e.1 = w
      · rw [if_pos hw, List.filter_cons_of_pos (by simpa using hw), List.map_cons,
          List.sum_cons]
        ring
      · rw [if_neg hw, List.filter_cons_of_neg (by simpa using hw)]
        ring
    · intro w
      rw [i3, addFreq_keys]
      by_cases hk : bytes e.1 ∈ dict.map Prod.fst
      · rw [if_pos hk]
        constructor
        · rintro (h | ⟨x, hx, hxw⟩)
          · exact Or.inl h
          · exact Or.inr ⟨x, List.mem_cons_of_mem _ hx, hxw⟩
        · rintro (h | ⟨x, hx, hxw⟩)
          · exact Or.inl h
          · rcases List.mem_cons.1 hx with rfl | hx
            · exact Or.inl (hxw ▸ hk)
            · exact Or.inr ⟨x, hx, hxw⟩
      · rw [if_neg hk, List.mem_append, List.mem_singleton]
        constructor
        · rintro ((h | h) | ⟨x, hx, hxw⟩)
          · exact Or.inl h
          · exact Or.inr ⟨e, List.mem_cons_self _ _, h.symm⟩
          · exact Or.inr ⟨x, List.mem_cons_of_mem _ hx, hxw⟩
        · rintro (h | ⟨x, hx, hxw⟩)
          · exact Or.inl (Or.inl h)
          · rcases List.mem_cons.1 hx with rfl | hx
            · exact Or.inl (Or.inr hxw.symm)
            · exact Or.inr ⟨x, hx, hxw⟩

theorem addPages_fold (pages : List WebPage) (dict : List (List Nat × Int))
    (hnd : (dict.map Prod.fst).Nodup) :
    ((pages.foldl addPage dict).map Prod.fst).Nodup ∧
    (∀ w, frequencyOf (pages.foldl addPage dict) w =
      frequencyOf dict w + (pages.map (fun p => pageFreq p w)).sum) ∧
    ∀ w, w ∈ (pages.foldl addPage dict).map Prod.fst ↔
      w ∈ dict.map Prod.fst ∨ ∃ p ∈ pages, ∃ e ∈ p.wordsMap, bytes e.1 = w := by
  induction pages generalizing dict with
  | nil => exact ⟨hnd, fun w => by simp, fun w => by simp⟩
  | cons p rest ih =>
    rw [List.foldl_cons]
    obtain ⟨a1, a2, a3⟩ := addPage_fold p.wordsMap dict hnd
    obtain ⟨i1, i2, i3⟩ := ih (addPage dict p) a1
    refine ⟨i1, ?_, ?_⟩
    · intro w
      rw [i2]
      unfold addPage
      rw [a2, List.map_cons, List.sum_cons]
      unfold pageFreq
      ring
    · intro w
      rw [i3]
      unfold addPage
      rw [a3]
      constructor
      · rintro ((h | ⟨e, he, hw⟩) | ⟨q, hq, e, he, hw⟩)
        · exact Or.inl h
        · exact Or.inr ⟨p, List.mem_cons_self _ _, e, he, hw⟩
        · exact Or.inr ⟨q, List.mem_cons_of_mem _ hq, e, he, hw⟩
      · rintro (h | ⟨q, hq, e, he, hw⟩)
        · exact Or.inl (Or.inl h)
        · rcases List.mem_cons.1 hq with rfl | hq
          · exact Or.inl (Or.inr ⟨e, he, hw⟩)
          · exact Or.inr ⟨q, hq, e, he, hw⟩

theorem wordsAt_map (index : List (List Nat × List (List Nat)))
    (f : List Nat × List (List Nat) → List Nat × List (List Nat))
    (hf : ∀ e, (f e).1 = e.1) (ch : List Nat) :
    (index.find? (fun e => decide (e.1 = ch))).map f =
      (index.map f).find? (fun e => decide (e.1 = ch)) := by
  induction index with
  | nil => rfl
  | cons e rest ih =>
    rw [List.map_cons]
    by_cases h : e.1 = ch
    · rw [List.find?_cons_of_pos _ (by simpa using h),
        List.find?_cons_of_pos _ (by simpa [hf] using h)]
      rfl
    · rw [List.find?_cons_of_neg _ (by simpa using h),
        List.find?_cons_of_neg _ (by simpa [hf] using h)]
      exact ih

theorem wordsAt_insertWord (index : List (List Nat × List (List Nat))) (ch word c : List Nat) :
    wordsAt (insertWord index ch word) c =
      if c = ch then
        (if word ∈ wordsAt index ch then wordsAt index ch else wordsAt index ch ++ [word])
      else wordsAt index c := by
  unfold insertWord
  by_cases hany : index.any (fun e => decide (e.1 = ch)) = true
  · rw [if_pos hany]
    unfold wordsAt
    rw [← wordsAt_map index _ (fun e => by split <;> rfl) c]
    by_cases hc : c = ch
    · subst hc
      rw [if_pos rfl]
      cases hf : index.find? (fun e => decide (e.1 = c)) with
      | none =>
        obtain ⟨e, he, hk⟩ := List.any_eq_true.1 hany
        rw [List.find?_eq_none] at hf
        exact absurd hk (hf e he)
      | some e =>
        have he : e.1 = c := by simpa using List.find?_some hf
        simp only [Option.map_some', if_pos he]
    · rw [if_neg hc]
      cases hf : index.find? (fun e => decide (e.1 = c)) with
      | none => rfl
      | some e =>
        have he : e.1 = c := by simpa using List.find?_some hf
        have hne : ¬ e.1 = ch := fun h => hc (he.symm.trans h)
        simp only [Option.map_some', if_neg hne]
  · rw [if_neg hany]
    have hnone : index.find? (fun e => decide (e.1 = ch)) = none := by
      rw [List.find?_eq_none]
      intro e he hk
      exact hany (List.any_eq_true.2 ⟨e, he, hk⟩)
    unfold wordsAt
    rw [List.find?_append]
    by_cases hc : c = ch
    · subst hc
      rw [if_pos rfl, hnone]
      simp
    · rw [if_neg hc]
      cases hf : index.find? (fun e => decide (e.1 = c)) with
      | none =>
        have : ¬ ch = c := fun h => hc h.symm
        simp [this]
      | some e => rfl

theorem mem_wordsAt_insertWord (index : List (List Nat × List (List Nat)))
    (ch word c w : List Nat) :
    w ∈ wordsAt (insertWord index ch word) c ↔
      w ∈ wordsAt index c ∨ (c = ch ∧ w = word) := by
  rw [wordsAt_insertWord]
  by_cases hc : c = ch
  · subst hc
    rw [if_pos rfl]
    by_cases hw : word ∈ wordsAt index c
    · rw [if_pos hw]
      constructor
      · exact Or.inl
      · rintro (h | ⟨_, h⟩)
        · exact h
        · exact h ▸ hw
    · rw [if_neg hw, List.mem_append, List.mem_singleton]
      constructor
      · rintro (h | h)
        · exact Or.inl h
        · exact Or.inr ⟨rfl, h⟩
      · rintro (h | ⟨_, h⟩)
        · exact Or.inl h
        · exact Or.inr h
  · rw [if_neg hc]
    constructor
    · exact Or.inl
    · rintro (h | ⟨h, _⟩)
      · exact h
      · exact absurd h hc

theorem nodup_wordsAt_insertWord (index : List (List Nat × List (List Nat)))
    (ch word : List Nat) (h : ∀ c, (wordsAt index c).Nodup) (c : List Nat) :
    (wordsAt (insertWord index ch word) c).Nodup := by
  rw [wordsAt_insertWord]
  split
  · split
    · exact h ch
    · rename_i hw
      rw [List.nodup_append]
      refine ⟨h ch, List.nodup_singleton _, ?_⟩
      intro a ha hb
      rw [List.mem_singleton] at hb
      exact hw (hb ▸ ha)
  · exact h c

theorem indexWord_spec (chars : List (List Nat)) (word : List Nat)
    (index : List (List Nat × List (List Nat))) (h : ∀ c, (wordsAt index c).Nodup) :
    (∀ c, (wordsAt (chars.foldl (fun idx ch => insertWord idx ch word) index) c).Nodup) ∧
    ∀ c w, w ∈ wordsAt (chars.foldl (fun idx ch => insertWord idx ch word) index) c ↔
      w ∈ wordsAt index c ∨ (w = word ∧ c ∈ chars) := by
  induction chars generalizing index with
  | nil => exact ⟨h, fun c w => by simp⟩
  | cons ch rest ih =>
    rw [List.foldl_cons]
    obtain ⟨i1, i2⟩ := ih (insertWord index ch word) (nodup_wordsAt_insertWord index ch word h)
    refine ⟨i1, ?_⟩
    intro c w
    rw [i2, mem_wordsAt_insertWord, List.mem_cons]
    constructor
    · rintro ((h1 | ⟨h1, h2⟩) | ⟨h1, h2⟩)
      · exact Or.inl h1
      · exact Or.inr ⟨h2, Or.inl h1⟩
      · exact Or.inr ⟨h1, Or.inr h2⟩
    · rintro (h1 | ⟨h1, h2 | h2⟩)
      · exact Or.inl (Or.inl h1)
      · exact Or.inl (Or.inr ⟨h2, h1⟩)
      · exact Or.inr ⟨h1, h2⟩

theorem buildIndex_spec (dict : List (List Nat × Int))
    (index : List (List Nat × List (List Nat))) (h : ∀ c, (wordsAt index c).Nodup) :
    (∀ c, (wordsAt (dict.foldl indexWord index) c).Nodup) ∧
    ∀ c w, w ∈ wordsAt (dict.foldl indexWord index) c ↔
      w ∈ wordsAt index c ∨ (w ∈ dict.map Prod.fst ∧ c ∈ extractChars w) := by
  induction dict generalizing index with
  | nil => exact ⟨h, fun c w => by simp⟩
  | cons e rest ih =>
    rw [List.foldl_cons]
    obtain ⟨a1, a2⟩ := indexWord_spec (extractChars e.1) e.1 index h
    obtain ⟨i1, i2⟩ := ih (indexWord index e) a1
    refine ⟨i1, ?_⟩
    intro c w
    rw [i2]
    unfold indexWord
    simp only []
    rw [a2, List.map_cons, List.mem_cons]
    constructor
    · rintro ((h1 | ⟨h1, h2⟩) | ⟨h1, h2⟩)
      · exact Or.inl h1
      · exact Or.inr ⟨Or.inl h1, h1 ▸ h2⟩
      · exact Or.inr ⟨Or.inr h1, h2⟩
    · rintro (h1 | ⟨h1 | h1, h2⟩)
      · exact Or.inl (Or.inl h1)
      · exact Or.inl (Or.inr ⟨h1, h1 ▸ h2⟩)
      · exact Or.inr ⟨h1, h2⟩

theorem findSubFrom_isSome (word text : List Nat) (i : Nat) :
    (findSubFrom word text i).isSome = true ↔ word <:+: text := by
  induction text generalizing i with
  | nil =>
    unfold findSubFrom
    rw [List.infix_nil]
    by_cases h : word = []
    · simp [h]
    · simp [h]
  | cons c cs ih =>
    unfold findSubFrom
    rw [List.infix_cons_iff]
    by_cases h : word.isPrefixOf (c :: cs) = true
    · rw [if_pos h]
      simp only [Option.isSome_some, true_iff]
      exact Or.inl (List.isPrefixOf_iff_prefix.1 h)
    · rw [if_neg h, ih]
      constructor
      · exact Or.inr
      · rintro (h1 | h1)
        · exact absurd (List.isPrefixOf_iff_prefix.2 h1) h
        · exact h1

theorem getCandidates_eq (self : DictProducer) (pfx first : List Nat)
    (others : List (List Nat)) (h : extractChars pfx = first :: others) :
    self.getCandidates pfx =
      ((wordsAt self.charIndex first).filter
        (fun word => others.all (fun ch => (findSub word ch).isSome))).insertionSort
        (fun a b => frequencyOf self.dict a ≥ frequencyOf self.dict b) := by
  unfold DictProducer.getCandidates wordsAt
  simp only [h]
  cases self.charIndex.find? (fun e => decide (e.1 = first)) with
  | none => rfl
  | some e => rfl

theorem build_dict (pages : List WebPage) :
    (DictProducer.new.build pages).dict = pages.foldl addPage [] := rfl

theorem build_charIndex (pages : List WebPage) :
    (DictProducer.new.build pages).charIndex =
      (pages.foldl addPage []).foldl indexWord [] := rfl

/-- C28. After `build` on a fresh producer the dictionary has one entry per
word, and `dict[w]` is the sum over the pages of the frequency of `w` in the
term map of the page; for every string `pfx`, `getCandidates(pfx)` returns,
each once and in order of non-increasing frequency, the dictionary words that
have the first char unit of `pfx` among their char units and hold every other
char unit of `pfx` as a substring; it returns nothing when `pfx` has no char
unit. -/
theorem build_getCandidates (pages : List WebPage) :
    ((DictProducer.new.build pages).dict.map Prod.fst).Nodup ∧
    (∀ w, frequencyOf (DictProducer.new.build pages).dict w =
      (pages.map (fun p => pageFreq p w)).sum) ∧
    (∀ w, w ∈ (DictProducer.new.build pages).dict.map Prod.fst ↔
      ∃ p ∈ pages, ∃ e ∈ p.wordsMap, bytes e.1 = w) ∧
    ∀ pfx : List Nat,
      ((DictProducer.new.build pages).getCandidates pfx).Nodup ∧
      ((DictProducer.new.build pages).getCandidates pfx).Pairwise
        (fun a b => frequencyOf (DictProducer.new.build pages).dict a ≥
          frequencyOf (DictProducer.new.build pages).dict b) ∧
      (∀ w, w ∈ (DictProducer.new.build pages).getCandidates pfx ↔
        w ∈ (DictProducer.new.build pages).dict.map Prod.fst ∧
        ∃ first others, extractChars pfx = first :: others ∧ first ∈ extractChars w ∧
          ∀ ch ∈ others, ch <:+: w) ∧
      (extractChars pfx = [] → (DictProducer.new.build pages).getCandidates pfx = []) := by
  obtain ⟨h1, h2, h3⟩ := addPages_fold pages [] List.nodup_nil
  obtain ⟨g1, g2⟩ := buildIndex_spec (pages.foldl addPage []) [] (fun c => List.nodup_nil)
  rw [build_dict]
  refine ⟨h1, ?_, ?_, ?_⟩
  · intro w
    rw [h2]
    simp [frequencyOf]
  · intro w
    rw [h3]
    simp
  · intro pfx
    cases hx : extractChars pfx with
    | nil =>
      have hnil : (DictProducer.new.build pages).getCandidates pfx = [] := by
        unfold DictProducer.getCandidates
        simp only [hx]
      rw [hnil]
      refine ⟨List.nodup_nil, List.Pairwise.nil, ?_, fun _ => rfl⟩
      intro w
      constructor
      · intro h
        cases h
      · rintro ⟨_, first, others, h, _⟩
        cases h
    | cons first others =>
      have hc := getCandidates_eq (DictProducer.new.build pages) pfx first others hx
      rw [build_dict, build_charIndex] at hc
      rw [hc]
      have hperm := List.perm_insertionSort
        (fun a b => frequencyOf (pages.foldl addPage []) a ≥
          frequencyOf (pages.foldl addPage []) b)
        ((wordsAt ((pages.foldl addPage []).foldl indexWord []) first).filter
          (fun word => others.all (fun ch => (findSub word ch).isSome)))
      refine ⟨?_, ?_, ?_, fun h => by cases h⟩
      · exact hperm.nodup_iff.2 ((g1 first).filter _)
      · haveI : IsTotal (List Nat) (fun a b => frequencyOf (pages.foldl addPage []) a ≥
            frequencyOf (pages.foldl addPage []) b) := ⟨fun a b => le_total _ _⟩
        haveI : IsTrans (List Nat) (fun a b => frequencyOf (pages.foldl addPage []) a ≥
            frequencyOf (pages.foldl addPage []) b) :=
          ⟨fun _ _ _ hab hbc => le_trans hbc hab⟩
        exact List.sorted_insertionSort _ _
      · intro w
        rw [hperm.mem_iff, List.mem_filter, g2, List.all_eq_true]
        have hw : wordsAt ([] : List (List Nat × List (List Nat))) first = [] := rfl
        rw [hw]
        constructor
        · rintro ⟨h | ⟨ha, hb⟩, hall⟩
          · cases h
          · refine ⟨ha, first, others, rfl, hb, ?_⟩
            intro ch hch
            exact (findSubFrom_isSome ch w 0).1 (hall ch hch)
        · rintro ⟨ha, f, o, hfo, hb, hall⟩
          injection hfo with e1 e2
          subst e1
          subst e2
          refine ⟨Or.inr ⟨ha, hb⟩, ?_⟩
          intro ch hch
          exact (findSubFrom_isSome ch w 0).2 (hall ch hch)

theorem build_getCandidates_witness :
    (DictProducer.new.build [d1, d2]).getCandidates (bytes "苹") = [bytes "苹果"] ∧
    frequencyOf (DictProducer.new.build [d1, d2]).dict (bytes "苹果") = 2 ∧
    ((DictProducer.new.build [d1, d2]).dict.map Prod.fst).Nodup :=
  ⟨by decide, by decide, (build_getCandidates [d1, d2]).1⟩

/-! ## The content store and the snippet: facts -/

theorem fileSlice_length (F : List Nat) (offset n : Nat) :
    (fileSlice F offset n).length = min n (F.length - offset) := by
  simp [fileSlice]

theorem readBuffer_eq (F : List Nat) (offset n : Nat) :
    readBuffer F offset n
      = fileSlice F offset n ++ List.replicate (n - (fileSlice F offset n).length) 0 := rfl

theorem readBuffer_length (F : List Nat) (offset n : Nat) :
    (readBuffer F offset n).length = n := by
  rw [readBuffer_eq, List.length_append, List.length_replicate, fileSlice_length]
  omega

theorem readBuffer_in_range (F : List Nat) (offset n : Nat) (h : offset + n ≤ F.length) :
    readBuffer F offset n = fileSlice F offset n := by
  rw [readBuffer_eq, fileSlice_length]
  have : n - min n (F.length - offset) = 0 := by omega
  rw [this]
  simp

theorem readBuffer_congr (F G : List Nat) (offset n : Nat)
    (h : fileSlice F offset n = fileSlice G offset n) :
    readBuffer F offset n = readBuffer G offset n := by
  rw [readBuffer_eq, readBuffer_eq, h]

theorem summaryStart_eq (text : List Nat) (queryWords : List (List Nat)) :
    ContentStore.summaryStart text queryWords = WebPage.summaryStart text queryWords := by
  induction queryWords with
  | nil => rfl
  | cons word rest ih =>
    simp only [ContentStore.summaryStart, WebPage.summaryStart, ih]

theorem summaryEnd_eq (text : List Nat) (left endPos : Nat) :
    ContentStore.summaryEnd text left endPos = WebPage.summaryEnd text left endPos := by
  induction left generalizing endPos with
  | zero => rfl
  | succ left ih =>
    simp only [ContentStore.summaryEnd, WebPage.summaryEnd, ih]

theorem getSummary_eq_of_buffer (F : List Nat) (offset length : Nat)
    (queryWords : List (List Nat)) :
    ContentStore.getSummary { file := some F } offset length queryWords 150
      = WebPage.getSummary (readBuffer F offset (min length 5000)) queryWords := by
  simp only [ContentStore.getSummary, WebPage.getSummary, summaryStart_eq, summaryEnd_eq]

/-- C29, as the code has it. `ContentStore::readContent(offset, length)` on a
content file with bytes `F` returns the bytes of `F` in
`[offset, min(offset + length, |F|))` followed by as many `'\0'` bytes as are
needed to make `length` in all: the result always has `length` bytes, it is the
slice of the file exactly when the file holds `length` bytes from `offset`,
and a file that cannot be opened gives the empty string. -/
theorem readContent_padded (F : List Nat) (offset length : Nat) :
    ContentStore.readContent { file := some F } offset length
        = fileSlice F offset length
          ++ List.replicate (length - (fileSlice F offset length).length) 0
      ∧ (ContentStore.readContent { file := some F } offset length).length = length
      ∧ (offset + length ≤ F.length →
          ContentStore.readContent { file := some F } offset length
            = fileSlice F offset length)
      ∧ (ContentStore.readContent { file := some F } offset length
            = fileSlice F offset length → length ≤ F.length - offset)
      ∧ ContentStore.readContent { file := none } offset length = [] := by
  refine ⟨rfl, readBuffer_length F offset length, readBuffer_in_range F offset length, ?_, rfl⟩
  intro h
  have h1 := congrArg List.length h
  rw [show ContentStore.readContent { file := some F } offset length
        = readBuffer F offset length from rfl, readBuffer_length, fileSlice_length] at h1
  omega

/-- C29 at the file `ab`: `readContent(0, 5)` returns the five bytes
`a b \0 \0 \0`, while the bytes of the file in `[0, min(5, 2))` are `a b`. -/
theorem readContent_short_file :
    ContentStore.readContent { file := some (bytes "ab") } 0 5 = [97, 98, 0, 0, 0]
      ∧ fileSlice (bytes "ab") 0 5 = [97, 98] := by
  decide

/-- C30, as the code has it. `ContentStore::getSummary(offset, length,
queryWords)` depends on the content file only through its bytes in
`[offset, offset + min(length, 5000))`, and its result is
`WebPage::getSummary(queryWords)` of the document whose content is the read
buffer: `min(length, 5000)` bytes, the slice of the file followed by `'\0'`
bytes where the file ends first.  It is the summary of the slice itself when
the file holds `min(length, 5000)` bytes from `offset`. -/
theorem getSummary_of_buffer (F : List Nat) (offset length : Nat)
    (queryWords : List (List Nat)) :
    (∀ G : List Nat,
        fileSlice F offset (min length 5000) = fileSlice G offset (min length 5000) →
        ContentStore.getSummary { file := some F } offset length queryWords 150
          = ContentStore.getSummary { file := some G } offset length queryWords 150)
      ∧ ContentStore.getSummary { file := some F } offset length queryWords 150
          = WebPage.getSummary
              (fileSlice F offset (min length 5000)
                ++ List.replicate
                    (min length 5000 - (fileSlice F offset (min length 5000)).length) 0)
              queryWords
      ∧ (offset + min length 5000 ≤ F.length →
          ContentStore.getSummary { file := some F } offset length queryWords 150
            = WebPage.getSummary (fileSlice F offset (min length 5000)) queryWords)
      ∧ ContentStore.getSummary { file := none } offset length queryWords 150 = [] := by
  refine ⟨?_, ?_, ?_, rfl⟩
  · intro G h
    rw [getSummary_eq_of_buffer, getSummary_eq_of_buffer, readBuffer_congr F G offset _ h]
  · rw [getSummary_eq_of_buffer, readBuffer_eq]
  · intro h
    rw [getSummary_eq_of_buffer, readBuffer_in_range F offset _ h]

/-- C30 at the file `ab`: `ContentStore::getSummary(0, 5, {})` is the five
bytes `a b \0 \0 \0`, while `WebPage::getSummary({})` of the document whose
content is the slice `ab` of the file is `ab`. -/
theorem getSummary_short_file :
    ContentStore.getSummary { file := some (bytes "ab") } 0 5 [] 150 = [97, 98, 0, 0, 0]
      ∧ WebPage.getSummary (fileSlice (bytes "ab") 0 5) [] = [97, 98] := by
  decide

/-! ## A built index, whatever the docIds: weights, bounds, results -/

theorem dfStep_fold_docLens_nonneg (pages : List WebPage) (st : DfState)
    (h : ∀ d, 0 ≤ lookupInt st.docLens d) (d : Nat) :
    0 ≤ lookupInt (pages.foldl dfStep st).docLens d := by
  induction pages generalizing st with
  | nil => exact h d
  | cons p rest ih =>
    rw [List.foldl_cons]
    apply ih
    intro d1
    simp only [dfStep, lookupInt_assignLen, countTerms_fst]
    split
    · exact docLen_nonneg p
    · exact h d1

theorem build_docLens_nonneg {K : Type} [LinearOrderedField K] (ln : K → K)
    (pages : List WebPage) (d : Nat) :
    0 ≤ lookupInt (build ln (InvertIndex.new : InvertIndex K) pages).docLens d := by
  cases pages with
  | nil => simp [build_nil, InvertIndex.new, lookupInt]
  | cons p rest =>
    rw [build_docLens ln _ _ (List.cons_ne_nil p rest)]
    exact dfStep_fold_docLens_nonneg _ _ (fun d1 => by simp [InvertIndex.new, lookupInt]) d

theorem build_postings_items {K : Type} [LinearOrderedField K] (ln : K → K)
    (pages : List WebPage) (w : String) (e : InvertIndexItem K)
    (he : e ∈ postings (build ln InvertIndex.new pages) w) :
    ∃ p ∈ pages, w ∈ p.wordsMap.map Prod.fst ∧ e.docId = p.docId ∧ e.termFreq = p.tf w ∧
      e.weight = calculateBM25 ln (pages.length : Int) (avgDocLenSpec pages) (p.tf w)
        (lookupInt (build ln (InvertIndex.new : InvertIndex K) pages).docLens p.docId)
        (docFreqOf pages w : Int) := by
  cases pages with
  | nil => simp [build_nil, postings, InvertIndex.new, findPostings] at he
  | cons p0 rest =>
    have hdl := build_docLens ln (InvertIndex.new : InvertIndex K) (p0 :: rest)
      (List.cons_ne_nil p0 rest)
    rw [hdl]
    rw [build_cons] at he
    simp only [postings, findPostings_map_sort, getD_map_sortPostings,
      findPostings_foldl_postStep, InvertIndex.new, findPostings, Option.getD_none,
      List.nil_append] at he
    rw [(sortPostings_perm _).mem_iff, List.mem_map] at he
    obtain ⟨p, hp, rfl⟩ := he
    rw [List.mem_filter] at hp
    refine ⟨p, hp.1, by simpa using hp.2, rfl, rfl, ?_⟩
    simp only [dfStep_fold_docFreq, dfStep_fold_totalLen, lookupInt, zero_add, avgDocLenSpec,
      InvertIndex.new, Int.cast_natCast]

theorem build_weight_pos {K : Type} [LinearOrderedField K] (ln : K → K)
    (hln : ∀ x : K, 1 < x → 0 < ln x) (pages : List WebPage) (w : String) :
    ∀ e ∈ postings (build ln InvertIndex.new pages) w, 0 < e.weight := by
  intro e he
  obtain ⟨p, hp, hw, _, _, hwt⟩ := build_postings_items ln pages w e he
  have hdf : docFreqOf pages w ≠ 0 := Nat.pos_iff_ne_zero.1 (docFreqOf_pos pages p hp w hw)
  rw [hwt, calculateBM25_eq ln _ _ hdf]
  exact mul_pos (idfSpec_pos ln hln _ _ (docFreqOf_le pages w))
    (normSpec_pos _ _ _ (tf_pos p w hw) (build_docLens_nonneg ln pages p.docId)
      (avgDocLenSpec_nonneg pages))

theorem build_docId_bound {K : Type} [LinearOrderedField K] (ln : K → K)
    (pages : List WebPage) (w : String) :
    ∀ e ∈ postings (build ln InvertIndex.new pages) w,
      e.docId ∈ (build ln (InvertIndex.new : InvertIndex K) pages).docLens.map Prod.fst ∧
      e.docId ≤ maxDocId (build ln (InvertIndex.new : InvertIndex K) pages).docLens := by
  intro e he
  obtain ⟨p, hp, _, hid, _, _⟩ := build_postings_items ln pages w e he
  have hk : p.docId ∈ (build ln (InvertIndex.new : InvertIndex K) pages).docLens.map Prod.fst :=
    (build_docLens_keys ln pages p.docId).2 (List.mem_map_of_mem (fun p => p.docId) hp)
  rw [hid]
  exact ⟨hk, le_maxDocId _ (build_docLens_sorted ln pages) _ hk⟩

/-- C36. For every index `build` produces (the logarithm positive above 1, as
the real logarithm is) and every list of query words, repeated words and
words of the same document included, `search` returns a list in which every
docId occurs at most once. -/
theorem search_docIds_nodup {K : Type} [LinearOrderedField K] (ln : K → K)
    (hln : ∀ x : K, 1 < x → 0 < ln x) (pages : List WebPage) (q : List String)
    (topK : Int) :
    ∃ r, search (build ln InvertIndex.new pages) q topK = some r ∧
      (r.map Prod.fst).Nodup := by
  obtain ⟨s, hs, _, _, hgood⟩ := search_of_bounds (build ln InvertIndex.new pages) q topK
    (fun w _ e he => Nat.lt_succ_of_le (build_docId_bound ln pages w e he).2)
  have hg := hgood (fun w _ e he => build_weight_pos ln hln pages w e he)
  exact ⟨rank s topK, hs, rank_nodup s topK hg.2.2⟩

theorem search_docIds_nodup_witness :
    (∀ x : ℝ, 1 < x → 0 < Real.log x) ∧
    ∃ r, search (build Real.log InvertIndex.new seedCorpus) ["苹果", "电脑", "苹果"] 20 = some r ∧
      (r.map Prod.fst).Nodup :=
  ⟨fun _ hx => Real.log_pos hx,
    search_docIds_nodup Real.log (fun _ hx => Real.log_pos hx) seedCorpus
      ["苹果", "电脑", "苹果"] 20⟩

/-- C38. For every index `build` produces and every query, every docId found
in a posting list is a key of `docLens` and is at most `maxDocId`, the score
vector `search` allocates has `maxDocId + 1` entries, every posting a query
visits indexes inside it, and `search` returns without an access outside the
vector. -/
theorem search_within_scores {K : Type} [LinearOrderedField K] (ln : K → K)
    (pages : List WebPage) (q : List String) (topK : Int) :
    (∀ w, ∀ e ∈ postings (build ln InvertIndex.new pages) w,
      e.docId ∈ (build ln (InvertIndex.new : InvertIndex K) pages).docLens.map Prod.fst ∧
      e.docId ≤ maxDocId (build ln (InvertIndex.new : InvertIndex K) pages).docLens) ∧
    (initState (build ln (InvertIndex.new : InvertIndex K) pages)).scores.length =
      maxDocId (build ln (InvertIndex.new : InvertIndex K) pages).docLens + 1 ∧
    (∀ it ∈ allItems (build ln InvertIndex.new pages) q,
      it.docId < (initState (build ln (InvertIndex.new : InvertIndex K) pages)).scores.length) ∧
    (∀ (l1 l2 : List (InvertIndexItem K)),
      allItems (build ln InvertIndex.new pages) q = l1 ++ l2 →
      ∃ s, l1.foldl addItem (some (initState (build ln InvertIndex.new pages))) = some s ∧
        s.scores.length =
          maxDocId (build ln (InvertIndex.new : InvertIndex K) pages).docLens + 1) ∧
    ∃ r, search (build ln InvertIndex.new pages) q topK = some r := by
  have hlen : (initState (build ln (InvertIndex.new : InvertIndex K) pages)).scores.length =
      maxDocId (build ln (InvertIndex.new : InvertIndex K) pages).docLens + 1 := by
    simp [initState]
  have hall : ∀ it ∈ allItems (build ln InvertIndex.new pages) q,
      it.docId < (initState (build ln (InvertIndex.new : InvertIndex K) pages)).scores.length := by
    intro it hit
    obtain ⟨w, _, hw⟩ := List.mem_flatMap.1 hit
    rw [hlen]
    exact Nat.lt_succ_of_le (build_docId_bound ln pages w it hw).2
  refine ⟨fun w e he => build_docId_bound ln pages w e he, hlen, hall, ?_, ?_⟩
  · intro l1 l2 h12
    obtain ⟨s, h1, h2, _, _⟩ := foldl_addItem l1 (initState (build ln InvertIndex.new pages))
      (fun it hit => hall it (by rw [h12]; exact List.mem_append_left _ hit))
    exact ⟨s, h1, by rw [h2, hlen]⟩
  · obtain ⟨s, hs, _⟩ := search_of_bounds (build ln InvertIndex.new pages) q topK
      (fun w _ e he => Nat.lt_succ_of_le (build_docId_bound ln pages w e he).2)
    exact ⟨rank s topK, hs⟩

/-- C37. For every list of `N >= 1` pages with distinct docIds (term
frequencies are positive), with a logarithm that is positive above 1 as the
real logarithm is: for every page `p` and every term `w` of `p`, the
evaluation of `calculateBM25` that `build` makes for the posting of `w` in `p`
has `avgDocLen > 0`, a positive denominator
`tf + K1*(1 - B + B*docLen/avgDocLen)`, `1 <= df <= N`, a logarithm argument
above 1, a positive idf and a positive value, which is the weight stored in
the posting of `p`; every stored weight is positive. -/
theorem build_bm25_positive {K : Type} [LinearOrderedField K] (ln : K → K)
    (hln : ∀ x : K, 1 < x → 0 < ln x) (pages : List WebPage) (hN : 1 ≤ pages.length)
    (hnd : (pages.map (fun p => p.docId)).Nodup) :
    (∀ p ∈ pages, ∀ w ∈ p.wordsMap.map Prod.fst,
      0 < (build ln InvertIndex.new pages).avgDocLen ∧
      0 < ((p.tf w : Int) : K) +
        K1 * (1 - B + B * (((p.docLen : Int) : K) / (build ln InvertIndex.new pages).avgDocLen)) ∧
      1 ≤ docFreqOf pages w ∧ docFreqOf pages w ≤ pages.length ∧
      1 < ((((pages.length : Int) - (docFreqOf pages w : Int) : Int) : K) + 1 / 2) /
        (((docFreqOf pages w : Int) : K) + 1 / 2) + 1 ∧
      0 < calculateIDF ln (docFreqOf pages w : Int) (build ln InvertIndex.new pages).totalDocs ∧
      0 < calculateBM25 ln (build ln InvertIndex.new pages).totalDocs
        (build ln InvertIndex.new pages).avgDocLen (p.tf w) p.docLen (docFreqOf pages w : Int) ∧
      ∃ e ∈ postings (build ln InvertIndex.new pages) w, e.docId = p.docId ∧
        e.weight = calculateBM25 ln (build ln InvertIndex.new pages).totalDocs
          (build ln InvertIndex.new pages).avgDocLen (p.tf w) p.docLen
          (docFreqOf pages w : Int)) ∧
    ∀ w, ∀ e ∈ postings (build ln InvertIndex.new pages) w, 0 < e.weight := by
  have hne : pages ≠ [] := by
    intro h
    rw [h] at hN
    simp at hN
  refine ⟨?_, fun w e he => build_weight_pos ln hln pages w e he⟩
  intro p hp w hw
  have htf : 0 < p.tf w := tf_pos p w hw
  have htfK : (0 : K) < ((p.tf w : Int) : K) := by exact_mod_cast htf
  have hdl : 0 ≤ p.docLen := docLen_nonneg p
  have hdf1 : 1 ≤ docFreqOf pages w := docFreqOf_pos pages p hp w hw
  have hdf2 : docFreqOf pages w ≤ pages.length := docFreqOf_le pages w
  have hdf0 : docFreqOf pages w ≠ 0 := by omega
  have hNK : (0 : K) < (pages.length : K) := by exact_mod_cast hN
  -- the page's own length is part of the total length
  have htfle : p.tf w ≤ p.docLen := by
    unfold WebPage.tf WebPage.docLen
    have : ∀ (m : List (String × Int)), (∀ e ∈ m, 0 < e.2) →
        lookupInt m w ≤ (m.map Prod.snd).sum := by
      intro m
      induction m with
      | nil => intro _; simp [lookupInt]
      | cons e rest ih =>
        intro hpos
        obtain ⟨k, v⟩ := e
        have hv : 0 < v := hpos (k, v) (List.mem_cons_self _ _)
        have hr := ih (fun e he => hpos e (List.mem_cons_of_mem _ he))
        have hr0 : 0 ≤ (rest.map Prod.snd).sum := by
          apply List.sum_nonneg
          intro x hx
          obtain ⟨e, he, rfl⟩ := List.mem_map.1 hx
          exact le_of_lt (hpos e (List.mem_cons_of_mem _ he))
        simp only [lookupInt, List.map_cons, List.sum_cons]
        split
        · omega
        · omega
    exact this p.wordsMap p.freq_pos
  have hsum : p.docLen ≤ (pages.map WebPage.docLen).sum := by
    have : ∀ (l : List WebPage), p ∈ l → p.docLen ≤ (l.map WebPage.docLen).sum := by
      intro l
      induction l with
      | nil => intro h; cases h
      | cons x rest ih =>
        intro h
        have hr0 : 0 ≤ (rest.map WebPage.docLen).sum := by
          apply List.sum_nonneg
          intro y hy
          obtain ⟨z, _, rfl⟩ := List.mem_map.1 hy
          exact docLen_nonneg z
        simp only [List.map_cons, List.sum_cons]
        rcases List.mem_cons.1 h with rfl | h
        · omega
        · have := ih h
          have := docLen_nonneg x
          omega
    exact this pages hp
  have havg : (0 : K) < (build ln InvertIndex.new pages).avgDocLen := by
    rw [build_avgDocLen ln _ pages hne]
    unfold avgDocLenSpec
    apply div_pos _ hNK
    have : (0 : Int) < (pages.map WebPage.docLen).sum := by omega
    exact_mod_cast this
  have hden : (0 : K) < ((p.tf w : Int) : K) +
      K1 * (1 - B + B * (((p.docLen : Int) : K) / (build ln InvertIndex.new pages).avgDocLen)) := by
    have h2 : (0 : K) ≤ ((p.docLen : Int) : K) := by exact_mod_cast hdl
    have h3 : (0 : K) ≤ ((p.docLen : Int) : K) / (build ln InvertIndex.new pages).avgDocLen :=
      div_nonneg h2 (le_of_lt havg)
    unfold K1 B
    have h4 : (0 : K) ≤ 6 / 5 * (1 - 3 / 4 + 3 / 4 *
        (((p.docLen : Int) : K) / (build ln InvertIndex.new pages).avgDocLen)) := by
      apply mul_nonneg (by norm_num)
      have : (0 : K) ≤ 3 / 4 *
          (((p.docLen : Int) : K) / (build ln InvertIndex.new pages).avgDocLen) :=
        mul_nonneg (by norm_num) h3
      linarith
    linarith
  have harg : (1 : K) < ((((pages.length : Int) - (docFreqOf pages w : Int) : Int) : K) + 1 / 2) /
      (((docFreqOf pages w : Int) : K) + 1 / 2) + 1 := by
    have h1 : (0 : Int) ≤ (pages.length : Int) - (docFreqOf pages w : Int) := by omega
    have h1K : (0 : K) ≤ (((pages.length : Int) - (docFreqOf pages w : Int) : Int) : K) := by
      exact_mod_cast h1
    have h2 : (0 : K) ≤ ((docFreqOf pages w : Int) : K) := by
      have : (0 : Int) ≤ (docFreqOf pages w : Int) := by omega
      exact_mod_cast this
    have h3 : (0 : K) < ((((pages.length : Int) - (docFreqOf pages w : Int) : Int) : K) + 1 / 2) /
        (((docFreqOf pages w : Int) : K) + 1 / 2) := by
      apply div_pos <;> linarith
    linarith
  have hidf : 0 < calculateIDF ln (docFreqOf pages w : Int)
      (build ln InvertIndex.new pages).totalDocs := by
    rw [build_totalDocs, calculateIDF_eq_idfSpec ln _ _ hdf0]
    exact idfSpec_pos ln hln _ _ hdf2
  have hbm : 0 < calculateBM25 ln (build ln InvertIndex.new pages).totalDocs
      (build ln InvertIndex.new pages).avgDocLen (p.tf w) p.docLen (docFreqOf pages w : Int) := by
    rw [build_totalDocs, calculateBM25_eq ln _ _ hdf0]
    exact mul_pos (idfSpec_pos ln hln _ _ hdf2)
      (normSpec_pos _ _ _ htf hdl (le_of_lt havg))
  refine ⟨havg, hden, hdf1, hdf2, harg, hidf, hbm, ?_⟩
  refine ⟨specItem ln pages w p, (mem_build_postings ln pages hnd w _).2 ⟨p, hp, hw, rfl⟩, rfl, ?_⟩
  rw [build_totalDocs, calculateBM25_eq ln _ _ hdf0, build_avgDocLen ln _ pages hne]
  rfl

theorem build_bm25_positive_witness :
    (∀ x : ℝ, 1 < x → 0 < Real.log x) ∧ 1 ≤ seedCorpus.length ∧
    (seedCorpus.map (fun p => p.docId)).Nodup ∧
    ((∀ p ∈ seedCorpus, ∀ w ∈ p.wordsMap.map Prod.fst,
      0 < (build Real.log InvertIndex.new seedCorpus).avgDocLen ∧
      0 < ((p.tf w : Int) : ℝ) +
        K1 * (1 - B + B * (((p.docLen : Int) : ℝ) /
          (build Real.log InvertIndex.new seedCorpus).avgDocLen)) ∧
      1 ≤ docFreqOf seedCorpus w ∧ docFreqOf seedCorpus w ≤ seedCorpus.length ∧
      1 < ((((seedCorpus.length : Int) - (docFreqOf seedCorpus w : Int) : Int) : ℝ) + 1 / 2) /
        (((docFreqOf seedCorpus w : Int) : ℝ) + 1 / 2) + 1 ∧
      0 < calculateIDF Real.log (docFreqOf seedCorpus w : Int)
        (build Real.log InvertIndex.new seedCorpus).totalDocs ∧
      0 < calculateBM25 Real.log (build Real.log InvertIndex.new seedCorpus).totalDocs
        (build Real.log InvertIndex.new seedCorpus).avgDocLen (p.tf w) p.docLen
        (docFreqOf seedCorpus w : Int) ∧
      ∃ e ∈ postings (build Real.log InvertIndex.new seedCorpus) w, e.docId = p.docId ∧
        e.weight = calculateBM25 Real.log (build Real.log InvertIndex.new seedCorpus).totalDocs
          (build Real.log InvertIndex.new seedCorpus).avgDocLen (p.tf w) p.docLen
          (docFreqOf seedCorpus w : Int)) ∧
    ∀ w, ∀ e ∈ postings (build Real.log InvertIndex.new seedCorpus) w, 0 < e.weight) :=
  ⟨fun _ hx => Real.log_pos hx, by decide, by decide,
    build_bm25_positive Real.log (fun _ hx => Real.log_pos hx) seedCorpus (by decide)
      (by decide)⟩

/-! ## Deduplication: the survivors are pairwise far apart -/

theorem dedup_fold_pairwise (pages : List WebPage) (st : DedupState)
    (hh : st.hashes = st.processedPages.map getSimhash)
    (hp : st.processedPages.Pairwise
      (fun a b => 3 ≤ hamming (getSimhash a) (getSimhash b))) :
    (pages.foldl dedupStep st).processedPages.Pairwise
      (fun a b => 3 ≤ hamming (getSimhash a) (getSimhash b)) := by
  induction pages generalizing st with
  | nil => exact hp
  | cons p rest ih =>
    rw [List.foldl_cons]
    have hh2 : (dedupStep st p).hashes = (dedupStep st p).processedPages.map getSimhash :=
      dedup_fold_hashes [p] st hh
    apply ih _ hh2
    rw [dedupStep_processed st p hh]
    split
    · exact hp
    · rename_i hno
      rw [List.pairwise_append]
      refine ⟨hp, List.pairwise_singleton _ _, ?_⟩
      intro a ha b hb
      rw [List.mem_singleton] at hb
      subst hb
      by_contra hlt
      apply hno
      refine ⟨a, ha, ?_⟩
      rw [hamming_comm]
      omega

theorem dedup_fold_keeps (l : List WebPage) (st : DedupState)
    (hh : st.hashes = st.processedPages.map getSimhash)
    (hl : l.Pairwise (fun a b => 3 ≤ hamming (getSimhash a) (getSimhash b)))
    (hx : ∀ a ∈ st.processedPages, ∀ b ∈ l, 3 ≤ hamming (getSimhash a) (getSimhash b)) :
    (l.foldl dedupStep st).processedPages = st.processedPages ++ l := by
  induction l generalizing st with
  | nil => simp
  | cons p rest ih =>
    rw [List.foldl_cons]
    have hh2 : (dedupStep st p).hashes = (dedupStep st p).processedPages.map getSimhash :=
      dedup_fold_hashes [p] st hh
    have hstep : (dedupStep st p).processedPages = st.processedPages ++ [p] := by
      rw [dedupStep_processed st p hh, if_neg]
      rintro ⟨q, hq, hlt⟩
      have := hx q hq p (List.mem_cons_self _ _)
      rw [hamming_comm] at this
      omega
    rw [List.pairwise_cons] at hl
    rw [ih _ hh2 hl.2, hstep, List.append_assoc, List.singleton_append]
    intro a ha b hb
    rw [hstep, List.mem_append, List.mem_singleton] at ha
    rcases ha with ha | rfl
    · exact hx a ha b (List.mem_cons_of_mem _ hb)
    · exact hl.1 b hb

/-- C39. For every list of pages, the survivors of `deduplicate` are a
sublist of the input (same pages, same order), any two survivors at different
positions have fingerprints at Hamming distance at least 3, and `deduplicate`
run on the survivors keeps all of them. -/
theorem deduplicate_separated (pages : List WebPage) :
    (deduplicate pages).Sublist pages ∧
    (deduplicate pages).Pairwise
      (fun a b => 3 ≤ hamming (getSimhash a) (getSimhash b)) ∧
    deduplicate (deduplicate pages) = deduplicate pages := by
  have hpw : (deduplicate pages).Pairwise
      (fun a b => 3 ≤ hamming (getSimhash a) (getSimhash b)) :=
    dedup_fold_pairwise pages { processedPages := [], hashes := [] } rfl List.Pairwise.nil
  refine ⟨deduplicate_subset pages, hpw, ?_⟩
  have h := dedup_fold_keeps (deduplicate pages) { processedPages := [], hashes := [] } rfl hpw
    (fun a ha => by cases ha)
  simpa [deduplicate] using h

/-! ## The length pre-filter of `recommend` -/

theorem recommendStep_unfiltered (query : List Nat) (maxDistance : Int)
    (pq : List CandidateWord) (e : List Nat × Int) :
    recommendStep query (splitToChars query) maxDistance pq e =
      recommendStepUnfiltered query maxDistance pq e := by
  rw [recommendStep_eq]
  rfl

/-- C40. For all byte strings `s` and `t`, `editDistance(s, t)` is at least
the difference of the numbers of units of `s` and `t`; the length pre-filter
of `recommend` therefore skips no word whose edit distance is at most
`maxDistance`, every round of the loop does what the round without the
pre-filter does, and `recommend` returns what `recommend` without the
pre-filter returns. -/
theorem prefilter_keeps_close_words (self : KeywordRecommender) (query : List Nat)
    (topK maxDistance : Int) :
    (∀ s t : List Nat,
      ((((splitToChars s).length : Int) - ((splitToChars t).length : Int)).natAbs : Int)
        ≤ editDistance s t) ∧
    (∀ word : List Nat, editDistance query word ≤ maxDistance →
      ¬ (((((splitToChars query).length : Int) - ((splitToChars word).length : Int)).natAbs
        : Int) > maxDistance)) ∧
    (∀ (pq : List CandidateWord) (pair : List Nat × Int),
      recommendStep query (splitToChars query) maxDistance pq pair =
        recommendStepUnfiltered query maxDistance pq pair) ∧
    recommend self query topK maxDistance =
      recommendUnfiltered self query topK maxDistance := by
  have key : ∀ s t : List Nat,
      ((((splitToChars s).length : Int) - ((splitToChars t).length : Int)).natAbs : Int)
        ≤ editDistance s t := by
    intro s t
    rw [editDistance_eq]
    exact natAbs_sub_le_lev _ _
  refine ⟨key, ?_, recommendStep_unfiltered query maxDistance, ?_⟩
  · intro word h
    have := key query word
    omega
  · unfold recommend recommendUnfiltered
    cases self.dictProducer with
    | none => rfl
    | some dict =>
      simp only []
      congr 2
      funext pq pair
      exact recommendStep_unfiltered query maxDistance pq pair

/-! ## The snippet of `WebPage::getSummary` -/

theorem findSubFrom_some (word : List Nat) (text : List Nat) (i r : Nat) :
    findSubFrom word text i = some r ↔
      ∃ k, r = i + k ∧ k ≤ text.length ∧ word <+: text.drop k ∧
        ∀ j < k, ¬ word <+: text.drop j := by
  induction text generalizing i with
  | nil =>
    simp only [findSubFrom, List.length_nil, Nat.le_zero, List.drop_nil]
    constructor
    · intro h
      split at h
      · rename_i hw
        cases h
        exact ⟨0, rfl, rfl, by rw [hw], fun j hj => absurd hj (Nat.not_lt_zero j)⟩
      · cases h
    · rintro ⟨k, rfl, rfl, hp, _⟩
      have hw : word = [] := List.prefix_nil.1 hp
      rw [if_pos hw]
      rfl
  | cons c cs ih =>
    simp only [findSubFrom]
    by_cases hp : word.isPrefixOf (c :: cs) = true
    · rw [if_pos hp]
      have hp2 : word <+: c :: cs := List.isPrefixOf_iff_prefix.1 hp
      constructor
      · intro h
        cases h
        exact ⟨0, rfl, Nat.zero_le _, hp2, fun j hj => absurd hj (Nat.not_lt_zero j)⟩
      · rintro ⟨k, rfl, _, _, hmin⟩
        cases k with
        | zero => rfl
        | succ k => exact absurd hp2 (hmin 0 (Nat.succ_pos k))
    · rw [if_neg hp]
      have hp2 : ¬ word <+: c :: cs := fun h => hp (List.isPrefixOf_iff_prefix.2 h)
      rw [ih]
      constructor
      · rintro ⟨k, rfl, hk, hpre, hmin⟩
        refine ⟨k + 1, by omega, by simp only [List.length_cons]; omega, hpre, ?_⟩
        intro j hj
        cases j with
        | zero => exact hp2
        | succ j => exact hmin j (by omega)
      · rintro ⟨k, rfl, hk, hpre, hmin⟩
        cases k with
        | zero => exact absurd hpre hp2
        | succ k =>
          refine ⟨k, by omega, by simp only [List.length_cons] at hk; omega, hpre, ?_⟩
          intro j hj
          exact hmin (j + 1) (by omega)

theorem findSub_some (text word : List Nat) (pos : Nat) :
    findSub text word = some pos ↔
      pos ≤ text.length ∧ word <+: text.drop pos ∧ ∀ j < pos, ¬ word <+: text.drop j := by
  unfold findSub
  rw [findSubFrom_some]
  constructor
  · rintro ⟨k, rfl, hk, hp, hmin⟩
    rw [Nat.zero_add]
    exact ⟨hk, hp, hmin⟩
  · rintro ⟨hk, hp, hmin⟩
    exact ⟨pos, by omega, hk, hp, hmin⟩

theorem summaryStart_spec (content : List Nat) (queryWords : List (List Nat)) :
    WebPage.summaryStart content queryWords = snippetStart content queryWords := by
  induction queryWords with
  | nil => rfl
  | cons w rest ih =>
    unfold WebPage.summaryStart snippetStart
    rw [List.find?_cons]
    cases hf : findSub content w with
    | none =>
      simp only []
      rw [ih]
      rfl
    | some pos =>
      simp only []
      by_cases hp : pos > 30
      · rw [if_pos hp]
        have : decide (30 < pos) = true := decide_eq_true hp
        simp only [this, hf, Option.getD_some]
      · rw [if_neg hp]
        have : decide (30 < pos) = false := decide_eq_false hp
        simp only [this]
        rw [ih]
        rfl

theorem splitToChars_step (s : List Nat) (i : Nat) (h : i < s.length) :
    splitToChars (s.drop i) =
      if i + charLen (s.getD i 0) ≤ s.length then
        (s.drop i).take (charLen (s.getD i 0)) :: splitToChars (s.drop (i + charLen (s.getD i 0)))
      else [] := by
  obtain ⟨c, tl, hct⟩ : ∃ c tl, s.drop i = c :: tl := by
    cases hd : s.drop i with
    | nil =>
      have := congrArg List.length hd
      simp only [List.length_drop, List.length_nil] at this
      omega
    | cons c tl => exact ⟨c, tl, rfl⟩
  have hc : s.getD i 0 = c := by
    have h1 : (s.drop i)[0]? = some c := by rw [hct]; exact List.getElem?_cons_zero
    rw [List.getElem?_drop] at h1
    simp only [Nat.add_zero] at h1
    rw [List.getD_eq_getElem?_getD, h1]
    rfl
  have hlen : (c :: tl).length = s.length - i := by rw [← hct, List.length_drop]
  rw [hc]
  by_cases hfit : i + charLen c ≤ s.length
  · rw [if_pos hfit]
    have hsplit : s.drop i = (s.drop i).take (charLen c) ++ s.drop (i + charLen c) := by
      rw [← List.drop_drop, List.take_append_drop]
    have hpos := charLen_pos c
    obtain ⟨tl1, htl1⟩ : ∃ tl1, (s.drop i).take (charLen c) = c :: tl1 := by
      rw [hct]
      cases hcl : charLen c with
      | zero => omega
      | succ n => exact ⟨tl.take n, rfl⟩
    have hl1 : ((s.drop i).take (charLen c)).length = charLen c := by
      rw [List.length_take, List.length_drop]
      omega
    conv_lhs => rw [hsplit, htl1]
    rw [splitToChars_unit c tl1 _ (by rw [← htl1, hl1]), htl1]
  · rw [if_neg hfit, hct]
    apply splitToChars_truncated
    rw [hlen]
    omega

theorem summaryEnd_units (text : List Nat) (left endPos : Nat) (h : endPos ≤ text.length) :
    WebPage.summaryEnd text left endPos =
      endPos + ((splitToChars (text.drop endPos)).take left).flatten.length := by
  induction left generalizing endPos with
  | zero => simp [WebPage.summaryEnd]
  | succ left ih =>
    unfold WebPage.summaryEnd
    by_cases hlt : endPos < text.length
    · rw [if_pos hlt]
      simp only []
      have hcl : (if text.getD endPos 0 &&& 0x80 = 0 then 1
          else if text.getD endPos 0 &&& 0xE0 = 0xC0 then 2
          else if text.getD endPos 0 &&& 0xF0 = 0xE0 then 3
          else if text.getD endPos 0 &&& 0xF8 = 0xF0 then 4
          else 1) = charLen (text.getD endPos 0) := rfl
      rw [hcl, splitToChars_step text endPos hlt]
      by_cases hfit : endPos + charLen (text.getD endPos 0) ≤ text.length
      · rw [if_neg (by omega), if_pos hfit, ih _ hfit, List.take_succ_cons, List.flatten_cons,
          List.length_append, List.length_take, List.length_drop]
        have := charLen_pos (text.getD endPos 0)
        omega
      · rw [if_pos (by omega), if_neg hfit]
        simp
    · rw [if_neg hlt]
      have : text.drop endPos = [] := List.drop_eq_nil_of_le (by omega)
      rw [this, splitToChars_nil]
      simp

theorem splitToChars_take_prefix (n : Nat) (s : List Nat) :
    ((splitToChars s).take n).flatten <+: s := by
  induction n generalizing s with
  | zero => simp
  | succ n ih =>
    cases s with
    | nil => simp [splitToChars_nil]
    | cons c tl =>
      have h := splitToChars_step (c :: tl) 0 (by simp)
      simp only [List.drop_zero, Nat.zero_add] at h
      rw [h]
      split
      · rw [List.take_succ_cons, List.flatten_cons]
        have hs : c :: tl = (c :: tl).take (charLen ((c :: tl).getD 0 0)) ++
            (c :: tl).drop (charLen ((c :: tl).getD 0 0)) := (List.take_append_drop _ _).symm
        conv_rhs => rw [hs]
        exact (List.prefix_append_right_inj _).2 (ih _)
      · simp

theorem snippetBody_slice (content : List Nat) (start : Nat) :
    substr content start (snippetBody content start).length = snippetBody content start := by
  unfold substr
  obtain ⟨t, ht⟩ := splitToChars_take_prefix 150 (content.drop start)
  have hb : ((splitToChars (content.drop start)).take 150).flatten =
      snippetBody content start := rfl
  rw [hb] at ht
  rw [← ht, List.take_left]

theorem snippetStart_le (content : List Nat) (queryWords : List (List Nat)) :
    snippetStart content queryWords ≤ content.length := by
  unfold snippetStart
  split
  · rename_i w _
    cases hf : findSub content w with
    | none => simp
    | some pos =>
      have := ((findSub_some content w pos).1 hf).1
      simp only [Option.getD_some]
      omega
  · exact Nat.zero_le _

theorem getSummary_unfold (content : List Nat) (queryWords : List (List Nat))
    (hne : content ≠ []) :
    WebPage.getSummary content queryWords =
      (if 0 < snippetStart content queryWords then dots else []) ++
        snippetBody content (snippetStart content queryWords) ++
        (if snippetStart content queryWords +
            (snippetBody content (snippetStart content queryWords)).length < content.length
          then dots else []) := by
  unfold WebPage.getSummary
  rw [if_neg hne]
  simp only []
  rw [summaryStart_spec, summaryEnd_units content 150 _ (snippetStart_le content queryWords)]
  have hb : ((splitToChars (content.drop (snippetStart content queryWords))).take 150).flatten =
      snippetBody content (snippetStart content queryWords) := rfl
  rw [hb, Nat.add_sub_cancel_left, snippetBody_slice]
  by_cases h0 : 0 < snippetStart content queryWords
  · have h0' : snippetStart content queryWords > 0 := h0
    rw [if_pos h0', if_pos h0]
    split
    · rfl
    · simp [dots]
  · have h0' : ¬ snippetStart content queryWords > 0 := h0
    rw [if_neg h0', if_neg h0]
    split
    · simp [dots]
    · simp

theorem snippetStart_of_first (content : List Nat) (pre post : List (List Nat))
    (w : List Nat) (pos : Nat) (hw : findSub content w = some pos) (hpos : 30 < pos)
    (hpre : ∀ v ∈ pre, ∀ p, findSub content v = some p → p ≤ 30) :
    snippetStart content (pre ++ w :: post) = pos - 30 := by
  unfold snippetStart
  have h1 : List.find? (fun w =>
      match findSub content w with
      | some pos => decide (30 < pos)
      | none => false) pre = none := by
    rw [List.find?_eq_none]
    intro v hv
    cases hf : findSub content v with
    | none => simp
    | some p =>
      have := hpre v hv p hf
      simp only [decide_eq_true_eq]
      omega
  rw [List.find?_append, h1, Option.none_or, List.find?_cons]
  simp only [hw, decide_eq_true hpos, Option.getD_some]

theorem snippetStart_of_none (content : List Nat) (queryWords : List (List Nat))
    (h : ∀ v ∈ queryWords, ∀ p, findSub content v = some p → p ≤ 30) :
    snippetStart content queryWords = 0 := by
  unfold snippetStart
  have h1 : List.find? (fun w =>
      match findSub content w with
      | some pos => decide (30 < pos)
      | none => false) queryWords = none := by
    rw [List.find?_eq_none]
    intro v hv
    cases hf : findSub content v with
    | none => simp
    | some p =>
      have := h v hv p hf
      simp only [decide_eq_true_eq]
      omega
  rw [h1]

/-- C31, as the code has it.  `WebPage::getSummary` returns the empty string
for an empty content and otherwise `[... if start > 0] + content[start .. end)
+ [... if end < |content|]`.  Here `start = pos - 30` for the first query word,
in query order, whose first occurrence in the content (`find`) is at a byte
position `pos > 30`, and `start = 0` when there is none; the body
`content[start .. end)` is made of the first 150 units of the bytes from
`start` on, a unit being as many bytes as its first byte declares, or of all
the units when there are fewer (a last unit that runs past the end is left
out). -/
theorem getSummary_snippet (content : List Nat) (queryWords : List (List Nat)) :
    WebPage.getSummary content queryWords =
      (if content = [] then []
       else
        (if 0 < snippetStart content queryWords then dots else []) ++
          snippetBody content (snippetStart content queryWords) ++
          (if snippetStart content queryWords +
              (snippetBody content (snippetStart content queryWords)).length < content.length
            then dots else [])) ∧
    snippetBody content (snippetStart content queryWords) =
      substr content (snippetStart content queryWords)
        (snippetBody content (snippetStart content queryWords)).length ∧
    snippetStart content queryWords +
      (snippetBody content (snippetStart content queryWords)).length ≤ content.length ∧
    snippetBody content (snippetStart content queryWords) =
      ((splitToChars (content.drop (snippetStart content queryWords))).take 150).flatten ∧
    ((splitToChars (content.drop (snippetStart content queryWords))).take 150).length ≤ 150 ∧
    (∀ (pre post : List (List Nat)) (w : List Nat) (pos : Nat),
      queryWords = pre ++ w :: post → findSub content w = some pos → 30 < pos →
      (∀ v ∈ pre, ∀ p, findSub content v = some p → p ≤ 30) →
      snippetStart content queryWords = pos - 30) ∧
    ((∀ v ∈ queryWords, ∀ p, findSub content v = some p → p ≤ 30) →
      snippetStart content queryWords = 0) ∧
    (∀ (w : List Nat) (pos : Nat), findSub content w = some pos ↔
      pos ≤ content.length ∧ w <+: content.drop pos ∧
        ∀ j < pos, ¬ w <+: content.drop j) := by
  refine ⟨?_, (snippetBody_slice content _).symm, ?_, rfl, ?_, ?_, ?_, ?_⟩
  · by_cases hne : content = []
    · rw [if_pos hne, hne]
      rfl
    · rw [if_neg hne]
      exact getSummary_unfold content queryWords hne
  · obtain ⟨t, ht⟩ := splitToChars_take_prefix 150 (content.drop (snippetStart content queryWords))
    have h1 := congrArg List.length ht
    rw [List.length_append, List.length_drop] at h1
    have h2 := snippetStart_le content queryWords
    have hb : ((splitToChars (content.drop (snippetStart content queryWords))).take
        150).flatten = snippetBody content (snippetStart content queryWords) := rfl
    rw [hb] at h1
    omega
  · rw [List.length_take]
    exact Nat.min_le_left _ _
  · intro pre post w pos hq hw hpos hpre
    rw [hq]
    exact snippetStart_of_first content pre post w pos hw hpos hpre
  · exact snippetStart_of_none content queryWords
  · exact findSub_some content

set_option maxRecDepth 100000 in
/-- C31 as stated fails.  In `edgeContent` the word `b` occurs at byte position
30 and the word `c` at byte position 41: for the query `b`, `c` the snippet
does not start at `30 - 30 = 0` but at `41 - 30 = 11`, with the head marker.
In `twiceContent` the word `b` occurs at the byte positions 0 and 41: the
snippet starts at 0, not at `41 - 30`, and is the whole content. -/
theorem getSummary_snippet_counterexample :
    findSub edgeContent (bytes "b") = some 30 ∧
    findSub edgeContent (bytes "c") = some 41 ∧
    WebPage.getSummary edgeContent [bytes "b", bytes "c"] = dots ++ edgeContent.drop 11 ∧
    WebPage.getSummary edgeContent [bytes "b", bytes "c"] ≠ edgeContent ∧
    bytes "b" <+: twiceContent.drop 41 ∧
    WebPage.getSummary twiceContent [bytes "b"] = twiceContent := by
  refine ⟨by decide, by decide, by decide, by decide, ?_, by decide⟩
  exact ⟨[], by decide⟩

set_option maxRecDepth 100000 in
theorem getSummary_snippet_witness :
    snippetStart edgeContent [bytes "b", bytes "c"] = 41 - 30 :=
  (getSummary_snippet edgeContent [bytes "b", bytes "c"]).2.2.2.2.2.1
    [bytes "b"] [] (bytes "c") 41 rfl (by decide) (by decide)
    (by
      intro v hv p hp
      rw [List.mem_singleton] at hv
      subst hv
      have h30 : findSub edgeContent (bytes "b") = some 30 := by decide
      rw [h30] at hp
      cases hp
      exact Nat.le_refl 30)

/-! ## The UTF-8 sanitizer: what it copies and what it drops -/

theorem leadLen_le (c len : Nat) (h : leadLen c = some len) : 1 ≤ len ∧ len ≤ 4 := by
  unfold leadLen at h
  split_ifs at h <;> cases h <;> omega

theorem continuationValid_iff (str : List Nat) (i len : Nat) (h1 : 1 ≤ len) (h4 : len ≤ 4) :
    continuationValid str i len = true ↔
      i + len ≤ str.length ∧ ∀ j, 1 ≤ j → j < len → str.getD (i + j) 0 &&& 0xC0 = 0x80 := by
  unfold continuationValid
  have hlen : len = 1 ∨ len = 2 ∨ len = 3 ∨ len = 4 := by omega
  by_cases hfit : i + len > str.length
  · rw [if_pos hfit]
    have hfalse : ∀ l : List Nat, l.foldl
        (fun valid j =>
          if valid then (if str.getD (i + j) 0 &&& 0xC0 ≠ 0x80 then false else valid)
          else valid) false = false := by
      intro l
      induction l with
      | nil => rfl
      | cons x rest ih => simpa using ih
    rw [hfalse]
    constructor
    · intro h; cases h
    · intro h; omega
  · rw [if_neg hfit]
    have hfit2 : i + len ≤ str.length := by omega
    rcases hlen with rfl | rfl | rfl | rfl
    · simp
      refine ⟨hfit2, ?_⟩
      intro j hj1 hj2
      omega
    · simp only [Nat.add_one_sub_one, List.range'_one, List.foldl_cons, List.foldl_nil,
        if_true]
      constructor
      · intro h
        refine ⟨hfit2, ?_⟩
        intro j hj1 hj2
        have : j = 1 := by omega
        subst this
        by_contra hne
        rw [if_pos hne] at h
        cases h
      · intro h
        rw [if_neg (not_not.2 (h.2 1 (by omega) (by omega)))]
    · have hr : List.range' 1 (3 - 1) = [1, 2] := rfl
      rw [hr]
      simp only [List.foldl_cons, List.foldl_nil, if_true]
      constructor
      · intro h
        refine ⟨hfit2, ?_⟩
        intro j hj1 hj2
        by_cases h1 : str.getD (i + 1) 0 &&& 0xC0 ≠ 0x80
        · rw [if_pos h1] at h
          simp at h
        · rw [if_neg h1] at h
          simp only [if_true] at h
          by_cases h2 : str.getD (i + 2) 0 &&& 0xC0 ≠ 0x80
          · rw [if_pos h2] at h
            cases h
          · have : j = 1 ∨ j = 2 := by omega
            rcases this with rfl | rfl
            · exact not_not.1 h1
            · exact not_not.1 h2
      · intro h
        rw [if_neg (not_not.2 (h.2 1 (by omega) (by omega)))]
        simp only [if_true]
        rw [if_neg (not_not.2 (h.2 2 (by omega) (by omega)))]
    · have hr : List.range' 1 (4 - 1) = [1, 2, 3] := rfl
      rw [hr]
      simp only [List.foldl_cons, List.foldl_nil, if_true]
      constructor
      · intro h
        refine ⟨hfit2, ?_⟩
        intro j hj1 hj2
        by_cases h1 : str.getD (i + 1) 0 &&& 0xC0 ≠ 0x80
        · rw [if_pos h1] at h
          simp at h
        · rw [if_neg h1] at h
          simp only [if_true] at h
          by_cases h2 : str.getD (i + 2) 0 &&& 0xC0 ≠ 0x80
          · rw [if_pos h2] at h
            simp at h
          · rw [if_neg h2] at h
            simp only [if_true] at h
            by_cases h3 : str.getD (i + 3) 0 &&& 0xC0 ≠ 0x80
            · rw [if_pos h3] at h
              cases h
            · have : j = 1 ∨ j = 2 ∨ j = 3 := by omega
              rcases this with rfl | rfl | rfl
              · exact not_not.1 h1
              · exact not_not.1 h2
              · exact not_not.1 h3
      · intro h
        rw [if_neg (not_not.2 (h.2 1 (by omega) (by omega)))]
        simp only [if_true]
        rw [if_neg (not_not.2 (h.2 2 (by omega) (by omega)))]
        simp only [if_true]
        rw [if_neg (not_not.2 (h.2 3 (by omega) (by omega)))]

theorem cleanLoop_succ (str : List Nat) (fuel i : Nat) (result : List Nat) :
    cleanLoop str (fuel + 1) i result =
      if i < str.length then
        match leadLen (str.getD i 0) with
        | none => cleanLoop str fuel (i + 1) result
        | some len =>
          if continuationValid str i len then
            cleanLoop str fuel (i + len) (result ++ (str.drop i).take len)
          else cleanLoop str fuel (i + 1) result
      else result := rfl

theorem drop_succ_sublist (str : List Nat) (i : Nat) :
    (str.drop (i + 1)).Sublist (str.drop i) := by
  rw [← List.drop_drop]
  exact List.drop_sublist 1 _

theorem getD_drop_head (str : List Nat) (i : Nat) (c : Nat) (tl : List Nat)
    (h : str.drop i = c :: tl) : str.getD i 0 = c := by
  have h1 : (str.drop i)[0]? = some c := by rw [h]; exact List.getElem?_cons_zero
  rw [List.getElem?_drop] at h1
  simp only [Nat.add_zero] at h1
  rw [List.getD_eq_getElem?_getD, h1]
  rfl

theorem getD_drop_add (str : List Nat) (i j : Nat) :
    str.getD (i + j) 0 = (str.drop i).getD j 0 := by
  rw [List.getD_eq_getElem?_getD, List.getD_eq_getElem?_getD, List.getElem?_drop]

theorem take_patternUnit (str : List Nat) (i len : Nat) (hi : i < str.length)
    (hl : leadLen (str.getD i 0) = some len) (hv : continuationValid str i len = true) :
    PatternUnit ((str.drop i).take len) ∧ ((str.drop i).take len).length = len := by
  obtain ⟨h1, h4⟩ := leadLen_le _ _ hl
  obtain ⟨hfit, hcont⟩ := (continuationValid_iff str i len h1 h4).1 hv
  have hlen : ((str.drop i).take len).length = len := by
    rw [List.length_take, List.length_drop]
    omega
  refine ⟨?_, hlen⟩
  obtain ⟨c, tl, hct⟩ : ∃ c tl, str.drop i = c :: tl := by
    cases hd : str.drop i with
    | nil =>
      have := congrArg List.length hd
      simp only [List.length_drop, List.length_nil] at this
      omega
    | cons c tl => exact ⟨c, tl, rfl⟩
  have hc := getD_drop_head str i c tl hct
  obtain ⟨n, rfl⟩ : ∃ n, len = n + 1 := ⟨len - 1, by omega⟩
  refine ⟨c, tl.take n, by rw [hct]; rfl, ?_, ?_⟩
  · rw [← hc, hl, hlen]
  · intro b hb
    obtain ⟨k, hk, hbk⟩ := List.getElem_of_mem hb
    rw [List.length_take] at hk
    have hk2 : k < tl.length := by omega
    have hkn : k < n := by omega
    have := hcont (k + 1) (by omega) (by omega)
    rw [getD_drop_add, hct] at this
    have hget : (c :: tl).getD (k + 1) 0 = b := by
      rw [List.getD_eq_getElem?_getD, List.getElem?_cons_succ, List.getElem?_eq_getElem hk2]
      rw [List.getElem_take] at hbk
      rw [hbk]
      rfl
    rw [hget] at this
    exact this

theorem cleanLoop_units (str : List Nat) (fuel i : Nat) (result : List Nat) :
    ∃ units : List (List Nat), cleanLoop str fuel i result = result ++ units.flatten ∧
      units.flatten.Sublist (str.drop i) ∧ ∀ u ∈ units, PatternUnit u := by
  induction fuel generalizing i result with
  | zero => exact ⟨[], by simp [cleanLoop], by simp, by simp⟩
  | succ fuel ih =>
    rw [cleanLoop_succ]
    by_cases hi : i < str.length
    · rw [if_pos hi]
      cases hl : leadLen (str.getD i 0) with
      | none =>
        simp only []
        obtain ⟨us, h1, h2, h3⟩ := ih (i + 1) result
        exact ⟨us, h1, h2.trans (drop_succ_sublist str i), h3⟩
      | some len =>
        simp only []
        by_cases hv : continuationValid str i len = true
        · rw [if_pos hv]
          obtain ⟨us, h1, h2, h3⟩ := ih (i + len) (result ++ (str.drop i).take len)
          obtain ⟨hu, _⟩ := take_patternUnit str i len hi hl hv
          refine ⟨(str.drop i).take len :: us, ?_, ?_, ?_⟩
          · rw [h1, List.flatten_cons, List.append_assoc]
          · rw [List.flatten_cons]
            have hs : str.drop i = (str.drop i).take len ++ str.drop (i + len) := by
              rw [← List.drop_drop, List.take_append_drop]
            conv_rhs => rw [hs]
            exact List.Sublist.append_left h2 _
          · intro u hu2
            rcases List.mem_cons.1 hu2 with rfl | hu2
            · exact hu
            · exact h3 u hu2
        · rw [if_neg hv]
          obtain ⟨us, h1, h2, h3⟩ := ih (i + 1) result
          exact ⟨us, h1, h2.trans (drop_succ_sublist str i), h3⟩
    · rw [if_neg hi]
      exact ⟨[], by simp, by simp, by simp⟩

theorem cleanLoop_of_units (str : List Nat) (us : List (List Nat))
    (hus : ∀ u ∈ us, PatternUnit u) (fuel i : Nat) (result : List Nat)
    (hd : str.drop i = us.flatten) (hf : str.length ≤ i + fuel) :
    cleanLoop str fuel i result = result ++ us.flatten := by
  induction us generalizing fuel i result with
  | nil =>
    have hi : ¬ i < str.length := by
      intro hi
      have := congrArg List.length hd
      simp only [List.length_drop, List.flatten_nil, List.length_nil] at this
      omega
    cases fuel with
    | zero => simp [cleanLoop]
    | succ f => rw [cleanLoop_succ, if_neg hi]; simp
  | cons u more ih =>
    obtain ⟨c, tl, hu, hl, hcont⟩ := hus u (List.mem_cons_self _ _)
    have hd2 : str.drop i = c :: (tl ++ more.flatten) := by
      rw [hd, List.flatten_cons, hu]
      rfl
    have hlen := congrArg List.length hd2
    rw [List.length_drop, List.length_cons, List.length_append] at hlen
    have hi : i < str.length := by omega
    obtain ⟨f, rfl⟩ : ∃ f, fuel = f + 1 := ⟨fuel - 1, by omega⟩
    have hc := getD_drop_head str i c _ hd2
    have hul : u.length = tl.length + 1 := by rw [hu]; rfl
    rw [cleanLoop_succ, if_pos hi, hc, hl]
    simp only []
    obtain ⟨h1, h4⟩ := leadLen_le _ _ hl
    have hv : continuationValid str i u.length = true := by
      rw [continuationValid_iff str i u.length h1 h4]
      refine ⟨by omega, ?_⟩
      intro j hj1 hj2
      rw [getD_drop_add, hd2]
      obtain ⟨k, rfl⟩ : ∃ k, j = k + 1 := ⟨j - 1, by omega⟩
      have hk : k < tl.length := by omega
      rw [List.getD_eq_getElem?_getD, List.getElem?_cons_succ,
        List.getElem?_append_left hk, List.getElem?_eq_getElem hk]
      exact hcont _ (List.getElem_mem hk)
    rw [if_pos hv]
    have htake : (str.drop i).take u.length = u := by
      rw [hd, List.flatten_cons, List.take_left]
    have hdrop : str.drop (i + u.length) = more.flatten := by
      rw [← List.drop_drop, hd, List.flatten_cons, List.drop_left]
    rw [htake, ih (fun v hv => hus v (List.mem_cons_of_mem _ hv)) f (i + u.length)
      (result ++ u) hdrop (by omega), List.flatten_cons, List.append_assoc]

theorem cleanUtf8_of_units (us : List (List Nat)) (hus : ∀ u ∈ us, PatternUnit u) :
    cleanUtf8 us.flatten = us.flatten := by
  unfold cleanUtf8
  rw [cleanLoop_of_units us.flatten us hus _ 0 [] (by simp) (by omega)]
  rfl

set_option maxRecDepth 100000 in
theorem pattern_lead2 : ∀ n : Fin 256,
    leadLen ((UInt8.mk (BitVec.ofFin n) &&& 0x1f ||| 0xc0).toNat) = some 2 := by
  decide

set_option maxRecDepth 100000 in
theorem pattern_lead3 : ∀ n : Fin 256,
    leadLen ((UInt8.mk (BitVec.ofFin n) &&& 0x0f ||| 0xe0).toNat) = some 3 := by
  decide

set_option maxRecDepth 100000 in
theorem pattern_lead4 : ∀ n : Fin 256,
    leadLen ((UInt8.mk (BitVec.ofFin n) &&& 0x07 ||| 0xf0).toNat) = some 4 := by
  decide

set_option maxRecDepth 100000 in
theorem pattern_cont : ∀ n : Fin 256,
    (UInt8.mk (BitVec.ofFin n) &&& 0x3f ||| 0x80).toNat &&& 0xC0 = 0x80 := by
  decide

theorem pattern_lead1 : ∀ n : Nat, n < 128 → leadLen n = some 1 := by
  decide

theorem pattern_lead2_byte (x : UInt8) : leadLen ((x &&& 0x1f ||| 0xc0).toNat) = some 2 :=
  uint8_cases (fun x => leadLen ((x &&& 0x1f ||| 0xc0).toNat) = some 2) pattern_lead2 x

theorem pattern_lead3_byte (x : UInt8) : leadLen ((x &&& 0x0f ||| 0xe0).toNat) = some 3 :=
  uint8_cases (fun x => leadLen ((x &&& 0x0f ||| 0xe0).toNat) = some 3) pattern_lead3 x

theorem pattern_lead4_byte (x : UInt8) : leadLen ((x &&& 0x07 ||| 0xf0).toNat) = some 4 :=
  uint8_cases (fun x => leadLen ((x &&& 0x07 ||| 0xf0).toNat) = some 4) pattern_lead4 x

theorem pattern_cont_byte (x : UInt8) : (x &&& 0x3f ||| 0x80).toNat &&& 0xC0 = 0x80 :=
  uint8_cases (fun x => (x &&& 0x3f ||| 0x80).toNat &&& 0xC0 = 0x80) pattern_cont x

theorem charBytes_pattern (c : Char) : PatternUnit (charBytes c) := by
  unfold charBytes String.utf8EncodeChar
  simp only []
  split_ifs with h1 h2 h3
  · refine ⟨_, _, rfl, ?_, by simp⟩
    apply pattern_lead1
    have h : c.val.toNat ≤ 127 := h1
    show c.val.toNat % 256 < 128
    omega
  · refine ⟨_, _, rfl, pattern_lead2_byte _, ?_⟩
    intro b hb
    simp only [List.map_cons, List.map_nil, List.mem_singleton] at hb
    subst hb
    exact pattern_cont_byte _
  · refine ⟨_, _, rfl, pattern_lead3_byte _, ?_⟩
    intro b hb
    simp only [List.map_cons, List.map_nil, List.mem_cons, List.mem_singleton,
      List.not_mem_nil, or_false] at hb
    rcases hb with rfl | rfl <;> exact pattern_cont_byte _
  · refine ⟨_, _, rfl, pattern_lead4_byte _, ?_⟩
    intro b hb
    simp only [List.map_cons, List.map_nil, List.mem_cons, List.mem_singleton,
      List.not_mem_nil, or_false] at hb
    rcases hb with rfl | rfl | rfl <;> exact pattern_cont_byte _

theorem cleanUtf8_bytes (s : String) : cleanUtf8 (bytes s) = bytes s := by
  rw [bytes_eq_flatMap]
  have h : s.data.flatMap charBytes = (s.data.map charBytes).flatten := by
    rw [List.flatMap]
  rw [h]
  apply cleanUtf8_of_units
  intro u hu
  obtain ⟨c, _, rfl⟩ := List.mem_map.1 hu
  exact charBytes_pattern c

theorem cleanLoop_fuel (str : List Nat) (f1 f2 i : Nat) (result : List Nat)
    (h1 : str.length ≤ i + f1) (h2 : str.length ≤ i + f2) :
    cleanLoop str f1 i result = cleanLoop str f2 i result := by
  induction f1 generalizing f2 i result with
  | zero =>
    have hi : ¬ i < str.length := by omega
    cases f2 with
    | zero => rfl
    | succ f => rw [cleanLoop_succ, if_neg hi]; rfl
  | succ f ih =>
    cases f2 with
    | zero =>
      have hi : ¬ i < str.length := by omega
      rw [cleanLoop_succ, if_neg hi]
      rfl
    | succ g =>
      rw [cleanLoop_succ, cleanLoop_succ]
      by_cases hi : i < str.length
      · rw [if_pos hi, if_pos hi]
        cases hl : leadLen (str.getD i 0) with
        | none => exact ih _ _ _ (by omega) (by omega)
        | some len =>
          simp only []
          have := (leadLen_le _ _ hl).1
          split
          · exact ih _ _ _ (by omega) (by omega)
          · exact ih _ _ _ (by omega) (by omega)
      · rw [if_neg hi, if_neg hi]

theorem charLen_of_leadLen (c len : Nat) (h : leadLen c = some len) : charLen c = len := by
  unfold leadLen at h
  unfold charLen
  split_ifs at h ⊢ <;> cases h <;> rfl

theorem completeUnit_of_pattern (u : List Nat) (h : PatternUnit u) : CompleteUnit u := by
  obtain ⟨c, tl, hu, hl, _⟩ := h
  exact ⟨c, tl, hu, charLen_of_leadLen c _ hl⟩

theorem shift6_toNat (v : UInt32) : ((v >>> 6).toUInt8).toNat = (v.toNat / 64) % 256 := by
  obtain ⟨⟨⟨n, hn⟩⟩⟩ := v
  simp only [UInt32.toUInt8, Nat.toUInt8, UInt8.ofNat, UInt8.toNat, UInt32.toNat,
    HShiftRight.hShiftRight, ShiftRight.shiftRight, UInt32.shiftRight]
  simp
  have h6 : (UInt32.mod 6 32).toBitVec.toNat = 6 := rfl
  rw [h6, Nat.shiftRight_eq_div_pow]

set_option maxRecDepth 100000 in
theorem lead2_is_c0 : ∀ n : Fin 256,
    (UInt8.mk (BitVec.ofFin n) &&& 0x1f ||| 0xc0).toNat = 192 →
      (UInt8.mk (BitVec.ofFin n)).toNat % 32 = 0 := by
  decide

theorem charBytes_head_ne (c : Char) (tl : List Nat) : charBytes c ≠ 192 :: tl := by
  intro h
  have hcl : charLen 192 = 2 := by decide
  unfold charBytes String.utf8EncodeChar at h
  simp only [] at h
  split_ifs at h with h1 h2 h3
  · have hle : c.val.toNat ≤ 127 := h1
    simp only [List.map_cons, List.map_nil, List.cons.injEq] at h
    have hb : c.val.toNat % 256 = 192 := h.1
    omega
  · have hgt : ¬ c.val.toNat ≤ 127 := h1
    have hle : c.val.toNat ≤ 2047 := h2
    simp only [List.map_cons, List.map_nil, List.cons.injEq] at h
    have hx := uint8_cases
      (fun x => (x &&& 0x1f ||| 0xc0).toNat = 192 → x.toNat % 32 = 0) lead2_is_c0
      (c.val >>> 6).toUInt8 h.1
    rw [shift6_toNat] at hx
    omega
  · simp only [List.map_cons, List.map_nil, List.cons.injEq] at h
    have := lead3_byte (c.val >>> 12).toUInt8
    rw [h.1, hcl] at this
    cases this
  · simp only [List.map_cons, List.map_nil, List.cons.injEq] at h
    have := lead4_byte (c.val >>> 18).toUInt8
    rw [h.1, hcl] at this
    cases this

/-- C34, as the code has it.  For every byte string `s`, `cleanUtf8(s)` is a
subsequence of `s` that decomposes completely into units of 1 to 4 bytes, each
a lead byte of the form `0xxxxxxx`, `110xxxxx`, `1110xxxx` or `11110xxx`
followed by the number of `10xxxxxx` bytes the lead byte declares; these are
the units the char splitter finds in it; `cleanUtf8` leaves its own output
unchanged, and `cleanUtf8(s) = s` when `s` is valid UTF-8.  The bit patterns
are all that is tested.  The loop reaches its exit within `|s|` rounds. -/
theorem cleanUtf8_pattern (s : List Nat) :
    (cleanUtf8 s).Sublist s ∧
    (∃ units : List (List Nat), cleanUtf8 s = units.flatten ∧
      (∀ u ∈ units, PatternUnit u ∧ 1 ≤ u.length ∧ u.length ≤ 4) ∧
      splitToChars (cleanUtf8 s) = units) ∧
    cleanUtf8 (cleanUtf8 s) = cleanUtf8 s ∧
    (∀ str : String, cleanUtf8 (bytes str) = bytes str) ∧
    ∀ fuel : Nat, s.length ≤ fuel → cleanLoop s fuel 0 [] = cleanUtf8 s := by
  obtain ⟨units, h1, h2, h3⟩ := cleanLoop_units s s.length 0 []
  have hc : cleanUtf8 s = units.flatten := by
    unfold cleanUtf8
    rw [h1]
    rfl
  refine ⟨?_, ⟨units, hc, ?_, ?_⟩, ?_, cleanUtf8_bytes,
    fun fuel hf => cleanLoop_fuel s fuel s.length 0 [] (by omega) (by omega)⟩
  · rw [hc]
    simpa using h2
  · intro u hu
    obtain ⟨c, tl, hct, hl, hcont⟩ := h3 u hu
    exact ⟨⟨c, tl, hct, hl, hcont⟩, leadLen_le c _ hl⟩
  · rw [hc]
    have := splitToChars_units units [] (fun u hu => completeUnit_of_pattern u (h3 u hu))
    rw [List.append_nil, splitToChars_nil, List.append_nil] at this
    exact this
  · rw [hc]
    exact cleanUtf8_of_units units h3

/-- C34 at the two bytes `C0 80`: `cleanUtf8` returns them unchanged, a lead
byte `110xxxxx` with one continuation byte, and no string of code points has
these two bytes as its UTF-8 encoding (they are the overlong form of U+0000). -/
theorem cleanUtf8_overlong :
    cleanUtf8 [0xC0, 0x80] = [0xC0, 0x80] ∧
    ¬ ∃ str : String, bytes str = [0xC0, 0x80] := by
  refine ⟨by decide, ?_⟩
  rintro ⟨str, h⟩
  rw [bytes_eq_flatMap] at h
  cases hd : str.data with
  | nil =>
    rw [hd] at h
    cases h
  | cons c rest =>
    rw [hd, List.flatMap_cons] at h
    obtain ⟨b, tl, hb, _⟩ := charBytes_complete c
    rw [hb, List.cons_append] at h
    have hb192 : b = 192 := by
      injection h
    rw [hb192] at hb
    exact charBytes_head_ne c tl hb

/-! ## The loaders on malformed lines -/

theorem splitOnByte_ne_nil (c : Nat) (s : List Nat) : splitOnByte c s ≠ [] := by
  induction s with
  | nil => simp [splitOnByte]
  | cons x xs ih =>
    unfold splitOnByte
    split
    · simp
    · split
      · simp
      · simp

theorem splitOnByte_append_sep (c : Nat) (a b : List Nat) :
    splitOnByte c (a ++ c :: b) = splitOnByte c a ++ splitOnByte c b := by
  induction a with
  | nil => simp [splitOnByte]
  | cons x xs ih =>
    rw [List.cons_append]
    by_cases hx : x = c
    · simp only [splitOnByte, hx, if_true, ih, List.cons_append]
    · have h1 := splitOnByte_ne_nil c xs
      cases hs : splitOnByte c xs with
      | nil => exact absurd hs h1
      | cons seg segs =>
        simp only [splitOnByte, hx, if_false, ih, hs, List.cons_append]

theorem mem_byteLines_middle (f1 f2 bad : List Nat) :
    ∃ pre post, byteLines (f1 ++ 10 :: (bad ++ 10 :: f2)) = pre ++ bad :: post ∨
      (10 ∈ bad ∧ byteLines (f1 ++ 10 :: (bad ++ 10 :: f2)) = pre ++ post) := by
  by_cases hb : 10 ∈ bad
  · exact ⟨byteLines (f1 ++ 10 :: (bad ++ 10 :: f2)), [], Or.inr ⟨hb, by simp⟩⟩
  · have h2 := splitOnByte_ne_nil 10 f2
    have hsplit : splitOnByte 10 (f1 ++ 10 :: (bad ++ 10 :: f2)) =
        splitOnByte 10 f1 ++ bad :: splitOnByte 10 f2 := by
      rw [splitOnByte_append_sep, splitOnByte_append 10 bad f2 hb]
    unfold byteLines
    simp only [hsplit]
    have hne : bad :: splitOnByte 10 f2 ≠ [] := by simp
    split
    · refine ⟨splitOnByte 10 f1, (splitOnByte 10 f2).dropLast, Or.inl ?_⟩
      rw [List.dropLast_append_of_ne_nil _ hne]
      cases hs : splitOnByte 10 f2 with
      | nil => exact absurd hs h2
      | cons y ys => rfl
    · exact ⟨splitOnByte 10 f1, splitOnByte 10 f2, Or.inl rfl⟩

theorem splitOnChar_append_sep (c : Char) (a b : List Char) :
    splitOnChar c (a ++ c :: b) = splitOnChar c a ++ splitOnChar c b := by
  induction a with
  | nil => simp [splitOnChar]
  | cons x xs ih =>
    rw [List.cons_append]
    by_cases hx : x = c
    · simp only [splitOnChar, hx, if_true, ih, List.cons_append]
    · have h1 := splitOnChar_ne_nil c xs
      cases hs : splitOnChar c xs with
      | nil => exact absurd hs h1
      | cons seg segs =>
        simp only [splitOnChar, hx, if_false, ih, hs, List.cons_append]

theorem mem_getLines_middle (g1 g2 bad : List Char) (hb : '\n' ∉ bad) :
    ∃ pre post, getLines (g1 ++ '\n' :: (bad ++ '\n' :: g2)) = pre ++ bad :: post := by
  have h2 := splitOnChar_ne_nil '\n' g2
  have hsplit : splitOnChar '\n' (g1 ++ '\n' :: (bad ++ '\n' :: g2)) =
      splitOnChar '\n' g1 ++ bad :: splitOnChar '\n' g2 := by
    rw [splitOnChar_append_sep, splitOnChar_append '\n' bad g2 hb]
  unfold getLines
  simp only [hsplit]
  have hne : bad :: splitOnChar '\n' g2 ≠ [] := by simp
  split
  · refine ⟨splitOnChar '\n' g1, (splitOnChar '\n' g2).dropLast, ?_⟩
    rw [List.dropLast_append_of_ne_nil _ hne]
    cases hs : splitOnChar '\n' g2 with
    | nil => exact absurd hs h2
    | cons y ys => rfl
  · exact ⟨splitOnChar '\n' g1, splitOnChar '\n' g2, rfl⟩

theorem loadMetaLine_none (lines : List (List Nat)) :
    lines.foldl loadMetaLine none = none := by
  induction lines with
  | nil => rfl
  | cons l rest ih => exact ih

theorem loadLine_none {K : Type} [LinearOrderedField K] (lines : List (List Char)) :
    lines.foldl loadLine (none : Option (InvertIndex K)) = none := by
  induction lines with
  | nil => rfl
  | cons l rest ih => exact ih

theorem loadMeta_throws_at (pre post : List (List Nat)) (bad : List Nat)
    (hbad : ∀ r, loadMetaLine (some r) bad = none) (st : Option (List (Int × WebPageMeta))) :
    (pre ++ bad :: post).foldl loadMetaLine st = none := by
  rw [List.foldl_append, List.foldl_cons]
  cases h : pre.foldl loadMetaLine st with
  | none => exact loadMetaLine_none post
  | some r => rw [hbad r]; exact loadMetaLine_none post

theorem load_throws_at {K : Type} [LinearOrderedField K] (pre post : List (List Char))
    (bad : List Char) (hbad : ∀ idx : InvertIndex K, loadLine (some idx) bad = none)
    (st : Option (InvertIndex K)) :
    (pre ++ bad :: post).foldl loadLine st = none := by
  rw [List.foldl_append, List.foldl_cons]
  cases h : pre.foldl loadLine st with
  | none => exact loadLine_none post
  | some idx => rw [hbad idx]; exact loadLine_none post

theorem loadMetaLine_bad_docId (r : List (Int × WebPageMeta)) :
    loadMetaLine (some r) (bytes "x|t|u|0|1") = none := by
  unfold loadMetaLine
  simp only []
  rw [if_neg (by decide)]
  rfl

theorem loadLine_bare_meta {K : Type} [LinearOrderedField K] (idx : InvertIndex K) :
    loadLine (some idx) "#META".data = none := by
  unfold loadLine
  simp only []
  rw [if_neg (by decide), if_pos (by decide)]
  rfl

theorem loadLine_bad_item {K : Type} [LinearOrderedField K] (idx : InvertIndex K) :
    loadLine (some idx) "w a:1:1".data = none := by
  unfold loadLine
  simp only []
  rw [if_neg (by decide), if_neg (by decide), if_neg (by decide)]
  rfl

theorem findByte_of_not_mem (c : Nat) (l : List Nat) (h : c ∉ l) : findByte c l 0 = none := by
  unfold findByte
  simp only [List.drop_zero]
  rw [if_neg]
  rw [List.indexOf_eq_length.2 h]
  exact Nat.lt_irrefl _

theorem loadMetaLine_no_separator (r : List (Int × WebPageMeta)) (l : List Nat)
    (h : 124 ∉ l) : loadMetaLine (some r) l = some r := by
  unfold loadMetaLine
  simp only []
  split
  · rfl
  · rw [findByte_of_not_mem 124 l h]

/-- C32, as the code has it.  `PageLib::loadMeta` skips blank lines, lines
that start with `#` and lines without a `|`, and `InvertIndex::load` skips
blank lines and term lines without a space; but neither loader returns when a
field that has to be a number is not one, or when the line is a bare `#META`:
wherever the line `x|t|u|0|1` stands in a metadata file `std::stoi` throws out
of `loadMeta`, and wherever the line `#META` or the line `w a:1:1` stands in
an index file `substr(6)`, respectively `std::stoi`, throws out of `load`. -/
theorem loaders_throw_on_malformed {K : Type} [LinearOrderedField K]
    (f1 f2 : List Nat) (g1 g2 : List Char) (idx : InvertIndex K)
    (r : List (Int × WebPageMeta)) :
    loadMetaLine (some r) [] = some r ∧
    (∀ l, loadMetaLine (some r) (35 :: l) = some r) ∧
    (∀ l, 124 ∉ l → loadMetaLine (some r) l = some r) ∧
    loadLine (some idx) [] = some idx ∧
    (∀ l : List Char, ' ' ∉ l → l.take 5 ≠ "#META".data → l.take 8 ≠ "#DOCLENS".data →
      loadLine (some idx) l = some idx) ∧
    PageLib.loadMeta (f1 ++ 10 :: (bytes "x|t|u|0|1" ++ 10 :: f2)) = none ∧
    load idx (g1 ++ '\n' :: ("#META".data ++ '\n' :: g2)) = none ∧
    load idx (g1 ++ '\n' :: ("w a:1:1".data ++ '\n' :: g2)) = none := by
  refine ⟨?_, ?_, loadMetaLine_no_separator r, ?_, ?_, ?_, ?_, ?_⟩
  · unfold loadMetaLine
    simp
  · intro l
    unfold loadMetaLine
    simp
  · unfold loadLine
    simp
  · intro l hsp h5 h8
    unfold loadLine
    simp only []
    by_cases hl : l = []
    · rw [if_pos hl]
    · rw [if_neg hl, if_neg (fun h => h5 h.2), if_neg h8]
      unfold loadTerm
      rw [splitOnChar_of_not_mem ' ' l hsp]
  · obtain ⟨pre, post, h | ⟨h10, _⟩⟩ := mem_byteLines_middle f1 f2 (bytes "x|t|u|0|1")
    · unfold PageLib.loadMeta
      rw [h]
      exact loadMeta_throws_at pre post _ loadMetaLine_bad_docId _
    · exact absurd h10 (by decide)
  · obtain ⟨pre, post, h⟩ := mem_getLines_middle g1 g2 "#META".data (by decide)
    unfold load
    rw [h]
    exact load_throws_at pre post _ loadLine_bare_meta _
  · obtain ⟨pre, post, h⟩ := mem_getLines_middle g1 g2 "w a:1:1".data (by decide)
    unfold load
    rw [h]
    exact load_throws_at pre post _ loadLine_bad_item _

/-- C32 at two files.  The metadata file with the one line `7|t|u|0|3` loads
as the map with the entry of docId 7; with the line `x|t|u|0|1` in front of it
`loadMeta` throws, and nothing is loaded.  The index file with the one line
`#META` makes `load` throw. -/
theorem loaders_throw_on_malformed_counterexample :
    (PageLib.loadMeta (bytes "7|t|u|0|3\n")).map
      (fun m => m.map (fun e => (e.1, e.2.title, e.2.url, e.2.contentOffset,
        e.2.contentLength))) = some [(7, bytes "t", bytes "u", 0, 3)] ∧
    (PageLib.loadMeta (bytes "x|t|u|0|1\n7|t|u|0|3\n")).isNone = true ∧
    (load (InvertIndex.new : InvertIndex ℚ) "#META\n".data).isNone = true := by
  refine ⟨by decide, by decide, ?_⟩
  have h : load (InvertIndex.new : InvertIndex ℚ) "#META\n".data = none := by
    have h1 : getLines "#META\n".data = ["#META".data] := by decide
    unfold load
    rw [h1, List.foldl_cons, loadLine_bare_meta]
    rfl
  rw [h]
  rfl

/-! ## The streaming parser: what a read keeps of an open record -/

theorem findSubFrom_of_prefix (word text : List Nat) (i : Nat) (h : word <+: text) :
    findSubFrom word text i = some i := by
  cases text with
  | nil =>
    have hw : word = [] := List.prefix_nil.1 h
    simp [findSubFrom, hw]
  | cons c cs =>
    unfold findSubFrom
    rw [if_pos (List.isPrefixOf_iff_prefix.2 h)]

theorem findSubFrom_step (word : List Nat) (c : Nat) (cs : List Nat) (i : Nat)
    (h : word.isPrefixOf (c :: cs) = false) :
    findSubFrom word (c :: cs) i = findSubFrom word cs (i + 1) := by
  conv_lhs => unfold findSubFrom
  rw [if_neg (by rw [h]; exact Bool.false_ne_true)]

theorem findSubFrom_skip (w0 : Nat) (ws pre rest : List Nat) (i : Nat)
    (h : ∀ x ∈ pre, x ≠ w0) :
    findSubFrom (w0 :: ws) (pre ++ rest) i = findSubFrom (w0 :: ws) rest (i + pre.length) := by
  induction pre generalizing i with
  | nil => rfl
  | cons x xs ih =>
    have hx : x ≠ w0 := h x (List.mem_cons_self _ _)
    have hp : (w0 :: ws).isPrefixOf (x :: (xs ++ rest)) = false := by
      simp only [List.isPrefixOf]
      have : (w0 == x) = false := by
        rw [beq_eq_false_iff_ne]
        exact fun h => hx h.symm
      rw [this]
      rfl
    rw [List.cons_append, findSubFrom_step _ _ _ _ hp,
      ih (i + 1) (fun y hy => h y (List.mem_cons_of_mem _ hy)), List.length_cons]
    congr 1
    omega

theorem findSubFrom_nil_docEnd (i : Nat) : findSubFrom docEnd [] i = none := rfl

theorem findSubFrom_nil_docStart (i : Nat) : findSubFrom docStart [] i = none := rfl

theorem docStart_eq : docStart = 60 :: [100, 111, 99, 62] := by decide

theorem docEnd_eq : docEnd = 60 :: [47, 100, 111, 99, 62] := by decide

theorem findAt_docStart_here (R X : List Nat) :
    findAt (R ++ (docStart ++ X)) docStart R.length = some R.length := by
  unfold findAt
  rw [List.drop_left]
  exact findSubFrom_of_prefix _ _ _ ⟨X, rfl⟩

theorem findSubFrom_docEnd_open (b rest : List Nat) (i : Nat) (hb : 60 ∉ b) :
    findSubFrom docEnd (docStart ++ (b ++ rest)) i = findSubFrom docEnd rest (i + 5 + b.length) := by
  have hp : docEnd.isPrefixOf (60 :: ([100, 111, 99, 62] ++ (b ++ rest))) = false := rfl
  have hskip : ∀ x ∈ [100, 111, 99, 62] ++ b, x ≠ 60 := by
    intro x hx
    rcases List.mem_append.1 hx with h | h
    · simp only [List.mem_cons, List.mem_singleton, List.not_mem_nil, or_false] at h
      omega
    · exact fun h60 => hb (h60 ▸ h)
  rw [docStart_eq, List.cons_append, findSubFrom_step _ _ _ _ hp, ← List.append_assoc]
  conv_lhs => rw [docEnd_eq]
  rw [findSubFrom_skip 60 _ _ _ _ hskip, ← docEnd_eq, List.length_append]
  congr 1
  simp only [List.length_cons, List.length_nil]
  omega

theorem findAt_docEnd_closed (R a rest : List Nat) (ha : 60 ∉ a) :
    findAt (R ++ (docStart ++ (a ++ (docEnd ++ rest)))) docEnd R.length =
      some (R.length + 5 + a.length) := by
  unfold findAt
  rw [List.drop_left, findSubFrom_docEnd_open a _ _ ha]
  exact findSubFrom_of_prefix _ _ _ ⟨rest, rfl⟩

theorem findAt_docEnd_pending (R b : List Nat) (hb : 60 ∉ b) :
    findAt (R ++ (docStart ++ b)) docEnd R.length = none := by
  unfold findAt
  rw [List.drop_left]
  have := findSubFrom_docEnd_open b [] R.length hb
  rw [List.append_nil] at this
  rw [this]
  rfl

theorem findSubFrom_docStart_tail (s : List Nat) (i : Nat) (hs : 60 ∉ s) :
    findSubFrom docStart (s ++ docEnd) i = none := by
  have hp : docStart.isPrefixOf (60 :: [47, 100, 111, 99, 62]) = false := rfl
  have hskip : ∀ x ∈ s, x ≠ 60 := fun x hx h60 => hs (h60 ▸ hx)
  have hskip2 : ∀ x ∈ [47, 100, 111, 99, 62], x ≠ 60 := by
    intro x hx
    simp only [List.mem_cons, List.mem_singleton, List.not_mem_nil, or_false] at hx
    omega
  conv_lhs => rw [docStart_eq]
  rw [findSubFrom_skip 60 _ _ _ _ hskip, ← docStart_eq, docEnd_eq,
    findSubFrom_step _ _ _ _ hp]
  have h5 := findSubFrom_skip 60 [100, 111, 99, 62] [47, 100, 111, 99, 62] [] (i + s.length + 1)
    hskip2
  rw [List.append_nil, ← docStart_eq] at h5
  rw [h5]
  rfl

theorem scanBuffer_succ (buffer : List Nat) (fuel searchStart : Nat)
    (pages : List (List Nat)) :
    scanBuffer buffer (fuel + 1) searchStart pages =
      match findAt buffer docStart searchStart with
      | none => { buffer := [], searchStart := searchStart, pages := pages, stopped := false }
      | some startPos =>
        match findAt buffer docEnd startPos with
        | none =>
          { buffer := if startPos > 0 then buffer.drop startPos else buffer
            searchStart := searchStart, pages := pages, stopped := false }
        | some endPos =>
          if (pages ++ [substr buffer startPos (endPos - startPos + docEnd.length)]).length
              ≥ MAX_DOCS then
            { buffer := buffer, searchStart := searchStart
              pages := pages ++ [substr buffer startPos (endPos - startPos + docEnd.length)]
              stopped := true }
          else scanBuffer buffer fuel (endPos + docEnd.length)
            (pages ++ [substr buffer startPos (endPos - startPos + docEnd.length)]) := rfl

theorem scanBuffer_emit (R a rest : List Nat) (fuel : Nat) (pages : List (List Nat))
    (ha : 60 ∉ a) (hroom : pages.length + 1 < MAX_DOCS) :
    scanBuffer (R ++ (docRecord a ++ rest)) (fuel + 1) R.length pages =
      scanBuffer (R ++ (docRecord a ++ rest)) fuel (R ++ docRecord a).length
        (pages ++ [docRecord a]) := by
  have hB : R ++ (docRecord a ++ rest) = R ++ (docStart ++ (a ++ (docEnd ++ rest))) := by
    simp [docRecord, List.append_assoc]
  have hlen : (docRecord a).length = 5 + a.length + 6 := by
    simp [docRecord, docStart_eq, docEnd_eq]
    omega
  rw [scanBuffer_succ]
  have h1 : findAt (R ++ (docRecord a ++ rest)) docStart R.length = some R.length := by
    rw [hB]; exact findAt_docStart_here R _
  have h2 : findAt (R ++ (docRecord a ++ rest)) docEnd R.length =
      some (R.length + 5 + a.length) := by
    rw [hB]; exact findAt_docEnd_closed R a rest ha
  rw [h1]
  simp only []
  rw [h2]
  simp only []
  have hdoc : substr (R ++ (docRecord a ++ rest)) R.length
      (R.length + 5 + a.length - R.length + docEnd.length) = docRecord a := by
    have hl6 : docEnd.length = 6 := rfl
    have : R.length + 5 + a.length - R.length + docEnd.length = (docRecord a).length := by
      rw [hlen, hl6]; omega
    rw [this]
    exact substr_at R (docRecord a) rest
  rw [hdoc, if_neg (by rw [List.length_append, List.length_singleton]; omega)]
  have hl6 : docEnd.length = 6 := rfl
  have hss : R.length + 5 + a.length + docEnd.length = (R ++ docRecord a).length := by
    rw [List.length_append, hlen, hl6]; omega
  rw [hss]

theorem scanBuffer_pending (R b : List Nat) (fuel : Nat) (pages : List (List Nat))
    (hb : 60 ∉ b) :
    scanBuffer (R ++ (docStart ++ b)) (fuel + 1) R.length pages =
      { buffer := docStart ++ b, searchStart := R.length, pages := pages, stopped := false } := by
  rw [scanBuffer_succ, findAt_docStart_here R b]
  simp only []
  rw [findAt_docEnd_pending R b hb]
  simp only []
  by_cases hR : R.length > 0
  · rw [if_pos hR, List.drop_left]
  · rw [if_neg hR]
    have : R = [] := List.eq_nil_of_length_eq_zero (by omega)
    rw [this]
    rfl

theorem scanBuffer_no_start (buffer : List Nat) (fuel searchStart : Nat)
    (pages : List (List Nat)) (h : findAt buffer docStart searchStart = none) :
    scanBuffer buffer (fuel + 1) searchStart pages =
      { buffer := [], searchStart := searchStart, pages := pages, stopped := false } := by
  rw [scanBuffer_succ, h]

theorem findAt_bounds (buffer word : List Nat) (pos r : Nat) (hw : word ≠ [])
    (h : findAt buffer word pos = some r) : pos ≤ r ∧ r + word.length ≤ buffer.length := by
  unfold findAt at h
  obtain ⟨k, rfl, hk, hp, _⟩ := (findSubFrom_some word _ pos r).1 h
  have hlen := hp.length_le
  rw [List.length_drop, List.length_drop] at hlen
  rw [List.length_drop] at hk
  have hpos : 0 < word.length := List.length_pos.2 hw
  omega

theorem scanBuffer_fuel (buffer : List Nat) (f1 f2 searchStart : Nat)
    (pages : List (List Nat)) (hs : searchStart ≤ buffer.length)
    (h1 : buffer.length < searchStart + f1) (h2 : buffer.length < searchStart + f2) :
    scanBuffer buffer f1 searchStart pages = scanBuffer buffer f2 searchStart pages := by
  induction f1 generalizing f2 searchStart pages with
  | zero => omega
  | succ n ih =>
    obtain ⟨m, rfl⟩ : ∃ m, f2 = m + 1 := ⟨f2 - 1, by omega⟩
    rw [scanBuffer_succ, scanBuffer_succ]
    cases hst : findAt buffer docStart searchStart with
    | none => rfl
    | some startPos =>
      simp only []
      cases hen : findAt buffer docEnd startPos with
      | none => rfl
      | some endPos =>
        simp only []
        split
        · rfl
        · have b1 := findAt_bounds buffer docStart searchStart startPos (by decide) hst
          have b2 := findAt_bounds buffer docEnd startPos endPos (by decide) hen
          have hl6 : docEnd.length = 6 := rfl
          exact ih m (endPos + docEnd.length) _ (by omega) (by omega) (by omega)

theorem findAt_docStart_after (pre X : List Nat) (hpre : 60 ∉ pre) :
    findAt (pre ++ (docStart ++ X)) docStart 0 = some pre.length := by
  unfold findAt
  rw [List.drop_zero]
  conv_lhs => rw [docStart_eq]
  rw [findSubFrom_skip 60 _ _ _ _ (fun x hx h60 => hpre (h60 ▸ hx)), ← docStart_eq, Nat.zero_add]
  exact findSubFrom_of_prefix _ _ _ ⟨X, rfl⟩

theorem docRecord_length (a : List Nat) : (docRecord a).length = a.length + 11 := by
  simp [docRecord, docStart_eq, docEnd_eq]

theorem parseRound_pending_kept (st : ParseState) (chunk pre b : List Nat)
    (hst : st.stopped = false) (hpre : 60 ∉ pre) (hb : 60 ∉ b)
    (hbuf : st.buffer ++ chunk = pre ++ (docStart ++ b)) :
    parseRound st chunk = { buffer := docStart ++ b, pages := st.pages, stopped := false } := by
  unfold parseRound
  rw [if_neg (by rw [hst]; exact Bool.false_ne_true)]
  simp only []
  rw [hbuf, scanBuffer_succ, findAt_docStart_after pre b hpre]
  simp only []
  rw [findAt_docEnd_pending pre b hb]
  simp only []
  have hbufeq : (if pre.length > 0 then (pre ++ (docStart ++ b)).drop pre.length
      else pre ++ (docStart ++ b)) = docStart ++ b := by
    by_cases hR : pre.length > 0
    · rw [if_pos hR, List.drop_left]
    · rw [if_neg hR]
      have : pre = [] := List.eq_nil_of_length_eq_zero (by omega)
      rw [this]
      rfl
  rw [hbufeq]
  have hlen : (docStart ++ b).length = 5 + b.length := by
    simp [docStart_eq]
    omega
  simp only [Bool.false_eq_true, if_false]
  rw [if_neg (by omega), if_neg (by omega)]

theorem parseRound_pending_cut (st : ParseState) (chunk a b : List Nat)
    (hst : st.stopped = false) (ha : 60 ∉ a) (hb : 60 ∉ b)
    (hroom : st.pages.length + 1 < MAX_DOCS)
    (hbuf : st.buffer ++ chunk = docRecord a ++ (docStart ++ b)) :
    parseRound st chunk =
      { buffer := (docStart ++ b).drop (docRecord a).length
        pages := st.pages ++ [docRecord a], stopped := false } := by
  unfold parseRound
  rw [if_neg (by rw [hst]; exact Bool.false_ne_true)]
  simp only []
  rw [hbuf]
  have hlen : (docRecord a ++ (docStart ++ b)).length + 1 = (a.length + b.length + 15) + 2 := by
    rw [List.length_append, docRecord_length]
    simp [docStart_eq]
    omega
  rw [hlen]
  have h1 := scanBuffer_emit [] a (docStart ++ b) (a.length + b.length + 15 + 1) st.pages ha hroom
  rw [List.nil_append, List.length_nil, List.nil_append] at h1
  rw [h1]
  have h2 := scanBuffer_pending (docRecord a) b (a.length + b.length + 15)
    (st.pages ++ [docRecord a]) hb
  rw [h2]
  simp only [Bool.false_eq_true, if_false]
  have hpos : (docRecord a).length > 0 := by rw [docRecord_length]; omega
  by_cases hlt : (docRecord a).length < (docStart ++ b).length
  · rw [if_pos ⟨hpos, hlt⟩]
  · rw [if_neg (fun h => hlt h.2), if_pos (by omega), List.drop_eq_nil_of_le (by omega)]

theorem parseRound_no_start (st : ParseState) (chunk : List Nat)
    (hst : st.stopped = false) (h : findAt (st.buffer ++ chunk) docStart 0 = none) :
    parseRound st chunk = { buffer := [], pages := st.pages, stopped := false } := by
  unfold parseRound
  rw [if_neg (by rw [hst]; exact Bool.false_ne_true)]
  simp only []
  rw [scanBuffer_no_start _ _ _ _ h]
  simp

theorem parseRound_two_records (st : ParseState) (chunk a b : List Nat)
    (hst : st.stopped = false) (ha : 60 ∉ a) (hb : 60 ∉ b)
    (hroom : st.pages.length + 2 < MAX_DOCS)
    (hbuf : st.buffer ++ chunk = docRecord a ++ docRecord b) :
    parseRound st chunk =
      { buffer := [], pages := st.pages ++ [docRecord a, docRecord b], stopped := false } := by
  unfold parseRound
  rw [if_neg (by rw [hst]; exact Bool.false_ne_true)]
  simp only []
  rw [hbuf]
  have hlen : (docRecord a ++ docRecord b).length + 1 = (a.length + b.length + 20) + 3 := by
    rw [List.length_append, docRecord_length, docRecord_length]
    omega
  rw [hlen]
  have h1 := scanBuffer_emit [] a (docRecord b) (a.length + b.length + 20 + 2) st.pages ha
    (by omega)
  rw [List.nil_append, List.length_nil, List.nil_append] at h1
  rw [h1]
  have h2 := scanBuffer_emit (docRecord a) b [] (a.length + b.length + 20 + 1)
    (st.pages ++ [docRecord a]) hb
    (by rw [List.length_append, List.length_singleton]; omega)
  rw [List.append_nil] at h2
  rw [h2]
  have hnone : findAt (docRecord a ++ docRecord b) docStart
      (docRecord a ++ docRecord b).length = none := by
    unfold findAt
    rw [List.drop_length]
    rfl
  rw [scanBuffer_no_start _ _ _ _ hnone]
  simp

theorem drop_open_no_lt (a b : List Nat) (hb : 60 ∉ b) :
    60 ∉ (docStart ++ b).drop (docRecord a).length := by
  have h5 : docStart.length ≤ (docRecord a).length := by
    rw [docRecord_length]
    have : docStart.length = 5 := rfl
    omega
  rw [List.drop_append_eq_append_drop, List.drop_eq_nil_of_le h5, List.nil_append]
  intro h
  exact hb (List.mem_of_mem_drop h)

theorem parseRound_after_cut (pages : List (List Nat)) (s b2 : List Nat)
    (hs : 60 ∉ s) (hb2 : 60 ∉ b2) :
    parseRound { buffer := s, pages := pages, stopped := false } (b2 ++ docEnd) =
      { buffer := [], pages := pages, stopped := false } := by
  apply parseRound_no_start _ _ rfl
  show findAt (s ++ (b2 ++ docEnd)) docStart 0 = none
  unfold findAt
  rw [List.drop_zero, ← List.append_assoc]
  apply findSubFrom_docStart_tail
  intro h
  rcases List.mem_append.1 h with h | h
  · exact hs h
  · exact hb2 h

theorem readChunks_nil (chunkSize fuel : Nat) : readChunks chunkSize fuel [] = [] := by
  cases fuel with
  | zero => rfl
  | succ n => simp [readChunks]

theorem readChunks_two (chunkSize : Nat) (c1 c2 : List Nat) (h1 : c1.length = chunkSize)
    (hpos : 0 < chunkSize) (h2 : c2 ≠ []) (h3 : c2.length ≤ chunkSize) :
    readChunks chunkSize (c1 ++ c2).length (c1 ++ c2) = [c1, c2] := by
  have hc2 : 0 < c2.length := List.length_pos.2 h2
  obtain ⟨n, hn⟩ : ∃ n, (c1 ++ c2).length = n + 2 :=
    ⟨(c1 ++ c2).length - 2, by rw [List.length_append]; omega⟩
  rw [hn]
  have hne : c1 ++ c2 ≠ [] := by
    intro h
    have := congrArg List.length h
    rw [List.length_append, List.length_nil] at this
    omega
  have ht1 : (c1 ++ c2).take chunkSize = c1 := by rw [← h1, List.take_left]
  have hd1 : (c1 ++ c2).drop chunkSize = c2 := by rw [← h1, List.drop_left]
  have ht2 : c2.take chunkSize = c2 := List.take_of_length_le h3
  have hd2 : c2.drop chunkSize = [] := List.drop_eq_nil_of_le h3
  simp only [readChunks, hne, h2, if_false, ht1, hd1, ht2, hd2, readChunks_nil]

theorem readChunks_fuel (chunkSize : Nat) (hpos : 0 < chunkSize) (f1 f2 : Nat)
    (rest : List Nat) (h1 : rest.length ≤ f1) (h2 : rest.length ≤ f2) :
    readChunks chunkSize f1 rest = readChunks chunkSize f2 rest := by
  induction f1 generalizing f2 rest with
  | zero =>
    have : rest = [] := List.eq_nil_of_length_eq_zero (by omega)
    rw [this, readChunks_nil, readChunks_nil]
  | succ f ih =>
    cases f2 with
    | zero =>
      have : rest = [] := List.eq_nil_of_length_eq_zero (by omega)
      rw [this, readChunks_nil, readChunks_nil]
    | succ g =>
      unfold readChunks
      by_cases hr : rest = []
      · rw [if_pos hr, if_pos hr]
      · rw [if_neg hr, if_neg hr]
        have hl : 0 < rest.length := List.length_pos.2 hr
        rw [ih g (rest.drop chunkSize) (by rw [List.length_drop]; omega)
          (by rw [List.length_drop]; omega)]

theorem readChunks_flatten (chunkSize : Nat) (hpos : 0 < chunkSize) (fuel : Nat)
    (rest : List Nat) (h : rest.length ≤ fuel) :
    (readChunks chunkSize fuel rest).flatten = rest ∧
    ∀ c ∈ readChunks chunkSize fuel rest, c ≠ [] ∧ c.length ≤ chunkSize := by
  induction fuel generalizing rest with
  | zero =>
    have : rest = [] := List.eq_nil_of_length_eq_zero (by omega)
    rw [this]
    simp [readChunks]
  | succ f ih =>
    unfold readChunks
    by_cases hr : rest = []
    · rw [if_pos hr, hr]
      simp
    · rw [if_neg hr]
      have hl : 0 < rest.length := List.length_pos.2 hr
      obtain ⟨i1, i2⟩ := ih (rest.drop chunkSize) (by rw [List.length_drop]; omega)
      constructor
      · rw [List.flatten_cons, i1, List.take_append_drop]
      · intro c hc
        rcases List.mem_cons.1 hc with rfl | hc
        · constructor
          · intro h0
            have := congrArg List.length h0
            rw [List.length_take, List.length_nil] at this
            omega
          · rw [List.length_take]
            exact Nat.min_le_left _ _
        · exact i2 c hc

theorem parseChunks_two (pages0 : List (List Nat)) (c1 c2 : List Nat) (s : List Nat)
    (pages1 pages2 : List (List Nat))
    (hr1 : parseRound { buffer := [], pages := pages0, stopped := false } c1 =
      { buffer := s, pages := pages1, stopped := false })
    (hr2 : parseRound { buffer := s, pages := pages1, stopped := false } c2 =
      { buffer := [], pages := pages2, stopped := false })
    (hlen : pages2.length ≠ pages0.length) :
    parseChunks pages0 [c1, c2] = pages2 := by
  unfold parseChunks
  simp only [List.foldl_cons, List.foldl_nil, hr1, hr2, Bool.false_eq_true, if_false]
  rw [if_neg hlen]

theorem parseChunks_one (pages0 : List (List Nat)) (c1 : List Nat)
    (pages1 : List (List Nat))
    (hr1 : parseRound { buffer := [], pages := pages0, stopped := false } c1 =
      { buffer := [], pages := pages1, stopped := false })
    (hlen : pages1.length ≠ pages0.length) :
    parseChunks pages0 [c1] = pages1 := by
  unfold parseChunks
  simp only [List.foldl_cons, List.foldl_nil, hr1, Bool.false_eq_true, if_false]
  rw [if_neg hlen]

/-- C35, as the code has it.  For a content of two records whose bodies hold
no `<`: read in one chunk, `parseFile` emits both records; cut inside the body
of the first record, it emits both records; cut inside the body of the second
record, after the first record was emitted in the same read, it emits the
first record only.  The three chunk lists are cuts of the same content.  So it
is with the chunks of `CHUNK_SIZE` bytes that `parseFile` reads when the
first read ends inside the body of the second record. -/
theorem parseChunks_boundary (pages0 : List (List Nat)) (a1 a2 b1 b2 : List Nat)
    (ha1 : 60 ∉ a1) (ha2 : 60 ∉ a2) (hb1 : 60 ∉ b1) (hb2 : 60 ∉ b2)
    (hroom : pages0.length + 2 < MAX_DOCS) :
    parseChunks pages0 [docRecord (a1 ++ a2) ++ docRecord (b1 ++ b2)] =
      pages0 ++ [docRecord (a1 ++ a2), docRecord (b1 ++ b2)] ∧
    parseChunks pages0 [docStart ++ a1, a2 ++ docEnd ++ docRecord (b1 ++ b2)] =
      pages0 ++ [docRecord (a1 ++ a2), docRecord (b1 ++ b2)] ∧
    parseChunks pages0 [docRecord (a1 ++ a2) ++ (docStart ++ b1), b2 ++ docEnd] =
      pages0 ++ [docRecord (a1 ++ a2)] ∧
    [docStart ++ a1, a2 ++ docEnd ++ docRecord (b1 ++ b2)].flatten =
      docRecord (a1 ++ a2) ++ docRecord (b1 ++ b2) ∧
    [docRecord (a1 ++ a2) ++ (docStart ++ b1), b2 ++ docEnd].flatten =
      docRecord (a1 ++ a2) ++ docRecord (b1 ++ b2) ∧
    ((docRecord (a1 ++ a2) ++ (docStart ++ b1)).length = CHUNK_SIZE →
      (b2 ++ docEnd).length ≤ CHUNK_SIZE →
      PageLib.parseFile pages0 (some (docRecord (a1 ++ a2) ++ docRecord (b1 ++ b2))) =
        pages0 ++ [docRecord (a1 ++ a2)]) := by
  have ha : 60 ∉ a1 ++ a2 := by
    intro h
    rcases List.mem_append.1 h with h | h
    · exact ha1 h
    · exact ha2 h
  have hb : 60 ∉ b1 ++ b2 := by
    intro h
    rcases List.mem_append.1 h with h | h
    · exact hb1 h
    · exact hb2 h
  have hcut : parseChunks pages0 [docRecord (a1 ++ a2) ++ (docStart ++ b1), b2 ++ docEnd] =
      pages0 ++ [docRecord (a1 ++ a2)] := by
    apply parseChunks_two pages0 _ _ ((docStart ++ b1).drop (docRecord (a1 ++ a2)).length)
      (pages0 ++ [docRecord (a1 ++ a2)])
    · exact parseRound_pending_cut _ _ (a1 ++ a2) b1 rfl ha hb1 (by show pages0.length + 1 < _; omega)
        rfl
    · exact parseRound_after_cut _ _ b2 (drop_open_no_lt (a1 ++ a2) b1 hb1) hb2
    · rw [List.length_append, List.length_singleton]
      omega
  have hflat2 : [docRecord (a1 ++ a2) ++ (docStart ++ b1), b2 ++ docEnd].flatten =
      docRecord (a1 ++ a2) ++ docRecord (b1 ++ b2) := by
    simp [docRecord, List.append_assoc]
  refine ⟨?_, ?_, hcut, ?_, hflat2, ?_⟩
  · apply parseChunks_one
    · exact parseRound_two_records _ _ (a1 ++ a2) (b1 ++ b2) rfl ha hb hroom rfl
    · rw [List.length_append]
      simp
  · apply parseChunks_two pages0 _ _ (docStart ++ a1) pages0
    · exact parseRound_pending_kept _ _ [] a1 rfl (by simp) ha1 rfl
    · apply parseRound_two_records _ _ (a1 ++ a2) (b1 ++ b2) rfl ha hb hroom
      show (docStart ++ a1) ++ (a2 ++ docEnd ++ docRecord (b1 ++ b2)) = _
      simp [docRecord, List.append_assoc]
    · rw [List.length_append]
      simp
  · simp [docRecord, List.append_assoc]
  · intro hsize hle
    have hfile : docRecord (a1 ++ a2) ++ docRecord (b1 ++ b2) =
        (docRecord (a1 ++ a2) ++ (docStart ++ b1)) ++ (b2 ++ docEnd) := by
      simp [docRecord, List.append_assoc]
    unfold PageLib.parseFile
    simp only []
    rw [hfile, readChunks_two CHUNK_SIZE _ _ hsize (by decide) (by simp [docEnd_eq]) hle]
    exact hcut

theorem chunk_first_read_length :
    (docRecord (List.replicate (CHUNK_SIZE - 17) 120 ++ []) ++ (docStart ++ [121])).length =
      CHUNK_SIZE := by
  rw [List.length_append, docRecord_length, List.append_nil, List.length_replicate]
  have h6 : (docStart ++ [121]).length = 6 := rfl
  have hc : CHUNK_SIZE = 1048576 := rfl
  omega

theorem not_mem_padding : 60 ∉ List.replicate (CHUNK_SIZE - 17) 120 :=
  fun h => absurd (List.eq_of_mem_replicate h) (by decide)

theorem parseChunks_boundary_witness :
    PageLib.parseFile []
        (some (docRecord (List.replicate (CHUNK_SIZE - 17) 120 ++ []) ++
          docRecord ([121] ++ []))) =
      [] ++ [docRecord (List.replicate (CHUNK_SIZE - 17) 120 ++ [])] ∧
    parseChunks []
        [docRecord (List.replicate (CHUNK_SIZE - 17) 120 ++ []) ++ docRecord ([121] ++ [])] =
      [] ++ [docRecord (List.replicate (CHUNK_SIZE - 17) 120 ++ []), docRecord ([121] ++ [])] :=
  ⟨(parseChunks_boundary [] (List.replicate (CHUNK_SIZE - 17) 120) [] [121] []
      not_mem_padding (List.not_mem_nil 60) (by decide) (List.not_mem_nil 60)
      (by decide)).2.2.2.2.2 chunk_first_read_length (by decide),
    (parseChunks_boundary [] (List.replicate (CHUNK_SIZE - 17) 120) [] [121] []
      not_mem_padding (List.not_mem_nil 60) (by decide) (List.not_mem_nil 60)
      (by decide)).1⟩

set_option maxRecDepth 100000 in
/-- C35 at the content `<doc>a</doc><doc>b</doc>`: read in one chunk, both
records are emitted; cut after `<doc>b`, and cut after `<do`, only the first
record is emitted. -/
theorem parseChunks_boundary_counterexample :
    parseChunks [] [bytes "<doc>a</doc><doc>b</doc>"] =
      [bytes "<doc>a</doc>", bytes "<doc>b</doc>"] ∧
    parseChunks [] [bytes "<doc>a</doc><doc>b", bytes "</doc>"] = [bytes "<doc>a</doc>"] ∧
    parseChunks [] [bytes "<doc>a</doc><do", bytes "c>b</doc>"] = [bytes "<doc>a</doc>"] ∧
    [bytes "<doc>a</doc><doc>b", bytes "</doc>"].flatten = bytes "<doc>a</doc><doc>b</doc>" ∧
    [bytes "<doc>a</doc><do", bytes "c>b</doc>"].flatten = bytes "<doc>a</doc><doc>b</doc>" := by
  refine ⟨by decide, by decide, by decide, by decide, by decide⟩

end SearchEngine
